import Mathlib

/-!
# Chess engine: shallow embedding and verification

Embedding of the move generation, attack oracle, legality filter and move
application of `chess-ai-ai.cpp` (namespace `V1`), of the parts of
`chess-ai-ai-v2.cpp` that differ (namespace `V2`), and of `make_move` with the
PGN record of `chess-ai-ai-v3.cpp` (namespace `V3`).

Conventions of the embedding
* `int` coordinates are `Int`; `char` is `Char`; `std::string` is `String`.
* The board `std::vector<std::vector<char>>` (always 8 rows of 8 cells) is a
  total function `Fin 8 → Fin 8 → Char`.
* `board[r][c]` with `r` or `c` outside `0..7` is undefined behaviour in C++.
  Every read is `Board.get?` and every write is `Board.set?`; both give `none`
  outside the grid, and every function that touches the board is in `Option`.
  So `none` means: the C++ code accessed the board outside the grid.
* In the move selection `none` also stands for the two other ways in which
  the C++ code does not return a value: `PIECE_VALUES.at` throwing for a
  character that is no piece letter, and an integer distribution over an
  empty range.
* Member functions that assign to members return the new state next to their
  result; member functions that never assign only read the state.
-/

/-! ## Shared primitives -/

/-- `row >= 0 && row < 8 && col >= 0 && col < 8`. -/
def isValidPosition (row col : Int) : Bool :=
  decide (0 ≤ row) && decide (row < 8) && decide (0 ≤ col) && decide (col < 8)

/-- The board: 8 rows of 8 cells. -/
abbrev Board := Fin 8 → Fin 8 → Char

/-- Index of an on-board coordinate. -/
def toFin8 (x : Int) : Fin 8 := ⟨x.toNat % 8, Nat.mod_lt _ (by decide)⟩

/-- Content of the cell at an on-board coordinate pair. -/
def Board.cell (b : Board) (row col : Int) : Char := b (toFin8 row) (toFin8 col)

/-- The read `board[row][col]`; `none` outside the grid. -/
def Board.get? (b : Board) (row col : Int) : Option Char :=
  if isValidPosition row col then some (b.cell row col) else none

/-- The board with one cell replaced. -/
def Board.put (b : Board) (row col : Int) (v : Char) : Board :=
  fun i j => if i = toFin8 row ∧ j = toFin8 col then v else b i j

/-- The write `board[row][col] = v`; `none` outside the grid. -/
def Board.set? (b : Board) (row col : Int) (v : Char) : Option Board :=
  if isValidPosition row col then some (b.put row col v) else none

/-- A board given by its rows, top row (row 0) first. -/
def Board.ofRows (rows : List (List Char)) : Board :=
  fun i j => (rows.getD i.val []).getD j.val ' '

/-- The loop range `0 .. 7`. -/
def range8 : List Int := [0, 1, 2, 3, 4, 5, 6, 7]

/-- The squares in the order of `for i in 0..7, for j in 0..7`. -/
def allSquares : List (Int × Int) :=
  range8.flatMap (fun i => range8.map (fun j => (i, j)))

/-- `std::isupper`. -/
def isWhitePiece (piece : Char) : Bool := piece.isUpper

/-- `std::islower`. -/
def isBlackPiece (piece : Char) : Bool := piece.isLower

/-- `getPieceColor`: the empty string for a blank, else "white" for an upper
case letter and "black" for anything else. -/
def getPieceColor (piece : Char) : String :=
  if piece == ' ' then "" else if isWhitePiece piece then "white" else "black"

/-- `initBoard`. -/
def initBoard : Board :=
  Board.ofRows
    [ ['r', 'n', 'b', 'q', 'k', 'b', 'n', 'r'],
      ['p', 'p', 'p', 'p', 'p', 'p', 'p', 'p'],
      [' ', ' ', ' ', ' ', ' ', ' ', ' ', ' '],
      [' ', ' ', ' ', ' ', ' ', ' ', ' ', ' '],
      [' ', ' ', ' ', ' ', ' ', ' ', ' ', ' '],
      [' ', ' ', ' ', ' ', ' ', ' ', ' ', ' '],
      ['P', 'P', 'P', 'P', 'P', 'P', 'P', 'P'],
      ['R', 'N', 'B', 'Q', 'K', 'B', 'N', 'R'] ]

/-- The four diagonal directions of `getBishopMoves`. -/
def bishopDirections : List (Int × Int) := [(-1, -1), (-1, 1), (1, -1), (1, 1)]

/-- The four orthogonal directions of `getRookMoves`. -/
def rookDirections : List (Int × Int) := [(-1, 0), (1, 0), (0, -1), (0, 1)]

/-- The eight directions of `getQueenMoves` and `getKingMoves`. -/
def queenDirections : List (Int × Int) :=
  [(-1, -1), (-1, 0), (-1, 1), (0, -1), (0, 1), (1, -1), (1, 0), (1, 1)]

/-- The eight jumps of `getKnightMoves`. -/
def knightDeltas : List (Int × Int) :=
  [(-2, -1), (-2, 1), (-1, -2), (-1, 2), (1, -2), (1, 2), (2, -1), (2, 1)]

namespace V1

/-- `struct Position` of chess-ai-ai.cpp; `(-1, -1)` is the unset value. -/
structure Position where
  row : Int
  col : Int
deriving DecidableEq

/-- `struct Move`. -/
structure Move where
  fromRow : Int
  fromCol : Int
  toRow : Int
  toCol : Int
  score : Int
deriving DecidableEq

/-- The members of `class Chess` that the rules engine reads or writes. -/
structure Chess where
  board : Board
  currentPlayer : String
  moveHistory : List String
  capturedPieces : String → List Char
  whiteKingPos : Position
  blackKingPos : Position
  whiteCanCastleKingside : Bool
  whiteCanCastleQueenside : Bool
  blackCanCastleKingside : Bool
  blackCanCastleQueenside : Bool
  enPassantTarget : Position

namespace Chess

/-- One iteration of the capture loop of `getPawnMoves` (`dc` is -1 or 1). -/
def pawnCaptureStep (g : Chess) (row col : Int) (piece : Char) (direction : Int)
    (moves : List Position) (dc : Int) : Option (List Position) :=
  let newRow := row + direction
  let newCol := col + dc
  if isValidPosition newRow newCol then do
    let target ← g.board.get? newRow newCol
    if target != ' ' && getPieceColor target != getPieceColor piece then
      pure (moves ++ [⟨newRow, newCol⟩])
    else if g.enPassantTarget = ⟨newRow, newCol⟩ then
      pure (moves ++ [⟨newRow, newCol⟩])
    else pure moves
  else pure moves

/-- The forward part of `getPawnMoves`: single and double advance. -/
def pawnForward (g : Chess) (row col : Int) (direction startRow : Int) :
    Option (List Position) :=
  let newRow := row + direction
  if isValidPosition newRow col then do
    let t ← g.board.get? newRow col
    if t == ' ' then
      if row = startRow then do
        let newRow2 := row + 2 * direction
        let t2 ← g.board.get? newRow2 col
        if t2 == ' ' then pure [⟨newRow, col⟩, ⟨newRow2, col⟩] else pure [⟨newRow, col⟩]
      else pure [⟨newRow, col⟩]
    else pure []
  else pure []

/-- `getPawnMoves`. -/
def getPawnMoves (g : Chess) (row col : Int) (piece : Char) : Option (List Position) := do
  let direction : Int := if isWhitePiece piece then -1 else 1
  let startRow : Int := if isWhitePiece piece then 6 else 1
  let moves ← pawnForward g row col direction startRow
  [-1, 1].foldlM (pawnCaptureStep g row col piece direction) moves

/-- `getPawnAttackSquares`: reads no board cell. -/
def getPawnAttackSquares (row col : Int) (piece : Char) : List Position :=
  let direction : Int := if isWhitePiece piece then -1 else 1
  [-1, 1].foldl (fun attacks dc =>
    let newRow := row + direction
    let newCol := col + dc
    if isValidPosition newRow newCol then attacks ++ [⟨newRow, newCol⟩] else attacks) []

/-- One iteration of the loops of `getKnightMoves` and `getKingMoves`. -/
def jumpStep (g : Chess) (row col : Int) (piece : Char)
    (moves : List Position) (d : Int × Int) : Option (List Position) :=
  let newRow := row + d.1
  let newCol := col + d.2
  if isValidPosition newRow newCol then do
    let target ← g.board.get? newRow newCol
    if target == ' ' || getPieceColor target != getPieceColor piece then
      pure (moves ++ [⟨newRow, newCol⟩])
    else pure moves
  else pure moves

/-- `getKnightMoves`. -/
def getKnightMoves (g : Chess) (row col : Int) (piece : Char) : Option (List Position) :=
  knightDeltas.foldlM (jumpStep g row col piece) []

/-- The `while` loop of `getSlidingMoves` along one direction, entered with the
current square `(newRow, newCol)`. The first argument bounds the number of
evaluations of the loop condition; `none` when it is used up. -/
def slideRay (g : Chess) (piece : Char) (dr dc : Int) :
    Nat → Int → Int → List Position → Option (List Position)
  | 0, _, _, _ => none
  | fuel + 1, newRow, newCol, moves =>
    if isValidPosition newRow newCol then do
      let target ← g.board.get? newRow newCol
      if target == ' ' then
        slideRay g piece dr dc fuel (newRow + dr) (newCol + dc) (moves ++ [⟨newRow, newCol⟩])
      else if getPieceColor target != getPieceColor piece then
        pure (moves ++ [⟨newRow, newCol⟩])
      else pure moves
    else pure moves

/-- `getSlidingMoves`. A ray on the 8x8 grid has at most 7 squares, so the
loop condition of one direction is evaluated at most 8 times. -/
def getSlidingMoves (g : Chess) (row col : Int) (piece : Char)
    (directions : List (Int × Int)) : Option (List Position) :=
  directions.foldlM
    (fun moves d => slideRay g piece d.1 d.2 8 (row + d.1) (col + d.2) moves) []

/-- `getBishopMoves`. -/
def getBishopMoves (g : Chess) (row col : Int) (piece : Char) : Option (List Position) :=
  getSlidingMoves g row col piece bishopDirections

/-- `getRookMoves`. -/
def getRookMoves (g : Chess) (row col : Int) (piece : Char) : Option (List Position) :=
  getSlidingMoves g row col piece rookDirections

/-- `getQueenMoves`. -/
def getQueenMoves (g : Chess) (row col : Int) (piece : Char) : Option (List Position) :=
  getSlidingMoves g row col piece queenDirections

/-- The castling block of `getKingMoves` for one side: `home` is the king's
home row, `rook` the side's rook letter. -/
def castlingMoves (g : Chess) (home : Int) (rook : Char) (kingside queenside : Bool) :
    Option (List Position) := do
  let b5 ← g.board.get? home 5
  let b6 ← g.board.get? home 6
  let b7 ← g.board.get? home 7
  let b1 ← g.board.get? home 1
  let b2 ← g.board.get? home 2
  let b3 ← g.board.get? home 3
  let b0 ← g.board.get? home 0
  let ks : List Position :=
    if kingside && b5 == ' ' && b6 == ' ' && b7 == rook then [⟨home, 6⟩] else []
  let qs : List Position :=
    if queenside && b1 == ' ' && b2 == ' ' && b3 == ' ' && b0 == rook then [⟨home, 2⟩] else []
  pure (ks ++ qs)

/-- `getKingMoves`. -/
def getKingMoves (g : Chess) (row col : Int) (piece : Char) (includeCastling : Bool) :
    Option (List Position) := do
  let moves ← queenDirections.foldlM (jumpStep g row col piece) []
  if includeCastling then
    if piece = 'K' ∧ row = 7 ∧ col = 4 then do
      let cs ← castlingMoves g 7 'R' g.whiteCanCastleKingside g.whiteCanCastleQueenside
      pure (moves ++ cs)
    else if piece = 'k' ∧ row = 0 ∧ col = 4 then do
      let cs ← castlingMoves g 0 'r' g.blackCanCastleKingside g.blackCanCastleQueenside
      pure (moves ++ cs)
    else pure moves
  else pure moves

/-- `getPieceMoves`. -/
def getPieceMoves (g : Chess) (row col : Int) : Option (List Position) := do
  let piece ← g.board.get? row col
  if piece == ' ' then pure []
  else
    let pieceType := piece.toUpper
    if pieceType == 'P' then getPawnMoves g row col piece
    else if pieceType == 'N' then getKnightMoves g row col piece
    else if pieceType == 'B' then getBishopMoves g row col piece
    else if pieceType == 'R' then getRookMoves g row col piece
    else if pieceType == 'Q' then getQueenMoves g row col piece
    else if pieceType == 'K' then getKingMoves g row col piece true
    else pure []

/-- The move list that `isSquareAttacked` computes for the piece on `(i, j)`. -/
def attackMoves (g : Chess) (i j : Int) (piece : Char) : Option (List Position) :=
  let pieceType := piece.toUpper
  if pieceType == 'P' then pure (getPawnAttackSquares i j piece)
  else if pieceType == 'K' then getKingMoves g i j piece false
  else getPieceMoves g i j

/-- The scan of `isSquareAttacked` over the squares still to visit; it stops
with `true` at the first piece of `byColor` whose move list holds the target. -/
def attackScan (g : Chess) (row col : Int) (byColor : String) :
    List (Int × Int) → Option Bool
  | [] => pure false
  | (i, j) :: rest => do
    let piece ← g.board.get? i j
    if piece != ' ' && getPieceColor piece == byColor then do
      let moves ← attackMoves g i j piece
      if moves.any (fun pos => pos.row == row && pos.col == col) then pure true
      else attackScan g row col byColor rest
    else attackScan g row col byColor rest

/-- `isSquareAttacked`. -/
def isSquareAttacked (g : Chess) (row col : Int) (byColor : String) : Option Bool :=
  attackScan g row col byColor allSquares

/-- `isInCheck`. -/
def isInCheck (g : Chess) (color : String) : Option Bool :=
  let kingPos := if color = "white" then g.whiteKingPos else g.blackKingPos
  let opponentColor := if color = "white" then "black" else "white"
  isSquareAttacked g kingPos.row kingPos.col opponentColor

/-- The statement `capturedPieces[currentPlayer].push_back(c)`. -/
def pushCaptured (g : Chess) (c : Char) : Chess :=
  { g with capturedPieces := fun k =>
      if k = g.currentPlayer then g.capturedPieces k ++ [c] else g.capturedPieces k }

/-- The statement `capturedPieces[currentPlayer].pop_back()`. -/
def popCaptured (g : Chess) : Chess :=
  { g with capturedPieces := fun k =>
      if k = g.currentPlayer then (g.capturedPieces k).dropLast else g.capturedPieces k }

/-- The capture bookkeeping of `makeMove` (lines 467-483): push a captured
piece, and for an en-passant capture remove the passed pawn and push it.
Returns the final value of the local `captured` and the new state. -/
def handleCaptures (g : Chess) (piece : Char) (toRow toCol : Int) : Option (Char × Chess) := do
  let captured ← g.board.get? toRow toCol
  let g1 : Chess := if captured != ' ' then pushCaptured g captured else g
  if piece.toUpper == 'P' && decide (g1.enPassantTarget = ⟨toRow, toCol⟩) && captured == ' ' then do
    let victimRow := if isWhitePiece piece then toRow + 1 else toRow - 1
    let captured2 ← g1.board.get? victimRow toCol
    let b ← g1.board.set? victimRow toCol ' '
    pure (captured2, pushCaptured { g1 with board := b } captured2)
  else pure (captured, g1)

/-- Lines 485-487 of `makeMove`: put the piece on its destination and blank
the origin. -/
def movePiece (g : Chess) (piece : Char) (fromRow fromCol toRow toCol : Int) :
    Option Chess := do
  let b1 ← g.board.set? toRow toCol piece
  let b2 ← b1.set? fromRow fromCol ' '
  pure { g with board := b2 }

/-- Lines 489-514 of `makeMove`: king cache, rook relocation when the king
goes from column 4 to column 6 or 2, and loss of both rights of the side. -/
def updateKing (g : Chess) (piece : Char) (fromCol toRow toCol : Int) : Option Chess :=
  if piece = 'K' then do
    let g1 : Chess := { g with whiteKingPos := ⟨toRow, toCol⟩ }
    let b ←
      if fromCol = 4 ∧ toCol = 6 then do
        let b1 ← g1.board.set? 7 5 'R'
        b1.set? 7 7 ' '
      else if fromCol = 4 ∧ toCol = 2 then do
        let b1 ← g1.board.set? 7 3 'R'
        b1.set? 7 0 ' '
      else pure g1.board
    pure { g1 with board := b, whiteCanCastleKingside := false, whiteCanCastleQueenside := false }
  else if piece = 'k' then do
    let g1 : Chess := { g with blackKingPos := ⟨toRow, toCol⟩ }
    let b ←
      if fromCol = 4 ∧ toCol = 6 then do
        let b1 ← g1.board.set? 0 5 'r'
        b1.set? 0 7 ' '
      else if fromCol = 4 ∧ toCol = 2 then do
        let b1 ← g1.board.set? 0 3 'r'
        b1.set? 0 0 ' '
      else pure g1.board
    pure { g1 with board := b, blackCanCastleKingside := false, blackCanCastleQueenside := false }
  else pure g

/-- Lines 516-523 of `makeMove`: a rook leaving a corner of its home row. -/
def updateCastlingRights (g : Chess) (piece : Char) (fromRow fromCol : Int) : Chess :=
  if piece = 'R' ∧ fromRow = 7 then
    if fromCol = 0 then { g with whiteCanCastleQueenside := false }
    else if fromCol = 7 then { g with whiteCanCastleKingside := false }
    else g
  else if piece = 'r' ∧ fromRow = 0 then
    if fromCol = 0 then { g with blackCanCastleQueenside := false }
    else if fromCol = 7 then { g with blackCanCastleKingside := false }
    else g
  else g

/-- Lines 525-529 of `makeMove`: the new en-passant target. `std::abs` is
`Int.natAbs`, and `/` of C++ truncates toward zero as `Int.tdiv` does. -/
def setEnPassant (g : Chess) (piece : Char) (fromRow fromCol toRow : Int) : Chess :=
  if piece.toUpper == 'P' && decide ((toRow - fromRow).natAbs = 2) then
    { g with enPassantTarget := ⟨Int.tdiv (fromRow + toRow) 2, fromCol⟩ }
  else { g with enPassantTarget := ⟨-1, -1⟩ }

/-- Lines 467-529 of `makeMove`: everything between "Save state" and the check
test. Returns the local `captured` and the mutated state. -/
def applyMove (g : Chess) (piece : Char) (fromRow fromCol toRow toCol : Int) :
    Option (Char × Chess) := do
  let r ← handleCaptures g piece toRow toCol
  let g2 ← movePiece r.2 piece fromRow fromCol toRow toCol
  let g3 ← updateKing g2 piece fromCol toRow toCol
  let g4 := updateCastlingRights g3 piece fromRow fromCol
  pure (r.1, setEnPassant g4 piece fromRow fromCol toRow)

/-- Lines 533-541 of `makeMove`: the undo of a move found illegal. Restored are
the board, the en-passant target and both king positions; the last captured
piece is popped when `captured` is not blank. -/
def undoMove (saved g : Chess) (captured : Char) : Chess :=
  let g1 : Chess :=
    { g with
      board := saved.board
      enPassantTarget := saved.enPassantTarget
      whiteKingPos := saved.whiteKingPos
      blackKingPos := saved.blackKingPos }
  if captured != ' ' then popCaptured g1 else g1

/-- Lines 544-549 of `makeMove`: pawn promotion. -/
def promote (g : Chess) (piece : Char) (toRow toCol : Int) : Option Chess :=
  if piece = 'P' ∧ toRow = 0 then do
    let b ← g.board.set? toRow toCol 'Q'
    pure { g with board := b }
  else if piece = 'p' ∧ toRow = 7 then do
    let b ← g.board.set? toRow toCol 'q'
    pure { g with board := b }
  else pure g

/-- The text `'a' + col` followed by `std::to_string(8 - row)`. -/
def squareName (row col : Int) : String :=
  String.singleton (Char.ofNat (97 + col).toNat) ++ toString (8 - row)

/-- Lines 551-555 of `makeMove`: the move record. -/
def recordMove (g : Chess) (piece : Char) (fromRow fromCol toRow toCol : Int) : Chess :=
  { g with moveHistory := g.moveHistory ++
      [String.singleton piece.toUpper ++ squareName fromRow fromCol ++ "-" ++
        squareName toRow toCol] }

/-- `makeMove`: the result and the state after the call. -/
def makeMove (g : Chess) (fromRow fromCol toRow toCol : Int) : Option (Bool × Chess) := do
  let piece ← g.board.get? fromRow fromCol
  if piece == ' ' then pure (false, g)
  else if getPieceColor piece != g.currentPlayer then pure (false, g)
  else do
    let validMoves ← getPieceMoves g fromRow fromCol
    if !(validMoves.any (fun pos => pos.row == toRow && pos.col == toCol)) then pure (false, g)
    else do
      let r ← applyMove g piece fromRow fromCol toRow toCol
      let inCheck ← isInCheck r.2 r.2.currentPlayer
      if inCheck then pure (false, undoMove g r.2 r.1)
      else do
        let g2 ← promote r.2 piece toRow toCol
        pure (true, recordMove g2 piece fromRow fromCol toRow toCol)

/-- Lines 576-594 of `getAllValidMoves`: the simulated move of the piece of
`(i, j)` to `pos` on the live state. -/
def simulate (g : Chess) (i j : Int) (piece : Char) (pos : Position) : Option Chess := do
  let captured ← g.board.get? pos.row pos.col
  let b0 ←
    if piece.toUpper == 'P' && decide (g.enPassantTarget = ⟨pos.row, pos.col⟩)
        && captured == ' ' then
      if isWhitePiece piece then g.board.set? (pos.row + 1) pos.col ' '
      else g.board.set? (pos.row - 1) pos.col ' '
    else pure g.board
  let b1 ← b0.set? pos.row pos.col piece
  let b2 ← b1.set? i j ' '
  if piece = 'K' then pure { g with board := b2, whiteKingPos := ⟨pos.row, pos.col⟩ }
  else if piece = 'k' then pure { g with board := b2, blackKingPos := ⟨pos.row, pos.col⟩ }
  else pure { g with board := b2 }

/-- Lines 601-605 of `getAllValidMoves`: the snapshot is written back. -/
def restoreSnapshot (saved g : Chess) : Chess :=
  { g with
    board := saved.board
    whiteKingPos := saved.whiteKingPos
    blackKingPos := saved.blackKingPos
    enPassantTarget := saved.enPassantTarget }

/-- The body of the innermost loop of `getAllValidMoves` for the piece on
`(i, j)` and one destination `pos`: snapshot, simulate, test, restore. -/
def tryMove (color : String) (i j : Int) (piece : Char)
    (acc : List Move × Chess) (pos : Position) : Option (List Move × Chess) := do
  let g2 ← simulate acc.2 i j piece pos
  let inCheck ← isInCheck g2 color
  let moves2 := if !inCheck then acc.1 ++ [⟨i, j, pos.row, pos.col, 0⟩] else acc.1
  pure (moves2, restoreSnapshot acc.2 g2)

/-- The body of the `for i, for j` loops of `getAllValidMoves` for one square. -/
def squareMoves (color : String) (acc : List Move × Chess) (sq : Int × Int) :
    Option (List Move × Chess) := do
  let piece ← acc.2.board.get? sq.1 sq.2
  if piece != ' ' && getPieceColor piece == color then do
    let pieceMoves ← getPieceMoves acc.2 sq.1 sq.2
    pieceMoves.foldlM (tryMove color sq.1 sq.2 piece) acc
  else pure acc

/-- `getAllValidMoves`: the move list and the state after the call. -/
def getAllValidMoves (g : Chess) (color : String) : Option (List Move × Chess) :=
  allSquares.foldlM (squareMoves color) ([], g)

/-- `isCheckmate`. -/
def isCheckmate (g : Chess) (color : String) : Option (Bool × Chess) := do
  let inCheck ← isInCheck g color
  if !inCheck then pure (false, g)
  else do
    let r ← getAllValidMoves g color
    pure (r.1.isEmpty, r.2)

/-- `isStalemate`. -/
def isStalemate (g : Chess) (color : String) : Option (Bool × Chess) := do
  let inCheck ← isInCheck g color
  if inCheck then pure (false, g)
  else do
    let r ← getAllValidMoves g color
    pure (r.1.isEmpty, r.2)

/-- The state built by the constructor and by `resetGame`. -/
def initial : Chess :=
  { board := initBoard
    currentPlayer := "white"
    moveHistory := []
    capturedPieces := fun _ => []
    whiteKingPos := ⟨7, 4⟩
    blackKingPos := ⟨0, 4⟩
    whiteCanCastleKingside := true
    whiteCanCastleQueenside := true
    blackCanCastleKingside := true
    blackCanCastleQueenside := true
    enPassantTarget := ⟨-1, -1⟩ }

/-! ### Values of the generators

The functions below give, without `Option`, the value that each generator has
when no access leaves the grid. The lemmas of the next part prove that the
generators return exactly these values for every on-board origin. -/

/-- The squares added by one `jumpStep`. -/
def jumpOut (b : Board) (row col : Int) (piece : Char) (d : Int × Int) : List Position :=
  if isValidPosition (row + d.1) (col + d.2) &&
      (b.cell (row + d.1) (col + d.2) == ' ' ||
        getPieceColor (b.cell (row + d.1) (col + d.2)) != getPieceColor piece)
  then [⟨row + d.1, col + d.2⟩] else []

/-- The squares added by one `slideRay`. -/
def slideOut (b : Board) (piece : Char) (dr dc : Int) : Nat → Int → Int → List Position
  | 0, _, _ => []
  | fuel + 1, r, c =>
    if isValidPosition r c then
      if b.cell r c == ' ' then ⟨r, c⟩ :: slideOut b piece dr dc fuel (r + dr) (c + dc)
      else if getPieceColor (b.cell r c) != getPieceColor piece then [⟨r, c⟩]
      else []
    else []

/-- Value of `getSlidingMoves`. -/
def slidingOut (b : Board) (row col : Int) (piece : Char) (directions : List (Int × Int)) :
    List Position :=
  directions.flatMap (fun d => slideOut b piece d.1 d.2 8 (row + d.1) (col + d.2))

/-- Value of `pawnForward`. -/
def pawnForwardOut (b : Board) (row col direction startRow : Int) : List Position :=
  if isValidPosition (row + direction) col && b.cell (row + direction) col == ' ' then
    if decide (row = startRow) && b.cell (row + 2 * direction) col == ' ' then
      [⟨row + direction, col⟩, ⟨row + 2 * direction, col⟩]
    else [⟨row + direction, col⟩]
  else []

/-- The squares added by one `pawnCaptureStep`. -/
def pawnCaptureOut (b : Board) (ep : Position) (row col : Int) (piece : Char)
    (direction dc : Int) : List Position :=
  if isValidPosition (row + direction) (col + dc) &&
      ((b.cell (row + direction) (col + dc) != ' ' &&
          getPieceColor (b.cell (row + direction) (col + dc)) != getPieceColor piece) ||
        decide (ep = ⟨row + direction, col + dc⟩))
  then [⟨row + direction, col + dc⟩] else []

/-- Value of `getPawnMoves`. -/
def pawnOut (b : Board) (ep : Position) (row col : Int) (piece : Char) : List Position :=
  let direction : Int := if isWhitePiece piece then -1 else 1
  let startRow : Int := if isWhitePiece piece then 6 else 1
  pawnForwardOut b row col direction startRow ++
    [-1, 1].flatMap (pawnCaptureOut b ep row col piece direction)

/-- Value of `castlingMoves`. -/
def castlingOut (b : Board) (home : Int) (rook : Char) (kingside queenside : Bool) :
    List Position :=
  (if kingside && b.cell home 5 == ' ' && b.cell home 6 == ' ' && b.cell home 7 == rook
    then [⟨home, 6⟩] else []) ++
  (if queenside && b.cell home 1 == ' ' && b.cell home 2 == ' ' && b.cell home 3 == ' ' &&
      b.cell home 0 == rook
    then [⟨home, 2⟩] else [])

/-- The castling destinations that `getKingMoves` adds with castling enabled. -/
def kingCastleOut (g : Chess) (row col : Int) (piece : Char) : List Position :=
  if piece = 'K' ∧ row = 7 ∧ col = 4 then
    castlingOut g.board 7 'R' g.whiteCanCastleKingside g.whiteCanCastleQueenside
  else if piece = 'k' ∧ row = 0 ∧ col = 4 then
    castlingOut g.board 0 'r' g.blackCanCastleKingside g.blackCanCastleQueenside
  else []

/-- Value of `getKingMoves`. -/
def kingOut (g : Chess) (row col : Int) (piece : Char) (includeCastling : Bool) :
    List Position :=
  queenDirections.flatMap (jumpOut g.board row col piece) ++
    (if includeCastling then kingCastleOut g row col piece else [])

/-- Value of `getPieceMoves` for a knight, bishop, rook or queen (empty for
any other letter). -/
def officerOut (b : Board) (row col : Int) (piece : Char) : List Position :=
  if piece.toUpper == 'N' then knightDeltas.flatMap (jumpOut b row col piece)
  else if piece.toUpper == 'B' then slidingOut b row col piece bishopDirections
  else if piece.toUpper == 'R' then slidingOut b row col piece rookDirections
  else if piece.toUpper == 'Q' then slidingOut b row col piece queenDirections
  else []

/-- Value of `getPieceMoves`. -/
def pieceOut (g : Chess) (row col : Int) : List Position :=
  let piece := g.board.cell row col
  if piece == ' ' then []
  else if piece.toUpper == 'P' then pawnOut g.board g.enPassantTarget row col piece
  else if piece.toUpper == 'K' then kingOut g row col piece true
  else officerOut g.board row col piece

/-- Value of `attackMoves` for the piece standing on `(i, j)`. -/
def attackOut (b : Board) (i j : Int) : List Position :=
  let piece := b.cell i j
  if piece.toUpper == 'P' then getPawnAttackSquares i j piece
  else if piece.toUpper == 'K' then queenDirections.flatMap (jumpOut b i j piece)
  else officerOut b i j piece

/-- Whether the piece on `(i, j)` is of `byColor` and reaches `(row, col)`. -/
def attacksFrom (b : Board) (row col : Int) (byColor : String) (sq : Int × Int) : Bool :=
  b.cell sq.1 sq.2 != ' ' && getPieceColor (b.cell sq.1 sq.2) == byColor &&
    (attackOut b sq.1 sq.2).any (fun pos => pos.row == row && pos.col == col)

/-- Value of `isSquareAttacked`. -/
def attackedOut (b : Board) (row col : Int) (byColor : String) : Bool :=
  allSquares.any (attacksFrom b row col byColor)

/-- Value of `isInCheck`. -/
def inCheckOut (g : Chess) (color : String) : Bool :=
  attackedOut g.board
    (if color = "white" then g.whiteKingPos else g.blackKingPos).row
    (if color = "white" then g.whiteKingPos else g.blackKingPos).col
    (if color = "white" then "black" else "white")

/-! ### The legality filter as the specification words it -/

/-- A move of the piece on `(i, j)` to `pos` is an en-passant capture when the
piece is a pawn and `pos` is the en-passant target square, currently empty. -/
def isEnPassantCapture (g : Chess) (i j : Int) (pos : Position) : Bool :=
  (g.board.cell i j).toUpper == 'P' && decide (g.enPassantTarget = pos) &&
    g.board.cell pos.row pos.col == ' '

/-- The position on which a move is judged: the piece of `(i, j)` stands on
`pos`, its origin is empty, the passed pawn (on the rank next to `pos`, behind
it for the mover) is removed when the move is an en-passant capture, and the
king cache follows a king. -/
def simulateMove (g : Chess) (i j : Int) (pos : Position) : Chess :=
  let piece := g.board.cell i j
  let b0 : Board :=
    if isEnPassantCapture g i j pos then
      g.board.put (if isWhitePiece piece then pos.row + 1 else pos.row - 1) pos.col ' '
    else g.board
  { g with
    board := (b0.put pos.row pos.col piece).put i j ' '
    whiteKingPos := if piece = 'K' then pos else g.whiteKingPos
    blackKingPos := if piece = 'k' then pos else g.blackKingPos }

/-- The legal moves of the piece on one square: the pseudo-legal destinations,
in the generator's order, after which the king of `color` is not attacked. -/
def legalFrom (g : Chess) (color : String) (sq : Int × Int) : List Move :=
  if g.board.cell sq.1 sq.2 != ' ' && getPieceColor (g.board.cell sq.1 sq.2) == color then
    (((getPieceMoves g sq.1 sq.2).getD []).filter
      (fun pos => isInCheck (simulateMove g sq.1 sq.2 pos) color == some false)).map
      (fun pos => ⟨sq.1, sq.2, pos.row, pos.col, 0⟩)
  else []

/-- The legal moves of `color`, origins in row-major order. -/
def legalMovesSpec (g : Chess) (color : String) : List Move :=
  allSquares.flatMap (legalFrom g color)

/-! ### Values of the steps of `makeMove` -/

/-- Value of `handleCaptures`. -/
def handleCapturesOut (g : Chess) (piece : Char) (toRow toCol : Int) : Char × Chess :=
  let captured := g.board.cell toRow toCol
  let g1 : Chess := if captured != ' ' then pushCaptured g captured else g
  if piece.toUpper == 'P' && decide (g1.enPassantTarget = ⟨toRow, toCol⟩) && captured == ' ' then
    let victimRow := if isWhitePiece piece then toRow + 1 else toRow - 1
    (g1.board.cell victimRow toCol,
      pushCaptured { g1 with board := g1.board.put victimRow toCol ' ' }
        (g1.board.cell victimRow toCol))
  else (captured, g1)

/-- Value of `movePiece`. -/
def movePieceOut (g : Chess) (piece : Char) (fromRow fromCol toRow toCol : Int) : Chess :=
  { g with board := (g.board.put toRow toCol piece).put fromRow fromCol ' ' }

/-- The rook relocation of `updateKing` on the home row `home`. -/
def castleRookOut (b : Board) (home : Int) (rook : Char) (fromCol toCol : Int) : Board :=
  if fromCol = 4 ∧ toCol = 6 then (b.put home 5 rook).put home 7 ' '
  else if fromCol = 4 ∧ toCol = 2 then (b.put home 3 rook).put home 0 ' '
  else b

/-- Value of `updateKing`. -/
def updateKingOut (g : Chess) (piece : Char) (fromCol toRow toCol : Int) : Chess :=
  if piece = 'K' then
    { g with
      whiteKingPos := ⟨toRow, toCol⟩
      board := castleRookOut g.board 7 'R' fromCol toCol
      whiteCanCastleKingside := false
      whiteCanCastleQueenside := false }
  else if piece = 'k' then
    { g with
      blackKingPos := ⟨toRow, toCol⟩
      board := castleRookOut g.board 0 'r' fromCol toCol
      blackCanCastleKingside := false
      blackCanCastleQueenside := false }
  else g

/-- Value of `applyMove`. -/
def applyOut (g : Chess) (piece : Char) (fromRow fromCol toRow toCol : Int) : Char × Chess :=
  let r := handleCapturesOut g piece toRow toCol
  let g2 := movePieceOut r.2 piece fromRow fromCol toRow toCol
  let g3 := updateKingOut g2 piece fromCol toRow toCol
  (r.1, setEnPassant (updateCastlingRights g3 piece fromRow fromCol) piece fromRow fromCol toRow)

/-- Value of `promote`. -/
def promoteOut (g : Chess) (piece : Char) (toRow toCol : Int) : Chess :=
  if piece = 'P' ∧ toRow = 0 then { g with board := g.board.put toRow toCol 'Q' }
  else if piece = 'p' ∧ toRow = 7 then { g with board := g.board.put toRow toCol 'q' }
  else g

/-- Value of `makeMove` for an on-board origin. -/
def makeMoveOut (g : Chess) (fromRow fromCol toRow toCol : Int) : Bool × Chess :=
  let piece := g.board.cell fromRow fromCol
  if piece == ' ' then (false, g)
  else if getPieceColor piece != g.currentPlayer then (false, g)
  else if !((pieceOut g fromRow fromCol).any (fun pos => pos.row == toRow && pos.col == toCol))
  then (false, g)
  else
    let r := applyOut g piece fromRow fromCol toRow toCol
    if inCheckOut r.2 r.2.currentPlayer then (false, undoMove g r.2 r.1)
    else (true, recordMove (promoteOut r.2 piece toRow toCol) piece fromRow fromCol toRow toCol)

end Chess
end V1

/-! ### Notions used by the proofs -/

namespace V1
namespace Chess

/-- Two boards show the same colours on every square. -/
def SameColors (b b2 : Board) : Prop :=
  ∀ i j : Int, isValidPosition i j = true →
    getPieceColor (b.cell i j) = getPieceColor (b2.cell i j)

/-- The board after the capture bookkeeping: only the passed pawn of an
en-passant capture is removed. -/
def captureBoard (g : Chess) (piece : Char) (tr tc : Int) : Board :=
  if piece.toUpper == 'P' && decide (g.enPassantTarget = ⟨tr, tc⟩) && g.board.cell tr tc == ' '
  then g.board.put (if isWhitePiece piece then tr + 1 else tr - 1) tc ' '
  else g.board

end Chess
end V1

/-! ### Reachable states and the board invariant -/

namespace V1
namespace Chess

/-- Line 842 of `playAIvsAI`: the side to move is switched. -/
def switchPlayer (g : Chess) : Chess :=
  { g with currentPlayer := if g.currentPlayer = "white" then "black" else "white" }

/-- The states reached from the initial position by successful `makeMove`
calls, each followed by the switch of the side to move. -/
inductive Reachable : Chess → Prop
  | start : Reachable initial
  | move {g g2 : Chess} (fr fc tr tc : Int) :
      Reachable g → makeMove g fr fc tr tc = some (true, g2) → Reachable (switchPlayer g2)

/-- The number of cells of the board that hold `ch`. -/
def countPiece (b : Board) (ch : Char) : Nat :=
  (allSquares.filter (fun sq => b.cell sq.1 sq.2 == ch)).length

/-- The letter `ch` stands on the on-board square `k` and nowhere else. -/
def KingAt (b : Board) (ch : Char) (k : Position) : Prop :=
  isValidPosition k.row k.col = true ∧
    ∀ i j : Int, isValidPosition i j = true → (b.cell i j = ch ↔ (i = k.row ∧ j = k.col))

/-- The invariant of the reachable states: the side to move is white or
black; each king letter stands exactly on its cached square; the side that is
not to move is not in check; a set en-passant target is an empty square on
row 2 (white to move) or row 5 (black to move) with an enemy pawn behind it. -/
structure Inv (g : Chess) : Prop where
  player : g.currentPlayer = "white" ∨ g.currentPlayer = "black"
  white_king : KingAt g.board 'K' g.whiteKingPos
  black_king : KingAt g.board 'k' g.blackKingPos
  safe : inCheckOut g (if g.currentPlayer = "white" then "black" else "white") = false
  target : isValidPosition g.enPassantTarget.row g.enPassantTarget.col = true →
    g.board.cell g.enPassantTarget.row g.enPassantTarget.col = ' ' ∧
    (g.currentPlayer = "white" →
      g.enPassantTarget.row = 2 ∧ (g.board.cell 3 g.enPassantTarget.col).toUpper = 'P') ∧
    (g.currentPlayer = "black" →
      g.enPassantTarget.row = 5 ∧ (g.board.cell 4 g.enPassantTarget.col).toUpper = 'P')

end Chess
end V1

/-! ### Sequences of plies and castling offers -/

namespace V1
namespace Chess

/-- `g2` is reached from `g` by successful `makeMove` calls, each followed by
the switch of the side to move. -/
inductive Follows : Chess → Chess → Prop
  | same (g : Chess) : Follows g g
  | move {g g1 g2 : Chess} (fr fc tr tc : Int) :
      Follows g g1 → makeMove g1 fr fc tr tc = some (true, g2) → Follows g (switchPlayer g2)

/-- The calls `makeMove(fr, fc, tr, tc)` of a list made one after the other,
the side to move switched after each; `none` as soon as one is not accepted. -/
def playMoves (g : Chess) : List (Int × Int × Int × Int) → Option Chess
  | [] => some g
  | (fr, fc, tr, tc) :: rest =>
    match makeMove g fr fc tr tc with
    | some (true, g2) => playMoves (switchPlayer g2) rest
    | _ => none

/-- The four castling rights, in the order white kingside, white queenside,
black kingside, black queenside. -/
def castlingRights (g : Chess) : Bool × Bool × Bool × Bool :=
  (g.whiteCanCastleKingside, g.whiteCanCastleQueenside,
    g.blackCanCastleKingside, g.blackCanCastleQueenside)

/-- The rights after `updateKing` for a move of `piece`. -/
def rightsAfterKing (r : Bool × Bool × Bool × Bool) (piece : Char) : Bool × Bool × Bool × Bool :=
  if piece = 'K' then (false, false, r.2.2.1, r.2.2.2)
  else if piece = 'k' then (r.1, r.2.1, false, false)
  else r

/-- The rights after `updateCastlingRights` for a move of `piece` from
`(fromRow, fromCol)`. -/
def rightsAfterRook (r : Bool × Bool × Bool × Bool) (piece : Char) (fromRow fromCol : Int) :
    Bool × Bool × Bool × Bool :=
  if piece = 'R' ∧ fromRow = 7 then
    if fromCol = 0 then (r.1, false, r.2.2.1, r.2.2.2)
    else if fromCol = 7 then (false, r.2.1, r.2.2.1, r.2.2.2)
    else r
  else if piece = 'r' ∧ fromRow = 0 then
    if fromCol = 0 then (r.1, r.2.1, r.2.2.1, false)
    else if fromCol = 7 then (r.1, r.2.1, false, r.2.2.2)
    else r
  else r

/-- The rights after the updates of `updateKing` and `updateCastlingRights`
for a move of `piece` from `(fromRow, fromCol)`. -/
def rightsAfter (r : Bool × Bool × Bool × Bool) (piece : Char) (fromRow fromCol : Int) :
    Bool × Bool × Bool × Bool :=
  rightsAfterRook (rightsAfterKing r piece) piece fromRow fromCol

/-- In the state `g` the castling move of the king `king` from `(home, 4)` to
`(home, toCol)` is returned: by `getKingMoves` called for that king on its home
square, or by `getAllValidMoves` of some colour while the king stands on its
home square. -/
def castlingOffered (g : Chess) (home : Int) (king : Char) (toCol : Int) : Prop :=
  (∃ includeCastling l, getKingMoves g home 4 king includeCastling = some l ∧
    (⟨home, toCol⟩ : Position) ∈ l) ∨
  (g.board.cell home 4 = king ∧
    ∃ color r, getAllValidMoves g color = some r ∧
      ∃ m ∈ r.1, m.fromRow = home ∧ m.fromCol = 4 ∧ m.toRow = home ∧ m.toCol = toCol)

/-- Value of `playMoves` when every call is accepted. -/
def playOut (g : Chess) : List (Int × Int × Int × Int) → Chess
  | [] => g
  | (fr, fc, tr, tc) :: rest => playOut (switchPlayer (makeMoveOut g fr fc tr tc).2) rest

/-- The game 1.e4 a6 2.e5 d5: the black d-pawn has just passed the white pawn
of e5. -/
def enPassantGame : List (Int × Int × Int × Int) :=
  [(6, 4, 4, 4), (1, 0, 2, 0), (4, 4, 3, 4), (1, 3, 3, 3)]

/-- The initial position with a black pawn added on d4. -/
def blackPawnOnD4 : Chess :=
  { initial with board := initial.board.put 4 3 'p' }

/-- White king e1, white pawn b7, black rook a8, black king e8; white to move,
no castling rights. -/
def pawnOnSeventh : Chess :=
  { initial with
    board := Board.ofRows
      [ ['r', ' ', ' ', ' ', 'k', ' ', ' ', ' '],
        [' ', 'P', ' ', ' ', ' ', ' ', ' ', ' '],
        [' ', ' ', ' ', ' ', ' ', ' ', ' ', ' '],
        [' ', ' ', ' ', ' ', ' ', ' ', ' ', ' '],
        [' ', ' ', ' ', ' ', ' ', ' ', ' ', ' '],
        [' ', ' ', ' ', ' ', ' ', ' ', ' ', ' '],
        [' ', ' ', ' ', ' ', ' ', ' ', ' ', ' '],
        [' ', ' ', ' ', ' ', 'K', ' ', ' ', ' '] ]
    whiteCanCastleKingside := false
    whiteCanCastleQueenside := false
    blackCanCastleKingside := false
    blackCanCastleQueenside := false }

/-- The game 1.g4 b6 2.a4 Bb7 3.Ra3 Bxh1 4.h4 a6 5.Rh3 a5 6.Rxh1 h6 7.Nf3 h5
8.Bg2 g6: the rook of h1 is captured on its corner, the rook of a1 comes to h1
by a3 and h3, and f1, g1 are vacated; the white king never moves. -/
def rookReturnsGame : List (Int × Int × Int × Int) :=
  [ (6, 6, 4, 6), (1, 1, 2, 1), (6, 0, 4, 0), (0, 2, 1, 1), (7, 0, 5, 0), (1, 1, 7, 7),
    (6, 7, 4, 7), (1, 0, 2, 0), (5, 0, 5, 7), (2, 0, 3, 0), (5, 7, 7, 7), (1, 7, 2, 7),
    (7, 6, 5, 5), (2, 7, 3, 7), (7, 5, 6, 6), (1, 6, 2, 6) ]

/-! ### Position evaluation and move selection -/

/-- `PIECE_VALUES.at(piece)`; `none` when the map has no such key, where `at`
throws. -/
def pieceValue (piece : Char) : Option Int :=
  if piece = 'P' then some 100 else if piece = 'N' then some 320
  else if piece = 'B' then some 330 else if piece = 'R' then some 500
  else if piece = 'Q' then some 900 else if piece = 'K' then some 20000
  else if piece = 'p' then some (-100) else if piece = 'n' then some (-320)
  else if piece = 'b' then some (-330) else if piece = 'r' then some (-500)
  else if piece = 'q' then some (-900) else if piece = 'k' then some (-20000)
  else none

/-- `PAWN_TABLE`. -/
def PAWN_TABLE : List (List Int) :=
  [ [0, 0, 0, 0, 0, 0, 0, 0],
    [50, 50, 50, 50, 50, 50, 50, 50],
    [10, 10, 20, 30, 30, 20, 10, 10],
    [5, 5, 10, 25, 25, 10, 5, 5],
    [0, 0, 0, 20, 20, 0, 0, 0],
    [5, -5, -10, 0, 0, -10, -5, 5],
    [5, 10, 10, -20, -20, 10, 10, 5],
    [0, 0, 0, 0, 0, 0, 0, 0] ]

/-- `KNIGHT_TABLE`. -/
def KNIGHT_TABLE : List (List Int) :=
  [ [-50, -40, -30, -30, -30, -30, -40, -50],
    [-40, -20, 0, 0, 0, 0, -20, -40],
    [-30, 0, 10, 15, 15, 10, 0, -30],
    [-30, 5, 15, 20, 20, 15, 5, -30],
    [-30, 0, 15, 20, 20, 15, 0, -30],
    [-30, 5, 10, 15, 15, 10, 5, -30],
    [-40, -20, 0, 5, 5, 0, -20, -40],
    [-50, -40, -30, -30, -30, -30, -40, -50] ]

/-- `BISHOP_TABLE`. -/
def BISHOP_TABLE : List (List Int) :=
  [ [-20, -10, -10, -10, -10, -10, -10, -20],
    [-10, 0, 0, 0, 0, 0, 0, -10],
    [-10, 0, 5, 10, 10, 5, 0, -10],
    [-10, 5, 5, 10, 10, 5, 5, -10],
    [-10, 0, 10, 10, 10, 10, 0, -10],
    [-10, 10, 10, 10, 10, 10, 10, -10],
    [-10, 5, 0, 0, 0, 0, 5, -10],
    [-20, -10, -10, -10, -10, -10, -10, -20] ]

/-- `KING_TABLE`. -/
def KING_TABLE : List (List Int) :=
  [ [-30, -40, -40, -50, -50, -40, -40, -30],
    [-30, -40, -40, -50, -50, -40, -40, -30],
    [-30, -40, -40, -50, -50, -40, -40, -30],
    [-30, -40, -40, -50, -50, -40, -40, -30],
    [-20, -30, -30, -40, -40, -30, -30, -20],
    [-10, -20, -20, -20, -20, -20, -20, -10],
    [20, 20, 0, 0, 0, 0, 20, 20],
    [20, 30, 10, 0, 0, 10, 30, 20] ]

/-- The entry `TABLE[row][j]` of an 8x8 table; `evaluateBoard` uses it with
`row` and `j` in `0..7` only. -/
def tableAt (table : List (List Int)) (row j : Int) : Int :=
  (table.getD row.toNat []).getD j.toNat 0

/-- The positional bonus that `evaluateBoard` looks up for `piece` on board
row `i`, column `j`. -/
def positionBonus (piece : Char) (i j : Int) : Int :=
  let pieceType := piece.toUpper
  let row := if isBlackPiece piece then i else 7 - i
  if pieceType == 'P' then tableAt PAWN_TABLE row j
  else if pieceType == 'N' then tableAt KNIGHT_TABLE row j
  else if pieceType == 'B' then tableAt BISHOP_TABLE row j
  else if pieceType == 'K' then tableAt KING_TABLE row j
  else 0

/-- The body of the loops of `evaluateBoard` for one cell. -/
def evaluateCell (g : Chess) (score : Int) (sq : Int × Int) : Option Int := do
  let piece ← g.board.get? sq.1 sq.2
  if piece == ' ' then pure score
  else do
    let value ← pieceValue piece
    let bonus := positionBonus piece sq.1 sq.2
    pure (score + value + (if isWhitePiece piece then bonus else -bonus))

/-- `evaluateBoard`. -/
def evaluateBoard (g : Chess) : Option Int :=
  allSquares.foldlM (evaluateCell g) 0

/-- Lines 674-686 of `getAIMove`: the move is put on the board, without rook
relocation, en-passant removal or promotion. -/
def scratchMove (g : Chess) (move : Move) : Option (Char × Chess) := do
  let piece ← g.board.get? move.fromRow move.fromCol
  let captured ← g.board.get? move.toRow move.toCol
  let b1 ← g.board.set? move.toRow move.toCol piece
  let b2 ← b1.set? move.fromRow move.fromCol ' '
  if piece = 'K' then
    pure (captured, { g with board := b2, whiteKingPos := ⟨move.toRow, move.toCol⟩ })
  else if piece = 'k' then
    pure (captured, { g with board := b2, blackKingPos := ⟨move.toRow, move.toCol⟩ })
  else pure (captured, { g with board := b2 })

/-- Lines 688-703 of `getAIMove`: the score of the position on the board for
the side to move, with the capture bonus and the check bonus. -/
def scorePosition (g : Chess) (captured : Char) : Option Int := do
  let score ← evaluateBoard g
  let score1 := if g.currentPlayer = "black" then -score else score
  let score2 ←
    if captured != ' ' then do
      let value ← pieceValue captured
      pure (score1 + ((value.natAbs / 10 : Nat) : Int))
    else pure score1
  let opponent := if g.currentPlayer = "white" then "black" else "white"
  let inCheck ← isInCheck g opponent
  pure (if inCheck then score2 + 50 else score2)

/-- Lines 708-711 of `getAIMove`: board and king positions are written back. -/
def restoreScratch (saved g : Chess) : Chess :=
  { g with
    board := saved.board
    whiteKingPos := saved.whiteKingPos
    blackKingPos := saved.blackKingPos }

/-- The body of the scoring loop of `getAIMove` for one legal move. -/
def scoreMove (acc : List Move × Chess) (move : Move) : Option (List Move × Chess) := do
  let r ← scratchMove acc.2 move
  let score ← scorePosition r.2 r.1
  pure (acc.1 ++ [{ move with score := score }], restoreScratch acc.2 r.2)

/-- A draw of `std::uniform_int_distribution<int>(0, range - 1)`: every value
of `0 .. range - 1` can come out, as `raw % range` for some `raw`; with
`range = 0` the distribution is not defined. -/
def drawIndex (range raw : Nat) : Option Nat :=
  if range = 0 then none else some (raw % range)

/-- The value of the `double` literal `0.6`: the nearest binary64 number,
5404319552844595 / 2^53. -/
def threshold06 : ℚ := 5404319552844595 / 9007199254740992

/-- The value of the `double` literal `0.9`: the nearest binary64 number,
8106479329266893 / 2^53. -/
def threshold09 : ℚ := 8106479329266893 / 9007199254740992

/-- Lines 720-744 of `getAIMove`: the selection among the sorted scored moves.
`u` is the value of the draw of `uniform_real_distribution(0.0, 1.0)`, `raw`
the integer draw. -/
def selectMove (difficulty : Int) (moveScores : List Move) (u : ℚ) (raw : Nat) : Option Move :=
  if difficulty = 2 then
    if u < threshold06 then moveScores[0]?
    else do
      let i ← drawIndex (min 5 moveScores.length) raw
      moveScores[i]?
  else
    if u < threshold09 then moveScores[0]?
    else do
      let i ← drawIndex (min 3 moveScores.length) raw
      moveScores[i]?

/-- What C++ guarantees of `std::sort(first, last, comp)` with the comparison
`a.score > b.score`: the result is a rearrangement of the input in which no
element has a greater score than an element before it. Which rearrangement
among those is not specified. -/
structure StdSort (sort : List Move → List Move) : Prop where
  perm : ∀ l, (sort l).Perm l
  sorted : ∀ l, (sort l).Pairwise (fun a b => b.score ≤ a.score)

/-- `getAIMove`: the move returned (`none` for `std::nullopt`) and the state
after the call. `sort` is the `std::sort` call, `u` and `raw` are the draws of
the random generator. -/
def getAIMove (sort : List Move → List Move) (g : Chess) (difficulty : Int) (u : ℚ)
    (raw : Nat) : Option (Option Move × Chess) := do
  let r ← getAllValidMoves g g.currentPlayer
  if r.1.isEmpty then pure (none, r.2)
  else if difficulty = 1 then do
    let i ← drawIndex r.1.length raw
    let move ← r.1[i]?
    pure (some move, r.2)
  else do
    let scored ← r.1.foldlM scoreMove ([], r.2)
    let selected ← selectMove difficulty (sort scored.1) u raw
    pure (some selected, scored.2)

/-! ### Values of the evaluation and of the scoring loop

The sums stay far inside the range of `int` (64 cells of at most 20050 each in
absolute value), so `Int` arithmetic is that of the program. -/

/-- Value of `evaluateCell`. -/
def cellOut (b : Board) (score : Int) (sq : Int × Int) : Int :=
  if b.cell sq.1 sq.2 == ' ' then score
  else score + (pieceValue (b.cell sq.1 sq.2)).getD 0 +
    (if isWhitePiece (b.cell sq.1 sq.2) then positionBonus (b.cell sq.1 sq.2) sq.1 sq.2
      else -positionBonus (b.cell sq.1 sq.2) sq.1 sq.2)

/-- Value of `evaluateBoard`. -/
def evalOut (b : Board) : Int :=
  allSquares.foldl (cellOut b) 0

/-- Value of `scratchMove`: the state on which a move is scored. -/
def scratchOut (g : Chess) (move : Move) : Chess :=
  { g with
    board := (g.board.put move.toRow move.toCol (g.board.cell move.fromRow move.fromCol)).put
      move.fromRow move.fromCol ' '
    whiteKingPos :=
      if g.board.cell move.fromRow move.fromCol = 'K' then ⟨move.toRow, move.toCol⟩
      else g.whiteKingPos
    blackKingPos :=
      if g.board.cell move.fromRow move.fromCol = 'k' then ⟨move.toRow, move.toCol⟩
      else g.blackKingPos }

/-- Value of `scorePosition`. -/
def positionOut (g : Chess) (captured : Char) : Int :=
  let score := evalOut g.board
  let score1 := if g.currentPlayer = "black" then -score else score
  let score2 :=
    if captured != ' ' then score1 + ((((pieceValue captured).getD 0).natAbs / 10 : Nat) : Int)
    else score1
  if inCheckOut g (if g.currentPlayer = "white" then "black" else "white") then score2 + 50
  else score2

/-- The score that the scoring loop gives to a move. -/
def scoreOut (g : Chess) (move : Move) : Int :=
  positionOut (scratchOut g move) (g.board.cell move.toRow move.toCol)

/-- Value of the scoring loop: the legal moves of the side to move, in the
order of `getAllValidMoves`, each with its score. -/
def scoredMoves (g : Chess) : List Move :=
  (legalMovesSpec g g.currentPlayer).map (fun m => { m with score := scoreOut g m })

/-- The 12 piece letters. -/
def isPieceLetter (c : Char) : Bool :=
  c = 'P' ∨ c = 'N' ∨ c = 'B' ∨ c = 'R' ∨ c = 'Q' ∨ c = 'K' ∨
  c = 'p' ∨ c = 'n' ∨ c = 'b' ∨ c = 'r' ∨ c = 'q' ∨ c = 'k'

/-- Every cell of the board holds a blank or one of the 12 piece letters. -/
def PieceBoard (b : Board) : Prop :=
  ∀ i j : Int, isValidPosition i j = true → b.cell i j = ' ' ∨ isPieceLetter (b.cell i j) = true

/-- Sorting by descending score with insertion sort: one function that meets
`StdSort`. -/
def sortByScore (l : List Move) : List Move :=
  l.insertionSort (fun a b => b.score ≤ a.score)

end Chess
end V1

/-! ### The pawn moves and the attack test as the specification words them -/

namespace V1
namespace Chess

/-- Whether `pos` is a destination of the pawn `piece` of `(row, col)` in the
specification's words: one row forward, on the board and empty; or two rows
forward from the home row (6 for white, 1 for black) with that square and the
one before it empty; or a forward-diagonal square on the board that holds an
enemy piece or is the en-passant target. -/
def isPawnDestination (g : Chess) (row col : Int) (piece : Char) (pos : Position) : Bool :=
  let forward : Int := if isWhitePiece piece then -1 else 1
  let homeRow : Int := if isWhitePiece piece then 6 else 1
  (decide (pos.row = row + forward) && decide (pos.col = col) &&
    isValidPosition pos.row pos.col && g.board.cell pos.row pos.col == ' ') ||
  (decide (pos.row = row + 2 * forward) && decide (pos.col = col) && decide (row = homeRow) &&
    g.board.cell (row + forward) col == ' ' && g.board.cell pos.row pos.col == ' ') ||
  (decide (pos.row = row + forward) && (decide (pos.col = col - 1) || decide (pos.col = col + 1)) &&
    isValidPosition pos.row pos.col &&
    ((g.board.cell pos.row pos.col != ' ' &&
        getPieceColor (g.board.cell pos.row pos.col) != getPieceColor piece) ||
      decide (g.enPassantTarget = pos)))

/-- The piece on `(i, j)` is a piece of side `s` that attacks `(r, c)`, in the
specification's words: a pawn with `(r, c)` one of its two forward-diagonal
neighbours; a king with `(r, c)` adjacent and not occupied by a piece of `s`;
a knight, bishop, rook or queen with `(r, c)` among its `getPieceMoves`
destinations. -/
def AttacksFrom (g : Chess) (r c : Int) (s : String) (i j : Int) : Prop :=
  isValidPosition i j = true ∧ g.board.cell i j ≠ ' ' ∧ getPieceColor (g.board.cell i j) = s ∧
  (((g.board.cell i j).toUpper = 'P' ∧
      r = i + (if isWhitePiece (g.board.cell i j) then -1 else 1) ∧ (c = j - 1 ∨ c = j + 1)) ∨
    ((g.board.cell i j).toUpper = 'K' ∧ (r - i).natAbs ≤ 1 ∧ (c - j).natAbs ≤ 1 ∧
      ¬ (r = i ∧ c = j) ∧ getPieceColor (g.board.cell r c) ≠ s) ∨
    (((g.board.cell i j).toUpper = 'N' ∨ (g.board.cell i j).toUpper = 'B' ∨
        (g.board.cell i j).toUpper = 'R' ∨ (g.board.cell i j).toUpper = 'Q') ∧
      ∃ l, getPieceMoves g i j = some l ∧ (⟨r, c⟩ : Position) ∈ l))

/-! ### The evaluation as the specification words it -/

/-- The material value of a piece type. -/
def typeValue (pieceType : Char) : Int :=
  if pieceType = 'P' then 100 else if pieceType = 'N' then 320
  else if pieceType = 'B' then 330 else if pieceType = 'R' then 500
  else if pieceType = 'Q' then 900 else if pieceType = 'K' then 20000 else 0

/-- The signed material value: negated for black. -/
def materialValue (piece : Char) : Int :=
  if isWhitePiece piece then typeValue piece.toUpper else -typeValue piece.toUpper

/-- The signed positional bonus: added for white, subtracted for black. -/
def signedBonus (piece : Char) (i j : Int) : Int :=
  if isWhitePiece piece then positionBonus piece i j else -positionBonus piece i j

/-- The contribution of one cell to the evaluation: nothing for a blank, else
material plus positional bonus, both signed. -/
def contribution (b : Board) (sq : Int × Int) : Int :=
  if b.cell sq.1 sq.2 = ' ' then 0
  else materialValue (b.cell sq.1 sq.2) + signedBonus (b.cell sq.1 sq.2) sq.1 sq.2

/-- The sum of the contributions of the 64 cells. -/
def evaluationSum (b : Board) : Int :=
  (allSquares.map (contribution b)).sum

/-- The table of a piece type, empty for rook and queen. -/
def bonusTable (pieceType : Char) : List (List Int) :=
  if pieceType = 'P' then PAWN_TABLE else if pieceType = 'N' then KNIGHT_TABLE
  else if pieceType = 'B' then BISHOP_TABLE else if pieceType = 'K' then KING_TABLE else []

/-- The positional bonus with the rank mirrored for black, as C25 words it: a
white piece on board row `i` looks up `TABLE[i][j]`, a black piece
`TABLE[7 - i][j]`. -/
def mirroredForBlackBonus (piece : Char) (i j : Int) : Int :=
  tableAt (bonusTable piece.toUpper) (if isWhitePiece piece then i else 7 - i) j

/-- The evaluation with the lookup of `mirroredForBlackBonus`. -/
def mirroredForBlackSum (b : Board) : Int :=
  (allSquares.map (fun sq =>
    if b.cell sq.1 sq.2 = ' ' then 0
    else materialValue (b.cell sq.1 sq.2) +
      (if isWhitePiece (b.cell sq.1 sq.2) then mirroredForBlackBonus (b.cell sq.1 sq.2) sq.1 sq.2
        else -mirroredForBlackBonus (b.cell sq.1 sq.2) sq.1 sq.2))).sum

/-! ### The score of a move as the specification words it -/

/-- The score of a move in the words of C21: `evaluateBoard` of the position
that `makeMove` leaves, negated when the mover is black, plus a tenth of the
absolute material value of the piece that `makeMove` pushed on the mover's
captured list, if any, plus 50 if the opponent is in check in that position.
`none` when `makeMove` does not accept the move. -/
def scoreAfterMakeMove (g : Chess) (move : Move) : Option Int := do
  let r ← makeMove g move.fromRow move.fromCol move.toRow move.toCol
  if !r.1 then none
  else do
    let score ← evaluateBoard r.2
    let score1 := if g.currentPlayer = "black" then -score else score
    let before := g.capturedPieces g.currentPlayer
    let after := r.2.capturedPieces g.currentPlayer
    let score2 ←
      if before.length < after.length then do
        let captured ← after.getLast?
        let value ← pieceValue captured
        pure (score1 + ((value.natAbs / 10 : Nat) : Int))
      else pure score1
    let inCheck ← isInCheck r.2 (if g.currentPlayer = "white" then "black" else "white")
    pure (if inCheck then score2 + 50 else score2)

/-- The score that the scoring loop of `getAIMove` assigns to one move. -/
def loopScore (g : Chess) (move : Move) : Option (List Int) :=
  (scoreMove ([], g) move).map (fun r => r.1.map (fun m => m.score))

/-- Sorting by descending score with insertion sort on the reversed list: it
meets `StdSort` and puts moves of equal score in the reverse of their input
order. -/
def sortTiesReversed (l : List Move) : List Move :=
  l.reverse.insertionSort (fun a b => b.score ≤ a.score)

/-- White king e1 and rook a1 with the queenside right, black king d8 on the
open d-file; white to move. -/
def castleWithCheck : Chess :=
  { initial with
    board := Board.ofRows
      [ [' ', ' ', ' ', 'k', ' ', ' ', ' ', ' '],
        [' ', ' ', ' ', ' ', ' ', ' ', ' ', ' '],
        [' ', ' ', ' ', ' ', ' ', ' ', ' ', ' '],
        [' ', ' ', ' ', ' ', ' ', ' ', ' ', ' '],
        [' ', ' ', ' ', ' ', ' ', ' ', ' ', ' '],
        [' ', ' ', ' ', ' ', ' ', ' ', ' ', ' '],
        [' ', ' ', ' ', ' ', ' ', ' ', ' ', ' '],
        ['R', ' ', ' ', ' ', 'K', ' ', ' ', ' '] ]
    blackKingPos := ⟨0, 3⟩
    whiteCanCastleKingside := false
    blackCanCastleKingside := false
    blackCanCastleQueenside := false }

/-! ### The game loop -/

/-- `playAITurn`, without the output and the delays. The draws `u` and `raw`
are those of `getAIMove`. -/
def playAITurn (sort : List Move → List Move) (g : Chess) (difficulty : Int) (u : ℚ)
    (raw : Nat) : Option (Bool × Chess) := do
  let r ← getAIMove sort g difficulty u raw
  match r.1 with
  | some move => do
    let _piece ← r.2.board.get? move.fromRow move.fromCol
    makeMove r.2 move.fromRow move.fromCol move.toRow move.toCol
  | none => pure (false, r.2)

/-- The result of a game: the member `winner`, the local `moveCount` and the
state when `playAIvsAI` shows the result. -/
structure Outcome where
  winner : String
  moveCount : Nat
  final : Chess

/-- The `while (moveCount < maxMoves)` loop of `playAIvsAI` with
`maxMoves = 200`, entered with the member `winner`, the local `moveCount` and
the state. `difficultyAI1` and `difficultyAI2` are the members of these names;
`draws k` holds the two draws of the random generator used at `moveCount = k`.
The loop variable `moveCount` grows by one with every iteration, which is
the termination measure. -/
def gameLoop (sort : List Move → List Move) (difficultyAI1 difficultyAI2 : Int)
    (draws : Nat → ℚ × Nat) (winner : String) (moveCount : Nat) (g : Chess) : Option Outcome :=
  if moveCount < 200 then do
    let c ← isCheckmate g g.currentPlayer
    if c.1 then
      pure (Outcome.mk (if c.2.currentPlayer = "white" then "black" else "white") moveCount c.2)
    else do
      let s ← isStalemate c.2 c.2.currentPlayer
      if s.1 then pure (Outcome.mk "draw" moveCount s.2)
      else do
        let aiDiff := if s.2.currentPlayer = "white" then difficultyAI1 else difficultyAI2
        let t ← playAITurn sort s.2 aiDiff (draws moveCount).1 (draws moveCount).2
        if !t.1 then pure (Outcome.mk "draw" moveCount t.2)
        else
          gameLoop sort difficultyAI1 difficultyAI2 draws winner (moveCount + 1) (switchPlayer t.2)
  else pure (Outcome.mk winner moveCount g)
termination_by 200 - moveCount

/-- `playAIvsAI` up to the display of the result: `resetGame`, the loop, and
the draw at the cap. The state left by `resetGame` is `initial`, whatever the
state before. -/
def playAIvsAI (sort : List Move → List Move) (difficultyAI1 difficultyAI2 : Int)
    (draws : Nat → ℚ × Nat) : Option Outcome := do
  let r ← gameLoop sort difficultyAI1 difficultyAI2 draws "" 0 initial
  if r.moveCount ≥ 200 then pure { r with winner := "draw" } else pure r

/-! ### A game that ends by checkmate on the last ply before the cap -/

/-- The state with the move record replaced. -/
def withHistory (g : Chess) (h : List String) : Chess :=
  { g with moveHistory := h }

/-- Value of the state after an accepted `makeMove(fr, fc, tr, tc)` and the
switch of the side to move. -/
def afterPly (g : Chess) (fr fc tr tc : Int) : Chess :=
  switchPlayer (recordMove (promoteOut (applyOut g (g.board.cell fr fc) fr fc tr tc).2
    (g.board.cell fr fc) tr tc) (g.board.cell fr fc) fr fc tr tc)

/-- The positions of the knight shuffle Ng1-f3, Ng8-f6, Nf3-g1, Nf6-g8 from
the initial position. -/
def shuffle1 : Chess := afterPly initial 7 6 5 5

/-- After Ng1-f3 Ng8-f6. -/
def shuffle2 : Chess := afterPly shuffle1 0 6 2 5

/-- After Ng1-f3 Ng8-f6 Nf3-g1. -/
def shuffle3 : Chess := afterPly shuffle2 5 5 7 6

/-- The positions of the mate 1.f3 e5 2.g4 Qh4 from the initial position. -/
def mate1 : Chess := afterPly initial 6 5 5 5

/-- After f3 e5. -/
def mate2 : Chess := afterPly mate1 1 4 3 4

/-- After f3 e5 g4. -/
def mate3 : Chess := afterPly mate2 6 6 4 6

/-- After f3 e5 g4 Qh4: white is checkmated. -/
def mate4 : Chess := afterPly mate3 0 3 4 7

/-- The integer draw with which an easy AI picks the move from `(fr, fc)` to
`(tr, tc)` in the state `g`: the index of the move in the list of
`getAllValidMoves` for the side to move (the length of the list if the move is
not in it). -/
def drawFor (g : Chess) (fr fc tr tc : Int) : Nat :=
  (legalMovesSpec g g.currentPlayer).indexOf ⟨fr, fc, tr, tc, 0⟩

/-- Random draws with which two easy AIs play the knight shuffle 49 times
(plies 1 to 196) and then 1.f3 e5 2.g4 Qh4 (plies 197 to 200): the integer
draw of each ply is the index of the move in the list of `getAllValidMoves`;
the probability draw is not used at difficulty 1. -/
def capMateDraws (moveCount : Nat) : ℚ × Nat :=
  (0, if moveCount < 196 then
      [drawFor initial 7 6 5 5, drawFor shuffle1 0 6 2 5, drawFor shuffle2 5 5 7 6,
        drawFor shuffle3 2 5 0 6].getD (moveCount % 4) 0
    else
      [drawFor initial 6 5 5 5, drawFor mate1 1 4 3 4, drawFor mate2 6 6 4 6,
        drawFor mate3 0 3 4 7].getD (moveCount - 196) 0)

end Chess
end V1

namespace V1
namespace Chess

/-! ### Destinations of the sliding pieces as the specification words them -/

/-- C31 in the words of the claim: `pos` lies `k` steps (1 to 7) from
`(row, col)` on the ray of one of the `directions`, it is on the board, every
square strictly between the piece and it is empty, and it is itself empty or
holds a piece of the other colour than `piece`. -/
def isRayDestination (b : Board) (row col : Int) (piece : Char)
    (directions : List (Int × Int)) (pos : Position) : Bool :=
  directions.any fun d => (List.range 8).any fun k =>
    decide (1 ≤ k) && decide (pos = ⟨row + k * d.1, col + k * d.2⟩) &&
    isValidPosition pos.row pos.col &&
    (List.range k).all (fun m =>
      decide (m = 0) || b.cell (row + m * d.1) (col + m * d.2) == ' ') &&
    (b.cell pos.row pos.col == ' ' ||
      (b.cell pos.row pos.col != ' ' &&
        getPieceColor (b.cell pos.row pos.col) != getPieceColor piece))

/-- The game 1.e4 e5 2.Ke2: the white king has left its home square. -/
def kingStepGame : List (Int × Int × Int × Int) :=
  [(6, 4, 4, 4), (1, 4, 3, 4), (7, 4, 6, 4)]

/-- White king e1 with both rooks on their corners and both rights, black
king e8; white to move. -/
def castleReady : Chess :=
  { initial with
    board := Board.ofRows
      [ [' ', ' ', ' ', ' ', 'k', ' ', ' ', ' '],
        [' ', ' ', ' ', ' ', ' ', ' ', ' ', ' '],
        [' ', ' ', ' ', ' ', ' ', ' ', ' ', ' '],
        [' ', ' ', ' ', ' ', ' ', ' ', ' ', ' '],
        [' ', ' ', ' ', ' ', ' ', ' ', ' ', ' '],
        [' ', ' ', ' ', ' ', ' ', ' ', ' ', ' '],
        [' ', ' ', ' ', ' ', ' ', ' ', ' ', ' '],
        ['R', ' ', ' ', ' ', 'K', ' ', ' ', 'R'] ]
    blackCanCastleKingside := false
    blackCanCastleQueenside := false }

/-- The game 1.g4 b6 2.Nh3 Bb7 3.a3 Bxh1 4.Bg2 a6: a black bishop stands on
h1 where the rook was, f1 and g1 are empty, and neither the white king nor a
white rook has moved. -/
def cornerRookTakenGame : List (Int × Int × Int × Int) :=
  [ (6, 6, 4, 6), (1, 1, 2, 1), (7, 6, 5, 7), (0, 2, 1, 1),
    (6, 0, 5, 0), (1, 1, 7, 7), (7, 5, 6, 6), (1, 0, 2, 0) ]

/-! ### Colour reversal of a board -/

/-- The letter of the other colour: upper case to lower case and back. -/
def swapColour (c : Char) : Char :=
  if c.isUpper then c.toLower else if c.isLower then c.toUpper else c

/-- The colour reversal of C40: the content of each cell `(i, j)` goes to
`(7 - i, j)` with its colour swapped. -/
def colourReversed (b : Board) : Board :=
  fun i j => swapColour (b.cell (7 - (i.val : Int)) j.val)

end Chess
end V1

/-! ## chess-ai-ai-v2.cpp -/

namespace V2

/-- `struct Position` of chess-ai-ai-v2.cpp: the default value has
`valid = false`. -/
structure Position where
  row : Int
  col : Int
  valid : Bool
deriving DecidableEq

/-- `struct Move` of chess-ai-ai-v2.cpp (always built with `valid = true` by
the functions embedded here). -/
structure Move where
  from_row : Int
  from_col : Int
  to_row : Int
  to_col : Int
deriving DecidableEq

/-- `is_white_piece`. -/
def is_white_piece (piece : Char) : Bool := piece != ' ' && piece.isUpper

/-- `get_piece_color`. -/
def get_piece_color (piece : Char) : String :=
  if piece == ' ' then "" else if is_white_piece piece then "white" else "black"

/-- The members of `class Chess` that the rules engine reads or writes. -/
structure Chess where
  board : Board
  current_player : String
  move_history : List String
  captured_pieces : String → List Char
  white_king_pos : Position
  black_king_pos : Position
  white_can_castle_kingside : Bool
  white_can_castle_queenside : Bool
  black_can_castle_kingside : Bool
  black_can_castle_queenside : Bool
  en_passant_target : Position

namespace Chess

/-- The forward part of `get_pawn_moves`. -/
def pawn_forward (g : Chess) (row col direction start_row : Int) : Option (List Position) :=
  let new_row := row + direction
  if isValidPosition new_row col then do
    let t ← g.board.get? new_row col
    if t == ' ' then
      if row = start_row then do
        let new_row2 := row + 2 * direction
        let t2 ← g.board.get? new_row2 col
        if t2 == ' ' then pure [⟨new_row, col, true⟩, ⟨new_row2, col, true⟩]
        else pure [⟨new_row, col, true⟩]
      else pure [⟨new_row, col, true⟩]
    else pure []
  else pure []

/-- One iteration of the capture loop of `get_pawn_moves`. -/
def pawn_capture_step (g : Chess) (row col : Int) (piece : Char) (direction : Int)
    (moves : List Position) (dc : Int) : Option (List Position) :=
  let new_row := row + direction
  let new_col := col + dc
  if isValidPosition new_row new_col then do
    let target ← g.board.get? new_row new_col
    if target != ' ' && get_piece_color target != get_piece_color piece then
      pure (moves ++ [⟨new_row, new_col, true⟩])
    else if g.en_passant_target.valid && decide (g.en_passant_target.row = new_row) &&
        decide (g.en_passant_target.col = new_col) then
      pure (moves ++ [⟨new_row, new_col, true⟩])
    else pure moves
  else pure moves

/-- `get_pawn_moves`. -/
def get_pawn_moves (g : Chess) (row col : Int) (piece : Char) : Option (List Position) := do
  let direction : Int := if is_white_piece piece then -1 else 1
  let start_row : Int := if is_white_piece piece then 6 else 1
  let moves ← pawn_forward g row col direction start_row
  [-1, 1].foldlM (pawn_capture_step g row col piece direction) moves

/-- One iteration of the loops of `get_knight_moves` and `get_king_moves`. -/
def jump_step (g : Chess) (row col : Int) (piece : Char)
    (moves : List Position) (d : Int × Int) : Option (List Position) :=
  let new_row := row + d.1
  let new_col := col + d.2
  if isValidPosition new_row new_col then do
    let target ← g.board.get? new_row new_col
    if target == ' ' || get_piece_color target != get_piece_color piece then
      pure (moves ++ [⟨new_row, new_col, true⟩])
    else pure moves
  else pure moves

/-- `get_knight_moves`. -/
def get_knight_moves (g : Chess) (row col : Int) (piece : Char) : Option (List Position) :=
  knightDeltas.foldlM (jump_step g row col piece) []

/-- The `while` loop of `get_sliding_moves` along one direction; the first
argument bounds the number of evaluations of the loop condition. -/
def slide_ray (g : Chess) (piece : Char) (dr dc : Int) :
    Nat → Int → Int → List Position → Option (List Position)
  | 0, _, _, _ => none
  | fuel + 1, new_row, new_col, moves =>
    if isValidPosition new_row new_col then do
      let target ← g.board.get? new_row new_col
      if target == ' ' then
        slide_ray g piece dr dc fuel (new_row + dr) (new_col + dc)
          (moves ++ [⟨new_row, new_col, true⟩])
      else if get_piece_color target != get_piece_color piece then
        pure (moves ++ [⟨new_row, new_col, true⟩])
      else pure moves
    else pure moves

/-- `get_sliding_moves`. -/
def get_sliding_moves (g : Chess) (row col : Int) (piece : Char)
    (directions : List (Int × Int)) : Option (List Position) :=
  directions.foldlM
    (fun moves d => slide_ray g piece d.1 d.2 8 (row + d.1) (col + d.2) moves) []

/-- `get_bishop_moves`. -/
def get_bishop_moves (g : Chess) (row col : Int) (piece : Char) : Option (List Position) :=
  get_sliding_moves g row col piece bishopDirections

/-- `get_rook_moves`. -/
def get_rook_moves (g : Chess) (row col : Int) (piece : Char) : Option (List Position) :=
  get_sliding_moves g row col piece rookDirections

/-- `get_queen_moves`. -/
def get_queen_moves (g : Chess) (row col : Int) (piece : Char) : Option (List Position) :=
  get_sliding_moves g row col piece queenDirections

/-- The castling block of `get_king_moves` for one side; the rook's corner is
not looked at. -/
def castling_moves (g : Chess) (home : Int) (kingside queenside : Bool) :
    Option (List Position) := do
  let b5 ← g.board.get? home 5
  let b6 ← g.board.get? home 6
  let b1 ← g.board.get? home 1
  let b2 ← g.board.get? home 2
  let b3 ← g.board.get? home 3
  let ks : List Position :=
    if kingside && b5 == ' ' && b6 == ' ' then [⟨home, 6, true⟩] else []
  let qs : List Position :=
    if queenside && b1 == ' ' && b2 == ' ' && b3 == ' ' then [⟨home, 2, true⟩] else []
  pure (ks ++ qs)

/-- `get_king_moves`: castling is always included. -/
def get_king_moves (g : Chess) (row col : Int) (piece : Char) : Option (List Position) := do
  let moves ← queenDirections.foldlM (jump_step g row col piece) []
  if piece = 'K' ∧ row = 7 ∧ col = 4 then do
    let cs ← castling_moves g 7 g.white_can_castle_kingside g.white_can_castle_queenside
    pure (moves ++ cs)
  else if piece = 'k' ∧ row = 0 ∧ col = 4 then do
    let cs ← castling_moves g 0 g.black_can_castle_kingside g.black_can_castle_queenside
    pure (moves ++ cs)
  else pure moves

/-- `get_piece_moves`. -/
def get_piece_moves (g : Chess) (row col : Int) : Option (List Position) := do
  let piece ← g.board.get? row col
  if piece == ' ' then pure []
  else
    let piece_type := piece.toUpper
    if piece_type == 'P' then get_pawn_moves g row col piece
    else if piece_type == 'N' then get_knight_moves g row col piece
    else if piece_type == 'B' then get_bishop_moves g row col piece
    else if piece_type == 'R' then get_rook_moves g row col piece
    else if piece_type == 'Q' then get_queen_moves g row col piece
    else if piece_type == 'K' then get_king_moves g row col piece
    else pure []

/-- The scan of `is_square_attacked`: every piece of `by_color` is tested by
its full move list. -/
def attack_scan (g : Chess) (row col : Int) (by_color : String) :
    List (Int × Int) → Option Bool
  | [] => pure false
  | (i, j) :: rest => do
    let piece ← g.board.get? i j
    if piece != ' ' && get_piece_color piece == by_color then do
      let moves ← get_piece_moves g i j
      if moves.any (fun pos => pos.row == row && pos.col == col) then pure true
      else attack_scan g row col by_color rest
    else attack_scan g row col by_color rest

/-- `is_square_attacked`. -/
def is_square_attacked (g : Chess) (row col : Int) (by_color : String) : Option Bool :=
  attack_scan g row col by_color allSquares

/-- `is_in_check`. -/
def is_in_check (g : Chess) (color : String) : Option Bool :=
  let king_pos := if color = "white" then g.white_king_pos else g.black_king_pos
  let opponent_color := if color = "white" then "black" else "white"
  is_square_attacked g king_pos.row king_pos.col opponent_color

/-- `restore_state(saved)`: board, king positions, castling rights and
en-passant target are written back. -/
def restore_state (saved g : Chess) : Chess :=
  { g with
    board := saved.board
    white_king_pos := saved.white_king_pos
    black_king_pos := saved.black_king_pos
    white_can_castle_kingside := saved.white_can_castle_kingside
    white_can_castle_queenside := saved.white_can_castle_queenside
    black_can_castle_kingside := saved.black_can_castle_kingside
    black_can_castle_queenside := saved.black_can_castle_queenside
    en_passant_target := saved.en_passant_target }

/-- Lines 542-559 of `make_move`: the en-passant capture removes the passed
pawn; then the captured piece, if any, is pushed. -/
def handle_captures (g : Chess) (piece : Char) (to_row to_col : Int) :
    Option (Char × Chess) := do
  let captured ← g.board.get? to_row to_col
  let r ←
    if piece.toUpper == 'P' && g.en_passant_target.valid &&
        decide (g.en_passant_target.row = to_row) && decide (g.en_passant_target.col = to_col)
    then do
      let victim_row := if is_white_piece piece then to_row + 1 else to_row - 1
      let captured2 ← g.board.get? victim_row to_col
      let b ← g.board.set? victim_row to_col ' '
      pure (captured2, { g with board := b })
    else pure (captured, g)
  if r.1 != ' ' then
    pure (r.1, { r.2 with captured_pieces := fun k =>
      if k = r.2.current_player then r.2.captured_pieces k ++ [r.1] else r.2.captured_pieces k })
  else pure r

/-- Lines 561-590 of `make_move`: the piece is moved, then the king cache, the
rook relocation and the rights of a king move. -/
def move_and_king (g : Chess) (piece : Char) (from_row from_col to_row to_col : Int) :
    Option Chess := do
  let b1 ← g.board.set? to_row to_col piece
  let b2 ← b1.set? from_row from_col ' '
  if piece = 'K' then do
    let b ←
      if from_col = 4 ∧ to_col = 6 then do
        let b3 ← b2.set? 7 5 'R'
        b3.set? 7 7 ' '
      else if from_col = 4 ∧ to_col = 2 then do
        let b3 ← b2.set? 7 3 'R'
        b3.set? 7 0 ' '
      else pure b2
    pure { g with board := b, white_king_pos := ⟨to_row, to_col, true⟩,
                  white_can_castle_kingside := false, white_can_castle_queenside := false }
  else if piece = 'k' then do
    let b ←
      if from_col = 4 ∧ to_col = 6 then do
        let b3 ← b2.set? 0 5 'r'
        b3.set? 0 7 ' '
      else if from_col = 4 ∧ to_col = 2 then do
        let b3 ← b2.set? 0 3 'r'
        b3.set? 0 0 ' '
      else pure b2
    pure { g with board := b, black_king_pos := ⟨to_row, to_col, true⟩,
                  black_can_castle_kingside := false, black_can_castle_queenside := false }
  else pure { g with board := b2 }

/-- Lines 592-605 of `make_move`: rights lost by a rook move, and the new
en-passant target. -/
def rights_and_target (g : Chess) (piece : Char) (from_row from_col to_row : Int) : Chess :=
  let g1 : Chess :=
    if piece = 'R' ∧ from_row = 7 then
      if from_col = 0 then { g with white_can_castle_queenside := false }
      else if from_col = 7 then { g with white_can_castle_kingside := false }
      else g
    else if piece = 'r' ∧ from_row = 0 then
      if from_col = 0 then { g with black_can_castle_queenside := false }
      else if from_col = 7 then { g with black_can_castle_kingside := false }
      else g
    else g
  if piece.toUpper == 'P' && decide ((to_row - from_row).natAbs = 2) then
    { g1 with en_passant_target := ⟨Int.tdiv (from_row + to_row) 2, from_col, true⟩ }
  else { g1 with en_passant_target := ⟨0, 0, false⟩ }

/-- The text `'a' + col` followed by the digit `'0' + (8 - row)`. -/
def square_name (row col : Int) : String :=
  String.singleton (Char.ofNat (97 + col).toNat) ++
    String.singleton (Char.ofNat (48 + (8 - row)).toNat)

/-- Lines 617-628 of `make_move`: promotion and the move record. -/
def promote_and_record (g : Chess) (piece : Char) (from_row from_col to_row to_col : Int) :
    Option Chess := do
  let b ←
    if piece = 'P' ∧ to_row = 0 then g.board.set? to_row to_col 'Q'
    else if piece = 'p' ∧ to_row = 7 then g.board.set? to_row to_col 'q'
    else pure g.board
  pure { g with
    board := b
    move_history := g.move_history ++
      [String.singleton piece.toUpper ++ square_name from_row from_col ++ "-" ++
        square_name to_row to_col] }

/-- `make_move`: the result and the state after the call. -/
def make_move (g : Chess) (from_row from_col to_row to_col : Int) : Option (Bool × Chess) := do
  let piece ← g.board.get? from_row from_col
  if piece == ' ' then pure (false, g)
  else if get_piece_color piece != g.current_player then pure (false, g)
  else do
    let valid_moves ← get_piece_moves g from_row from_col
    if !(valid_moves.any (fun pos => pos.row == to_row && pos.col == to_col)) then
      pure (false, g)
    else do
      let r ← handle_captures g piece to_row to_col
      let g2 ← move_and_king r.2 piece from_row from_col to_row to_col
      let g3 := rights_and_target g2 piece from_row from_col to_row
      let in_check ← is_in_check g3 g3.current_player
      if in_check then
        let g4 := restore_state g g3
        if r.1 != ' ' then
          pure (false, { g4 with captured_pieces := fun k =>
            if k = g4.current_player then (g4.captured_pieces k).dropLast
            else g4.captured_pieces k })
        else pure (false, g4)
      else do
        let g4 ← promote_and_record g3 piece from_row from_col to_row to_col
        pure (true, g4)

/-- The body of the innermost loop of `get_all_valid_moves`: the piece is put
on `pos` and taken from `(i, j)`, nothing else is simulated. -/
def try_move (color : String) (i j : Int) (piece : Char)
    (acc : List Move × Chess) (pos : Position) : Option (List Move × Chess) := do
  let g := acc.2
  let b1 ← g.board.set? pos.row pos.col piece
  let b2 ← b1.set? i j ' '
  let g2 : Chess :=
    if piece = 'K' then { g with board := b2, white_king_pos := ⟨pos.row, pos.col, true⟩ }
    else if piece = 'k' then { g with board := b2, black_king_pos := ⟨pos.row, pos.col, true⟩ }
    else { g with board := b2 }
  let in_check ← is_in_check g2 color
  let moves2 := if !in_check then acc.1 ++ [⟨i, j, pos.row, pos.col⟩] else acc.1
  pure (moves2, restore_state g g2)

/-- The body of the `for i, for j` loops of `get_all_valid_moves`. -/
def square_moves (color : String) (acc : List Move × Chess) (sq : Int × Int) :
    Option (List Move × Chess) := do
  let piece ← acc.2.board.get? sq.1 sq.2
  if piece != ' ' && get_piece_color piece == color then do
    let piece_moves ← get_piece_moves acc.2 sq.1 sq.2
    piece_moves.foldlM (try_move color sq.1 sq.2 piece) acc
  else pure acc

/-- `get_all_valid_moves`. -/
def get_all_valid_moves (g : Chess) (color : String) : Option (List Move × Chess) :=
  allSquares.foldlM (square_moves color) ([], g)

end Chess
end V2

/-! ## Concrete positions -/

namespace V1
namespace Chess

/-- White king e1 with both rooks at home, black rook on a1 giving check along
the first rank, black king e8; white to move with all rights. -/
def castleOutOfCheck : Chess :=
  { initial with
    board := Board.ofRows
      [ [' ', ' ', ' ', ' ', 'k', ' ', ' ', ' '],
        [' ', ' ', ' ', ' ', ' ', ' ', ' ', ' '],
        [' ', ' ', ' ', ' ', ' ', ' ', ' ', ' '],
        [' ', ' ', ' ', ' ', ' ', ' ', ' ', ' '],
        [' ', ' ', ' ', ' ', ' ', ' ', ' ', ' '],
        [' ', ' ', ' ', ' ', ' ', ' ', ' ', ' '],
        [' ', ' ', ' ', ' ', ' ', 'P', 'P', 'P'],
        ['r', ' ', ' ', ' ', 'K', ' ', ' ', 'R'] ] }

/-- White king e1 and rooks a1, h1 at home with all rights, a black rook on f8
covering f1, black king e8; white to move. -/
def guardedF1 : Chess :=
  { initial with
    board := Board.ofRows
      [ [' ', ' ', ' ', ' ', 'k', 'r', ' ', ' '],
        [' ', ' ', ' ', ' ', ' ', ' ', ' ', ' '],
        [' ', ' ', ' ', ' ', ' ', ' ', ' ', ' '],
        [' ', ' ', ' ', ' ', ' ', ' ', ' ', ' '],
        [' ', ' ', ' ', ' ', ' ', ' ', ' ', ' '],
        [' ', ' ', ' ', ' ', ' ', ' ', ' ', ' '],
        [' ', ' ', ' ', ' ', ' ', ' ', ' ', ' '],
        ['R', ' ', ' ', ' ', 'K', ' ', ' ', 'R'] ] }

end Chess
end V1

namespace V2
namespace Chess

/-- Fifth rank: white king a5, white pawn d5, black pawn e5 that has just come
from e7 (en-passant target e6), black rook h5; black king e8; white to move. -/
def pinnedEnPassant : Chess :=
  { board := Board.ofRows
      [ [' ', ' ', ' ', ' ', 'k', ' ', ' ', ' '],
        [' ', ' ', ' ', ' ', ' ', ' ', ' ', ' '],
        [' ', ' ', ' ', ' ', ' ', ' ', ' ', ' '],
        ['K', ' ', ' ', 'P', 'p', ' ', ' ', 'r'],
        [' ', ' ', ' ', ' ', ' ', ' ', ' ', ' '],
        [' ', ' ', ' ', ' ', ' ', ' ', ' ', ' '],
        [' ', ' ', ' ', ' ', ' ', ' ', ' ', ' '],
        [' ', ' ', ' ', ' ', ' ', ' ', ' ', ' '] ]
    current_player := "white"
    move_history := []
    captured_pieces := fun _ => []
    white_king_pos := ⟨3, 0, true⟩
    black_king_pos := ⟨0, 4, true⟩
    white_can_castle_kingside := false
    white_can_castle_queenside := false
    black_can_castle_kingside := false
    black_can_castle_queenside := false
    en_passant_target := ⟨2, 4, true⟩ }

end Chess
end V2

namespace V2
namespace Chess

/-- The state built by the constructor of chess-ai-ai-v2.cpp. -/
def initial : Chess :=
  { board := initBoard
    current_player := "white"
    move_history := []
    captured_pieces := fun _ => []
    white_king_pos := ⟨7, 4, true⟩
    black_king_pos := ⟨0, 4, true⟩
    white_can_castle_kingside := true
    white_can_castle_queenside := true
    black_can_castle_kingside := true
    black_can_castle_queenside := true
    en_passant_target := ⟨0, 0, false⟩ }

/-- The switch of the side to move that the game loop makes after a turn. -/
def switch_player (g : Chess) : Chess :=
  { g with current_player := if g.current_player = "white" then "black" else "white" }

/-- The calls `make_move(from_row, from_col, to_row, to_col)` of a list made one
after the other, the side to move switched after each; `none` as soon as one is
not accepted. -/
def play_moves (g : Chess) : List (Int × Int × Int × Int) → Option Chess
  | [] => some g
  | (fr, fc, tr, tc) :: rest =>
    match make_move g fr fc tr tc with
    | some (true, g2) => play_moves (switch_player g2) rest
    | _ => none

/-- The number of cells of the board that hold `ch`. -/
def count_piece (b : Board) (ch : Char) : Nat :=
  (allSquares.filter (fun sq => b.cell sq.1 sq.2 == ch)).length

/-- The game 1.g4 b6 2.Nh3 Bb7 3.a3 Bxh1 4.Bg2 a6: the black bishop has taken
the rook of h1 and stands on h1; f1 and g1 are empty and the white king has not
moved. -/
def bishopTakesRookGame : List (Int × Int × Int × Int) :=
  [ (6, 6, 4, 6), (1, 1, 2, 1), (7, 6, 5, 7), (0, 2, 1, 1),
    (6, 0, 5, 0), (1, 1, 7, 7), (7, 5, 6, 6), (1, 0, 2, 0) ]

end Chess
end V2

namespace V2
namespace Chess

/-- A white pawn on e4 as the only white piece, the black king on e8. -/
def lonePawn : Chess :=
  { initial with
    board := Board.ofRows
      [ [' ', ' ', ' ', ' ', 'k', ' ', ' ', ' '],
        [' ', ' ', ' ', ' ', ' ', ' ', ' ', ' '],
        [' ', ' ', ' ', ' ', ' ', ' ', ' ', ' '],
        [' ', ' ', ' ', ' ', ' ', ' ', ' ', ' '],
        [' ', ' ', ' ', ' ', 'P', ' ', ' ', ' '],
        [' ', ' ', ' ', ' ', ' ', ' ', ' ', ' '],
        [' ', ' ', ' ', ' ', ' ', ' ', ' ', ' '],
        [' ', ' ', ' ', ' ', ' ', ' ', ' ', ' '] ]
    white_can_castle_kingside := false
    white_can_castle_queenside := false
    black_can_castle_kingside := false
    black_can_castle_queenside := false }

end Chess
end V2

/-! ### Values of the generators of chess-ai-ai-v2.cpp -/

namespace V2
namespace Chess

/-- The value `Position(r, c)` of chess-ai-ai-v2.cpp for a square. -/
def ofSquare (p : V1.Position) : Position := ⟨p.row, p.col, true⟩

/-- The squares added by one `pawn_capture_step`. -/
def pawn_capture_out (g : Chess) (row col : Int) (piece : Char) (direction dc : Int) :
    List Position :=
  if isValidPosition (row + direction) (col + dc) &&
      ((g.board.cell (row + direction) (col + dc) != ' ' &&
          get_piece_color (g.board.cell (row + direction) (col + dc))
            != get_piece_color piece) ||
        (g.en_passant_target.valid && decide (g.en_passant_target.row = row + direction) &&
          decide (g.en_passant_target.col = col + dc)))
  then [⟨row + direction, col + dc, true⟩] else []

/-- Value of `get_pawn_moves`. -/
def pawn_out (g : Chess) (row col : Int) (piece : Char) : List Position :=
  (V1.Chess.pawnForwardOut g.board row col (if is_white_piece piece then -1 else 1)
      (if is_white_piece piece then 6 else 1)).map ofSquare ++
    [-1, 1].flatMap (pawn_capture_out g row col piece (if is_white_piece piece then -1 else 1))

/-- Value of `castling_moves`. -/
def castling_out (b : Board) (home : Int) (kingside queenside : Bool) : List Position :=
  (if kingside && b.cell home 5 == ' ' && b.cell home 6 == ' ' then [⟨home, 6, true⟩] else []) ++
  (if queenside && b.cell home 1 == ' ' && b.cell home 2 == ' ' && b.cell home 3 == ' '
    then [⟨home, 2, true⟩] else [])

/-- Value of `get_king_moves`. -/
def king_out (g : Chess) (row col : Int) (piece : Char) : List Position :=
  (queenDirections.flatMap (V1.Chess.jumpOut g.board row col piece)).map ofSquare ++
    (if piece = 'K' ∧ row = 7 ∧ col = 4 then
      castling_out g.board 7 g.white_can_castle_kingside g.white_can_castle_queenside
    else if piece = 'k' ∧ row = 0 ∧ col = 4 then
      castling_out g.board 0 g.black_can_castle_kingside g.black_can_castle_queenside
    else [])

/-- Value of `get_piece_moves`. -/
def piece_out (g : Chess) (row col : Int) : List Position :=
  let piece := g.board.cell row col
  if piece == ' ' then []
  else if piece.toUpper == 'P' then pawn_out g row col piece
  else if piece.toUpper == 'K' then king_out g row col piece
  else (V1.Chess.officerOut g.board row col piece).map ofSquare

/-- Whether the piece on `sq` is of `by_color` and has `(row, col)` in its
move list. -/
def attacks_from (g : Chess) (row col : Int) (by_color : String) (sq : Int × Int) : Bool :=
  g.board.cell sq.1 sq.2 != ' ' && get_piece_color (g.board.cell sq.1 sq.2) == by_color &&
    (piece_out g sq.1 sq.2).any (fun pos => pos.row == row && pos.col == col)

end Chess
end V2

/-! ## chess-ai-ai-v3.cpp

The third variant adds the PGN record to the second. Its move generators,
`is_square_attacked`, `is_in_check`, `save_state`, `restore_state` (lines
283-526) and `get_all_valid_moves` (lines 721-756) are, line by line, the text
of chess-ai-ai-v2.cpp (lines 278-521 and 633-668); they are embedded by the
definitions of `V2.Chess` applied to the members the two classes share. -/

namespace V3

/-- The members of `class Chess` of chess-ai-ai-v3.cpp that the rules engine
reads or writes: those of chess-ai-ai-v2.cpp and `pgn_moves`. -/
structure Chess extends V2.Chess where
  pgn_moves : List String

namespace Chess

/-- `get_piece_moves` (lines 454-470) with the generators it calls (lines
300-452). -/
def get_piece_moves (g : Chess) (row col : Int) : Option (List V2.Position) :=
  V2.Chess.get_piece_moves g.toChess row col

/-- `is_in_check` (lines 489-493) with `is_square_attacked` (lines 472-487). -/
def is_in_check (g : Chess) (color : String) : Option Bool :=
  V2.Chess.is_in_check g.toChess color

/-- `get_all_valid_moves` (lines 721-756). -/
def get_all_valid_moves (g : Chess) (color : String) : Option (List V2.Move × Chess) := do
  let r ← V2.Chess.get_all_valid_moves g.toChess color
  pure (r.1, { g with toChess := r.2 })

/-- `is_checkmate`: the move list is computed only when the side is in
check. -/
def is_checkmate (g : Chess) (color : String) : Option (Bool × Chess) := do
  let in_check ← is_in_check g color
  if !in_check then pure (false, g)
  else do
    let r ← get_all_valid_moves g color
    pure (r.1.isEmpty, r.2)

/-- The body of the `for i, for j` loops in `to_pgn_notation` (lines 552-568):
the flags `need_file` and `need_rank` after the piece of one square has been
looked at, on the board as it is when `to_pgn_notation` runs. -/
def disambiguation_step (g : Chess) (from_row from_col to_row to_col : Int) (piece : Char)
    (flags : Bool × Bool) (sq : Int × Int) : Option (Bool × Bool) :=
  if sq.1 = from_row ∧ sq.2 = from_col then pure flags
  else do
    let other ← g.board.get? sq.1 sq.2
    if other.toUpper == piece.toUpper &&
        V2.get_piece_color other == V2.get_piece_color piece then do
      let moves ← get_piece_moves g sq.1 sq.2
      pure (moves.foldl (fun f pos =>
        if pos.row == to_row && pos.col == to_col then
          if sq.2 ≠ from_col then (true, f.2) else (f.1, true)
        else f) flags)
    else pure flags

/-- `to_pgn_notation` (lines 529-595). -/
def to_pgn_notation (g : Chess) (from_row from_col to_row to_col : Int) (piece : Char)
    (is_capture is_check is_checkmate : Bool) : Option String :=
  let piece_type := piece.toUpper
  if piece_type = 'K' ∧ (to_col - from_col).natAbs = 2 then
    if to_col > from_col then
      pure (if is_checkmate then "O-O#" else if is_check then "O-O+" else "O-O")
    else pure (if is_checkmate then "O-O-O#" else if is_check then "O-O-O+" else "O-O-O")
  else do
    let n1 : String := if piece_type ≠ 'P' then String.singleton piece_type else ""
    let flags ←
      if piece_type ≠ 'P' then
        allSquares.foldlM (disambiguation_step g from_row from_col to_row to_col piece)
          (false, false)
      else pure (false, false)
    let n2 : String :=
      if flags.1 || (piece_type == 'P' && is_capture) then
        n1 ++ String.singleton (Char.ofNat (97 + from_col).toNat)
      else n1
    let n3 : String :=
      if flags.2 then n2 ++ String.singleton (Char.ofNat (48 + (8 - from_row)).toNat) else n2
    let n4 : String := if is_capture then n3 ++ "x" else n3
    let n5 : String := n4 ++ V2.Chess.square_name to_row to_col
    pure (if is_checkmate then n5 ++ "#" else if is_check then n5 ++ "+" else n5)

/-- The statement `captured_pieces[current_player].push_back(c)`. -/
def push_captured (g : V2.Chess) (c : Char) : V2.Chess :=
  { g with captured_pieces := fun k =>
      if k = g.current_player then g.captured_pieces k ++ [c] else g.captured_pieces k }

/-- The statement `captured_pieces[current_player].pop_back()`. -/
def pop_captured (g : V2.Chess) : V2.Chess :=
  { g with captured_pieces := fun k =>
      if k = g.current_player then (g.captured_pieces k).dropLast else g.captured_pieces k }

/-- Lines 616-637 of `make_move`: the local `captured`, the flag `is_capture`
and the state after the capture bookkeeping. -/
def handle_captures (g : V2.Chess) (piece : Char) (to_row to_col : Int) :
    Option (Char × Bool × V2.Chess) := do
  let captured ← g.board.get? to_row to_col
  let r ←
    if piece.toUpper == 'P' && g.en_passant_target.valid &&
        decide (g.en_passant_target.row = to_row) && decide (g.en_passant_target.col = to_col)
    then do
      let victim_row := if V2.is_white_piece piece then to_row + 1 else to_row - 1
      let captured2 ← g.board.get? victim_row to_col
      let b ← g.board.set? victim_row to_col ' '
      pure (captured2, true, { g with board := b })
    else pure (captured, captured != ' ', g)
  if r.1 != ' ' then pure (r.1, r.2.1, push_captured r.2.2 r.1) else pure r

/-- `make_move` (lines 597-719): the result and the state after the call. The
piece move, the king cache and the rook relocation (lines 639-668), the rights
lost by a rook move and the en-passant target (lines 670-683) are the text of
chess-ai-ai-v2.cpp (lines 561-605) embedded by `V2.Chess.move_and_king` and
`V2.Chess.rights_and_target`; the PGN text is computed after the board has
been changed. -/
def make_move (g : Chess) (from_row from_col to_row to_col : Int) : Option (Bool × Chess) := do
  let piece ← g.board.get? from_row from_col
  if piece == ' ' then pure (false, g)
  else if V2.get_piece_color piece != g.current_player then pure (false, g)
  else do
    let valid_moves ← get_piece_moves g from_row from_col
    if !(valid_moves.any (fun pos => pos.row == to_row && pos.col == to_col)) then
      pure (false, g)
    else do
      let r ← handle_captures g.toChess piece to_row to_col
      let g2 ← V2.Chess.move_and_king r.2.2 piece from_row from_col to_row to_col
      let g3 := V2.Chess.rights_and_target g2 piece from_row from_col to_row
      let in_check ← V2.Chess.is_in_check g3 g3.current_player
      if in_check then
        let g4 := V2.Chess.restore_state g.toChess g3
        if r.1 != ' ' then
          pure (false, { g with toChess := pop_captured g4 })
        else pure (false, { g with toChess := g4 })
      else do
        let b ←
          if piece = 'P' ∧ to_row = 0 then g3.board.set? to_row to_col 'Q'
          else if piece = 'p' ∧ to_row = 7 then g3.board.set? to_row to_col 'q'
          else pure g3.board
        let g4 : Chess := { g with toChess := { g3 with board := b } }
        let opponent := if g4.current_player = "white" then "black" else "white"
        let gives_check ← is_in_check g4 opponent
        let mate ← if gives_check then is_checkmate g4 opponent else pure (false, g4)
        let pgn_move ← to_pgn_notation mate.2 from_row from_col to_row to_col piece r.2.1
          gives_check mate.1
        pure (true, { mate.2 with
          pgn_moves := mate.2.pgn_moves ++ [pgn_move]
          move_history := mate.2.move_history ++
            [String.singleton piece.toUpper ++ V2.Chess.square_name from_row from_col ++ "-" ++
              V2.Chess.square_name to_row to_col] })

/-- The state built by the constructor of chess-ai-ai-v3.cpp. -/
def initial : Chess :=
  { toChess := V2.Chess.initial, pgn_moves := [] }

/-- The switch of the side to move that the game loop makes after a turn. -/
def switch_player (g : Chess) : Chess :=
  { g with current_player := if g.current_player = "white" then "black" else "white" }

/-- The calls `make_move(from_row, from_col, to_row, to_col)` of a list made one
after the other, the side to move switched after each; `none` as soon as one is
not accepted. -/
def play_moves (g : Chess) : List (Int × Int × Int × Int) → Option Chess
  | [] => some g
  | (fr, fc, tr, tc) :: rest =>
    match make_move g fr fc tr tc with
    | some (true, g2) => play_moves (switch_player g2) rest
    | _ => none

/-- The game 1.d4 d5 2.Nf3 Nf6: the white knights of b1 and f3 can both move
to d2. -/
def twoKnightsGame : List (Int × Int × Int × Int) :=
  [(6, 3, 4, 3), (1, 3, 3, 3), (7, 6, 5, 5), (0, 6, 2, 5)]

end Chess
end V3

set_option maxRecDepth 100000

/-! ## Lemmas: board access -/

theorem isValidPosition_iff (r c : Int) :
    isValidPosition r c = true ↔ 0 ≤ r ∧ r < 8 ∧ 0 ≤ c ∧ c < 8 := by
  simp [isValidPosition, and_assoc]

theorem get?_of_valid {b : Board} {r c : Int} (h : isValidPosition r c = true) :
    b.get? r c = some (b.cell r c) := by
  simp [Board.get?, h]

theorem get?_of_invalid {b : Board} {r c : Int} (h : isValidPosition r c = false) :
    b.get? r c = none := by
  simp [Board.get?, h]

theorem set?_of_valid {b : Board} {r c : Int} (v : Char) (h : isValidPosition r c = true) :
    b.set? r c v = some (b.put r c v) := by
  simp [Board.set?, h]

theorem toFin8_inj {x y : Int} (hx : 0 ≤ x ∧ x < 8) (hy : 0 ≤ y ∧ y < 8) :
    toFin8 x = toFin8 y ↔ x = y := by
  simp only [toFin8, Fin.mk.injEq]
  constructor
  · intro h
    omega
  · intro h
    rw [h]

theorem cell_put {b : Board} {r c r2 c2 : Int} (v : Char)
    (h : isValidPosition r c = true) (h2 : isValidPosition r2 c2 = true) :
    (b.put r c v).cell r2 c2 = if r2 = r ∧ c2 = c then v else b.cell r2 c2 := by
  rw [isValidPosition_iff] at h h2
  simp only [Board.cell, Board.put]
  simp only [toFin8_inj ⟨h2.1, h2.2.1⟩ ⟨h.1, h.2.1⟩,
    toFin8_inj ⟨h2.2.2.1, h2.2.2.2⟩ ⟨h.2.2.1, h.2.2.2⟩]

/-- A loop that appends a list at each iteration. -/
theorem foldlM_append_some {α β : Type} (f : List β → α → Option (List β)) (h : α → List β)
    (l : List α) (hf : ∀ acc a, a ∈ l → f acc a = some (acc ++ h a)) (init : List β) :
    l.foldlM f init = some (init ++ l.flatMap h) := by
  induction l generalizing init with
  | nil => simp
  | cons a l ih =>
    rw [List.foldlM_cons, hf init a (List.mem_cons_self _ _)]
    simp only [Option.bind_eq_bind, Option.some_bind]
    rw [ih (fun acc x hx => hf acc x (List.mem_cons_of_mem _ hx))]
    simp [List.flatMap_cons, List.append_assoc]

namespace V1
namespace Chess

/-! ## Lemmas: the generators never leave the grid and return their values -/

theorem jumpStep_eq (g : Chess) (row col : Int) (piece : Char) (moves : List Position)
    (d : Int × Int) :
    jumpStep g row col piece moves d = some (moves ++ jumpOut g.board row col piece d) := by
  unfold jumpStep jumpOut
  by_cases hv : isValidPosition (row + d.1) (col + d.2) = true
  · simp only [hv, get?_of_valid hv, if_true, Bool.true_and]
    split <;> simp_all
  · simp [hv]

theorem getKnightMoves_eq (g : Chess) (row col : Int) (piece : Char) :
    getKnightMoves g row col piece = some (knightDeltas.flatMap (jumpOut g.board row col piece)) := by
  unfold getKnightMoves
  rw [foldlM_append_some _ (jumpOut g.board row col piece) _ (fun acc a _ => jumpStep_eq g row col piece acc a)]
  simp

theorem slideRay_eq (g : Chess) (piece : Char) (dr dc : Int) (fuel : Nat) :
    ∀ (r c : Int) (moves : List Position),
      (∃ k : Nat, k < fuel ∧ isValidPosition (r + k * dr) (c + k * dc) = false) →
      slideRay g piece dr dc fuel r c moves
        = some (moves ++ slideOut g.board piece dr dc fuel r c) := by
  induction fuel with
  | zero => intro r c moves h; obtain ⟨k, hk, _⟩ := h; omega
  | succ n ih =>
    intro r c moves h
    obtain ⟨k, hk, hinv⟩ := h
    unfold slideRay slideOut
    by_cases hv : isValidPosition r c = true
    · simp only [hv, get?_of_valid hv, if_true]
      simp only [Option.bind_eq_bind, Option.some_bind]
      by_cases he : (g.board.cell r c == ' ') = true
      · simp only [he, if_true]
        have hk0 : k ≠ 0 := by
          intro h0
          subst h0
          have e0 : ((0 : Nat) : Int) = 0 := rfl
          rw [e0, Int.zero_mul, Int.zero_mul, Int.add_zero, Int.add_zero, hv] at hinv
          exact Bool.noConfusion hinv
        rw [ih (r + dr) (c + dc) _ ⟨k - 1, by omega, by
          have e1 : r + dr + ((k - 1 : Nat) : Int) * dr = r + (k : Int) * dr := by
            have : ((k - 1 : Nat) : Int) = (k : Int) - 1 := by omega
            rw [this, Int.sub_mul, Int.one_mul]; omega
          have e2 : c + dc + ((k - 1 : Nat) : Int) * dc = c + (k : Int) * dc := by
            have : ((k - 1 : Nat) : Int) = (k : Int) - 1 := by omega
            rw [this, Int.sub_mul, Int.one_mul]; omega
          rw [e1, e2]; exact hinv⟩]
        simp
      · have he2 : (g.board.cell r c == ' ') = false := by simpa using he
        simp only [he2, Bool.false_eq_true, if_false]
        split <;> simp
    · simp [hv]

theorem mem_queenDirections {d : Int × Int} (h : d ∈ queenDirections) :
    (d.1 = -1 ∨ d.1 = 0 ∨ d.1 = 1) ∧ (d.2 = -1 ∨ d.2 = 0 ∨ d.2 = 1) ∧ (d.1 ≠ 0 ∨ d.2 ≠ 0) := by
  simp only [queenDirections, List.mem_cons, List.mem_singleton, List.not_mem_nil, or_false] at h
  rcases h with h | h | h | h | h | h | h | h <;> subst h <;> simp

theorem bishop_sub_queen {d : Int × Int} (h : d ∈ bishopDirections) : d ∈ queenDirections := by
  simp only [bishopDirections, List.mem_cons, List.mem_singleton, List.not_mem_nil, or_false] at h
  rcases h with h | h | h | h <;> subst h <;> simp [queenDirections]

theorem rook_sub_queen {d : Int × Int} (h : d ∈ rookDirections) : d ∈ queenDirections := by
  simp only [rookDirections, List.mem_cons, List.mem_singleton, List.not_mem_nil, or_false] at h
  rcases h with h | h | h | h <;> subst h <;> simp [queenDirections]

theorem getSlidingMoves_eq (g : Chess) (row col : Int) (piece : Char)
    (directions : List (Int × Int)) (hd : ∀ d ∈ directions, d ∈ queenDirections)
    (hv : isValidPosition row col = true) :
    getSlidingMoves g row col piece directions
      = some (slidingOut g.board row col piece directions) := by
  unfold getSlidingMoves slidingOut
  rw [foldlM_append_some _ (fun d => slideOut g.board piece d.1 d.2 8 (row + d.1) (col + d.2))]
  · simp
  · intro acc d hmem
    apply slideRay_eq
    refine ⟨7, by decide, ?_⟩
    have hq := mem_queenDirections (hd d hmem)
    rw [isValidPosition_iff] at hv
    rw [Bool.eq_false_iff]
    intro hcontra
    rw [isValidPosition_iff] at hcontra
    push_cast at hcontra
    omega

theorem pawnForward_eq (g : Chess) (row col : Int) (piece : Char) :
    pawnForward g row col (if isWhitePiece piece then -1 else 1)
        (if isWhitePiece piece then 6 else 1)
      = some (pawnForwardOut g.board row col (if isWhitePiece piece then -1 else 1)
          (if isWhitePiece piece then 6 else 1)) := by
  unfold pawnForward pawnForwardOut
  by_cases hw : isWhitePiece piece = true
  · simp only [hw, if_true]
    by_cases hv : isValidPosition (row + -1) col = true
    · simp only [hv, get?_of_valid hv, if_true, Bool.true_and, Option.bind_eq_bind,
        Option.some_bind]
      by_cases he : (g.board.cell (row + -1) col == ' ') = true
      · simp only [he, if_true]
        by_cases hs : row = 6
        · have hv2 : isValidPosition (row + 2 * -1) col = true := by
            rw [isValidPosition_iff] at hv ⊢
            omega
          simp only [hs, if_true, decide_True, Bool.true_and] at hv2 ⊢
          rw [get?_of_valid hv2]
          simp only [Option.bind_eq_bind, Option.some_bind]
          split <;> rfl
        · rw [if_neg hs, decide_eq_false hs]
          rfl
      · simp [he]
    · simp [hv]
  · simp only [hw, Bool.false_eq_true, if_false]
    by_cases hv : isValidPosition (row + 1) col = true
    · simp only [hv, get?_of_valid hv, if_true, Bool.true_and, Option.bind_eq_bind,
        Option.some_bind]
      by_cases he : (g.board.cell (row + 1) col == ' ') = true
      · simp only [he, if_true]
        by_cases hs : row = 1
        · have hv2 : isValidPosition (row + 2 * 1) col = true := by
            rw [isValidPosition_iff] at hv ⊢
            omega
          simp only [hs, if_true, decide_True, Bool.true_and] at hv2 ⊢
          rw [get?_of_valid hv2]
          simp only [Option.bind_eq_bind, Option.some_bind]
          split <;> rfl
        · rw [if_neg hs, decide_eq_false hs]
          rfl
      · simp [he]
    · simp [hv]

theorem pawnCaptureStep_eq (g : Chess) (row col : Int) (piece : Char) (direction : Int)
    (moves : List Position) (dc : Int) :
    pawnCaptureStep g row col piece direction moves dc
      = some (moves ++ pawnCaptureOut g.board g.enPassantTarget row col piece direction dc) := by
  unfold pawnCaptureStep pawnCaptureOut
  by_cases hv : isValidPosition (row + direction) (col + dc) = true
  · simp only [hv, get?_of_valid hv, if_true, Bool.true_and, Option.bind_eq_bind,
      Option.some_bind]
    by_cases h1 : (g.board.cell (row + direction) (col + dc) != ' ' &&
        getPieceColor (g.board.cell (row + direction) (col + dc)) != getPieceColor piece) = true
    · simp [h1]
    · have h1f : (g.board.cell (row + direction) (col + dc) != ' ' &&
        getPieceColor (g.board.cell (row + direction) (col + dc)) != getPieceColor piece) = false := by
        simpa using h1
      simp only [h1f, Bool.false_eq_true, if_false, Bool.false_or]
      by_cases h2 : g.enPassantTarget = ⟨row + direction, col + dc⟩
      · simp [h2]
      · simp [h2]
  · simp [hv]

theorem getPawnMoves_eq (g : Chess) (row col : Int) (piece : Char) :
    getPawnMoves g row col piece = some (pawnOut g.board g.enPassantTarget row col piece) := by
  unfold getPawnMoves pawnOut
  simp only [pawnForward_eq, Option.bind_eq_bind, Option.some_bind]
  rw [foldlM_append_some _ (pawnCaptureOut g.board g.enPassantTarget row col piece
    (if isWhitePiece piece then -1 else 1)) _
    (fun acc a _ => pawnCaptureStep_eq g row col piece _ acc a)]

theorem castlingMoves_eq (g : Chess) (home : Int) (rook : Char) (ks qs : Bool)
    (hh : home = 7 ∨ home = 0) :
    castlingMoves g home rook ks qs = some (castlingOut g.board home rook ks qs) := by
  have hv : ∀ c : Int, 0 ≤ c ∧ c < 8 → isValidPosition home c = true := by
    intro c hc
    rw [isValidPosition_iff]
    omega
  unfold castlingMoves castlingOut
  simp only [get?_of_valid (hv 0 (by omega)), get?_of_valid (hv 1 (by omega)),
    get?_of_valid (hv 2 (by omega)), get?_of_valid (hv 3 (by omega)),
    get?_of_valid (hv 5 (by omega)), get?_of_valid (hv 6 (by omega)),
    get?_of_valid (hv 7 (by omega)), Option.bind_eq_bind, Option.some_bind, Option.pure_def]

theorem getKingMoves_eq (g : Chess) (row col : Int) (piece : Char) (includeCastling : Bool) :
    getKingMoves g row col piece includeCastling
      = some (kingOut g row col piece includeCastling) := by
  unfold getKingMoves kingOut kingCastleOut
  rw [foldlM_append_some _ (jumpOut g.board row col piece) _
    (fun acc a _ => jumpStep_eq g row col piece acc a)]
  simp only [List.nil_append, Option.bind_eq_bind, Option.some_bind]
  cases includeCastling with
  | false => simp
  | true =>
    simp only [if_true]
    by_cases h1 : piece = 'K' ∧ row = 7 ∧ col = 4
    · simp only [h1, and_self, if_true, castlingMoves_eq g 7 'R' _ _ (Or.inl rfl),
        Option.bind_eq_bind, Option.some_bind, Option.pure_def]
    · simp only [h1, if_false]
      by_cases h2 : piece = 'k' ∧ row = 0 ∧ col = 4
      · simp only [h2, and_self, if_true, castlingMoves_eq g 0 'r' _ _ (Or.inr rfl),
          Option.bind_eq_bind, Option.some_bind, Option.pure_def]
      · simp [h2]

theorem getPieceMoves_eq (g : Chess) (row col : Int) (hv : isValidPosition row col = true) :
    getPieceMoves g row col = some (pieceOut g row col) := by
  unfold getPieceMoves pieceOut officerOut
  simp only [get?_of_valid hv, Option.bind_eq_bind, Option.some_bind, getPawnMoves_eq,
    getKnightMoves_eq, getKingMoves_eq, getBishopMoves, getRookMoves, getQueenMoves,
    getSlidingMoves_eq g row col _ _ (fun d hd => bishop_sub_queen hd) hv,
    getSlidingMoves_eq g row col _ _ (fun d hd => rook_sub_queen hd) hv,
    getSlidingMoves_eq g row col _ _ (fun d hd => hd) hv, Option.pure_def]
  split
  · rfl
  · split
    · rfl
    · split
      · have hk : (g.board.cell row col).toUpper ≠ 'K' := by
          intro hk
          simp_all
        simp [hk]
      · split
        · have hk : (g.board.cell row col).toUpper ≠ 'K' := by
            intro hk
            simp_all
          simp [hk]
        · split
          · have hk : (g.board.cell row col).toUpper ≠ 'K' := by
              intro hk
              simp_all
            simp [hk]
          · split
            · have hk : (g.board.cell row col).toUpper ≠ 'K' := by
                intro hk
                simp_all
              simp [hk]
            · split <;> simp_all

theorem getPieceMoves_none (g : Chess) (row col : Int) (hv : isValidPosition row col = false) :
    getPieceMoves g row col = none := by
  unfold getPieceMoves
  simp [get?_of_invalid hv]
theorem mem_range8 {i : Int} (h : i ∈ range8) : 0 ≤ i ∧ i < 8 := by
  simp only [range8, List.mem_cons, List.mem_singleton, List.not_mem_nil, or_false] at h
  omega

theorem mem_range8_iff {i : Int} : i ∈ range8 ↔ 0 ≤ i ∧ i < 8 := by
  constructor
  · exact mem_range8
  · intro h
    have : i = 0 ∨ i = 1 ∨ i = 2 ∨ i = 3 ∨ i = 4 ∨ i = 5 ∨ i = 6 ∨ i = 7 := by omega
    simpa [range8] using this

theorem mem_allSquares_iff {sq : Int × Int} :
    sq ∈ allSquares ↔ isValidPosition sq.1 sq.2 = true := by
  rw [isValidPosition_iff]
  unfold allSquares
  simp only [List.mem_flatMap, List.mem_map]
  constructor
  · rintro ⟨i, hi, j, hj, rfl⟩
    have := mem_range8 hi
    have := mem_range8 hj
    simp only
    omega
  · intro h
    exact ⟨sq.1, mem_range8_iff.2 ⟨h.1, h.2.1⟩, sq.2, mem_range8_iff.2 ⟨h.2.2.1, h.2.2.2⟩, rfl⟩

theorem attackMoves_eq (g : Chess) (i j : Int) (hv : isValidPosition i j = true) :
    attackMoves g i j (g.board.cell i j) = some (attackOut g.board i j) := by
  unfold attackMoves attackOut
  simp only [getKingMoves_eq, getPieceMoves_eq g i j hv, Option.pure_def]
  split
  · rfl
  · split
    · simp [kingOut]
    · rename_i hp hk
      have hk2 : ((g.board.cell i j).toUpper == 'K') = false := by simpa using hk
      have hp2 : ((g.board.cell i j).toUpper == 'P') = false := by simpa using hp
      simp only [pieceOut, hk2, hp2, Bool.false_eq_true, if_false]
      split
      · rename_i hs
        have hs2 : g.board.cell i j = ' ' := by simpa using hs
        simp [officerOut, hs2]
      · rfl

theorem attackScan_eq (g : Chess) (row col : Int) (byColor : String) (l : List (Int × Int))
    (hl : ∀ sq ∈ l, isValidPosition sq.1 sq.2 = true) :
    attackScan g row col byColor l = some (l.any (attacksFrom g.board row col byColor)) := by
  induction l with
  | nil => simp [attackScan]
  | cons sq rest ih =>
    obtain ⟨i, j⟩ := sq
    have hv : isValidPosition i j = true := hl (i, j) (List.mem_cons_self _ _)
    have ih2 := ih (fun sq hsq => hl sq (List.mem_cons_of_mem _ hsq))
    unfold attackScan
    simp only [get?_of_valid hv, Option.bind_eq_bind, Option.some_bind, List.any_cons,
      attacksFrom, ih2]
    by_cases hc : (g.board.cell i j != ' ' && getPieceColor (g.board.cell i j) == byColor) = true
    · simp only [hc, if_true, attackMoves_eq g i j hv, Option.some_bind, Bool.true_and]
      split
      · rename_i h
        simp [h]
      · rename_i h
        have h2 : ((attackOut g.board i j).any fun pos => pos.row == row && pos.col == col) = false := by
          simpa using h
        rw [h2]
        simp only [Bool.false_or]
    · have hc2 : (g.board.cell i j != ' ' && getPieceColor (g.board.cell i j) == byColor) = false := by
        simpa using hc
      simp only [hc2, Bool.false_eq_true, if_false, Bool.false_and, Bool.false_or]

theorem isSquareAttacked_eq (g : Chess) (row col : Int) (byColor : String) :
    isSquareAttacked g row col byColor = some (attackedOut g.board row col byColor) := by
  unfold isSquareAttacked attackedOut
  exact attackScan_eq g row col byColor allSquares (fun sq h => mem_allSquares_iff.1 h)

theorem isInCheck_eq (g : Chess) (color : String) :
    isInCheck g color = some (inCheckOut g color) := by
  unfold isInCheck inCheckOut
  exact isSquareAttacked_eq g _ _ _
/-! ## Lemmas: every generated destination is on the board -/

theorem jumpOut_mem {b : Board} {row col : Int} {piece : Char} {d : Int × Int} {pos : Position}
    (h : pos ∈ jumpOut b row col piece d) :
    pos = ⟨row + d.1, col + d.2⟩ ∧ isValidPosition pos.row pos.col = true ∧
      (b.cell pos.row pos.col = ' ' ∨
        getPieceColor (b.cell pos.row pos.col) ≠ getPieceColor piece) := by
  unfold jumpOut at h
  split at h
  · rename_i hc
    simp only [List.mem_singleton] at h
    subst h
    simpa using hc
  · simp at h

theorem slideOut_valid {b : Board} {piece : Char} {dr dc : Int} (fuel : Nat) :
    ∀ (r c : Int) (pos : Position), pos ∈ slideOut b piece dr dc fuel r c →
      isValidPosition pos.row pos.col = true ∧
      (b.cell pos.row pos.col = ' ' ∨
        getPieceColor (b.cell pos.row pos.col) ≠ getPieceColor piece) := by
  induction fuel with
  | zero => intro r c pos h; simp [slideOut] at h
  | succ n ih =>
    intro r c pos h
    unfold slideOut at h
    split at h
    · rename_i hv
      split at h
      · rename_i he
        rcases List.mem_cons.1 h with h1 | h1
        · subst h1
          exact ⟨hv, Or.inl (by simpa using he)⟩
        · exact ih _ _ _ h1
      · split at h
        · rename_i hc
          simp only [List.mem_singleton] at h
          subst h
          exact ⟨hv, Or.inr (by simpa using hc)⟩
        · simp at h
    · simp at h

theorem slidingOut_valid {b : Board} {row col : Int} {piece : Char}
    {directions : List (Int × Int)} {pos : Position}
    (h : pos ∈ slidingOut b row col piece directions) :
    isValidPosition pos.row pos.col = true ∧
      (b.cell pos.row pos.col = ' ' ∨
        getPieceColor (b.cell pos.row pos.col) ≠ getPieceColor piece) := by
  unfold slidingOut at h
  obtain ⟨d, _, hd⟩ := List.mem_flatMap.1 h
  exact slideOut_valid _ _ _ _ hd

theorem officerOut_valid {b : Board} {row col : Int} {piece : Char} {pos : Position}
    (h : pos ∈ officerOut b row col piece) :
    isValidPosition pos.row pos.col = true ∧
      (b.cell pos.row pos.col = ' ' ∨
        getPieceColor (b.cell pos.row pos.col) ≠ getPieceColor piece) := by
  unfold officerOut at h
  split at h
  · obtain ⟨d, _, hd⟩ := List.mem_flatMap.1 h
    exact (jumpOut_mem hd).2
  · split at h
    · exact slidingOut_valid h
    · split at h
      · exact slidingOut_valid h
      · split at h
        · exact slidingOut_valid h
        · simp at h

theorem pawnForwardOut_mem {b : Board} {row col direction startRow : Int} {pos : Position}
    (h : pos ∈ pawnForwardOut b row col direction startRow) :
    isValidPosition (row + direction) col = true ∧ b.cell (row + direction) col = ' ' ∧
      (pos = ⟨row + direction, col⟩ ∨
        (pos = ⟨row + 2 * direction, col⟩ ∧ row = startRow ∧
          b.cell (row + 2 * direction) col = ' ')) := by
  unfold pawnForwardOut at h
  by_cases hc : (isValidPosition (row + direction) col &&
      b.cell (row + direction) col == ' ') = true
  · rw [if_pos hc] at h
    simp only [Bool.and_eq_true, beq_iff_eq] at hc
    refine ⟨hc.1, hc.2, ?_⟩
    by_cases hc2 : (decide (row = startRow) && b.cell (row + 2 * direction) col == ' ') = true
    · rw [if_pos hc2] at h
      simp only [Bool.and_eq_true, decide_eq_true_eq, beq_iff_eq] at hc2
      simp only [List.mem_cons, List.mem_singleton, List.not_mem_nil, or_false] at h
      rcases h with h | h
      · exact Or.inl h
      · exact Or.inr ⟨h, hc2.1, hc2.2⟩
    · rw [if_neg hc2] at h
      simp only [List.mem_singleton] at h
      exact Or.inl h
  · rw [if_neg hc] at h
    simp at h

theorem pawnCaptureOut_mem {b : Board} {ep : Position} {row col : Int} {piece : Char}
    {direction dc : Int} {pos : Position}
    (h : pos ∈ pawnCaptureOut b ep row col piece direction dc) :
    pos = ⟨row + direction, col + dc⟩ ∧ isValidPosition pos.row pos.col = true ∧
      ((b.cell pos.row pos.col ≠ ' ' ∧
          getPieceColor (b.cell pos.row pos.col) ≠ getPieceColor piece) ∨ ep = pos) := by
  unfold pawnCaptureOut at h
  by_cases hc : (isValidPosition (row + direction) (col + dc) &&
      ((b.cell (row + direction) (col + dc) != ' ' &&
          getPieceColor (b.cell (row + direction) (col + dc)) != getPieceColor piece) ||
        decide (ep = ⟨row + direction, col + dc⟩))) = true
  · rw [if_pos hc] at h
    simp only [List.mem_singleton] at h
    subst h
    simpa using hc
  · rw [if_neg hc] at h
    simp at h

/-- A pawn destination is on the board, one or two rows ahead of the origin,
and two rows ahead only in its own column from its home row. -/
theorem pawnOut_mem {b : Board} {ep : Position} {row col : Int} {piece : Char} {pos : Position}
    (h : pos ∈ pawnOut b ep row col piece) :
    isValidPosition pos.row pos.col = true ∧
      (pos.row = row + (if isWhitePiece piece then -1 else 1) ∨
        (pos.row = row + 2 * (if isWhitePiece piece then -1 else 1) ∧ pos.col = col ∧
          row = (if isWhitePiece piece then 6 else 1))) := by
  unfold pawnOut at h
  rcases List.mem_append.1 h with h1 | h1
  · obtain ⟨hv, _, h2 | ⟨h2, hs, _⟩⟩ := pawnForwardOut_mem h1
    · subst h2
      exact ⟨hv, Or.inl rfl⟩
    · subst h2
      refine ⟨?_, Or.inr ⟨rfl, rfl, hs⟩⟩
      rw [isValidPosition_iff] at hv ⊢
      simp only
      by_cases hw : isWhitePiece piece = true
      · rw [if_pos hw] at hv hs
        rw [if_pos hw]
        omega
      · rw [if_neg hw] at hv hs
        rw [if_neg hw]
        omega
  · obtain ⟨dc, _, hd⟩ := List.mem_flatMap.1 h1
    obtain ⟨hp, hv, _⟩ := pawnCaptureOut_mem hd
    refine ⟨hv, Or.inl ?_⟩
    rw [hp]

theorem castlingOut_mem {b : Board} {home : Int} {rook : Char} {ks qs : Bool} {pos : Position}
    (h : pos ∈ castlingOut b home rook ks qs) :
    (pos = ⟨home, 6⟩ ∧ ks = true ∧ b.cell home 5 = ' ' ∧ b.cell home 6 = ' ' ∧
        b.cell home 7 = rook) ∨
    (pos = ⟨home, 2⟩ ∧ qs = true ∧ b.cell home 1 = ' ' ∧ b.cell home 2 = ' ' ∧
        b.cell home 3 = ' ' ∧ b.cell home 0 = rook) := by
  unfold castlingOut at h
  rcases List.mem_append.1 h with h1 | h1
  · split at h1
    · rename_i hc
      simp only [Bool.and_eq_true, beq_iff_eq] at hc
      simp only [List.mem_singleton] at h1
      exact Or.inl ⟨h1, hc.1.1.1, hc.1.1.2, hc.1.2, hc.2⟩
    · simp at h1
  · split at h1
    · rename_i hc
      simp only [Bool.and_eq_true, beq_iff_eq] at hc
      simp only [List.mem_singleton] at h1
      exact Or.inr ⟨h1, hc.1.1.1.1, hc.1.1.1.2, hc.1.1.2, hc.1.2, hc.2⟩
    · simp at h1

theorem kingCastleOut_mem {g : Chess} {row col : Int} {piece : Char} {pos : Position}
    (h : pos ∈ kingCastleOut g row col piece) :
    (piece = 'K' ∧ row = 7 ∧ col = 4 ∧
        pos ∈ castlingOut g.board 7 'R' g.whiteCanCastleKingside g.whiteCanCastleQueenside) ∨
    (piece = 'k' ∧ row = 0 ∧ col = 4 ∧
        pos ∈ castlingOut g.board 0 'r' g.blackCanCastleKingside g.blackCanCastleQueenside) := by
  unfold kingCastleOut at h
  split at h
  · rename_i hc
    exact Or.inl ⟨hc.1, hc.2.1, hc.2.2, h⟩
  · split at h
    · rename_i hc
      exact Or.inr ⟨hc.1, hc.2.1, hc.2.2, h⟩
    · simp at h

theorem kingCastleOut_valid {g : Chess} {row col : Int} {piece : Char} {pos : Position}
    (h : pos ∈ kingCastleOut g row col piece) :
    isValidPosition pos.row pos.col = true ∧ g.board.cell pos.row pos.col = ' ' := by
  rcases kingCastleOut_mem h with ⟨_, _, _, h1⟩ | ⟨_, _, _, h1⟩ <;>
    rcases castlingOut_mem h1 with ⟨hp, _, _, h6, _⟩ | ⟨hp, _, _, h2, _⟩ <;>
    subst hp <;> simp_all [isValidPosition]

theorem pieceOut_valid {g : Chess} {row col : Int} {pos : Position}
    (h : pos ∈ pieceOut g row col) : isValidPosition pos.row pos.col = true := by
  unfold pieceOut at h
  simp only at h
  split at h
  · simp at h
  · split at h
    · exact (pawnOut_mem h).1
    · split at h
      · unfold kingOut at h
        rcases List.mem_append.1 h with h1 | h1
        · obtain ⟨d, _, hd⟩ := List.mem_flatMap.1 h1
          exact (jumpOut_mem hd).2.1
        · simp only [if_true] at h1
          exact (kingCastleOut_valid h1).1
      · exact (officerOut_valid h).1
/-! ## Lemmas: the legality filter -/

/-- The passed pawn's square of an en-passant capture is on the board. -/
theorem victim_valid {g : Chess} {i j : Int} {pos : Position}
    (hv : isValidPosition i j = true) (hpos : pos ∈ pieceOut g i j)
    (hp : ((g.board.cell i j).toUpper == 'P') = true) :
    isValidPosition (if isWhitePiece (g.board.cell i j) then pos.row + 1 else pos.row - 1)
      pos.col = true := by
  unfold pieceOut at hpos
  simp only at hpos
  by_cases hs : (g.board.cell i j == ' ') = true
  · rw [if_pos hs] at hpos
    simp at hpos
  · rw [if_neg hs, if_pos hp] at hpos
    obtain ⟨hv2, hrow⟩ := pawnOut_mem hpos
    rw [isValidPosition_iff] at hv hv2 ⊢
    by_cases hw : isWhitePiece (g.board.cell i j) = true
    · rw [if_pos hw] at hrow ⊢
      omega
    · rw [if_neg hw] at hrow ⊢
      omega

theorem simulate_eq (g : Chess) (i j : Int) (pos : Position)
    (hv : isValidPosition i j = true) (hpos : pos ∈ pieceOut g i j) :
    simulate g i j (g.board.cell i j) pos = some (simulateMove g i j pos) := by
  have hvp := pieceOut_valid hpos
  obtain ⟨pr, pc⟩ := pos
  simp only at hvp
  have hfin : ∀ B : Board,
      (if g.board.cell i j = 'K' then
          (some { g with board := B, whiteKingPos := ⟨pr, pc⟩ } : Option Chess)
        else if g.board.cell i j = 'k' then some { g with board := B, blackKingPos := ⟨pr, pc⟩ }
        else some { g with board := B })
      = some { g with
          board := B
          whiteKingPos := if g.board.cell i j = 'K' then ⟨pr, pc⟩ else g.whiteKingPos
          blackKingPos := if g.board.cell i j = 'k' then ⟨pr, pc⟩ else g.blackKingPos } := by
    intro B
    by_cases hK : g.board.cell i j = 'K'
    · have hk : g.board.cell i j ≠ 'k' := by rw [hK]; decide
      rw [if_pos hK, if_pos hK, if_neg hk]
    · by_cases hk : g.board.cell i j = 'k'
      · rw [if_neg hK, if_pos hk, if_neg hK, if_pos hk]
      · rw [if_neg hK, if_neg hk, if_neg hK, if_neg hk]
  unfold simulate simulateMove isEnPassantCapture
  simp only [get?_of_valid hvp, Option.bind_eq_bind, Option.some_bind, Option.pure_def]
  by_cases hep : ((g.board.cell i j).toUpper == 'P' &&
      decide (g.enPassantTarget = ⟨pr, pc⟩) && g.board.cell pr pc == ' ') = true
  · have hp : ((g.board.cell i j).toUpper == 'P') = true := by
      simp only [Bool.and_eq_true] at hep
      exact hep.1.1
    have hvv := victim_valid hv hpos hp
    simp only at hvv
    rw [if_pos hep, if_pos hep]
    by_cases hw : isWhitePiece (g.board.cell i j) = true
    · rw [if_pos hw] at hvv
      rw [if_pos hw, if_pos hw, set?_of_valid _ hvv]
      simp only [Option.some_bind, set?_of_valid _ hvp, set?_of_valid _ hv]
      exact hfin _
    · rw [if_neg hw] at hvv
      rw [if_neg hw, if_neg hw, set?_of_valid _ hvv]
      simp only [Option.some_bind, set?_of_valid _ hvp, set?_of_valid _ hv]
      exact hfin _
  · rw [if_neg hep, if_neg hep]
    simp only [Option.some_bind, set?_of_valid _ hvp, set?_of_valid _ hv]
    exact hfin _

theorem restoreSnapshot_simulateMove (g : Chess) (i j : Int) (pos : Position) :
    restoreSnapshot g (simulateMove g i j pos) = g := by
  cases g
  rfl

theorem tryMove_eq (g : Chess) (color : String) (i j : Int) (moves : List Move) (pos : Position)
    (hv : isValidPosition i j = true) (hpos : pos ∈ pieceOut g i j) :
    tryMove color i j (g.board.cell i j) (moves, g) pos
      = some (moves ++ (if inCheckOut (simulateMove g i j pos) color then []
          else [⟨i, j, pos.row, pos.col, 0⟩]), g) := by
  unfold tryMove
  simp only [simulate_eq g i j pos hv hpos, isInCheck_eq, Option.bind_eq_bind, Option.some_bind,
    Option.pure_def, restoreSnapshot_simulateMove]
  cases inCheckOut (simulateMove g i j pos) color <;> simp

/-- A loop over a list that threads an unchanged state and appends to a list. -/
theorem foldlM_state_some {α β σ : Type} (f : List β × σ → α → Option (List β × σ))
    (h : α → List β) (s : σ) (l : List α)
    (hf : ∀ acc a, a ∈ l → f (acc, s) a = some (acc ++ h a, s)) (init : List β) :
    l.foldlM f (init, s) = some (init ++ l.flatMap h, s) := by
  induction l generalizing init with
  | nil => simp
  | cons a l ih =>
    rw [List.foldlM_cons, hf init a (List.mem_cons_self _ _)]
    simp only [Option.bind_eq_bind, Option.some_bind]
    rw [ih (fun acc x hx => hf acc x (List.mem_cons_of_mem _ hx))]
    simp [List.flatMap_cons, List.append_assoc]

theorem foldlM_state_nil {α β σ : Type} (f : List β × σ → α → Option (List β × σ))
    (h : α → List β) (s : σ) (l : List α)
    (hf : ∀ acc a, a ∈ l → f (acc, s) a = some (acc ++ h a, s)) :
    l.foldlM f ([], s) = some (l.flatMap h, s) := by
  rw [foldlM_state_some f h s l hf [], List.nil_append]

theorem legalFrom_eq (g : Chess) (color : String) (sq : Int × Int)
    (hv : isValidPosition sq.1 sq.2 = true) :
    legalFrom g color sq =
      if g.board.cell sq.1 sq.2 != ' ' && getPieceColor (g.board.cell sq.1 sq.2) == color then
        (pieceOut g sq.1 sq.2).flatMap (fun pos =>
          if inCheckOut (simulateMove g sq.1 sq.2 pos) color then []
          else [(⟨sq.1, sq.2, pos.row, pos.col, 0⟩ : Move)])
      else [] := by
  unfold legalFrom
  simp only [getPieceMoves_eq g sq.1 sq.2 hv, Option.getD_some, isInCheck_eq]
  split
  · generalize pieceOut g sq.1 sq.2 = l
    induction l with
    | nil => simp
    | cons p l ih =>
      rw [List.flatMap_cons, ← ih]
      cases hc : inCheckOut (simulateMove g sq.1 sq.2 p) color <;> simp [List.filter_cons, hc]
  · rfl

theorem squareMoves_eq (g : Chess) (color : String) (moves : List Move) (sq : Int × Int)
    (hv : isValidPosition sq.1 sq.2 = true) :
    squareMoves color (moves, g) sq = some (moves ++ legalFrom g color sq, g) := by
  rw [legalFrom_eq g color sq hv]
  unfold squareMoves
  simp only [get?_of_valid hv, getPieceMoves_eq g sq.1 sq.2 hv, Option.bind_eq_bind,
    Option.some_bind, Option.pure_def]
  split
  · exact foldlM_state_some _ _ g _ (fun acc pos hpos => tryMove_eq g color sq.1 sq.2 acc pos hv hpos) moves
  · simp

/-- The legality filter returns the specified list and restores the state. -/
theorem getAllValidMoves_eq (g : Chess) (color : String) :
    getAllValidMoves g color = some (legalMovesSpec g color, g) := by
  exact foldlM_state_nil (squareMoves color) (legalFrom g color) g allSquares
    (fun acc sq hsq => squareMoves_eq g color acc sq (mem_allSquares_iff.1 hsq))
/-! ## Lemmas: `makeMove` returns its value for every on-board origin -/

theorem any_pos_iff (l : List Position) (r c : Int) :
    l.any (fun pos => pos.row == r && pos.col == c) = true ↔ (⟨r, c⟩ : Position) ∈ l := by
  rw [List.any_eq_true]
  constructor
  · rintro ⟨⟨pr, pc⟩, hmem, h⟩
    simp only [Bool.and_eq_true, beq_iff_eq] at h
    obtain ⟨h1, h2⟩ := h
    subst h1
    subst h2
    exact hmem
  · intro h
    exact ⟨⟨r, c⟩, h, by simp⟩

theorem handleCaptures_eq (g : Chess) (fr fc tr tc : Int)
    (hv : isValidPosition fr fc = true) (hpos : (⟨tr, tc⟩ : Position) ∈ pieceOut g fr fc) :
    handleCaptures g (g.board.cell fr fc) tr tc
      = some (handleCapturesOut g (g.board.cell fr fc) tr tc) := by
  have hvp := pieceOut_valid hpos
  simp only at hvp
  have hep0 : ∀ c : Char, (if (c != ' ') = true then pushCaptured g c else g).enPassantTarget
      = g.enPassantTarget := by
    intro c
    split <;> rfl
  have hb0 : ∀ c : Char, (if (c != ' ') = true then pushCaptured g c else g).board = g.board := by
    intro c
    split <;> rfl
  unfold handleCaptures handleCapturesOut
  simp only [get?_of_valid hvp, Option.bind_eq_bind, Option.some_bind, Option.pure_def, hep0, hb0]
  by_cases hep : ((g.board.cell fr fc).toUpper == 'P' &&
      decide (g.enPassantTarget = ⟨tr, tc⟩) && g.board.cell tr tc == ' ') = true
  · have hp : ((g.board.cell fr fc).toUpper == 'P') = true := by
      simp only [Bool.and_eq_true] at hep
      exact hep.1.1
    have hvv := victim_valid hv hpos hp
    simp only at hvv
    rw [if_pos hep, if_pos hep, get?_of_valid hvv, set?_of_valid _ hvv]
    rfl
  · rw [if_neg hep, if_neg hep]

theorem movePiece_eq (g : Chess) (piece : Char) (fr fc tr tc : Int)
    (hv : isValidPosition fr fc = true) (hvp : isValidPosition tr tc = true) :
    movePiece g piece fr fc tr tc = some (movePieceOut g piece fr fc tr tc) := by
  unfold movePiece movePieceOut
  simp only [set?_of_valid _ hvp, set?_of_valid _ hv, Option.bind_eq_bind, Option.some_bind,
    Option.pure_def]

theorem updateKing_eq (g : Chess) (piece : Char) (fromCol toRow toCol : Int) :
    updateKing g piece fromCol toRow toCol = some (updateKingOut g piece fromCol toRow toCol) := by
  have hv7 : ∀ c : Int, 0 ≤ c ∧ c < 8 → isValidPosition 7 c = true := by
    intro c hc
    rw [isValidPosition_iff]
    omega
  have hv0 : ∀ c : Int, 0 ≤ c ∧ c < 8 → isValidPosition 0 c = true := by
    intro c hc
    rw [isValidPosition_iff]
    omega
  unfold updateKing updateKingOut castleRookOut
  simp only [set?_of_valid _ (hv7 0 (by omega)), set?_of_valid _ (hv7 3 (by omega)),
    set?_of_valid _ (hv7 5 (by omega)), set?_of_valid _ (hv7 7 (by omega)),
    set?_of_valid _ (hv0 0 (by omega)), set?_of_valid _ (hv0 3 (by omega)),
    set?_of_valid _ (hv0 5 (by omega)), set?_of_valid _ (hv0 7 (by omega)),
    Option.bind_eq_bind, Option.some_bind, Option.pure_def]
  by_cases hK : piece = 'K'
  · rw [if_pos hK, if_pos hK]
    by_cases h6 : fromCol = 4 ∧ toCol = 6
    · rw [if_pos h6, if_pos h6]
    · rw [if_neg h6, if_neg h6]
      by_cases h2 : fromCol = 4 ∧ toCol = 2
      · rw [if_pos h2, if_pos h2]
      · rw [if_neg h2, if_neg h2]
  · rw [if_neg hK, if_neg hK]
    by_cases hk : piece = 'k'
    · rw [if_pos hk, if_pos hk]
      by_cases h6 : fromCol = 4 ∧ toCol = 6
      · rw [if_pos h6, if_pos h6]
      · rw [if_neg h6, if_neg h6]
        by_cases h2 : fromCol = 4 ∧ toCol = 2
        · rw [if_pos h2, if_pos h2]
        · rw [if_neg h2, if_neg h2]
    · rw [if_neg hk, if_neg hk]

theorem applyMove_eq (g : Chess) (fr fc tr tc : Int)
    (hv : isValidPosition fr fc = true) (hpos : (⟨tr, tc⟩ : Position) ∈ pieceOut g fr fc) :
    applyMove g (g.board.cell fr fc) fr fc tr tc
      = some (applyOut g (g.board.cell fr fc) fr fc tr tc) := by
  have hvp := pieceOut_valid hpos
  simp only at hvp
  unfold applyMove applyOut
  simp only [handleCaptures_eq g fr fc tr tc hv hpos, movePiece_eq _ _ fr fc tr tc hv hvp,
    updateKing_eq, Option.bind_eq_bind, Option.some_bind, Option.pure_def]

theorem promote_eq (g : Chess) (piece : Char) (tr tc : Int)
    (hvp : isValidPosition tr tc = true) :
    promote g piece tr tc = some (promoteOut g piece tr tc) := by
  unfold promote promoteOut
  simp only [set?_of_valid _ hvp, Option.bind_eq_bind, Option.some_bind, Option.pure_def]
  split
  · rfl
  · split <;> rfl

theorem makeMove_eq (g : Chess) (fr fc tr tc : Int) (hv : isValidPosition fr fc = true) :
    makeMove g fr fc tr tc = some (makeMoveOut g fr fc tr tc) := by
  unfold makeMove makeMoveOut
  simp only [get?_of_valid hv, getPieceMoves_eq g fr fc hv, Option.bind_eq_bind,
    Option.some_bind, Option.pure_def]
  by_cases h1 : (g.board.cell fr fc == ' ') = true
  · rw [if_pos h1, if_pos h1]
  · rw [if_neg h1, if_neg h1]
    by_cases h2 : (getPieceColor (g.board.cell fr fc) != g.currentPlayer) = true
    · rw [if_pos h2, if_pos h2]
    · rw [if_neg h2, if_neg h2]
      by_cases h3 : (!((pieceOut g fr fc).any (fun pos => pos.row == tr && pos.col == tc))) = true
      · rw [if_pos h3, if_pos h3]
      · rw [if_neg h3, if_neg h3]
        have hpos : (⟨tr, tc⟩ : Position) ∈ pieceOut g fr fc := by
          rw [← any_pos_iff]
          simpa using h3
        have hvp := pieceOut_valid hpos
        simp only at hvp
        simp only [applyMove_eq g fr fc tr tc hv hpos, isInCheck_eq, Option.some_bind]
        split
        · rfl
        · rw [promote_eq _ _ tr tc hvp]
          rfl

/-- With an off-board origin the first statement of `makeMove` reads the board
outside the grid. -/
theorem makeMove_none (g : Chess) (fr fc tr tc : Int) (hv : isValidPosition fr fc = false) :
    makeMove g fr fc tr tc = none := by
  unfold makeMove
  simp [get?_of_invalid hv]
/-! ## Lemmas: the attack oracle sees only colours and the attacker's pieces -/

theorem getPieceColor_eq_empty_iff (c : Char) : getPieceColor c = "" ↔ c = ' ' := by
  unfold getPieceColor
  constructor
  · intro h
    by_contra hc
    have hc2 : (c == ' ') = false := by simpa using hc
    rw [hc2] at h
    simp only [Bool.false_eq_true, if_false] at h
    split at h
    · exact absurd h (by decide)
    · exact absurd h (by decide)
  · intro h
    subst h
    rfl

theorem blank_congr {c d : Char} (h : getPieceColor c = getPieceColor d) :
    (c == ' ') = (d == ' ') := by
  have h1 := getPieceColor_eq_empty_iff c
  have h2 := getPieceColor_eq_empty_iff d
  rw [h] at h1
  have : c = ' ' ↔ d = ' ' := h1.symm.trans h2
  by_cases hc : c = ' '
  · have hd := this.1 hc
    simp [hc, hd]
  · have hd : ¬ d = ' ' := fun hd => hc (this.2 hd)
    simp [hc, hd]

theorem jumpOut_congr {b b2 : Board} (h : SameColors b b2) (row col : Int) (piece : Char)
    (d : Int × Int) : jumpOut b row col piece d = jumpOut b2 row col piece d := by
  unfold jumpOut
  by_cases hv : isValidPosition (row + d.1) (col + d.2) = true
  · rw [blank_congr (h _ _ hv), h _ _ hv]
  · have hv2 : isValidPosition (row + d.1) (col + d.2) = false := by simpa using hv
    simp [hv2]

theorem slideOut_congr {b b2 : Board} (h : SameColors b b2) (piece : Char) (dr dc : Int)
    (fuel : Nat) : ∀ r c : Int,
      slideOut b piece dr dc fuel r c = slideOut b2 piece dr dc fuel r c := by
  induction fuel with
  | zero => intro r c; rfl
  | succ n ih =>
    intro r c
    unfold slideOut
    by_cases hv : isValidPosition r c = true
    · rw [if_pos hv, if_pos hv, blank_congr (h _ _ hv), h _ _ hv, ih]
    · rw [if_neg hv, if_neg hv]

theorem slidingOut_congr {b b2 : Board} (h : SameColors b b2) (row col : Int) (piece : Char)
    (directions : List (Int × Int)) :
    slidingOut b row col piece directions = slidingOut b2 row col piece directions := by
  unfold slidingOut
  congr 1
  funext d
  exact slideOut_congr h piece d.1 d.2 8 _ _

theorem officerOut_congr {b b2 : Board} (h : SameColors b b2) (row col : Int) (piece : Char) :
    officerOut b row col piece = officerOut b2 row col piece := by
  unfold officerOut
  rw [slidingOut_congr h, slidingOut_congr h, slidingOut_congr h]
  have : jumpOut b row col piece = jumpOut b2 row col piece := by
    funext d
    exact jumpOut_congr h row col piece d
  rw [this]

theorem attackOut_congr {b b2 : Board} (h : SameColors b b2) (i j : Int)
    (hp : b.cell i j = b2.cell i j) : attackOut b i j = attackOut b2 i j := by
  unfold attackOut
  simp only
  rw [← hp, officerOut_congr h]
  have : jumpOut b i j (b.cell i j) = jumpOut b2 i j (b.cell i j) := by
    funext d
    exact jumpOut_congr h i j _ d
  rw [this]

theorem attacksFrom_congr {b b2 : Board} (h : SameColors b b2) (byColor : String)
    (hs : ∀ i j : Int, isValidPosition i j = true →
      getPieceColor (b.cell i j) = byColor → b.cell i j = b2.cell i j)
    (row col : Int) (sq : Int × Int) (hv : isValidPosition sq.1 sq.2 = true) :
    attacksFrom b row col byColor sq = attacksFrom b2 row col byColor sq := by
  unfold attacksFrom
  by_cases hc : getPieceColor (b.cell sq.1 sq.2) = byColor
  · have hp := hs _ _ hv hc
    rw [attackOut_congr h _ _ hp, hp]
  · have hc2 : ¬ getPieceColor (b2.cell sq.1 sq.2) = byColor := by
      rw [← h _ _ hv]
      exact hc
    have e1 : (getPieceColor (b.cell sq.1 sq.2) == byColor) = false := by
      simpa using hc
    have e2 : (getPieceColor (b2.cell sq.1 sq.2) == byColor) = false := by
      simpa using hc2
    rw [e1, e2, Bool.and_false, Bool.and_false, Bool.false_and, Bool.false_and]

theorem any_congr_mem {α : Type} (l : List α) (p q : α → Bool) (h : ∀ a ∈ l, p a = q a) :
    l.any p = l.any q := by
  induction l with
  | nil => rfl
  | cons a l ih =>
    rw [List.any_cons, List.any_cons, h a (List.mem_cons_self _ _),
      ih (fun x hx => h x (List.mem_cons_of_mem _ hx))]

/-- The attack oracle gives the same answer on two boards that show the same
colours everywhere and the same pieces of the attacking side. -/
theorem attackedOut_congr {b b2 : Board} (h : SameColors b b2) (byColor : String)
    (hs : ∀ i j : Int, isValidPosition i j = true →
      getPieceColor (b.cell i j) = byColor → b.cell i j = b2.cell i j)
    (row col : Int) : attackedOut b row col byColor = attackedOut b2 row col byColor := by
  unfold attackedOut
  exact any_congr_mem _ _ _
    (fun sq hsq => attacksFrom_congr h byColor hs row col sq (mem_allSquares_iff.1 hsq))
/-! ## Lemmas: the state after the steps of `makeMove` -/

theorem setEnPassant_board (g : Chess) (piece : Char) (fr fc tr : Int) :
    (setEnPassant g piece fr fc tr).board = g.board := by
  unfold setEnPassant
  split <;> rfl

theorem setEnPassant_currentPlayer (g : Chess) (piece : Char) (fr fc tr : Int) :
    (setEnPassant g piece fr fc tr).currentPlayer = g.currentPlayer := by
  unfold setEnPassant
  split <;> rfl

theorem setEnPassant_whiteKingPos (g : Chess) (piece : Char) (fr fc tr : Int) :
    (setEnPassant g piece fr fc tr).whiteKingPos = g.whiteKingPos := by
  unfold setEnPassant
  split <;> rfl

theorem setEnPassant_blackKingPos (g : Chess) (piece : Char) (fr fc tr : Int) :
    (setEnPassant g piece fr fc tr).blackKingPos = g.blackKingPos := by
  unfold setEnPassant
  split <;> rfl

theorem updateCastlingRights_board (g : Chess) (piece : Char) (fr fc : Int) :
    (updateCastlingRights g piece fr fc).board = g.board := by
  unfold updateCastlingRights
  split <;> [split <;> [skip; split]; split <;> [split <;> [skip; split]; skip]] <;> rfl

theorem updateCastlingRights_currentPlayer (g : Chess) (piece : Char) (fr fc : Int) :
    (updateCastlingRights g piece fr fc).currentPlayer = g.currentPlayer := by
  unfold updateCastlingRights
  split <;> [split <;> [skip; split]; split <;> [split <;> [skip; split]; skip]] <;> rfl

theorem updateCastlingRights_whiteKingPos (g : Chess) (piece : Char) (fr fc : Int) :
    (updateCastlingRights g piece fr fc).whiteKingPos = g.whiteKingPos := by
  unfold updateCastlingRights
  split <;> [split <;> [skip; split]; split <;> [split <;> [skip; split]; skip]] <;> rfl

theorem updateCastlingRights_blackKingPos (g : Chess) (piece : Char) (fr fc : Int) :
    (updateCastlingRights g piece fr fc).blackKingPos = g.blackKingPos := by
  unfold updateCastlingRights
  split <;> [split <;> [skip; split]; split <;> [split <;> [skip; split]; skip]] <;> rfl

theorem updateCastlingRights_enPassantTarget (g : Chess) (piece : Char) (fr fc : Int) :
    (updateCastlingRights g piece fr fc).enPassantTarget = g.enPassantTarget := by
  unfold updateCastlingRights
  split <;> [split <;> [skip; split]; split <;> [split <;> [skip; split]; skip]] <;> rfl

theorem handleCapturesOut_board (g : Chess) (piece : Char) (tr tc : Int) :
    (handleCapturesOut g piece tr tc).2.board = captureBoard g piece tr tc := by
  unfold handleCapturesOut captureBoard
  dsimp only
  by_cases hc : (g.board.cell tr tc != ' ') = true
  · rw [if_pos hc]
    by_cases hep : (piece.toUpper == 'P' && decide (g.enPassantTarget = ⟨tr, tc⟩) &&
        g.board.cell tr tc == ' ') = true
    · have hep2 : (piece.toUpper == 'P' &&
          decide ((pushCaptured g (g.board.cell tr tc)).enPassantTarget = ⟨tr, tc⟩) &&
          g.board.cell tr tc == ' ') = true := hep
      rw [if_pos hep, if_pos hep2]
      rfl
    · have hep2 : ¬ (piece.toUpper == 'P' &&
          decide ((pushCaptured g (g.board.cell tr tc)).enPassantTarget = ⟨tr, tc⟩) &&
          g.board.cell tr tc == ' ') = true := hep
      rw [if_neg hep, if_neg hep2]
      rfl
  · rw [if_neg hc]
    by_cases hep : (piece.toUpper == 'P' && decide (g.enPassantTarget = ⟨tr, tc⟩) &&
        g.board.cell tr tc == ' ') = true
    · rw [if_pos hep, if_pos hep]
      rfl
    · rw [if_neg hep, if_neg hep]

theorem handleCapturesOut_currentPlayer (g : Chess) (piece : Char) (tr tc : Int) :
    (handleCapturesOut g piece tr tc).2.currentPlayer = g.currentPlayer := by
  unfold handleCapturesOut
  dsimp only
  by_cases hc : (g.board.cell tr tc != ' ') = true
  · rw [if_pos hc]
    by_cases hep : (piece.toUpper == 'P' &&
        decide ((pushCaptured g (g.board.cell tr tc)).enPassantTarget = ⟨tr, tc⟩) &&
        g.board.cell tr tc == ' ') = true
    · rw [if_pos hep]
      rfl
    · rw [if_neg hep]
      rfl
  · rw [if_neg hc]
    by_cases hep : (piece.toUpper == 'P' && decide (g.enPassantTarget = ⟨tr, tc⟩) &&
        g.board.cell tr tc == ' ') = true
    · rw [if_pos hep]
      rfl
    · rw [if_neg hep]

theorem handleCapturesOut_whiteKingPos (g : Chess) (piece : Char) (tr tc : Int) :
    (handleCapturesOut g piece tr tc).2.whiteKingPos = g.whiteKingPos := by
  unfold handleCapturesOut
  dsimp only
  by_cases hc : (g.board.cell tr tc != ' ') = true
  · rw [if_pos hc]
    by_cases hep : (piece.toUpper == 'P' &&
        decide ((pushCaptured g (g.board.cell tr tc)).enPassantTarget = ⟨tr, tc⟩) &&
        g.board.cell tr tc == ' ') = true
    · rw [if_pos hep]
      rfl
    · rw [if_neg hep]
      rfl
  · rw [if_neg hc]
    by_cases hep : (piece.toUpper == 'P' && decide (g.enPassantTarget = ⟨tr, tc⟩) &&
        g.board.cell tr tc == ' ') = true
    · rw [if_pos hep]
      rfl
    · rw [if_neg hep]

theorem handleCapturesOut_blackKingPos (g : Chess) (piece : Char) (tr tc : Int) :
    (handleCapturesOut g piece tr tc).2.blackKingPos = g.blackKingPos := by
  unfold handleCapturesOut
  dsimp only
  by_cases hc : (g.board.cell tr tc != ' ') = true
  · rw [if_pos hc]
    by_cases hep : (piece.toUpper == 'P' &&
        decide ((pushCaptured g (g.board.cell tr tc)).enPassantTarget = ⟨tr, tc⟩) &&
        g.board.cell tr tc == ' ') = true
    · rw [if_pos hep]
      rfl
    · rw [if_neg hep]
      rfl
  · rw [if_neg hc]
    by_cases hep : (piece.toUpper == 'P' && decide (g.enPassantTarget = ⟨tr, tc⟩) &&
        g.board.cell tr tc == ' ') = true
    · rw [if_pos hep]
      rfl
    · rw [if_neg hep]

theorem updateKingOut_currentPlayer (g : Chess) (piece : Char) (fc tr tc : Int) :
    (updateKingOut g piece fc tr tc).currentPlayer = g.currentPlayer := by
  unfold updateKingOut
  split <;> [skip; split] <;> rfl

theorem updateKingOut_whiteKingPos (g : Chess) (piece : Char) (fc tr tc : Int) :
    (updateKingOut g piece fc tr tc).whiteKingPos
      = if piece = 'K' then ⟨tr, tc⟩ else g.whiteKingPos := by
  unfold updateKingOut
  by_cases hK : piece = 'K'
  · rw [if_pos hK, if_pos hK]
  · rw [if_neg hK, if_neg hK]
    split <;> rfl

theorem updateKingOut_blackKingPos (g : Chess) (piece : Char) (fc tr tc : Int) :
    (updateKingOut g piece fc tr tc).blackKingPos
      = if piece = 'k' then ⟨tr, tc⟩ else g.blackKingPos := by
  unfold updateKingOut
  by_cases hK : piece = 'K'
  · have hk : piece ≠ 'k' := by rw [hK]; decide
    rw [if_pos hK, if_neg hk]
  · rw [if_neg hK]
    by_cases hk : piece = 'k'
    · rw [if_pos hk, if_pos hk]
    · rw [if_neg hk, if_neg hk]

theorem updateKingOut_board (g : Chess) (piece : Char) (fc tr tc : Int) :
    (updateKingOut g piece fc tr tc).board
      = if piece = 'K' then castleRookOut g.board 7 'R' fc tc
        else if piece = 'k' then castleRookOut g.board 0 'r' fc tc else g.board := by
  unfold updateKingOut
  by_cases hK : piece = 'K'
  · rw [if_pos hK, if_pos hK]
  · rw [if_neg hK, if_neg hK]
    split <;> rfl

theorem applyOut_currentPlayer (g : Chess) (piece : Char) (fr fc tr tc : Int) :
    (applyOut g piece fr fc tr tc).2.currentPlayer = g.currentPlayer := by
  unfold applyOut
  simp only [setEnPassant_currentPlayer, updateCastlingRights_currentPlayer,
    updateKingOut_currentPlayer, movePieceOut, handleCapturesOut_currentPlayer]

theorem applyOut_whiteKingPos (g : Chess) (piece : Char) (fr fc tr tc : Int) :
    (applyOut g piece fr fc tr tc).2.whiteKingPos
      = if piece = 'K' then ⟨tr, tc⟩ else g.whiteKingPos := by
  unfold applyOut
  simp only [setEnPassant_whiteKingPos, updateCastlingRights_whiteKingPos,
    updateKingOut_whiteKingPos, movePieceOut, handleCapturesOut_whiteKingPos]

theorem applyOut_blackKingPos (g : Chess) (piece : Char) (fr fc tr tc : Int) :
    (applyOut g piece fr fc tr tc).2.blackKingPos
      = if piece = 'k' then ⟨tr, tc⟩ else g.blackKingPos := by
  unfold applyOut
  simp only [setEnPassant_blackKingPos, updateCastlingRights_blackKingPos,
    updateKingOut_blackKingPos, movePieceOut, handleCapturesOut_blackKingPos]

theorem applyOut_board (g : Chess) (piece : Char) (fr fc tr tc : Int) :
    (applyOut g piece fr fc tr tc).2.board
      = if piece = 'K' then
          castleRookOut (((captureBoard g piece tr tc).put tr tc piece).put fr fc ' ') 7 'R' fc tc
        else if piece = 'k' then
          castleRookOut (((captureBoard g piece tr tc).put tr tc piece).put fr fc ' ') 0 'r' fc tc
        else ((captureBoard g piece tr tc).put tr tc piece).put fr fc ' ' := by
  unfold applyOut
  simp only [setEnPassant_board, updateCastlingRights_board, updateKingOut_board, movePieceOut,
    handleCapturesOut_board]

theorem promoteOut_currentPlayer (g : Chess) (piece : Char) (tr tc : Int) :
    (promoteOut g piece tr tc).currentPlayer = g.currentPlayer := by
  unfold promoteOut
  split <;> [skip; split] <;> rfl

theorem promoteOut_whiteKingPos (g : Chess) (piece : Char) (tr tc : Int) :
    (promoteOut g piece tr tc).whiteKingPos = g.whiteKingPos := by
  unfold promoteOut
  split <;> [skip; split] <;> rfl

theorem promoteOut_blackKingPos (g : Chess) (piece : Char) (tr tc : Int) :
    (promoteOut g piece tr tc).blackKingPos = g.blackKingPos := by
  unfold promoteOut
  split <;> [skip; split] <;> rfl

theorem promoteOut_board (g : Chess) (piece : Char) (tr tc : Int) :
    (promoteOut g piece tr tc).board
      = if piece = 'P' ∧ tr = 0 then g.board.put tr tc 'Q'
        else if piece = 'p' ∧ tr = 7 then g.board.put tr tc 'q' else g.board := by
  unfold promoteOut
  split <;> [skip; split] <;> rfl
/-! ## Lemmas: what an accepted move went through -/

/-- An accepted move: on-board origin holding a piece of the side to move, a
pseudo-legal destination, a passed check test, then promotion and record. -/
theorem makeMove_true_inv {g g2 : Chess} {fr fc tr tc : Int}
    (h : makeMove g fr fc tr tc = some (true, g2)) :
    isValidPosition fr fc = true ∧ g.board.cell fr fc ≠ ' ' ∧
      getPieceColor (g.board.cell fr fc) = g.currentPlayer ∧
      (⟨tr, tc⟩ : Position) ∈ pieceOut g fr fc ∧
      inCheckOut (applyOut g (g.board.cell fr fc) fr fc tr tc).2 g.currentPlayer = false ∧
      g2 = recordMove (promoteOut (applyOut g (g.board.cell fr fc) fr fc tr tc).2
        (g.board.cell fr fc) tr tc) (g.board.cell fr fc) fr fc tr tc := by
  have hv : isValidPosition fr fc = true := by
    by_contra hv
    have hv2 : isValidPosition fr fc = false := by simpa using hv
    rw [makeMove_none g fr fc tr tc hv2] at h
    exact absurd h (by simp)
  rw [makeMove_eq g fr fc tr tc hv] at h
  have h2 : makeMoveOut g fr fc tr tc = (true, g2) := Option.some.inj h
  unfold makeMoveOut at h2
  dsimp only at h2
  by_cases h1 : (g.board.cell fr fc == ' ') = true
  · rw [if_pos h1] at h2
    exact absurd (congrArg Prod.fst h2) (by simp)
  · rw [if_neg h1] at h2
    by_cases h3 : (getPieceColor (g.board.cell fr fc) != g.currentPlayer) = true
    · rw [if_pos h3] at h2
      exact absurd (congrArg Prod.fst h2) (by simp)
    · rw [if_neg h3] at h2
      by_cases h4 : (!((pieceOut g fr fc).any (fun pos => pos.row == tr && pos.col == tc))) = true
      · rw [if_pos h4] at h2
        exact absurd (congrArg Prod.fst h2) (by simp)
      · rw [if_neg h4] at h2
        rw [applyOut_currentPlayer] at h2
        by_cases h5 : inCheckOut (applyOut g (g.board.cell fr fc) fr fc tr tc).2
            g.currentPlayer = true
        · rw [if_pos h5] at h2
          exact absurd (congrArg Prod.fst h2) (by simp)
        · rw [if_neg h5] at h2
          refine ⟨hv, by simpa using h1, by simpa using h3, ?_, by simpa using h5,
            (congrArg Prod.snd h2).symm⟩
          rw [← any_pos_iff]
          simpa using h4

/-- Replacing a piece by another one of its colour does not change what the
other colour attacks. -/
theorem attackedOut_put_same_color (b : Board) (tr tc : Int) (q : Char) (byColor : String)
    (hv : isValidPosition tr tc = true)
    (hq : getPieceColor q = getPieceColor (b.cell tr tc))
    (hc : getPieceColor (b.cell tr tc) ≠ byColor) (row col : Int) :
    attackedOut (b.put tr tc q) row col byColor = attackedOut b row col byColor := by
  symm
  apply attackedOut_congr
  · intro i j hij
    rw [cell_put q hv hij]
    by_cases he : i = tr ∧ j = tc
    · rw [if_pos he, he.1, he.2, hq]
    · rw [if_neg he]
  · intro i j hij hcol
    rw [cell_put q hv hij]
    by_cases he : i = tr ∧ j = tc
    · rw [he.1, he.2] at hcol
      exact absurd hcol hc
    · rw [if_neg he]

theorem pieceOut_ne_origin {g : Chess} {fr fc : Int} {pos : Position}
    (hpos : pos ∈ pieceOut g fr fc) (hp : (g.board.cell fr fc).toUpper = 'P') :
    pos.row ≠ fr := by
  unfold pieceOut at hpos
  dsimp only at hpos
  by_cases hs : (g.board.cell fr fc == ' ') = true
  · rw [if_pos hs] at hpos
    simp at hpos
  · have hp2 : ((g.board.cell fr fc).toUpper == 'P') = true := by simpa using hp
    rw [if_neg hs, if_pos hp2] at hpos
    obtain ⟨_, hrow⟩ := pawnOut_mem hpos
    by_cases hw : isWhitePiece (g.board.cell fr fc) = true
    · rw [if_pos hw] at hrow
      omega
    · rw [if_neg hw] at hrow
      omega
theorem inCheckOut_promote (g : Chess) (fr fc tr tc : Int)
    (hv : isValidPosition fr fc = true)
    (hcol : getPieceColor (g.board.cell fr fc) = g.currentPlayer)
    (hpos : (⟨tr, tc⟩ : Position) ∈ pieceOut g fr fc) :
    inCheckOut (recordMove (promoteOut (applyOut g (g.board.cell fr fc) fr fc tr tc).2
        (g.board.cell fr fc) tr tc) (g.board.cell fr fc) fr fc tr tc) g.currentPlayer
      = inCheckOut (applyOut g (g.board.cell fr fc) fr fc tr tc).2 g.currentPlayer := by
  have hvp := pieceOut_valid hpos
  dsimp only at hvp
  unfold inCheckOut
  have hrec : ∀ (G : Chess) (p : Char), (recordMove G p fr fc tr tc).board = G.board ∧
      (recordMove G p fr fc tr tc).whiteKingPos = G.whiteKingPos ∧
      (recordMove G p fr fc tr tc).blackKingPos = G.blackKingPos := by
    intro G p
    exact ⟨rfl, rfl, rfl⟩
  rw [(hrec _ _).1, (hrec _ _).2.1, (hrec _ _).2.2, promoteOut_whiteKingPos,
    promoteOut_blackKingPos, promoteOut_board]
  by_cases hP : g.board.cell fr fc = 'P' ∧ tr = 0
  · rw [if_pos hP]
    have hne : tr ≠ fr := pieceOut_ne_origin hpos (by rw [hP.1]; decide)
    have hcp : g.currentPlayer = "white" := by
      rw [← hcol, hP.1]
      decide
    have hcell : (applyOut g (g.board.cell fr fc) fr fc tr tc).2.board.cell tr tc = 'P' := by
      rw [applyOut_board, hP.1]
      rw [if_neg (by decide), if_neg (by decide), cell_put _ hv hvp, if_neg (by omega),
        cell_put _ hvp hvp, if_pos ⟨rfl, rfl⟩]
    apply attackedOut_put_same_color _ _ _ _ _ hvp
    · rw [hcell]
      decide
    · rw [hcell, hcp]
      decide
  · rw [if_neg hP]
    by_cases hp : g.board.cell fr fc = 'p' ∧ tr = 7
    · rw [if_pos hp]
      have hne : tr ≠ fr := pieceOut_ne_origin hpos (by rw [hp.1]; decide)
      have hcp : g.currentPlayer = "black" := by
        rw [← hcol, hp.1]
        decide
      have hcell : (applyOut g (g.board.cell fr fc) fr fc tr tc).2.board.cell tr tc = 'p' := by
        rw [applyOut_board, hp.1]
        rw [if_neg (by decide), if_neg (by decide), cell_put _ hv hvp, if_neg (by omega),
          cell_put _ hvp hvp, if_pos ⟨rfl, rfl⟩]
      apply attackedOut_put_same_color _ _ _ _ _ hvp
      · rw [hcell]
        decide
      · rw [hcell, hcp]
        decide
    · rw [if_neg hp]

/-! ## C1 -/

/-- C1: whenever `makeMove` returns true, also for a promotion, a castling move
or an en-passant capture, `isInCheck(currentPlayer)` is false in the state it
leaves: the mover's own king is not attacked. -/
theorem makeMove_leaves_own_king_safe (g g2 : Chess) (fr fc tr tc : Int)
    (h : makeMove g fr fc tr tc = some (true, g2)) :
    isInCheck g2 g2.currentPlayer = some false := by
  obtain ⟨hv, _, hcol, hpos, hsafe, hg2⟩ := makeMove_true_inv h
  have hcp : g2.currentPlayer = g.currentPlayer := by
    rw [hg2]
    show (promoteOut _ _ _ _).currentPlayer = _
    rw [promoteOut_currentPlayer, applyOut_currentPlayer]
  rw [isInCheck_eq, hcp, hg2, inCheckOut_promote g fr fc tr tc hv hcol hpos, hsafe]
/-- Witness for C1: the pawn move e2-e4 from the initial position. -/
theorem makeMove_leaves_own_king_safe_witness :
    makeMove initial 6 4 4 4 = some (true, (makeMoveOut initial 6 4 4 4).2) ∧
    isInCheck (makeMoveOut initial 6 4 4 4).2 (makeMoveOut initial 6 4 4 4).2.currentPlayer
      = some false :=
  have h : makeMove initial 6 4 4 4 = some (true, (makeMoveOut initial 6 4 4 4).2) :=
    (makeMove_eq initial 6 4 4 4 (by decide)).trans
      (congrArg some (Prod.ext (by decide) rfl))
  ⟨h, makeMove_leaves_own_king_safe initial _ 6 4 4 4 h⟩

/-! ## C2 -/

/-- C2: in the initial position `getAllValidMoves("white")` returns exactly 20
moves, 16 of them moves of a pawn and 4 of them moves of a knight. -/
theorem initial_white_has_twenty_moves :
    (getAllValidMoves initial "white").map (fun r =>
      (r.1.length,
        (r.1.filter (fun m => initial.board.cell m.fromRow m.fromCol == 'P')).length,
        (r.1.filter (fun m => initial.board.cell m.fromRow m.fromCol == 'N')).length))
      = some (20, 16, 4) := by
  decide!

/-! ## C3 -/

/-- C3, evaluated at the failing input: with a black rook checking along the
first rank, `makeMove` accepts white's kingside castling (the relocated rook
shields the king), while `getAllValidMoves` of the side to move, whose
simulation leaves the rook in the corner, does not list that move. -/
theorem castling_accepted_though_not_listed :
    (makeMove castleOutOfCheck 7 4 7 6).map Prod.fst = some true ∧
    (getAllValidMoves castleOutOfCheck castleOutOfCheck.currentPlayer).map
      (fun r => r.1.any (fun m =>
        m.fromRow == 7 && m.fromCol == 4 && m.toRow == 7 && m.toCol == 6)) = some false := by
  decide!

/-! ## C4 -/

/-- C4, evaluated at the failing input: the king move e1-f1 onto a square
covered by a black rook is rejected, and both white castling rights, held
before the call, are lost after it: the undo does not restore them. -/
theorem rejected_king_move_loses_castling_rights :
    guardedF1.whiteCanCastleKingside = true ∧ guardedF1.whiteCanCastleQueenside = true ∧
    (makeMove guardedF1 7 4 7 5).map
      (fun r => (r.1, r.2.whiteCanCastleKingside, r.2.whiteCanCastleQueenside))
      = some (false, false, false) := by
  decide

/-! ## C5 -/

/-- C5 as stated fails: with the off-board origin row -1 the call does not
return false with the state unchanged; its first statement reads
`board[-1][0]`, outside the grid. -/
theorem makeMove_offboard_origin_reads_outside :
    makeMove initial (-1) 0 0 0 ≠ some (false, initial) ∧ makeMove initial (-1) 0 0 0 = none := by
  have h : makeMove initial (-1) 0 0 0 = none := makeMove_none initial (-1) 0 0 0 (by decide)
  exact ⟨by rw [h]; exact fun hc => Option.noConfusion hc, h⟩

/-- C5 amended: with an on-board origin and a destination row or column
outside 0..7, `makeMove` returns false, never leaves the grid and leaves the
whole state unchanged; with an off-board origin its first statement reads the
board outside the grid. -/
theorem makeMove_offboard_destination_rejected (g : Chess) (fr fc tr tc : Int) :
    (isValidPosition fr fc = true → isValidPosition tr tc = false →
      makeMove g fr fc tr tc = some (false, g)) ∧
    (isValidPosition fr fc = false → makeMove g fr fc tr tc = none) := by
  refine ⟨?_, makeMove_none g fr fc tr tc⟩
  intro hv hvt
  rw [makeMove_eq g fr fc tr tc hv]
  unfold makeMoveOut
  dsimp only
  by_cases h1 : (g.board.cell fr fc == ' ') = true
  · rw [if_pos h1]
  · rw [if_neg h1]
    by_cases h2 : (getPieceColor (g.board.cell fr fc) != g.currentPlayer) = true
    · rw [if_pos h2]
    · rw [if_neg h2]
      have h3 : (!((pieceOut g fr fc).any (fun pos => pos.row == tr && pos.col == tc))) = true := by
        rw [Bool.not_eq_true', Bool.eq_false_iff]
        intro hany
        rw [any_pos_iff] at hany
        have hval := pieceOut_valid hany
        dsimp only at hval
        rw [hvt] at hval
        exact Bool.noConfusion hval
      rw [if_pos h3]

/-- Witness for C5 amended: the white e-pawn sent to row -1 from the initial
position, and the off-board origin row 8. -/
theorem makeMove_offboard_destination_rejected_witness :
    makeMove initial 6 4 (-1) 4 = some (false, initial) ∧ makeMove initial 8 4 7 4 = none :=
  ⟨(makeMove_offboard_destination_rejected initial 6 4 (-1) 4).1 (by decide) (by decide),
    (makeMove_offboard_destination_rejected initial 8 4 7 4).2 (by decide)⟩

/-! ## C6 -/

/-- C6: `getAllValidMoves(color)` returns exactly the moves `(from, to)` with
`from` holding a piece of `color`, `to` in `getPieceMoves(from)`, and the king
of `color` not attacked once the piece is moved (passed pawn removed for an
en-passant capture, king cache following a king), origins in row-major order
and destinations in the generator's order. -/
theorem getAllValidMoves_returns_legalMovesSpec (g : Chess) (color : String) :
    (getAllValidMoves g color).map Prod.fst = some (legalMovesSpec g color) := by
  rw [getAllValidMoves_eq]
  rfl

/-! ## C7 -/

/-- C7: `getAllValidMoves(color)` leaves the state unchanged: it always
returns, and the state after the call is the state before it. -/
theorem getAllValidMoves_restores_state (g : Chess) (color : String) :
    (getAllValidMoves g color).map Prod.snd = some g := by
  rw [getAllValidMoves_eq]
  rfl

/-! ## C9 -/

/-- C9: `isCheckmate(c)` is `isInCheck(c)` and no legal move, `isStalemate(c)`
is not `isInCheck(c)` and no legal move; they are never both true, and when
`c` has no legal move one of them is true. Both calls leave the state as it
was. -/
theorem checkmate_stalemate_characterised (g : Chess) (c : String) :
    ∃ (chk : Bool) (moves : List Move),
      isInCheck g c = some chk ∧ getAllValidMoves g c = some (moves, g) ∧
      isCheckmate g c = some (chk && moves.isEmpty, g) ∧
      isStalemate g c = some (!chk && moves.isEmpty, g) ∧
      ¬ ((chk && moves.isEmpty) = true ∧ (!chk && moves.isEmpty) = true) ∧
      (moves = [] → ((chk && moves.isEmpty) = true ∨ (!chk && moves.isEmpty) = true)) := by
  refine ⟨inCheckOut g c, legalMovesSpec g c, isInCheck_eq g c, getAllValidMoves_eq g c,
    ?_, ?_, ?_, ?_⟩
  · unfold isCheckmate
    rw [isInCheck_eq, getAllValidMoves_eq]
    cases inCheckOut g c <;> rfl
  · unfold isStalemate
    rw [isInCheck_eq, getAllValidMoves_eq]
    cases inCheckOut g c <;> rfl
  · cases inCheckOut g c <;> simp
  · intro h
    rw [h]
    cases inCheckOut g c <;> simp
/-! ## Lemmas: a king letter under board writes -/

theorem KingAt.put_other {b : Board} {ch : Char} {k : Position} (h : KingAt b ch k)
    {r c : Int} (v : Char) (hv : isValidPosition r c = true) (hne : v ≠ ch)
    (hk : ¬ (r = k.row ∧ c = k.col)) : KingAt (b.put r c v) ch k := by
  refine ⟨h.1, ?_⟩
  intro i j hij
  rw [cell_put v hv hij]
  by_cases he : i = r ∧ j = c
  · rw [if_pos he]
    constructor
    · intro hvch
      exact absurd hvch hne
    · intro hik
      exact absurd ⟨he.1 ▸ hik.1, he.2 ▸ hik.2⟩ hk
  · rw [if_neg he]
    exact h.2 i j hij

theorem KingAt.not_here {b : Board} {ch : Char} {k : Position} (h : KingAt b ch k)
    {r c : Int} (hv : isValidPosition r c = true) (hc : b.cell r c ≠ ch) :
    ¬ (r = k.row ∧ c = k.col) := by
  intro hk
  exact hc ((h.2 r c hv).2 hk)

theorem KingAt.here {b : Board} {ch : Char} {k : Position} (h : KingAt b ch k) :
    b.cell k.row k.col = ch :=
  (h.2 k.row k.col h.1).2 ⟨rfl, rfl⟩

theorem KingAt.relocate {b : Board} {ch : Char} {k : Position} (h : KingAt b ch k)
    {r c : Int} (hv : isValidPosition r c = true) (hne : ¬ (r = k.row ∧ c = k.col))
    (hch : ch ≠ ' ') : KingAt ((b.put r c ch).put k.row k.col ' ') ch ⟨r, c⟩ := by
  refine ⟨hv, ?_⟩
  intro i j hij
  rw [cell_put ' ' h.1 hij]
  by_cases he : i = k.row ∧ j = k.col
  · rw [if_pos he]
    constructor
    · intro hsp
      exact absurd hsp.symm hch
    · intro hrc
      exact absurd ⟨hrc.1.symm.trans he.1, hrc.2.symm.trans he.2⟩ hne
  · rw [if_neg he, cell_put ch hv hij]
    by_cases he2 : i = r ∧ j = c
    · rw [if_pos he2]
      exact ⟨fun _ => he2, fun _ => rfl⟩
    · rw [if_neg he2]
      constructor
      · intro hb
        exact absurd ((h.2 i j hij).1 hb) he
      · intro hrc
        exact absurd hrc he2

theorem length_filter_eq_one {α : Type} [DecidableEq α] (l : List α) (a : α)
    (hn : l.Nodup) (hm : a ∈ l) : (l.filter (fun x => decide (x = a))).length = 1 := by
  induction l with
  | nil => exact absurd hm (List.not_mem_nil a)
  | cons x xs ih =>
    rw [List.nodup_cons] at hn
    by_cases hx : x = a
    · have hnil : xs.filter (fun y => decide (y = a)) = [] := by
        rw [List.filter_eq_nil_iff]
        intro y hy hya
        have : y = a := by simpa using hya
        rw [this, ← hx] at hy
        exact hn.1 hy
      rw [List.filter_cons_of_pos (by simpa using hx), hnil]
      rfl
    · rw [List.filter_cons_of_neg (by simpa using hx)]
      rcases List.mem_cons.1 hm with h1 | h1
      · exact absurd h1.symm hx
      · exact ih hn.2 h1

/-- A letter that stands on exactly one square is counted once. -/
theorem KingAt.count {b : Board} {ch : Char} {k : Position} (h : KingAt b ch k) :
    countPiece b ch = 1 := by
  unfold countPiece
  have hfilter : allSquares.filter (fun sq => b.cell sq.1 sq.2 == ch)
      = allSquares.filter (fun sq => decide (sq = (k.row, k.col))) := by
    apply List.filter_congr
    intro sq hsq
    have hv := mem_allSquares_iff.1 hsq
    have hiff := h.2 sq.1 sq.2 hv
    by_cases hc : b.cell sq.1 sq.2 = ch
    · have he : sq = (k.row, k.col) := Prod.ext (hiff.1 hc).1 (hiff.1 hc).2
      have e1 : (b.cell sq.1 sq.2 == ch) = true := by simpa using hc
      have e2 : decide (sq = (k.row, k.col)) = true := by simpa using he
      rw [e1, e2]
    · have he : sq ≠ (k.row, k.col) := by
        intro he
        apply hc
        apply hiff.2
        rw [he]
        exact ⟨rfl, rfl⟩
      have e1 : (b.cell sq.1 sq.2 == ch) = false := by simpa using hc
      have e2 : decide (sq = (k.row, k.col)) = false := by simpa using he
      rw [e1, e2]
  rw [hfilter]
  exact length_filter_eq_one allSquares (k.row, k.col) (by decide)
    (mem_allSquares_iff.2 h.1)
/-! ## Lemmas: destinations, captures and attacks -/

theorem pieceOut_cases {g : Chess} {fr fc : Int} {pos : Position}
    (hpos : pos ∈ pieceOut g fr fc) :
    g.board.cell fr fc ≠ ' ' ∧
    (((g.board.cell fr fc).toUpper = 'P' ∧
        pos ∈ pawnOut g.board g.enPassantTarget fr fc (g.board.cell fr fc)) ∨
      ((g.board.cell fr fc).toUpper ≠ 'P' ∧ (g.board.cell fr fc).toUpper = 'K' ∧
        pos ∈ kingOut g fr fc (g.board.cell fr fc) true) ∨
      ((g.board.cell fr fc).toUpper ≠ 'P' ∧ (g.board.cell fr fc).toUpper ≠ 'K' ∧
        pos ∈ officerOut g.board fr fc (g.board.cell fr fc))) := by
  unfold pieceOut at hpos
  dsimp only at hpos
  by_cases hs : (g.board.cell fr fc == ' ') = true
  · rw [if_pos hs] at hpos
    simp at hpos
  · rw [if_neg hs] at hpos
    refine ⟨by simpa using hs, ?_⟩
    by_cases hp : ((g.board.cell fr fc).toUpper == 'P') = true
    · rw [if_pos hp] at hpos
      exact Or.inl ⟨by simpa using hp, hpos⟩
    · rw [if_neg hp] at hpos
      by_cases hk : ((g.board.cell fr fc).toUpper == 'K') = true
      · rw [if_pos hk] at hpos
        exact Or.inr (Or.inl ⟨by simpa using hp, by simpa using hk, hpos⟩)
      · rw [if_neg hk] at hpos
        exact Or.inr (Or.inr ⟨by simpa using hp, by simpa using hk, hpos⟩)

/-- A destination is empty, or holds a piece of the other colour, or is the
en-passant target. -/
theorem pieceOut_target {g : Chess} {fr fc : Int} {pos : Position}
    (hpos : pos ∈ pieceOut g fr fc) :
    g.board.cell pos.row pos.col = ' ' ∨
      getPieceColor (g.board.cell pos.row pos.col) ≠ getPieceColor (g.board.cell fr fc) ∨
      g.enPassantTarget = pos := by
  obtain ⟨_, h | h | h⟩ := pieceOut_cases hpos
  · obtain ⟨_, hp⟩ := h
    unfold pawnOut at hp
    rcases List.mem_append.1 hp with h1 | h1
    · obtain ⟨_, he, h2 | ⟨h2, _, he2⟩⟩ := pawnForwardOut_mem h1
      · subst h2
        exact Or.inl he
      · subst h2
        exact Or.inl he2
    · obtain ⟨dc, _, hd⟩ := List.mem_flatMap.1 h1
      obtain ⟨_, _, h3 | h3⟩ := pawnCaptureOut_mem hd
      · exact Or.inr (Or.inl h3.2)
      · exact Or.inr (Or.inr h3)
  · obtain ⟨_, _, hk⟩ := h
    unfold kingOut at hk
    rcases List.mem_append.1 hk with h1 | h1
    · obtain ⟨d, _, hd⟩ := List.mem_flatMap.1 h1
      rcases (jumpOut_mem hd).2.2 with h2 | h2
      · exact Or.inl h2
      · exact Or.inr (Or.inl h2)
    · rw [if_pos rfl] at h1
      exact Or.inl (kingCastleOut_valid h1).2
  · obtain ⟨_, _, ho⟩ := h
    rcases (officerOut_valid ho).2 with h2 | h2
    · exact Or.inl h2
    · exact Or.inr (Or.inl h2)

theorem mem_getPawnAttackSquares {row col : Int} {piece : Char} {dc : Int}
    (hdc : dc = -1 ∨ dc = 1)
    (hv : isValidPosition (row + (if isWhitePiece piece then -1 else 1)) (col + dc) = true) :
    (⟨row + (if isWhitePiece piece then -1 else 1), col + dc⟩ : Position)
      ∈ getPawnAttackSquares row col piece := by
  unfold getPawnAttackSquares
  dsimp only
  generalize (if isWhitePiece piece = true then (-1 : Int) else 1) = d at hv ⊢
  simp only [List.foldl_cons, List.foldl_nil, List.nil_append]
  rcases hdc with h | h
  · subst h
    rw [if_pos hv]
    by_cases h2 : isValidPosition (row + d) (col + 1) = true
    · rw [if_pos h2]
      simp
    · rw [if_neg h2]
      simp
  · subst h
    by_cases h1 : isValidPosition (row + d) (col + -1) = true
    · rw [if_pos h1, if_pos hv]
      simp
    · rw [if_neg h1, if_pos hv]
      simp

/-- A pseudo-legal move onto an occupied square is an attack on that square. -/
theorem capture_is_attack {g : Chess} {fr fc : Int} {pos : Position}
    (hpos : pos ∈ pieceOut g fr fc) (hocc : g.board.cell pos.row pos.col ≠ ' ') :
    pos ∈ attackOut g.board fr fc := by
  unfold attackOut
  dsimp only
  obtain ⟨_, h | h | h⟩ := pieceOut_cases hpos
  · obtain ⟨hP, hp⟩ := h
    have hP2 : ((g.board.cell fr fc).toUpper == 'P') = true := by simpa using hP
    rw [if_pos hP2]
    unfold pawnOut at hp
    rcases List.mem_append.1 hp with h1 | h1
    · obtain ⟨_, he, h2 | ⟨h2, _, he2⟩⟩ := pawnForwardOut_mem h1
      · subst h2
        exact absurd he hocc
      · subst h2
        exact absurd he2 hocc
    · obtain ⟨dc, hdc, hd⟩ := List.mem_flatMap.1 h1
      obtain ⟨hp2, hv2, _⟩ := pawnCaptureOut_mem hd
      rw [hp2] at hv2 ⊢
      apply mem_getPawnAttackSquares _ hv2
      simpa using hdc
  · obtain ⟨hP, hK, hk⟩ := h
    have hP2 : ¬ ((g.board.cell fr fc).toUpper == 'P') = true := by simpa using hP
    have hK2 : ((g.board.cell fr fc).toUpper == 'K') = true := by simpa using hK
    rw [if_neg hP2, if_pos hK2]
    unfold kingOut at hk
    rcases List.mem_append.1 hk with h1 | h1
    · exact h1
    · rw [if_pos rfl] at h1
      exact absurd (kingCastleOut_valid h1).2 hocc
  · obtain ⟨hP, hK, ho⟩ := h
    have hP2 : ¬ ((g.board.cell fr fc).toUpper == 'P') = true := by simpa using hP
    have hK2 : ¬ ((g.board.cell fr fc).toUpper == 'K') = true := by simpa using hK
    rw [if_neg hP2, if_neg hK2]
    exact ho

/-- A piece of `byColor` with a pseudo-legal move onto an occupied square
makes the attack oracle answer true for that square. -/
theorem attackedOut_of_capture {g : Chess} {fr fc : Int} {pos : Position}
    (hv : isValidPosition fr fc = true)
    (hpos : pos ∈ pieceOut g fr fc) (hocc : g.board.cell pos.row pos.col ≠ ' ') :
    attackedOut g.board pos.row pos.col (getPieceColor (g.board.cell fr fc)) = true := by
  unfold attackedOut
  rw [List.any_eq_true]
  refine ⟨(fr, fc), mem_allSquares_iff.2 hv, ?_⟩
  unfold attacksFrom
  have hne := (pieceOut_cases hpos).1
  have h1 : (g.board.cell fr fc != ' ') = true := by simpa using hne
  have h2 : (getPieceColor (g.board.cell fr fc) == getPieceColor (g.board.cell fr fc)) = true := by
    simp
  have h3 : (attackOut g.board fr fc).any (fun p => p.row == pos.row && p.col == pos.col)
      = true := by
    rw [any_pos_iff]
    exact capture_is_attack hpos hocc
  dsimp only
  rw [h1, h2, h3]
  rfl
/-! ## Lemmas: the invariant of the reachable states -/

theorem isWhitePiece_of_color {p : Char} (h : getPieceColor p = "white") :
    isWhitePiece p = true := by
  unfold getPieceColor at h
  by_cases hs : (p == ' ') = true
  · rw [if_pos hs] at h
    exact absurd h (by decide)
  · rw [if_neg hs] at h
    by_cases hw : isWhitePiece p = true
    · exact hw
    · rw [if_neg hw] at h
      exact absurd h (by decide)

theorem not_isWhitePiece_of_color {p : Char} (h : getPieceColor p = "black") :
    isWhitePiece p = false := by
  unfold getPieceColor at h
  by_cases hs : (p == ' ') = true
  · rw [if_pos hs] at h
    exact absurd h (by decide)
  · rw [if_neg hs] at h
    by_cases hw : isWhitePiece p = true
    · rw [if_pos hw] at h
      exact absurd h (by decide)
    · simpa using hw

theorem Inv.safe_of_white {g : Chess} (hI : Inv g) (h : g.currentPlayer = "white") :
    attackedOut g.board g.blackKingPos.row g.blackKingPos.col "white" = false := by
  have hs := hI.safe
  rw [h] at hs
  exact hs

theorem Inv.safe_of_black {g : Chess} (hI : Inv g) (h : g.currentPlayer = "black") :
    attackedOut g.board g.whiteKingPos.row g.whiteKingPos.col "black" = false := by
  have hs := hI.safe
  rw [h] at hs
  exact hs

/-- In a state of the invariant no pseudo-legal move of the side to move lands
on a king. -/
theorem Inv.target_not_king {g : Chess} (hI : Inv g) {fr fc : Int} {pos : Position}
    (hv : isValidPosition fr fc = true)
    (hcol : getPieceColor (g.board.cell fr fc) = g.currentPlayer)
    (hpos : pos ∈ pieceOut g fr fc) :
    g.board.cell pos.row pos.col ≠ 'K' ∧ g.board.cell pos.row pos.col ≠ 'k' := by
  have hvp := pieceOut_valid hpos
  by_cases hocc : g.board.cell pos.row pos.col = ' '
  · rw [hocc]
    exact ⟨by decide, by decide⟩
  · have hatt := attackedOut_of_capture hv hpos hocc
    rw [hcol] at hatt
    have htar : getPieceColor (g.board.cell pos.row pos.col) ≠ g.currentPlayer := by
      rcases pieceOut_target hpos with h1 | h1 | h1
      · exact absurd h1 hocc
      · rw [← hcol]
        exact h1
      · have hvt : isValidPosition g.enPassantTarget.row g.enPassantTarget.col = true := by
          rw [h1]
          exact hvp
        have := (hI.target hvt).1
        rw [h1] at this
        exact absurd this hocc
    constructor
    · intro hK
      have hcp : g.currentPlayer = "black" := by
        rcases hI.player with h1 | h1
        · rw [hK, h1] at htar
          exact absurd (by decide) htar
        · exact h1
      have hk := (hI.white_king.2 pos.row pos.col hvp).1 hK
      have hsafe := hI.safe_of_black hcp
      rw [hcp] at hatt
      rw [← hk.1, ← hk.2, hatt] at hsafe
      exact Bool.noConfusion hsafe
    · intro hk0
      have hcp : g.currentPlayer = "white" := by
        rcases hI.player with h1 | h1
        · exact h1
        · rw [hk0, h1] at htar
          exact absurd (by decide) htar
      have hk := (hI.black_king.2 pos.row pos.col hvp).1 hk0
      have hsafe := hI.safe_of_white hcp
      rw [hcp] at hatt
      rw [← hk.1, ← hk.2, hatt] at hsafe
      exact Bool.noConfusion hsafe

/-- In a state of the invariant the square emptied by an en-passant capture is
on the board and holds a pawn. -/
theorem Inv.victim {g : Chess} (hI : Inv g) {fr fc tr tc : Int}
    (hcol : getPieceColor (g.board.cell fr fc) = g.currentPlayer)
    (hvp : isValidPosition tr tc = true)
    (hep : g.enPassantTarget = ⟨tr, tc⟩) :
    isValidPosition (if isWhitePiece (g.board.cell fr fc) then tr + 1 else tr - 1) tc = true ∧
    (g.board.cell (if isWhitePiece (g.board.cell fr fc) then tr + 1 else tr - 1) tc).toUpper
      = 'P' := by
  have hvt : isValidPosition g.enPassantTarget.row g.enPassantTarget.col = true := by
    rw [hep]
    exact hvp
  obtain ⟨_, hw, hb⟩ := hI.target hvt
  rw [hep] at hw hb
  dsimp only at hw hb
  rw [isValidPosition_iff] at hvp
  rcases hI.player with h1 | h1
  · have hwp := isWhitePiece_of_color (hcol.trans h1)
    obtain ⟨hrow, hP⟩ := hw h1
    rw [if_pos hwp, hrow]
    exact ⟨by rw [isValidPosition_iff]; omega, hP⟩
  · have hwp := not_isWhitePiece_of_color (hcol.trans h1)
    obtain ⟨hrow, hP⟩ := hb h1
    rw [if_neg (by rw [hwp]; exact Bool.false_ne_true), hrow]
    exact ⟨by rw [isValidPosition_iff]; omega, hP⟩
theorem valid_home (home c : Int) (hh : home = 7 ∨ home = 0) (hc : 0 ≤ c ∧ c < 8) :
    isValidPosition home c = true := by
  rw [isValidPosition_iff]
  omega

/-- The moving king's letter after a king move, castling included. -/
theorem KingAt.after_own_move {b : Board} {ch : Char} {k : Position} (hk : KingAt b ch k)
    (hch : ch ≠ ' ') (home : Int) (rook : Char) (hrook : rook ≠ ch) (hh : home = 7 ∨ home = 0)
    {tr tc : Int} (hvp : isValidPosition tr tc = true) (hmove : ¬ (tr = k.row ∧ tc = k.col)) :
    KingAt (castleRookOut ((b.put tr tc ch).put k.row k.col ' ') home rook k.col tc) ch
      ⟨tr, tc⟩ := by
  have hU := hk.relocate hvp hmove hch
  unfold castleRookOut
  by_cases h6 : k.col = 4 ∧ tc = 6
  · rw [if_pos h6]
    apply KingAt.put_other _ ' ' (valid_home home 7 hh (by omega)) (fun h => hch h.symm)
    · intro hc
      have := hc.2
      dsimp only at this
      omega
    · apply KingAt.put_other hU rook (valid_home home 5 hh (by omega)) hrook
      intro hc
      have := hc.2
      dsimp only at this
      omega
  · rw [if_neg h6]
    by_cases h2 : k.col = 4 ∧ tc = 2
    · rw [if_pos h2]
      apply KingAt.put_other _ ' ' (valid_home home 0 hh (by omega)) (fun h => hch h.symm)
      · intro hc
        have := hc.2
        dsimp only at this
        omega
      · apply KingAt.put_other hU rook (valid_home home 3 hh (by omega)) hrook
        intro hc
        have := hc.2
        dsimp only at this
        omega
    · rw [if_neg h2]
      exact hU

/-- The other king's letter after a king move, castling included. -/
theorem KingAt.after_other_king_move {b : Board} {ch other : Char} {k ko : Position}
    (hk : KingAt b ch k) (hko : KingAt b other ko) (hne : ch ≠ other) (hother : other ≠ ' ')
    (home : Int) (rook : Char) (hrook : rook ≠ other) (hh : home = 7 ∨ home = 0)
    {tr tc : Int} (hvp : isValidPosition tr tc = true) (hto : b.cell tr tc ≠ other)
    (h6 : k.col = 4 ∧ tc = 6 → b.cell home 5 ≠ other ∧ b.cell home 7 ≠ other)
    (h2 : k.col = 4 ∧ tc = 2 → b.cell home 3 ≠ other ∧ b.cell home 0 ≠ other) :
    KingAt (castleRookOut ((b.put tr tc ch).put k.row k.col ' ') home rook k.col tc) other
      ko := by
  have hU : KingAt ((b.put tr tc ch).put k.row k.col ' ') other ko := by
    apply KingAt.put_other _ ' ' hk.1 (fun h => hother h.symm)
    · apply hko.not_here hk.1
      rw [hk.here]
      exact hne
    · exact KingAt.put_other hko ch hvp hne (hko.not_here hvp hto)
  unfold castleRookOut
  by_cases c6 : k.col = 4 ∧ tc = 6
  · rw [if_pos c6]
    apply KingAt.put_other _ ' ' (valid_home home 7 hh (by omega)) (fun h => hother h.symm)
    · exact hko.not_here (valid_home home 7 hh (by omega)) (h6 c6).2
    · exact KingAt.put_other hU rook (valid_home home 5 hh (by omega)) hrook
        (hko.not_here (valid_home home 5 hh (by omega)) (h6 c6).1)
  · rw [if_neg c6]
    by_cases c2 : k.col = 4 ∧ tc = 2
    · rw [if_pos c2]
      apply KingAt.put_other _ ' ' (valid_home home 0 hh (by omega)) (fun h => hother h.symm)
      · exact hko.not_here (valid_home home 0 hh (by omega)) (h2 c2).2
      · exact KingAt.put_other hU rook (valid_home home 3 hh (by omega)) hrook
          (hko.not_here (valid_home home 3 hh (by omega)) (h2 c2).1)
    · rw [if_neg c2]
      exact hU

/-- A king's letter after the move of a piece that is not that king: the
writes are the removal of the passed pawn, the piece on its destination, the
blank on its origin and the promotion. -/
theorem KingAt.after_other_move {g : Chess} {ch : Char} {k : Position}
    (hk : KingAt g.board ch k) (hch : ch ≠ ' ') (hQ : ch ≠ 'Q') (hq : ch ≠ 'q')
    {fr fc tr tc : Int} (hv : isValidPosition fr fc = true)
    (hvp : isValidPosition tr tc = true)
    (hp : g.board.cell fr fc ≠ ch) (hto : g.board.cell tr tc ≠ ch)
    (hvic : g.enPassantTarget = ⟨tr, tc⟩ →
      isValidPosition (if isWhitePiece (g.board.cell fr fc) then tr + 1 else tr - 1) tc = true ∧
      g.board.cell (if isWhitePiece (g.board.cell fr fc) then tr + 1 else tr - 1) tc ≠ ch) :
    KingAt
      (if g.board.cell fr fc = 'P' ∧ tr = 0 then
        (((captureBoard g (g.board.cell fr fc) tr tc).put tr tc (g.board.cell fr fc)).put
          fr fc ' ').put tr tc 'Q'
      else if g.board.cell fr fc = 'p' ∧ tr = 7 then
        (((captureBoard g (g.board.cell fr fc) tr tc).put tr tc (g.board.cell fr fc)).put
          fr fc ' ').put tr tc 'q'
      else ((captureBoard g (g.board.cell fr fc) tr tc).put tr tc (g.board.cell fr fc)).put
          fr fc ' ') ch k := by
  have hnto := hk.not_here hvp hto
  have hnfrom := hk.not_here hv hp
  have hC : KingAt (captureBoard g (g.board.cell fr fc) tr tc) ch k := by
    unfold captureBoard
    by_cases hep : ((g.board.cell fr fc).toUpper == 'P' &&
        decide (g.enPassantTarget = ⟨tr, tc⟩) && g.board.cell tr tc == ' ') = true
    · rw [if_pos hep]
      have hep2 : g.enPassantTarget = ⟨tr, tc⟩ := by
        simp only [Bool.and_eq_true, decide_eq_true_eq] at hep
        exact hep.1.2
      obtain ⟨hvv, hcv⟩ := hvic hep2
      exact KingAt.put_other hk ' ' hvv (fun h => hch h.symm) (hk.not_here hvv hcv)
    · rw [if_neg hep]
      exact hk
  have hX : KingAt (((captureBoard g (g.board.cell fr fc) tr tc).put tr tc
      (g.board.cell fr fc)).put fr fc ' ') ch k :=
    KingAt.put_other (KingAt.put_other hC _ hvp hp hnto) ' ' hv (fun h => hch h.symm) hnfrom
  by_cases hP : g.board.cell fr fc = 'P' ∧ tr = 0
  · rw [if_pos hP]
    exact KingAt.put_other hX 'Q' hvp (fun h => hQ h.symm) hnto
  · rw [if_neg hP]
    by_cases hp2 : g.board.cell fr fc = 'p' ∧ tr = 7
    · rw [if_pos hp2]
      exact KingAt.put_other hX 'q' hvp (fun h => hq h.symm) hnto
    · rw [if_neg hp2]
      exact hX

theorem kingOut_cases {g : Chess} {r c : Int} {p : Char} {pos : Position}
    (h : pos ∈ kingOut g r c p true) :
    (∃ d ∈ queenDirections, pos = ⟨r + d.1, c + d.2⟩) ∨ pos ∈ kingCastleOut g r c p := by
  unfold kingOut at h
  rcases List.mem_append.1 h with h1 | h1
  · obtain ⟨d, hd, hm⟩ := List.mem_flatMap.1 h1
    exact Or.inl ⟨d, hd, (jumpOut_mem hm).1⟩
  · rw [if_pos rfl] at h1
    exact Or.inr h1
theorem color_of_white {p : Char} (hne : p ≠ ' ') (hw : isWhitePiece p = true) :
    getPieceColor p = "white" := by
  unfold getPieceColor
  rw [if_neg (by simpa using hne), if_pos hw]

theorem color_of_not_white {p : Char} (hne : p ≠ ' ') (hw : isWhitePiece p = false) :
    getPieceColor p = "black" := by
  unfold getPieceColor
  rw [if_neg (by simpa using hne), if_neg (by rw [hw]; exact Bool.false_ne_true)]

theorem setEnPassant_enPassantTarget (g : Chess) (piece : Char) (fr fc tr : Int) :
    (setEnPassant g piece fr fc tr).enPassantTarget
      = if piece.toUpper == 'P' && decide ((tr - fr).natAbs = 2)
        then ⟨Int.tdiv (fr + tr) 2, fc⟩ else ⟨-1, -1⟩ := by
  unfold setEnPassant
  split <;> rfl

theorem promoteOut_enPassantTarget (g : Chess) (piece : Char) (tr tc : Int) :
    (promoteOut g piece tr tc).enPassantTarget = g.enPassantTarget := by
  unfold promoteOut
  split <;> [skip; split] <;> rfl

theorem applyOut_enPassantTarget (g : Chess) (piece : Char) (fr fc tr tc : Int) :
    (applyOut g piece fr fc tr tc).2.enPassantTarget
      = if piece.toUpper == 'P' && decide ((tr - fr).natAbs = 2)
        then ⟨Int.tdiv (fr + tr) 2, fc⟩ else ⟨-1, -1⟩ := by
  unfold applyOut
  rw [setEnPassant_enPassantTarget]

/-- A two-row pawn move is the double advance: from the home row, straight,
with the square in between empty. -/
theorem pawnOut_double {b : Board} {ep : Position} {row col : Int} {piece : Char}
    {pos : Position} (h : pos ∈ pawnOut b ep row col piece)
    (h2 : (pos.row - row).natAbs = 2) :
    pos = ⟨row + 2 * (if isWhitePiece piece then -1 else 1), col⟩ ∧
      row = (if isWhitePiece piece then 6 else 1) ∧
      b.cell (row + (if isWhitePiece piece then -1 else 1)) col = ' ' := by
  unfold pawnOut at h
  dsimp only at h
  have hd : (if isWhitePiece piece = true then (-1 : Int) else 1) = -1 ∨
      (if isWhitePiece piece = true then (-1 : Int) else 1) = 1 := by
    split
    · exact Or.inl rfl
    · exact Or.inr rfl
  rcases List.mem_append.1 h with h1 | h1
  · obtain ⟨_, he, h3 | ⟨h3, hs, _⟩⟩ := pawnForwardOut_mem h1
    · rw [h3] at h2
      dsimp only at h2
      omega
    · exact ⟨h3, hs, he⟩
  · obtain ⟨dc, _, hdm⟩ := List.mem_flatMap.1 h1
    obtain ⟨h3, _, _⟩ := pawnCaptureOut_mem hdm
    rw [h3] at h2
    dsimp only at h2
    omega

/-- The invariant at the initial position. -/
theorem Inv.at_start : Inv initial := by
  have hK : ∀ sq ∈ allSquares,
      (initial.board.cell sq.1 sq.2 = 'K' ↔ (sq.1 = 7 ∧ sq.2 = 4)) := by
    decide
  have hk : ∀ sq ∈ allSquares,
      (initial.board.cell sq.1 sq.2 = 'k' ↔ (sq.1 = 0 ∧ sq.2 = 4)) := by
    decide
  refine ⟨Or.inl rfl, ⟨by decide, ?_⟩, ⟨by decide, ?_⟩, by decide, ?_⟩
  · intro i j hij
    exact hK (i, j) (mem_allSquares_iff.2 hij)
  · intro i j hij
    exact hk (i, j) (mem_allSquares_iff.2 hij)
  · intro hv
    exact absurd hv (by decide)
/-- After an accepted move the mover's king is not attacked. -/
theorem makeMove_true_safe {g g2 : Chess} {fr fc tr tc : Int}
    (h : makeMove g fr fc tr tc = some (true, g2)) :
    g2.currentPlayer = g.currentPlayer ∧ inCheckOut g2 g.currentPlayer = false := by
  obtain ⟨hv, _, hcol, hpos, hsafe, hg2⟩ := makeMove_true_inv h
  have hcp : g2.currentPlayer = g.currentPlayer := by
    rw [hg2]
    show (promoteOut _ _ _ _).currentPlayer = _
    rw [promoteOut_currentPlayer, applyOut_currentPlayer]
  refine ⟨hcp, ?_⟩
  rw [hg2, inCheckOut_promote g fr fc tr tc hv hcol hpos, hsafe]

theorem not_king_of_pawn {c : Char} (h : c.toUpper = 'P') : c ≠ 'K' ∧ c ≠ 'k' := by
  constructor
  · intro hc
    rw [hc] at h
    exact absurd h (by decide)
  · intro hc
    rw [hc] at h
    exact absurd h (by decide)

/-- The fields of the state after an accepted move and the switch of side. -/
theorem switchPlayer_fields {g g2 : Chess} {fr fc tr tc : Int}
    (h : makeMove g fr fc tr tc = some (true, g2)) :
    (switchPlayer g2).currentPlayer = (if g.currentPlayer = "white" then "black" else "white") ∧
    (switchPlayer g2).board
      = (promoteOut (applyOut g (g.board.cell fr fc) fr fc tr tc).2
          (g.board.cell fr fc) tr tc).board ∧
    (switchPlayer g2).whiteKingPos
      = (if g.board.cell fr fc = 'K' then ⟨tr, tc⟩ else g.whiteKingPos) ∧
    (switchPlayer g2).blackKingPos
      = (if g.board.cell fr fc = 'k' then ⟨tr, tc⟩ else g.blackKingPos) ∧
    (switchPlayer g2).enPassantTarget
      = (if (g.board.cell fr fc).toUpper == 'P' && decide ((tr - fr).natAbs = 2)
          then ⟨Int.tdiv (fr + tr) 2, fc⟩ else ⟨-1, -1⟩) := by
  obtain ⟨_, _, _, _, _, hg2⟩ := makeMove_true_inv h
  have hcp := (makeMove_true_safe h).1
  refine ⟨?_, ?_, ?_, ?_, ?_⟩
  · show (if g2.currentPlayer = "white" then "black" else "white") = _
    rw [hcp]
  · rw [hg2]
    rfl
  · rw [hg2]
    show (promoteOut _ _ _ _).whiteKingPos = _
    rw [promoteOut_whiteKingPos, applyOut_whiteKingPos]
  · rw [hg2]
    show (promoteOut _ _ _ _).blackKingPos = _
    rw [promoteOut_blackKingPos, applyOut_blackKingPos]
  · rw [hg2]
    show (promoteOut _ _ _ _).enPassantTarget = _
    rw [promoteOut_enPassantTarget, applyOut_enPassantTarget]
theorem captureBoard_of_not_pawn (g : Chess) {p : Char} (tr tc : Int)
    (hp : p.toUpper ≠ 'P') : captureBoard g p tr tc = g.board := by
  unfold captureBoard
  have : (p.toUpper == 'P') = false := by simpa using hp
  rw [this]
  rfl

/-- What a king move from column 4 to column 6 or 2 finds on its home row, and
that a king move leaves its origin. -/
theorem king_move_facts {g : Chess} {r c : Int} {p : Char} {tr tc : Int} (home : Int)
    (rook : Char)
    (hpos : (⟨tr, tc⟩ : Position) ∈ kingOut g r c p true)
    (hcastle : ∀ pos : Position, pos ∈ kingCastleOut g r c p →
      c = 4 ∧ ∃ ks qs : Bool, pos ∈ castlingOut g.board home rook ks qs) :
    ¬ (tr = r ∧ tc = c) ∧
    (c = 4 ∧ tc = 6 → g.board.cell home 5 = ' ' ∧ g.board.cell home 7 = rook) ∧
    (c = 4 ∧ tc = 2 → g.board.cell home 3 = ' ' ∧ g.board.cell home 0 = rook) := by
  rcases kingOut_cases hpos with ⟨d, hd, hp⟩ | hc
  · have hq := mem_queenDirections hd
    have h1 : tr = r + d.1 := congrArg Position.row hp
    have h2 : tc = c + d.2 := congrArg Position.col hp
    refine ⟨?_, ?_, ?_⟩
    · intro hh
      omega
    · intro hh
      omega
    · intro hh
      omega
  · obtain ⟨hc4, ks, qs, hm⟩ := hcastle _ hc
    rcases castlingOut_mem hm with ⟨hp, _, h5, _, h7⟩ | ⟨hp, _, _, _, h3, h0⟩
    · have h2 : tc = 6 := congrArg Position.col hp
      refine ⟨?_, ?_, ?_⟩
      · intro hh
        omega
      · intro _
        exact ⟨h5, h7⟩
      · intro hh
        omega
    · have h2 : tc = 2 := congrArg Position.col hp
      refine ⟨?_, ?_, ?_⟩
      · intro hh
        omega
      · intro hh
        omega
      · intro _
        exact ⟨h3, h0⟩

theorem pieceOut_king {g : Chess} {fr fc : Int} {pos : Position}
    (hpos : pos ∈ pieceOut g fr fc) (hK : (g.board.cell fr fc).toUpper = 'K') :
    pos ∈ kingOut g fr fc (g.board.cell fr fc) true := by
  obtain ⟨_, h | h | h⟩ := pieceOut_cases hpos
  · rw [hK] at h
    exact absurd h.1 (by decide)
  · exact h.2.2
  · exact absurd hK h.2.1

/-- Both king letters after an accepted move of the white king. -/
theorem Inv.kings_after_white_king {g : Chess} (hI : Inv g) {fr fc tr tc : Int}
    (hv : isValidPosition fr fc = true)
    (hcol : getPieceColor (g.board.cell fr fc) = g.currentPlayer)
    (hpos : (⟨tr, tc⟩ : Position) ∈ pieceOut g fr fc) (hK : g.board.cell fr fc = 'K') :
    KingAt (castleRookOut ((g.board.put tr tc 'K').put fr fc ' ') 7 'R' fc tc) 'K' ⟨tr, tc⟩ ∧
    KingAt (castleRookOut ((g.board.put tr tc 'K').put fr fc ' ') 7 'R' fc tc) 'k'
      g.blackKingPos := by
  have hvp := pieceOut_valid hpos
  dsimp only at hvp
  have hto := (hI.target_not_king hv hcol hpos).2
  dsimp only at hto
  have hkOut := pieceOut_king hpos (by rw [hK]; decide)
  rw [hK] at hkOut
  obtain ⟨hfr, hfc⟩ := (hI.white_king.2 fr fc hv).1 hK
  have hfacts := king_move_facts 7 'R' hkOut (by
    intro pos hm
    rcases kingCastleOut_mem hm with ⟨_, _, h4, hc⟩ | ⟨hk, _, _, _⟩
    · exact ⟨h4, _, _, hc⟩
    · exact absurd hk (by decide))
  obtain ⟨hmove, h6, h2⟩ := hfacts
  rw [hfr, hfc] at hmove
  rw [hfc] at h6 h2
  rw [hfr, hfc]
  constructor
  · exact hI.white_king.after_own_move (by decide) 7 'R' (by decide) (Or.inl rfl) hvp hmove
  · apply hI.white_king.after_other_king_move hI.black_king (by decide) (by decide) 7 'R'
      (by decide) (Or.inl rfl) hvp hto
    · intro hh
      obtain ⟨h5, h7⟩ := h6 hh
      rw [h5, h7]
      exact ⟨by decide, by decide⟩
    · intro hh
      obtain ⟨h3, h0⟩ := h2 hh
      rw [h3, h0]
      exact ⟨by decide, by decide⟩

/-- Both king letters after an accepted move of the black king. -/
theorem Inv.kings_after_black_king {g : Chess} (hI : Inv g) {fr fc tr tc : Int}
    (hv : isValidPosition fr fc = true)
    (hcol : getPieceColor (g.board.cell fr fc) = g.currentPlayer)
    (hpos : (⟨tr, tc⟩ : Position) ∈ pieceOut g fr fc) (hk : g.board.cell fr fc = 'k') :
    KingAt (castleRookOut ((g.board.put tr tc 'k').put fr fc ' ') 0 'r' fc tc) 'K'
      g.whiteKingPos ∧
    KingAt (castleRookOut ((g.board.put tr tc 'k').put fr fc ' ') 0 'r' fc tc) 'k' ⟨tr, tc⟩ := by
  have hvp := pieceOut_valid hpos
  dsimp only at hvp
  have hto := (hI.target_not_king hv hcol hpos).1
  dsimp only at hto
  have hkOut := pieceOut_king hpos (by rw [hk]; decide)
  rw [hk] at hkOut
  obtain ⟨hfr, hfc⟩ := (hI.black_king.2 fr fc hv).1 hk
  have hfacts := king_move_facts 0 'r' hkOut (by
    intro pos hm
    rcases kingCastleOut_mem hm with ⟨hK, _, _, _⟩ | ⟨_, _, h4, hc⟩
    · exact absurd hK (by decide)
    · exact ⟨h4, _, _, hc⟩)
  obtain ⟨hmove, h6, h2⟩ := hfacts
  rw [hfr, hfc] at hmove
  rw [hfc] at h6 h2
  rw [hfr, hfc]
  constructor
  · apply hI.black_king.after_other_king_move hI.white_king (by decide) (by decide) 0 'r'
      (by decide) (Or.inr rfl) hvp hto
    · intro hh
      obtain ⟨h5, h7⟩ := h6 hh
      rw [h5, h7]
      exact ⟨by decide, by decide⟩
    · intro hh
      obtain ⟨h3, h0⟩ := h2 hh
      rw [h3, h0]
      exact ⟨by decide, by decide⟩
  · exact hI.black_king.after_own_move (by decide) 0 'r' (by decide) (Or.inr rfl) hvp hmove

/-- A king letter after an accepted move of a piece that is not that king. -/
theorem Inv.king_after_other {g : Chess} (hI : Inv g) {ch : Char} {k : Position}
    (hk : KingAt g.board ch k) (hch : ch = 'K' ∨ ch = 'k') {fr fc tr tc : Int}
    (hv : isValidPosition fr fc = true)
    (hcol : getPieceColor (g.board.cell fr fc) = g.currentPlayer)
    (hpos : (⟨tr, tc⟩ : Position) ∈ pieceOut g fr fc) (hp : g.board.cell fr fc ≠ ch) :
    KingAt
      (if g.board.cell fr fc = 'P' ∧ tr = 0 then
        (((captureBoard g (g.board.cell fr fc) tr tc).put tr tc (g.board.cell fr fc)).put
          fr fc ' ').put tr tc 'Q'
      else if g.board.cell fr fc = 'p' ∧ tr = 7 then
        (((captureBoard g (g.board.cell fr fc) tr tc).put tr tc (g.board.cell fr fc)).put
          fr fc ' ').put tr tc 'q'
      else ((captureBoard g (g.board.cell fr fc) tr tc).put tr tc (g.board.cell fr fc)).put
          fr fc ' ') ch k := by
  have hvp := pieceOut_valid hpos
  dsimp only at hvp
  have hto := hI.target_not_king hv hcol hpos
  dsimp only at hto
  have hto2 : g.board.cell tr tc ≠ ch := by
    rcases hch with h | h
    · rw [h]
      exact hto.1
    · rw [h]
      exact hto.2
  have hc1 : ch ≠ ' ' := by
    rcases hch with h | h <;> rw [h] <;> decide
  have hc2 : ch ≠ 'Q' := by
    rcases hch with h | h <;> rw [h] <;> decide
  have hc3 : ch ≠ 'q' := by
    rcases hch with h | h <;> rw [h] <;> decide
  apply KingAt.after_other_move hk hc1 hc2 hc3 hv hvp hp hto2
  intro hep
  obtain ⟨hvv, hP⟩ := hI.victim hcol hvp hep
  refine ⟨hvv, ?_⟩
  have hnk := not_king_of_pawn hP
  rcases hch with h | h
  · rw [h]
    exact hnk.1
  · rw [h]
    exact hnk.2
/-- The board after an accepted move of a piece that is not a king. -/
theorem promoted_board_of_not_king (g : Chess) {fr fc tr tc : Int}
    (hK : g.board.cell fr fc ≠ 'K') (hk : g.board.cell fr fc ≠ 'k') :
    (promoteOut (applyOut g (g.board.cell fr fc) fr fc tr tc).2 (g.board.cell fr fc) tr tc).board
      = (if g.board.cell fr fc = 'P' ∧ tr = 0 then
        (((captureBoard g (g.board.cell fr fc) tr tc).put tr tc (g.board.cell fr fc)).put
          fr fc ' ').put tr tc 'Q'
      else if g.board.cell fr fc = 'p' ∧ tr = 7 then
        (((captureBoard g (g.board.cell fr fc) tr tc).put tr tc (g.board.cell fr fc)).put
          fr fc ' ').put tr tc 'q'
      else ((captureBoard g (g.board.cell fr fc) tr tc).put tr tc (g.board.cell fr fc)).put
          fr fc ' ') := by
  rw [promoteOut_board, applyOut_board, if_neg hK, if_neg hk]

/-- The board after an accepted move of the white king. -/
theorem promoted_board_of_white_king (g : Chess) {fr fc tr tc : Int}
    (hK : g.board.cell fr fc = 'K') :
    (promoteOut (applyOut g (g.board.cell fr fc) fr fc tr tc).2 (g.board.cell fr fc) tr tc).board
      = castleRookOut ((g.board.put tr tc 'K').put fr fc ' ') 7 'R' fc tc := by
  rw [promoteOut_board, applyOut_board, hK, if_neg (fun h => absurd h.1 (by decide)),
    if_neg (fun h => absurd h.1 (by decide)), if_pos rfl,
    captureBoard_of_not_pawn g tr tc (by decide)]

/-- The board after an accepted move of the black king. -/
theorem promoted_board_of_black_king (g : Chess) {fr fc tr tc : Int}
    (hk : g.board.cell fr fc = 'k') :
    (promoteOut (applyOut g (g.board.cell fr fc) fr fc tr tc).2 (g.board.cell fr fc) tr tc).board
      = castleRookOut ((g.board.put tr tc 'k').put fr fc ' ') 0 'r' fc tc := by
  rw [promoteOut_board, applyOut_board, hk, if_neg (fun h => absurd h.1 (by decide)),
    if_neg (fun h => absurd h.1 (by decide)), if_neg (by decide), if_pos rfl,
    captureBoard_of_not_pawn g tr tc (by decide)]

theorem put_blank_keeps_blank (b : Board) (r c i j : Int) (h : b.cell i j = ' ') :
    (b.put r c ' ').cell i j = ' ' := by
  show (if toFin8 i = toFin8 r ∧ toFin8 j = toFin8 c then ' ' else b (toFin8 i) (toFin8 j)) = ' '
  by_cases hc : toFin8 i = toFin8 r ∧ toFin8 j = toFin8 c
  · rw [if_pos hc]
  · rw [if_neg hc]
    exact h

/-- After a double pawn advance from `(fr, fc)` over `(mid, fc)` to `(tr, fc)`
the square in between is empty and the pawn stands on its destination. -/
theorem double_advance_cells (g : Chess) {fr fc tr mid : Int} {p : Char}
    (hfr : isValidPosition fr fc = true) (htr : isValidPosition tr fc = true)
    (hmid : isValidPosition mid fc = true) (h1 : mid ≠ fr) (h2 : mid ≠ tr) (h3 : tr ≠ fr)
    (he : g.board.cell mid fc = ' ') :
    (((captureBoard g p tr fc).put tr fc p).put fr fc ' ').cell mid fc = ' ' ∧
    (((captureBoard g p tr fc).put tr fc p).put fr fc ' ').cell tr fc = p := by
  constructor
  · rw [cell_put _ hfr hmid, if_neg (fun h => h1 h.1), cell_put _ htr hmid,
      if_neg (fun h => h2 h.1)]
    unfold captureBoard
    by_cases hep : (p.toUpper == 'P' && decide (g.enPassantTarget = ⟨tr, fc⟩) &&
        g.board.cell tr fc == ' ') = true
    · rw [if_pos hep]
      exact put_blank_keeps_blank _ _ _ _ _ he
    · rw [if_neg hep]
      exact he
  · rw [cell_put _ hfr htr, if_neg (fun h => h3 h.1), cell_put _ htr htr, if_pos ⟨rfl, rfl⟩]
/-- The en-passant part of the invariant after an accepted move. -/
theorem target_after_double {g : Chess} {fr fc tr tc : Int}
    (hv : isValidPosition fr fc = true) (hne : g.board.cell fr fc ≠ ' ')
    (hcol : getPieceColor (g.board.cell fr fc) = g.currentPlayer)
    (hpos : (⟨tr, tc⟩ : Position) ∈ pieceOut g fr fc)
    (hdouble : ((g.board.cell fr fc).toUpper == 'P' && decide ((tr - fr).natAbs = 2)) = true) :
    (promoteOut (applyOut g (g.board.cell fr fc) fr fc tr tc).2
        (g.board.cell fr fc) tr tc).board.cell (Int.tdiv (fr + tr) 2) fc = ' ' ∧
    ((if g.currentPlayer = "white" then "black" else "white") = "white" →
      Int.tdiv (fr + tr) 2 = 2 ∧
      ((promoteOut (applyOut g (g.board.cell fr fc) fr fc tr tc).2
        (g.board.cell fr fc) tr tc).board.cell 3 fc).toUpper = 'P') ∧
    ((if g.currentPlayer = "white" then "black" else "white") = "black" →
      Int.tdiv (fr + tr) 2 = 5 ∧
      ((promoteOut (applyOut g (g.board.cell fr fc) fr fc tr tc).2
        (g.board.cell fr fc) tr tc).board.cell 4 fc).toUpper = 'P') := by
  have hvp := pieceOut_valid hpos
  dsimp only at hvp
  simp only [Bool.and_eq_true, beq_iff_eq, decide_eq_true_eq] at hdouble
  obtain ⟨hP, habs⟩ := hdouble
  have hnk := not_king_of_pawn hP
  have hpawn : (⟨tr, tc⟩ : Position) ∈
      pawnOut g.board g.enPassantTarget fr fc (g.board.cell fr fc) := by
    obtain ⟨_, h | h | h⟩ := pieceOut_cases hpos
    · exact h.2
    · exact absurd hP h.1
    · exact absurd hP h.1
  obtain ⟨hto, hstart, hmid⟩ := pawnOut_double hpawn habs
  have htr : tr = fr + 2 * (if isWhitePiece (g.board.cell fr fc) then -1 else 1) :=
    congrArg Position.row hto
  have htc : tc = fc := congrArg Position.col hto
  subst htc
  rw [promoted_board_of_not_king g hnk.1 hnk.2]
  have hvfc : 0 ≤ tc ∧ tc < 8 := by
    rw [isValidPosition_iff] at hv
    exact ⟨hv.2.2.1, hv.2.2.2⟩
  by_cases hw : isWhitePiece (g.board.cell fr tc) = true
  · rw [if_pos hw] at htr hstart hmid
    have hcp : g.currentPlayer = "white" := by
      rw [← hcol]
      exact color_of_white hne hw
    have h4 : tr = 4 := by omega
    subst hstart
    subst h4
    have hmid2 : g.board.cell 5 tc = ' ' := hmid
    rw [if_neg (fun h => absurd h.2 (by decide)), if_neg (fun h => absurd h.2 (by decide)), hcp]
    have hcells := double_advance_cells g (p := g.board.cell 6 tc) hv hvp
      (by rw [isValidPosition_iff]; omega : isValidPosition 5 tc = true)
      (by decide) (by decide) (by decide) hmid2
    refine ⟨hcells.1, fun h => absurd h (by decide), fun _ => ⟨by decide, ?_⟩⟩
    rw [hcells.2]
    exact hP
  · rw [if_neg hw] at htr hstart hmid
    have hcp : g.currentPlayer = "black" := by
      rw [← hcol]
      exact color_of_not_white hne (by simpa using hw)
    have h3 : tr = 3 := by omega
    subst hstart
    subst h3
    have hmid2 : g.board.cell 2 tc = ' ' := hmid
    rw [if_neg (fun h => absurd h.2 (by decide)), if_neg (fun h => absurd h.2 (by decide)), hcp]
    have hcells := double_advance_cells g (p := g.board.cell 1 tc) hv hvp
      (by rw [isValidPosition_iff]; omega : isValidPosition 2 tc = true)
      (by decide) (by decide) (by decide) hmid2
    refine ⟨hcells.1, fun _ => ⟨by decide, ?_⟩, fun h => absurd h (by decide)⟩
    rw [hcells.2]
    exact hP

/-- The invariant is kept by an accepted move followed by the switch of the
side to move. -/
theorem Inv.step {g g2 : Chess} (hI : Inv g) {fr fc tr tc : Int}
    (h : makeMove g fr fc tr tc = some (true, g2)) : Inv (switchPlayer g2) := by
  obtain ⟨hv, hne, hcol, hpos, _, _⟩ := makeMove_true_inv h
  obtain ⟨hcp2, hsafe⟩ := makeMove_true_safe h
  obtain ⟨fcp, fboard, fwk, fbk, fep⟩ := switchPlayer_fields h
  have hkings : KingAt (switchPlayer g2).board 'K' (switchPlayer g2).whiteKingPos ∧
      KingAt (switchPlayer g2).board 'k' (switchPlayer g2).blackKingPos := by
    rw [fboard, fwk, fbk]
    by_cases hK : g.board.cell fr fc = 'K'
    · rw [promoted_board_of_white_king g hK, if_pos hK, if_neg (by rw [hK]; decide)]
      exact hI.kings_after_white_king hv hcol hpos hK
    · by_cases hk : g.board.cell fr fc = 'k'
      · rw [promoted_board_of_black_king g hk, if_neg hK, if_pos hk]
        exact hI.kings_after_black_king hv hcol hpos hk
      · rw [promoted_board_of_not_king g hK hk, if_neg hK, if_neg hk]
        exact ⟨hI.king_after_other hI.white_king (Or.inl rfl) hv hcol hpos hK,
          hI.king_after_other hI.black_king (Or.inr rfl) hv hcol hpos hk⟩
  refine ⟨?_, hkings.1, hkings.2, ?_, ?_⟩
  · rw [fcp]
    rcases hI.player with h1 | h1
    · rw [h1]
      exact Or.inr rfl
    · rw [h1]
      exact Or.inl rfl
  · rw [fcp]
    have hcolor : (if (if g.currentPlayer = "white" then "black" else "white") = "white"
        then "black" else "white") = g.currentPlayer := by
      rcases hI.player with h1 | h1 <;> rw [h1] <;> decide
    rw [hcolor]
    exact hsafe
  · rw [fcp, fboard, fep]
    by_cases hd : ((g.board.cell fr fc).toUpper == 'P' && decide ((tr - fr).natAbs = 2)) = true
    · rw [if_pos hd]
      intro _
      exact target_after_double hv hne hcol hpos hd
    · rw [if_neg hd]
      intro hvalid
      exact absurd hvalid (by decide)

/-- Every reachable state satisfies the invariant. -/
theorem Reachable.inv {g : Chess} (h : Reachable g) : Inv g := by
  induction h with
  | start => exact Inv.at_start
  | move fr fc tr tc _ hm ih => exact ih.step hm

/-! ## C10 -/

/-- C10: in every state reached from the initial position by successful
`makeMove` calls, each followed by the switch of the side to move, the board
holds exactly one 'K' and exactly one 'k'. -/
theorem reachable_has_one_king_each (g : Chess) (h : Reachable g) :
    countPiece g.board 'K' = 1 ∧ countPiece g.board 'k' = 1 :=
  ⟨(Reachable.inv h).white_king.count, (Reachable.inv h).black_king.count⟩

/-- Witness for C10: the state after the pawn move e2-e4 from the initial
position and the switch to black. -/
theorem reachable_has_one_king_each_witness :
    Reachable (switchPlayer (makeMoveOut initial 6 4 4 4).2) ∧
    countPiece (switchPlayer (makeMoveOut initial 6 4 4 4).2).board 'K' = 1 ∧
    countPiece (switchPlayer (makeMoveOut initial 6 4 4 4).2).board 'k' = 1 :=
  have hr : Reachable (switchPlayer (makeMoveOut initial 6 4 4 4).2) :=
    Reachable.move 6 4 4 4 Reachable.start
      ((makeMove_eq initial 6 4 4 4 (by decide)).trans
        (congrArg some (Prod.ext (by decide) rfl)))
  ⟨hr, reachable_has_one_king_each _ hr⟩
/-! ## Lemmas: castling rights through `makeMove` -/

/-- An on-board origin and an accepting value give an accepted call. -/
theorem makeMove_accepted_of_out (g : Chess) (fr fc tr tc : Int)
    (hv : isValidPosition fr fc = true) (h : (makeMoveOut g fr fc tr tc).1 = true) :
    makeMove g fr fc tr tc = some (true, (makeMoveOut g fr fc tr tc).2) :=
  (makeMove_eq g fr fc tr tc hv).trans (congrArg some (Prod.ext h rfl))

theorem castlingRights_handleCapturesOut (g : Chess) (piece : Char) (tr tc : Int) :
    castlingRights (handleCapturesOut g piece tr tc).2 = castlingRights g := by
  unfold handleCapturesOut
  dsimp only
  by_cases hc : (g.board.cell tr tc != ' ') = true
  · rw [if_pos hc]
    by_cases hep : (piece.toUpper == 'P' &&
        decide ((pushCaptured g (g.board.cell tr tc)).enPassantTarget = ⟨tr, tc⟩) &&
        g.board.cell tr tc == ' ') = true
    · rw [if_pos hep]
      rfl
    · rw [if_neg hep]
      rfl
  · rw [if_neg hc]
    by_cases hep : (piece.toUpper == 'P' && decide (g.enPassantTarget = ⟨tr, tc⟩) &&
        g.board.cell tr tc == ' ') = true
    · rw [if_pos hep]
      rfl
    · rw [if_neg hep]

theorem castlingRights_updateKingOut (g : Chess) (piece : Char) (fc tr tc : Int) :
    castlingRights (updateKingOut g piece fc tr tc) = rightsAfterKing (castlingRights g) piece := by
  unfold updateKingOut rightsAfterKing
  split_ifs <;> rfl

theorem castlingRights_updateCastlingRights (g : Chess) (piece : Char) (fr fc : Int) :
    castlingRights (updateCastlingRights g piece fr fc)
      = rightsAfterRook (castlingRights g) piece fr fc := by
  unfold updateCastlingRights rightsAfterRook
  split_ifs <;> rfl

theorem castlingRights_setEnPassant (g : Chess) (piece : Char) (fr fc tr : Int) :
    castlingRights (setEnPassant g piece fr fc tr) = castlingRights g := by
  unfold setEnPassant
  split <;> rfl

theorem castlingRights_applyOut (g : Chess) (piece : Char) (fr fc tr tc : Int) :
    castlingRights (applyOut g piece fr fc tr tc).2
      = rightsAfter (castlingRights g) piece fr fc := by
  unfold applyOut rightsAfter
  dsimp only
  rw [castlingRights_setEnPassant, castlingRights_updateCastlingRights,
    castlingRights_updateKingOut]
  have h : castlingRights (movePieceOut (handleCapturesOut g piece tr tc).2 piece fr fc tr tc)
      = castlingRights (handleCapturesOut g piece tr tc).2 := rfl
  rw [h, castlingRights_handleCapturesOut]

theorem castlingRights_undoMove (saved g : Chess) (captured : Char) :
    castlingRights (undoMove saved g captured) = castlingRights g := by
  unfold undoMove
  dsimp only
  split <;> rfl

theorem castlingRights_promoteOut (g : Chess) (piece : Char) (tr tc : Int) :
    castlingRights (promoteOut g piece tr tc) = castlingRights g := by
  unfold promoteOut
  split <;> [skip; split] <;> rfl

/-- The rights after any call with an on-board origin: unchanged, or updated
for the piece of the origin. The second case includes the rejected calls whose
undo leaves the rights updated. -/
theorem castlingRights_makeMoveOut (g : Chess) (fr fc tr tc : Int) :
    castlingRights (makeMoveOut g fr fc tr tc).2 = castlingRights g ∨
    castlingRights (makeMoveOut g fr fc tr tc).2
      = rightsAfter (castlingRights g) (g.board.cell fr fc) fr fc := by
  unfold makeMoveOut
  dsimp only
  by_cases h1 : (g.board.cell fr fc == ' ') = true
  · rw [if_pos h1]
    exact Or.inl rfl
  · rw [if_neg h1]
    by_cases h3 : (getPieceColor (g.board.cell fr fc) != g.currentPlayer) = true
    · rw [if_pos h3]
      exact Or.inl rfl
    · rw [if_neg h3]
      by_cases h4 : (!((pieceOut g fr fc).any (fun pos => pos.row == tr && pos.col == tc))) = true
      · rw [if_pos h4]
        exact Or.inl rfl
      · rw [if_neg h4]
        right
        split
        · exact (castlingRights_undoMove _ _ _).trans (castlingRights_applyOut _ _ _ _ _ _)
        · have h : castlingRights (recordMove (promoteOut
                (applyOut g (g.board.cell fr fc) fr fc tr tc).2 (g.board.cell fr fc) tr tc)
                (g.board.cell fr fc) fr fc tr tc)
              = castlingRights (promoteOut
                (applyOut g (g.board.cell fr fc) fr fc tr tc).2 (g.board.cell fr fc) tr tc) := rfl
          rw [h, castlingRights_promoteOut, castlingRights_applyOut]

/-- The rights after an accepted move. -/
theorem makeMove_true_rights {g g2 : Chess} {fr fc tr tc : Int}
    (h : makeMove g fr fc tr tc = some (true, g2)) :
    castlingRights g2 = rightsAfter (castlingRights g) (g.board.cell fr fc) fr fc := by
  obtain ⟨_, _, _, _, _, hg2⟩ := makeMove_true_inv h
  rw [hg2]
  have h : castlingRights (recordMove (promoteOut
          (applyOut g (g.board.cell fr fc) fr fc tr tc).2 (g.board.cell fr fc) tr tc)
          (g.board.cell fr fc) fr fc tr tc)
        = castlingRights (promoteOut
          (applyOut g (g.board.cell fr fc) fr fc tr tc).2 (g.board.cell fr fc) tr tc) := rfl
  rw [h, castlingRights_promoteOut, castlingRights_applyOut]

/-- No update sets a right. -/
theorem rightsAfter_false (r : Bool × Bool × Bool × Bool) (piece : Char) (fr fc : Int) :
    (r.1 = false → (rightsAfter r piece fr fc).1 = false) ∧
    (r.2.1 = false → (rightsAfter r piece fr fc).2.1 = false) ∧
    (r.2.2.1 = false → (rightsAfter r piece fr fc).2.2.1 = false) ∧
    (r.2.2.2 = false → (rightsAfter r piece fr fc).2.2.2 = false) := by
  unfold rightsAfter rightsAfterRook rightsAfterKing
  refine ⟨?_, ?_, ?_, ?_⟩ <;> intro h <;> split_ifs <;> first | rfl | exact h

/-- A call that returns sets no castling right. -/
theorem makeMove_keeps_false {g g2 : Chess} {fr fc tr tc : Int} {b : Bool}
    (h : makeMove g fr fc tr tc = some (b, g2)) :
    (g.whiteCanCastleKingside = false → g2.whiteCanCastleKingside = false) ∧
    (g.whiteCanCastleQueenside = false → g2.whiteCanCastleQueenside = false) ∧
    (g.blackCanCastleKingside = false → g2.blackCanCastleKingside = false) ∧
    (g.blackCanCastleQueenside = false → g2.blackCanCastleQueenside = false) := by
  have hv : isValidPosition fr fc = true := by
    by_contra hv
    have hv2 : isValidPosition fr fc = false := by simpa using hv
    rw [makeMove_none g fr fc tr tc hv2] at h
    exact absurd h (by simp)
  rw [makeMove_eq g fr fc tr tc hv] at h
  have h2 : (makeMoveOut g fr fc tr tc).2 = g2 := congrArg Prod.snd (Option.some.inj h)
  have hr := castlingRights_makeMoveOut g fr fc tr tc
  rw [h2] at hr
  rcases hr with hr | hr
  · have e1 : g2.whiteCanCastleKingside = g.whiteCanCastleKingside := congrArg (·.1) hr
    have e2 : g2.whiteCanCastleQueenside = g.whiteCanCastleQueenside := congrArg (·.2.1) hr
    have e3 : g2.blackCanCastleKingside = g.blackCanCastleKingside := congrArg (·.2.2.1) hr
    have e4 : g2.blackCanCastleQueenside = g.blackCanCastleQueenside := congrArg (·.2.2.2) hr
    rw [e1, e2, e3, e4]
    exact ⟨id, id, id, id⟩
  · have hf := rightsAfter_false (castlingRights g) (g.board.cell fr fc) fr fc
    rw [← hr] at hf
    exact hf

/-! ## C14 -/

/-- C14: for every `makeMove` call that returns, accepted or rejected, each of
the four castling rights that is false before the call is false after it. -/
theorem makeMove_never_restores_castling_right (g g2 : Chess) (fr fc tr tc : Int) (b : Bool)
    (h : makeMove g fr fc tr tc = some (b, g2)) :
    (g.whiteCanCastleKingside = false → g2.whiteCanCastleKingside = false) ∧
    (g.whiteCanCastleQueenside = false → g2.whiteCanCastleQueenside = false) ∧
    (g.blackCanCastleKingside = false → g2.blackCanCastleKingside = false) ∧
    (g.blackCanCastleQueenside = false → g2.blackCanCastleQueenside = false) :=
  makeMove_keeps_false h

/-- Witness for C14: in the state left by the rejected king move e1-f1, which
has lost both white rights, the rook move h1-h2 is made. -/
theorem makeMove_never_restores_castling_right_witness :
    makeMove (makeMoveOut guardedF1 7 4 7 5).2 7 7 6 7
      = some (makeMoveOut (makeMoveOut guardedF1 7 4 7 5).2 7 7 6 7) ∧
    (makeMoveOut guardedF1 7 4 7 5).2.whiteCanCastleKingside = false ∧
    (makeMoveOut (makeMoveOut guardedF1 7 4 7 5).2 7 7 6 7).2.whiteCanCastleKingside = false :=
  have h := makeMove_eq (makeMoveOut guardedF1 7 4 7 5).2 7 7 6 7 (by decide)
  ⟨h, by decide,
    (makeMove_never_restores_castling_right _ _ 7 7 6 7 _ h).1 (by decide)⟩

/-! ## Lemmas: the en-passant target after an accepted move -/

/-- The en-passant target after an accepted move. -/
theorem makeMove_true_target {g g2 : Chess} {fr fc tr tc : Int}
    (h : makeMove g fr fc tr tc = some (true, g2)) :
    g2.enPassantTarget
      = (if (g.board.cell fr fc).toUpper == 'P' && decide ((tr - fr).natAbs = 2)
          then ⟨Int.tdiv (fr + tr) 2, fc⟩ else ⟨-1, -1⟩) :=
  (switchPlayer_fields h).2.2.2.2

/-- The board after an accepted move. -/
theorem makeMove_true_board {g g2 : Chess} {fr fc tr tc : Int}
    (h : makeMove g fr fc tr tc = some (true, g2)) :
    g2.board = (promoteOut (applyOut g (g.board.cell fr fc) fr fc tr tc).2
      (g.board.cell fr fc) tr tc).board :=
  (switchPlayer_fields h).2.1

/-- A pseudo-legal two-row pawn move: straight from the home row, white from
row 6 to row 4 over row 5, black from row 1 to row 3 over row 2. -/
theorem double_advance_facts {g : Chess} {fr fc tr tc : Int}
    (hpos : (⟨tr, tc⟩ : Position) ∈ pieceOut g fr fc)
    (hP : (g.board.cell fr fc).toUpper = 'P') (habs : (tr - fr).natAbs = 2) :
    tc = fc ∧
    ((isWhitePiece (g.board.cell fr fc) = true ∧ fr = 6 ∧ tr = 4 ∧
        Int.tdiv (fr + tr) 2 = 5) ∨
      (isWhitePiece (g.board.cell fr fc) = false ∧ fr = 1 ∧ tr = 3 ∧
        Int.tdiv (fr + tr) 2 = 2)) := by
  have hpawn : (⟨tr, tc⟩ : Position) ∈
      pawnOut g.board g.enPassantTarget fr fc (g.board.cell fr fc) := by
    obtain ⟨_, h | h | h⟩ := pieceOut_cases hpos
    · exact h.2
    · exact absurd hP h.1
    · exact absurd hP h.1
  obtain ⟨hto, hstart, _⟩ := pawnOut_double hpawn habs
  have htr : tr = fr + 2 * (if isWhitePiece (g.board.cell fr fc) then -1 else 1) :=
    congrArg Position.row hto
  have htc : tc = fc := congrArg Position.col hto
  refine ⟨htc, ?_⟩
  by_cases hw : isWhitePiece (g.board.cell fr fc) = true
  · rw [if_pos hw] at htr hstart
    have h4 : tr = 4 := by omega
    left
    refine ⟨hw, hstart, h4, ?_⟩
    rw [hstart, h4]
    decide
  · rw [if_neg hw] at htr hstart
    have h3 : tr = 3 := by omega
    right
    refine ⟨by simpa using hw, hstart, h3, ?_⟩
    rw [hstart, h3]
    decide

theorem ne_blank_of_pawn {c : Char} (h : c.toUpper = 'P') : c ≠ ' ' := by
  intro hc
  rw [hc] at h
  exact absurd h (by decide)

/-- The square `pos` is among the pawn moves of the piece `q` on `(row, col)`
when it is the en-passant target, one row ahead in an adjacent column. -/
theorem target_mem_pawnOut (b : Board) (pos : Position) (row col : Int) (q : Char)
    (hv : isValidPosition pos.row pos.col = true)
    (hrow : pos.row = row + (if isWhitePiece q then -1 else 1))
    (hcol : pos.col = col - 1 ∨ pos.col = col + 1) :
    pos ∈ pawnOut b pos row col q := by
  unfold pawnOut
  dsimp only
  apply List.mem_append_right
  have hmem : ∀ dc : Int, pos.col = col + dc →
      pos ∈ pawnCaptureOut b pos row col q (if isWhitePiece q then -1 else 1) dc := by
    intro dc hdc
    unfold pawnCaptureOut
    have hpos : pos = ⟨row + (if isWhitePiece q then -1 else 1), col + dc⟩ := by
      cases pos
      simp only [Position.mk.injEq]
      exact ⟨hrow, hdc⟩
    rw [← hrow, ← hdc] at *
    have hc : (isValidPosition pos.row pos.col &&
        ((b.cell pos.row pos.col != ' ' &&
            getPieceColor (b.cell pos.row pos.col) != getPieceColor q) ||
          decide (pos = ⟨pos.row, pos.col⟩))) = true := by
      rw [hv]
      have : decide (pos = ⟨pos.row, pos.col⟩) = true := by
        cases pos
        simp
      rw [this]
      simp
    rw [if_pos hc]
    cases pos
    exact List.mem_singleton.2 rfl
  rcases hcol with hcol | hcol
  · exact List.mem_flatMap.2 ⟨-1, by simp, hmem (-1) (by omega)⟩
  · exact List.mem_flatMap.2 ⟨1, by simp, hmem 1 (by omega)⟩

/-! ## C11 -/

/-- C11: after a successful `makeMove` that advances a pawn two rows from
`(fr, fc)` to `(tr, tc)`, the destination is in the origin's column, the
en-passant target is the skipped square `((fr + tr) / 2, fc)`, and for every
enemy pawn on row `tr` in a column next to `tc`, `getPawnMoves` returns the
skipped square among its destinations (also once the side to move is
switched). -/
theorem double_advance_sets_target_and_offers_capture (g g2 : Chess) (fr fc tr tc : Int)
    (h : makeMove g fr fc tr tc = some (true, g2))
    (hP : (g.board.cell fr fc).toUpper = 'P') (habs : (tr - fr).natAbs = 2) :
    tc = fc ∧ g2.enPassantTarget = ⟨Int.tdiv (fr + tr) 2, fc⟩ ∧
    ∀ c : Int, (c = tc - 1 ∨ c = tc + 1) → isValidPosition tr c = true →
      (g2.board.cell tr c).toUpper = 'P' →
      getPieceColor (g2.board.cell tr c) ≠ getPieceColor (g.board.cell fr fc) →
      ∃ l, getPawnMoves g2 tr c (g2.board.cell tr c) = some l ∧
        getPawnMoves (switchPlayer g2) tr c (g2.board.cell tr c) = some l ∧
        (⟨Int.tdiv (fr + tr) 2, fc⟩ : Position) ∈ l := by
  obtain ⟨hv, hne, _, hpos, _, _⟩ := makeMove_true_inv h
  obtain ⟨htc, hrows⟩ := double_advance_facts hpos hP habs
  have hep : g2.enPassantTarget = ⟨Int.tdiv (fr + tr) 2, fc⟩ := by
    rw [makeMove_true_target h]
    have hd : ((g.board.cell fr fc).toUpper == 'P' && decide ((tr - fr).natAbs = 2)) = true := by
      simp [hP, habs]
    rw [if_pos hd]
  refine ⟨htc, hep, ?_⟩
  intro c hc hvc hq hcol
  have hqne := ne_blank_of_pawn hq
  have hfc : 0 ≤ fc ∧ fc < 8 := by
    rw [isValidPosition_iff] at hv
    exact ⟨hv.2.2.1, hv.2.2.2⟩
  refine ⟨pawnOut g2.board g2.enPassantTarget tr c (g2.board.cell tr c),
    getPawnMoves_eq g2 tr c _, getPawnMoves_eq (switchPlayer g2) tr c _, ?_⟩
  rw [hep]
  apply target_mem_pawnOut
  · dsimp only
    rw [isValidPosition_iff]
    rcases hrows with ⟨_, _, _, h5⟩ | ⟨_, _, _, h2⟩
    · rw [h5]; omega
    · rw [h2]; omega
  · dsimp only
    rcases hrows with ⟨hw, _, h4, h5⟩ | ⟨hw, _, h3, h2⟩
    · have hqw : isWhitePiece (g2.board.cell tr c) = false := by
        by_contra hqw
        have hqw2 : isWhitePiece (g2.board.cell tr c) = true := by simpa using hqw
        exact hcol ((color_of_white hqne hqw2).trans (color_of_white hne hw).symm)
      rw [hqw, h5, h4]
      decide
    · have hqw : isWhitePiece (g2.board.cell tr c) = true := by
        by_contra hqw
        have hqw2 : isWhitePiece (g2.board.cell tr c) = false := by simpa using hqw
        exact hcol ((color_of_not_white hqne hqw2).trans (color_of_not_white hne hw).symm)
      rw [hqw, h2, h3]
      decide
  · dsimp only
    omega

/-- Witness for C11: in the initial position with a black pawn placed on d4,
the white pawn goes e2-e4; the pawn of d4 may then capture onto e3. -/
theorem double_advance_sets_target_and_offers_capture_witness :
    makeMove blackPawnOnD4 6 4 4 4 = some (true, (makeMoveOut blackPawnOnD4 6 4 4 4).2) ∧
    (makeMoveOut blackPawnOnD4 6 4 4 4).2.enPassantTarget = ⟨5, 4⟩ ∧
    ∃ l, getPawnMoves (makeMoveOut blackPawnOnD4 6 4 4 4).2 4 3 'p' = some l ∧
      (⟨5, 4⟩ : Position) ∈ l :=
  have h := makeMove_accepted_of_out blackPawnOnD4 6 4 4 4
    (by decide) (by decide)
  have t := double_advance_sets_target_and_offers_capture blackPawnOnD4 _ 6 4 4 4 h
    (by decide) (by decide)
  ⟨h, t.2.1,
    (t.2.2 3 (Or.inl (by decide)) (by decide) (by decide) (by decide)).imp
      (fun _ hl => ⟨hl.1, hl.2.2⟩)⟩

/-! ## C13 -/

/-- C13: after a successful `makeMove` that is not a two-row pawn advance the
en-passant target is `(-1, -1)`; and a target set by one ply is not the target
after the following ply (made once the side to move is switched), whatever that
ply is. -/
theorem enPassantTarget_lasts_one_ply (g g1 : Chess) (fr fc tr tc : Int)
    (h : makeMove g fr fc tr tc = some (true, g1)) :
    (¬ ((g.board.cell fr fc).toUpper = 'P' ∧ (tr - fr).natAbs = 2) →
      g1.enPassantTarget = ⟨-1, -1⟩) ∧
    ∀ (g2 : Chess) (fr2 fc2 tr2 tc2 : Int),
      makeMove (switchPlayer g1) fr2 fc2 tr2 tc2 = some (true, g2) →
      g1.enPassantTarget ≠ ⟨-1, -1⟩ → g2.enPassantTarget ≠ g1.enPassantTarget := by
  have ht := makeMove_true_target h
  constructor
  · intro hnot
    rw [ht, if_neg]
    simpa using hnot
  · intro g2 fr2 fc2 tr2 tc2 h2 hset
    obtain ⟨_, hne, hcol, hpos, _, _⟩ := makeMove_true_inv h
    obtain ⟨_, hne2, hcol2, hpos2, _, _⟩ := makeMove_true_inv h2
    have ht2 := makeMove_true_target h2
    by_cases hd : ((g.board.cell fr fc).toUpper == 'P' && decide ((tr - fr).natAbs = 2)) = true
    · rw [if_pos hd] at ht
      by_cases hd2 : (((switchPlayer g1).board.cell fr2 fc2).toUpper == 'P' &&
          decide ((tr2 - fr2).natAbs = 2)) = true
      · rw [if_pos hd2] at ht2
        simp only [Bool.and_eq_true, beq_iff_eq, decide_eq_true_eq] at hd hd2
        obtain ⟨_, hrows⟩ := double_advance_facts hpos hd.1 hd.2
        obtain ⟨_, hrows2⟩ := double_advance_facts hpos2 hd2.1 hd2.2
        have hcp : (switchPlayer g1).currentPlayer
            = (if g.currentPlayer = "white" then "black" else "white") :=
          (switchPlayer_fields h).1
        rw [ht, ht2]
        intro heq
        have hrow : Int.tdiv (fr2 + tr2) 2 = Int.tdiv (fr + tr) 2 := congrArg Position.row heq
        rcases hrows with ⟨hw, _, _, h5⟩ | ⟨hw, _, _, h5⟩ <;>
          rcases hrows2 with ⟨hw2, _, _, h6⟩ | ⟨hw2, _, _, h6⟩
        · have c1 := color_of_white hne hw
          have c2 := color_of_white hne2 hw2
          rw [hcol2, hcp, ← hcol, c1] at c2
          exact absurd c2 (by decide)
        · omega
        · omega
        · have c1 := color_of_not_white hne hw
          have c2 := color_of_not_white hne2 hw2
          rw [hcol2, hcp, ← hcol, c1] at c2
          exact absurd c2 (by decide)
      · rw [if_neg hd2] at ht2
        rw [ht2]
        exact fun heq => hset heq.symm
    · rw [if_neg hd] at ht
      exact absurd ht hset

/-- Witness for C13: 1.e4 from the initial position sets the target e3, and
after the reply e7-e5 the target is no longer e3. -/
theorem enPassantTarget_lasts_one_ply_witness :
    makeMove initial 6 4 4 4 = some (true, (makeMoveOut initial 6 4 4 4).2) ∧
    makeMove (switchPlayer (makeMoveOut initial 6 4 4 4).2) 1 4 3 4
      = some (true, (makeMoveOut (switchPlayer (makeMoveOut initial 6 4 4 4).2) 1 4 3 4).2) ∧
    (makeMoveOut initial 6 4 4 4).2.enPassantTarget ≠ ⟨-1, -1⟩ ∧
    (makeMoveOut (switchPlayer (makeMoveOut initial 6 4 4 4).2) 1 4 3 4).2.enPassantTarget
      ≠ (makeMoveOut initial 6 4 4 4).2.enPassantTarget :=
  have h := makeMove_accepted_of_out initial 6 4 4 4
    (by decide) (by decide)
  have h2 := makeMove_accepted_of_out (switchPlayer (makeMoveOut initial 6 4 4 4).2) 1 4 3 4
    (by decide) (by decide)
  ⟨h, h2, by decide,
    (enPassantTarget_lasts_one_ply initial _ 6 4 4 4 h).2 _ 1 4 3 4 h2 (by decide)⟩
/-! ## Lemmas: the destination differs from the origin -/

/-- No pseudo-legal destination is the origin square. -/
theorem pieceOut_ne_self {g : Chess} {fr fc : Int} {pos : Position}
    (hpos : pos ∈ pieceOut g fr fc) : ¬ (pos.row = fr ∧ pos.col = fc) := by
  obtain ⟨hne, h | h | h⟩ := pieceOut_cases hpos
  · exact fun hh => pieceOut_ne_origin hpos h.1 hh.1
  · rcases kingOut_cases h.2.2 with ⟨d, hd, hp⟩ | hc
    · have hq := mem_queenDirections hd
      have h1 : pos.row = fr + d.1 := congrArg Position.row hp
      have h2 : pos.col = fc + d.2 := congrArg Position.col hp
      intro hh
      omega
    · rcases kingCastleOut_mem hc with ⟨_, _, h4, hm⟩ | ⟨_, _, h4, hm⟩ <;>
        rcases castlingOut_mem hm with ⟨hp, _⟩ | ⟨hp, _⟩ <;>
        · have h2 : pos.col = _ := congrArg Position.col hp
          dsimp only at h2
          intro hh
          omega
  · obtain ⟨_, hb | hcol⟩ := officerOut_valid h.2.2
    · intro hh
      rw [hh.1, hh.2] at hb
      exact hne hb
    · intro hh
      rw [hh.1, hh.2] at hcol
      exact hcol rfl

/-- The rook relocation of castling touches columns 0, 3, 5 and 7 only. -/
theorem castleRookOut_cell (b : Board) (home : Int) (rook : Char) (fc tc i j : Int)
    (hh : home = 7 ∨ home = 0) (hv : isValidPosition i j = true)
    (hj : j ≠ 0 ∧ j ≠ 3 ∧ j ≠ 5 ∧ j ≠ 7) :
    (castleRookOut b home rook fc tc).cell i j = b.cell i j := by
  unfold castleRookOut
  have v : ∀ c : Int, 0 ≤ c ∧ c < 8 → isValidPosition home c = true := fun c hc =>
    valid_home home c hh hc
  by_cases h1 : fc = 4 ∧ tc = 6
  · rw [if_pos h1, cell_put _ (v 7 (by omega)) hv, if_neg (fun h => hj.2.2.2 h.2),
      cell_put _ (v 5 (by omega)) hv, if_neg (fun h => hj.2.2.1 h.2)]
  · rw [if_neg h1]
    by_cases h2 : fc = 4 ∧ tc = 2
    · rw [if_pos h2, cell_put _ (v 0 (by omega)) hv, if_neg (fun h => hj.1 h.2),
        cell_put _ (v 3 (by omega)) hv, if_neg (fun h => hj.2.1 h.2)]
    · rw [if_neg h2]

/-- A king that goes from column 4 to another column than 6 and 2, or from
another column, has no rook relocated. -/
theorem castleRookOut_none (b : Board) (home : Int) (rook : Char) (fc tc : Int)
    (h : ¬ (fc = 4 ∧ (tc = 6 ∨ tc = 2))) : castleRookOut b home rook fc tc = b := by
  unfold castleRookOut
  rw [if_neg (fun hh => h ⟨hh.1, Or.inl hh.2⟩), if_neg (fun hh => h ⟨hh.1, Or.inr hh.2⟩)]

/-- After an accepted move that is no promotion the destination holds the
moved piece. -/
theorem makeMove_true_destination {g g2 : Chess} {fr fc tr tc : Int}
    (h : makeMove g fr fc tr tc = some (true, g2))
    (hP : ¬ (g.board.cell fr fc = 'P' ∧ tr = 0)) (hp : ¬ (g.board.cell fr fc = 'p' ∧ tr = 7)) :
    g2.board.cell tr tc = g.board.cell fr fc := by
  obtain ⟨hv, hne, _, hpos, _, _⟩ := makeMove_true_inv h
  have hvp := pieceOut_valid hpos
  dsimp only at hvp
  have hself : ¬ (tr = fr ∧ tc = fc) := pieceOut_ne_self hpos
  have hmoved : ∀ b : Board, ((b.put tr tc (g.board.cell fr fc)).put fr fc ' ').cell tr tc
      = g.board.cell fr fc := by
    intro b
    rw [cell_put _ hv hvp, if_neg hself, cell_put _ hvp hvp, if_pos ⟨rfl, rfl⟩]
  rw [makeMove_true_board h]
  by_cases hK : g.board.cell fr fc = 'K'
  · rw [promoted_board_of_white_king g hK]
    by_cases hc : fc = 4 ∧ (tc = 6 ∨ tc = 2)
    · rw [castleRookOut_cell _ 7 'R' fc tc tr tc (Or.inl rfl) hvp (by omega), ← hK]
      exact hmoved _
    · rw [castleRookOut_none _ _ _ _ _ hc, ← hK]
      exact hmoved _
  · by_cases hk : g.board.cell fr fc = 'k'
    · rw [promoted_board_of_black_king g hk]
      by_cases hc : fc = 4 ∧ (tc = 6 ∨ tc = 2)
      · rw [castleRookOut_cell _ 0 'r' fc tc tr tc (Or.inr rfl) hvp (by omega), ← hk]
        exact hmoved _
      · rw [castleRookOut_none _ _ _ _ _ hc, ← hk]
        exact hmoved _
    · rw [promoted_board_of_not_king g hK hk, if_neg hP, if_neg hp]
      exact hmoved _

/-! ## C18 -/

/-- C18: after a successful `makeMove` that moves a white pawn `'P'` to row 0
the destination cell holds `'Q'`; after one that moves a black pawn `'p'` to
row 7 it holds `'q'`, captures included; after every other successful
`makeMove` the destination cell holds the moved piece itself. -/
theorem promotion_places_queen (g g2 : Chess) (fr fc tr tc : Int)
    (h : makeMove g fr fc tr tc = some (true, g2)) :
    (g.board.cell fr fc = 'P' ∧ tr = 0 → g2.board.cell tr tc = 'Q') ∧
    (g.board.cell fr fc = 'p' ∧ tr = 7 → g2.board.cell tr tc = 'q') ∧
    (¬ (g.board.cell fr fc = 'P' ∧ tr = 0) → ¬ (g.board.cell fr fc = 'p' ∧ tr = 7) →
      g2.board.cell tr tc = g.board.cell fr fc) := by
  obtain ⟨hv, hne, _, hpos, _, _⟩ := makeMove_true_inv h
  have hvp := pieceOut_valid hpos
  dsimp only at hvp
  refine ⟨?_, ?_, fun hP hp => makeMove_true_destination h hP hp⟩
  · intro hP
    rw [makeMove_true_board h, promoteOut_board, if_pos hP, cell_put _ hvp hvp, if_pos ⟨rfl, rfl⟩]
  · intro hp
    have hP : ¬ (g.board.cell fr fc = 'P' ∧ tr = 0) := by
      intro hh
      rw [hp.1] at hh
      exact absurd hh.1 (by decide)
    rw [makeMove_true_board h, promoteOut_board, if_neg hP, if_pos hp, cell_put _ hvp hvp,
      if_pos ⟨rfl, rfl⟩]

/-- Witness for C18: the white pawn of b7 captures the rook of a8 and is
replaced by a queen. -/
theorem promotion_places_queen_witness :
    makeMove pawnOnSeventh 1 1 0 0 = some (true, (makeMoveOut pawnOnSeventh 1 1 0 0).2) ∧
    pawnOnSeventh.board.cell 1 1 = 'P' ∧ pawnOnSeventh.board.cell 0 0 = 'r' ∧
    (makeMoveOut pawnOnSeventh 1 1 0 0).2.board.cell 0 0 = 'Q' :=
  have h := makeMove_accepted_of_out pawnOnSeventh 1 1 0 0
    (by decide) (by decide)
  ⟨h, by decide, by decide,
    (promotion_places_queen pawnOnSeventh _ 1 1 0 0 h).1 ⟨by decide, rfl⟩⟩
/-! ## Lemmas: sequences of plies -/

/-- One accepted call at the head of a list of calls. -/
theorem playMoves_cons {g g3 : Chess} {fr fc tr tc : Int} {rest : List (Int × Int × Int × Int)}
    (h : playMoves g ((fr, fc, tr, tc) :: rest) = some g3) :
    ∃ g2, makeMove g fr fc tr tc = some (true, g2) ∧ playMoves (switchPlayer g2) rest = some g3 := by
  unfold playMoves at h
  split at h
  · next g2 heq => exact ⟨g2, heq, h⟩
  · exact absurd h (by simp)

/-- A list of calls that is played through ends in the state `playOut`. -/
theorem playMoves_eq_playOut (g : Chess) (l : List (Int × Int × Int × Int))
    (h : (playMoves g l).isSome = true) : playMoves g l = some (playOut g l) := by
  induction l generalizing g with
  | nil => rfl
  | cons m rest ih =>
    obtain ⟨fr, fc, tr, tc⟩ := m
    obtain ⟨g3, hg3⟩ := Option.isSome_iff_exists.1 h
    obtain ⟨g2, hm, hrest⟩ := playMoves_cons hg3
    obtain ⟨hv, _⟩ := makeMove_true_inv hm
    have hout : makeMoveOut g fr fc tr tc = (true, g2) :=
      Option.some.inj ((makeMove_eq g fr fc tr tc hv).symm.trans hm)
    have hg2 : g2 = (makeMoveOut g fr fc tr tc).2 := (congrArg Prod.snd hout).symm
    have hr2 : (playMoves (switchPlayer g2) rest).isSome = true := by
      rw [hrest]
      rfl
    have e := ih (switchPlayer g2) hr2
    rw [hg3, ← hrest, e, hg2]
    rfl

theorem Reachable.of_playMoves {g g3 : Chess} (hr : Reachable g)
    {l : List (Int × Int × Int × Int)} (h : playMoves g l = some g3) : Reachable g3 := by
  induction l generalizing g with
  | nil =>
    have e : g = g3 := Option.some.inj h
    rw [← e]
    exact hr
  | cons m rest ih =>
    obtain ⟨fr, fc, tr, tc⟩ := m
    obtain ⟨g2, hm, hrest⟩ := playMoves_cons h
    exact ih (Reachable.move fr fc tr tc hr hm) hrest

theorem Follows.trans {a b c : Chess} (h1 : Follows a b) (h2 : Follows b c) : Follows a c := by
  induction h2 with
  | same => exact h1
  | move fr fc tr tc _ hm ih => exact Follows.move fr fc tr tc ih hm

theorem Follows.of_played {g g3 : Chess} {l : List (Int × Int × Int × Int)}
    (h : playMoves g l = some g3) : Follows g g3 := by
  induction l generalizing g with
  | nil =>
    have e : g = g3 := Option.some.inj h
    rw [← e]
    exact Follows.same g
  | cons m rest ih =>
    obtain ⟨fr, fc, tr, tc⟩ := m
    obtain ⟨g2, hm, hrest⟩ := playMoves_cons h
    exact Follows.trans (Follows.move fr fc tr tc (Follows.same g) hm) (ih hrest)

theorem Reachable.of_follows {g g3 : Chess} (hr : Reachable g) (h : Follows g g3) :
    Reachable g3 := by
  induction h with
  | same => exact hr
  | move fr fc tr tc _ hm ih => exact Reachable.move fr fc tr tc ih hm

/-! ## Lemmas: the captured lists through `makeMove` -/

theorem updateKingOut_capturedPieces (g : Chess) (piece : Char) (fc tr tc : Int) :
    (updateKingOut g piece fc tr tc).capturedPieces = g.capturedPieces := by
  unfold updateKingOut
  split <;> [skip; split] <;> rfl

theorem updateCastlingRights_capturedPieces (g : Chess) (piece : Char) (fr fc : Int) :
    (updateCastlingRights g piece fr fc).capturedPieces = g.capturedPieces := by
  unfold updateCastlingRights
  split <;> [split <;> [skip; split]; split <;> [split <;> [skip; split]; skip]] <;> rfl

theorem setEnPassant_capturedPieces (g : Chess) (piece : Char) (fr fc tr : Int) :
    (setEnPassant g piece fr fc tr).capturedPieces = g.capturedPieces := by
  unfold setEnPassant
  split <;> rfl

theorem promoteOut_capturedPieces (g : Chess) (piece : Char) (tr tc : Int) :
    (promoteOut g piece tr tc).capturedPieces = g.capturedPieces := by
  unfold promoteOut
  split <;> [skip; split] <;> rfl

theorem applyOut_capturedPieces (g : Chess) (piece : Char) (fr fc tr tc : Int) :
    (applyOut g piece fr fc tr tc).2.capturedPieces
      = (handleCapturesOut g piece tr tc).2.capturedPieces := by
  unfold applyOut
  dsimp only
  rw [setEnPassant_capturedPieces, updateCastlingRights_capturedPieces,
    updateKingOut_capturedPieces]
  rfl

/-- The captured lists after an accepted move are those left by the capture
bookkeeping. -/
theorem makeMove_true_capturedPieces {g g2 : Chess} {fr fc tr tc : Int}
    (h : makeMove g fr fc tr tc = some (true, g2)) :
    g2.capturedPieces = (handleCapturesOut g (g.board.cell fr fc) tr tc).2.capturedPieces := by
  obtain ⟨_, _, _, _, _, hg2⟩ := makeMove_true_inv h
  rw [hg2]
  show (promoteOut _ _ _ _).capturedPieces = _
  rw [promoteOut_capturedPieces, applyOut_capturedPieces]

/-- The capture bookkeeping of an en-passant capture: the piece behind the
target is pushed on the mover's list. -/
theorem handleCapturesOut_en_passant (g : Chess) (piece : Char) (tr tc : Int)
    (hP : piece.toUpper = 'P') (hep : g.enPassantTarget = ⟨tr, tc⟩)
    (hempty : g.board.cell tr tc = ' ') :
    (handleCapturesOut g piece tr tc).2.capturedPieces
      = fun k => if k = g.currentPlayer
          then g.capturedPieces k ++ [g.board.cell (if isWhitePiece piece then tr + 1 else tr - 1) tc]
          else g.capturedPieces k := by
  unfold handleCapturesOut
  dsimp only
  have hc : ¬ (g.board.cell tr tc != ' ') = true := by
    rw [hempty]
    decide
  rw [if_neg hc]
  have hcond : (piece.toUpper == 'P' && decide (g.enPassantTarget = ⟨tr, tc⟩) &&
      g.board.cell tr tc == ' ') = true := by
    simp [hP, hep, hempty]
  rw [if_pos hcond]
  rfl

/-- The board after the capture bookkeeping of an en-passant capture. -/
theorem captureBoard_en_passant (g : Chess) (piece : Char) (tr tc : Int)
    (hP : piece.toUpper = 'P') (hep : g.enPassantTarget = ⟨tr, tc⟩)
    (hempty : g.board.cell tr tc = ' ') :
    captureBoard g piece tr tc
      = g.board.put (if isWhitePiece piece then tr + 1 else tr - 1) tc ' ' := by
  unfold captureBoard
  have hcond : (piece.toUpper == 'P' && decide (g.enPassantTarget = ⟨tr, tc⟩) &&
      g.board.cell tr tc == ' ') = true := by
    simp [hP, hep, hempty]
  rw [if_pos hcond]

/-- A pawn that changes column moves one row, in its direction. -/
theorem pawn_diagonal_row {g : Chess} {fr fc : Int} {pos : Position}
    (hpos : pos ∈ pieceOut g fr fc) (hP : (g.board.cell fr fc).toUpper = 'P')
    (hdiag : pos.col ≠ fc) :
    pos.row = fr + (if isWhitePiece (g.board.cell fr fc) then -1 else 1) := by
  have hpawn : pos ∈ pawnOut g.board g.enPassantTarget fr fc (g.board.cell fr fc) := by
    obtain ⟨_, h | h | h⟩ := pieceOut_cases hpos
    · exact h.2
    · exact absurd hP h.1
    · exact absurd hP h.1
  obtain ⟨_, h | h⟩ := pawnOut_mem hpawn
  · exact h
  · exact absurd h.2.1 hdiag

/-! ## C12 -/

/-- C12: in a state reached from the initial position, when `makeMove`
succeeds for a pawn that moves diagonally onto the empty en-passant target
square `(tr, tc)`: afterwards the capturing pawn stands on the target, the
square `(fr, tc)` of the target's column on the pawn's origin row held a pawn
and is empty, the origin is empty, every other cell is unchanged, and the
removed pawn has been appended to the mover's captured list, the other lists
being unchanged. -/
theorem en_passant_capture_effect (g g2 : Chess) (fr fc tr tc : Int)
    (hr : Reachable g) (h : makeMove g fr fc tr tc = some (true, g2))
    (hP : (g.board.cell fr fc).toUpper = 'P') (hdiag : tc ≠ fc)
    (hep : g.enPassantTarget = ⟨tr, tc⟩) (hempty : g.board.cell tr tc = ' ') :
    g2.board.cell tr tc = g.board.cell fr fc ∧
    (g.board.cell fr tc).toUpper = 'P' ∧
    g2.board.cell fr tc = ' ' ∧
    g2.board.cell fr fc = ' ' ∧
    (∀ i j : Int, isValidPosition i j = true →
      ¬ (i = tr ∧ j = tc) → ¬ (i = fr ∧ j = tc) → ¬ (i = fr ∧ j = fc) →
      g2.board.cell i j = g.board.cell i j) ∧
    g2.capturedPieces g.currentPlayer = g.capturedPieces g.currentPlayer ++ [g.board.cell fr tc] ∧
    (∀ k : String, k ≠ g.currentPlayer → g2.capturedPieces k = g.capturedPieces k) := by
  have hI := hr.inv
  obtain ⟨hv, hne, hcol, hpos, _, _⟩ := makeMove_true_inv h
  have hvp := pieceOut_valid hpos
  dsimp only at hvp
  have hrow := pawn_diagonal_row hpos hP hdiag
  dsimp only at hrow
  have hvrow : (if isWhitePiece (g.board.cell fr fc) then tr + 1 else tr - 1) = fr := by
    by_cases hw : isWhitePiece (g.board.cell fr fc) = true
    · rw [if_pos hw] at hrow ⊢
      omega
    · rw [if_neg hw] at hrow ⊢
      omega
  obtain ⟨hvv, hvP⟩ := hI.victim hcol hvp hep
  rw [hvrow] at hvv hvP
  have htrfr : tr ≠ fr := by
    by_cases hw : isWhitePiece (g.board.cell fr fc) = true
    · rw [if_pos hw] at hrow
      omega
    · rw [if_neg hw] at hrow
      omega
  have hnoprom : tr ≠ 0 ∧ tr ≠ 7 := by
    have ht := hI.target (by rw [hep]; exact hvp)
    rw [hep] at ht
    dsimp only at ht
    rcases hI.player with hc | hc
    · have := (ht.2.1 hc).1
      omega
    · have := (ht.2.2 hc).1
      omega
  have hnk := not_king_of_pawn hP
  have hboard : g2.board
      = ((g.board.put fr tc ' ').put tr tc (g.board.cell fr fc)).put fr fc ' ' := by
    rw [makeMove_true_board h, promoted_board_of_not_king g hnk.1 hnk.2,
      if_neg (fun hh => hnoprom.1 hh.2), if_neg (fun hh => hnoprom.2 hh.2),
      captureBoard_en_passant g _ tr tc hP hep hempty, hvrow]
  have hcap := makeMove_true_capturedPieces h
  rw [handleCapturesOut_en_passant g _ tr tc hP hep hempty, hvrow] at hcap
  refine ⟨?_, hvP, ?_, ?_, ?_, ?_, ?_⟩
  · rw [hboard, cell_put _ hv hvp, if_neg (fun hh => hdiag hh.2), cell_put _ hvp hvp,
      if_pos ⟨rfl, rfl⟩]
  · rw [hboard, cell_put _ hv hvv, if_neg (fun hh => hdiag hh.2), cell_put _ hvp hvv,
      if_neg (fun hh => htrfr hh.1.symm), cell_put _ hvv hvv, if_pos ⟨rfl, rfl⟩]
  · rw [hboard, cell_put _ hv hv, if_pos ⟨rfl, rfl⟩]
  · intro i j hij h1 h2 h3
    rw [hboard, cell_put _ hv hij, if_neg h3, cell_put _ hvp hij, if_neg h1,
      cell_put _ hvv hij, if_neg h2]
  · rw [hcap]
    exact if_pos rfl
  · intro k hk
    rw [hcap]
    exact if_neg hk

/-- Witness for C12: after 1.e4 a6 2.e5 d5 the white pawn of e5 captures the
pawn of d5 en passant, landing on d6. -/
theorem en_passant_capture_effect_witness :
    playMoves initial enPassantGame = some (playOut initial enPassantGame) ∧
    Reachable (playOut initial enPassantGame) ∧
    makeMove (playOut initial enPassantGame) 3 4 2 3
      = some (true, (makeMoveOut (playOut initial enPassantGame) 3 4 2 3).2) ∧
    (playOut initial enPassantGame).board.cell 3 3 = 'p' ∧
    (makeMoveOut (playOut initial enPassantGame) 3 4 2 3).2.board.cell 2 3 = 'P' ∧
    (makeMoveOut (playOut initial enPassantGame) 3 4 2 3).2.board.cell 3 3 = ' ' ∧
    (makeMoveOut (playOut initial enPassantGame) 3 4 2 3).2.capturedPieces "white" = ['p'] :=
  have hp : playMoves initial enPassantGame = some (playOut initial enPassantGame) :=
    playMoves_eq_playOut initial enPassantGame (by decide)
  have hr : Reachable (playOut initial enPassantGame) := Reachable.of_playMoves Reachable.start hp
  have h := makeMove_accepted_of_out (playOut initial enPassantGame) 3 4 2 3 (by decide) (by decide)
  have t := en_passant_capture_effect _ _ 3 4 2 3 hr h (by decide) (by decide) (by decide)
    (by decide)
  ⟨hp, hr, h, by decide, t.1, t.2.2.1, t.2.2.2.2.2.1⟩
/-! ## Lemmas: the legal-move list and castling offers -/

/-- What a move of the legal-move list went through. -/
theorem mem_legalMovesSpec {g : Chess} {color : String} {m : Move}
    (h : m ∈ legalMovesSpec g color) :
    isValidPosition m.fromRow m.fromCol = true ∧
    g.board.cell m.fromRow m.fromCol ≠ ' ' ∧
    getPieceColor (g.board.cell m.fromRow m.fromCol) = color ∧
    (⟨m.toRow, m.toCol⟩ : Position) ∈ pieceOut g m.fromRow m.fromCol ∧
    inCheckOut (simulateMove g m.fromRow m.fromCol ⟨m.toRow, m.toCol⟩) color = false ∧
    m.score = 0 := by
  unfold legalMovesSpec at h
  obtain ⟨sq, hsq, hm⟩ := List.mem_flatMap.1 h
  have hv := mem_allSquares_iff.1 hsq
  rw [legalFrom_eq g color sq hv] at hm
  by_cases hc : (g.board.cell sq.1 sq.2 != ' ' &&
      getPieceColor (g.board.cell sq.1 sq.2) == color) = true
  · rw [if_pos hc] at hm
    obtain ⟨pos, hpos, hm2⟩ := List.mem_flatMap.1 hm
    by_cases hi : inCheckOut (simulateMove g sq.1 sq.2 pos) color = true
    · rw [if_pos hi] at hm2
      exact absurd hm2 (List.not_mem_nil _)
    · rw [if_neg hi] at hm2
      have e : m = ⟨sq.1, sq.2, pos.row, pos.col, 0⟩ := List.mem_singleton.1 hm2
      subst e
      simp only [Bool.and_eq_true, bne_iff_ne, ne_eq, beq_iff_eq] at hc
      refine ⟨hv, hc.1, hc.2, ?_, ?_, rfl⟩
      · cases pos
        exact hpos
      · cases pos
        simpa using hi
  · rw [if_neg hc] at hm
    exact absurd hm (List.not_mem_nil _)

/-- The king moves without castling are among those with castling. -/
theorem kingOut_sub {g : Chess} {r c : Int} {p : Char} {pos : Position} (ic : Bool)
    (h : pos ∈ kingOut g r c p ic) : pos ∈ kingOut g r c p true := by
  unfold kingOut at h ⊢
  rcases List.mem_append.1 h with h1 | h1
  · exact List.mem_append_left _ h1
  · cases ic
    · exact absurd h1 (List.not_mem_nil _)
    · exact List.mem_append_right _ h1

/-- A king move of two columns from the home square is a castling move: the
right is held and the side's rook stands on the corner. -/
theorem castling_in_kingOut {g : Chess} {home : Int} {king : Char} {toCol : Int}
    (h : (⟨home, toCol⟩ : Position) ∈ kingOut g home 4 king true)
    (hc : toCol = 6 ∨ toCol = 2) :
    (king = 'K' ∧ home = 7 ∧
      ((toCol = 6 ∧ g.whiteCanCastleKingside = true ∧ g.board.cell 7 7 = 'R') ∨
        (toCol = 2 ∧ g.whiteCanCastleQueenside = true ∧ g.board.cell 7 0 = 'R'))) ∨
    (king = 'k' ∧ home = 0 ∧
      ((toCol = 6 ∧ g.blackCanCastleKingside = true ∧ g.board.cell 0 7 = 'r') ∨
        (toCol = 2 ∧ g.blackCanCastleQueenside = true ∧ g.board.cell 0 0 = 'r'))) := by
  rcases kingOut_cases h with ⟨d, hd, hp⟩ | hcast
  · have hq := mem_queenDirections hd
    have h2 : toCol = 4 + d.2 := congrArg Position.col hp
    omega
  · rcases kingCastleOut_mem hcast with ⟨hK, h7, _, hm⟩ | ⟨hk, h0, _, hm⟩
    · left
      refine ⟨hK, h7, ?_⟩
      rcases castlingOut_mem hm with ⟨hp, hks, _, _, hrook⟩ | ⟨hp, hqs, _, _, _, hrook⟩
      · exact Or.inl ⟨congrArg Position.col hp, hks, hrook⟩
      · exact Or.inr ⟨congrArg Position.col hp, hqs, hrook⟩
    · right
      refine ⟨hk, h0, ?_⟩
      rcases castlingOut_mem hm with ⟨hp, hks, _, _, hrook⟩ | ⟨hp, hqs, _, _, _, hrook⟩
      · exact Or.inl ⟨congrArg Position.col hp, hks, hrook⟩
      · exact Or.inr ⟨congrArg Position.col hp, hqs, hrook⟩

/-- An offered castling move is in the king's move list with castling. -/
theorem castlingOffered_mem {g : Chess} {home : Int} {king : Char} {toCol : Int}
    (hk : king.toUpper = 'K') (h : castlingOffered g home king toCol) :
    (⟨home, toCol⟩ : Position) ∈ kingOut g home 4 king true := by
  rcases h with ⟨ic, l, hl, hmem⟩ | ⟨hcell, color, r, hr, m, hm, h1, h2, h3, h4⟩
  · rw [getKingMoves_eq] at hl
    have e : kingOut g home 4 king ic = l := Option.some.inj hl
    rw [← e] at hmem
    exact kingOut_sub ic hmem
  · rw [getAllValidMoves_eq] at hr
    have e : (legalMovesSpec g color, g) = r := Option.some.inj hr
    rw [← e] at hm
    obtain ⟨_, _, _, hpos, _, _⟩ := mem_legalMovesSpec hm
    rw [h1, h2, h3, h4] at hpos
    have hpk := pieceOut_king hpos (by rw [hcell]; exact hk)
    rw [hcell] at hpk
    exact hpk

/-- A castling right lost stays lost along every sequence of plies. -/
theorem Follows.keeps_false {a b : Chess} (h : Follows a b) :
    (a.whiteCanCastleKingside = false → b.whiteCanCastleKingside = false) ∧
    (a.whiteCanCastleQueenside = false → b.whiteCanCastleQueenside = false) ∧
    (a.blackCanCastleKingside = false → b.blackCanCastleKingside = false) ∧
    (a.blackCanCastleQueenside = false → b.blackCanCastleQueenside = false) := by
  induction h with
  | same => exact ⟨id, id, id, id⟩
  | move fr fc tr tc _ hm ih =>
    have hk := makeMove_keeps_false hm
    exact ⟨fun h => hk.1 (ih.1 h), fun h => hk.2.1 (ih.2.1 h), fun h => hk.2.2.1 (ih.2.2.1 h),
      fun h => hk.2.2.2 (ih.2.2.2 h)⟩

/-- The rights lost by an accepted move of a king or of a rook from a corner. -/
theorem makeMove_true_revokes {g g2 : Chess} {fr fc tr tc : Int}
    (h : makeMove g fr fc tr tc = some (true, g2)) :
    (g.board.cell fr fc = 'K' →
      g2.whiteCanCastleKingside = false ∧ g2.whiteCanCastleQueenside = false) ∧
    (g.board.cell fr fc = 'k' →
      g2.blackCanCastleKingside = false ∧ g2.blackCanCastleQueenside = false) ∧
    (g.board.cell fr fc = 'R' → fr = 7 → fc = 7 → g2.whiteCanCastleKingside = false) ∧
    (g.board.cell fr fc = 'R' → fr = 7 → fc = 0 → g2.whiteCanCastleQueenside = false) ∧
    (g.board.cell fr fc = 'r' → fr = 0 → fc = 7 → g2.blackCanCastleKingside = false) ∧
    (g.board.cell fr fc = 'r' → fr = 0 → fc = 0 → g2.blackCanCastleQueenside = false) := by
  have hr := makeMove_true_rights h
  have e1 : g2.whiteCanCastleKingside = _ := congrArg (·.1) hr
  have e2 : g2.whiteCanCastleQueenside = _ := congrArg (·.2.1) hr
  have e3 : g2.blackCanCastleKingside = _ := congrArg (·.2.2.1) hr
  have e4 : g2.blackCanCastleQueenside = _ := congrArg (·.2.2.2) hr
  refine ⟨?_, ?_, ?_, ?_, ?_, ?_⟩
  · intro hp
    rw [e1, e2, hp]
    simp [rightsAfter, rightsAfterKing, rightsAfterRook]
  · intro hp
    rw [e3, e4, hp]
    simp [rightsAfter, rightsAfterKing, rightsAfterRook]
  · intro hp h7 hc
    rw [e1, hp, h7, hc]
    simp [rightsAfter, rightsAfterKing, rightsAfterRook]
  · intro hp h7 hc
    rw [e2, hp, h7, hc]
    simp [rightsAfter, rightsAfterKing, rightsAfterRook]
  · intro hp h7 hc
    rw [e3, hp, h7, hc]
    simp [rightsAfter, rightsAfterKing, rightsAfterRook]
  · intro hp h7 hc
    rw [e4, hp, h7, hc]
    simp [rightsAfter, rightsAfterKing, rightsAfterRook]

/-- No castling toward a corner is offered without the right for it. -/
theorem castlingOffered_right {g : Chess} {home : Int} {king : Char} {toCol : Int}
    (hk : king.toUpper = 'K') (hc : toCol = 6 ∨ toCol = 2)
    (h : castlingOffered g home king toCol) :
    (king = 'K' ∧ home = 7 ∧
      ((toCol = 6 ∧ g.whiteCanCastleKingside = true ∧ g.board.cell 7 7 = 'R') ∨
        (toCol = 2 ∧ g.whiteCanCastleQueenside = true ∧ g.board.cell 7 0 = 'R'))) ∨
    (king = 'k' ∧ home = 0 ∧
      ((toCol = 6 ∧ g.blackCanCastleKingside = true ∧ g.board.cell 0 7 = 'r') ∨
        (toCol = 2 ∧ g.blackCanCastleQueenside = true ∧ g.board.cell 0 0 = 'r'))) :=
  castling_in_kingOut (castlingOffered_mem hk h) hc

/-! ## C15 -/

/-- C15: once `makeMove` has accepted a move of a king, or a move of a rook
from a corner of its home row, then in every state that follows by successful
`makeMove` calls (the side to move switched after each), from any state and so
from the initial position, neither `getKingMoves` nor `getAllValidMoves`
returns that side's castling move toward that corner (both corners after a
king move). -/
theorem castling_never_offered_after_king_or_rook_move (g g1 g2 : Chess) (fr fc tr tc : Int)
    (h : makeMove g fr fc tr tc = some (true, g1)) (hf : Follows (switchPlayer g1) g2) :
    (g.board.cell fr fc = 'K' → ¬ castlingOffered g2 7 'K' 6 ∧ ¬ castlingOffered g2 7 'K' 2) ∧
    (g.board.cell fr fc = 'k' → ¬ castlingOffered g2 0 'k' 6 ∧ ¬ castlingOffered g2 0 'k' 2) ∧
    (g.board.cell fr fc = 'R' → fr = 7 → fc = 7 → ¬ castlingOffered g2 7 'K' 6) ∧
    (g.board.cell fr fc = 'R' → fr = 7 → fc = 0 → ¬ castlingOffered g2 7 'K' 2) ∧
    (g.board.cell fr fc = 'r' → fr = 0 → fc = 7 → ¬ castlingOffered g2 0 'k' 6) ∧
    (g.board.cell fr fc = 'r' → fr = 0 → fc = 0 → ¬ castlingOffered g2 0 'k' 2) := by
  have hrev := makeMove_true_revokes h
  have hkeep := Follows.keeps_false hf
  have wk : g1.whiteCanCastleKingside = false → ¬ castlingOffered g2 7 'K' 6 := by
    intro h1 ho
    have h2 : g2.whiteCanCastleKingside = false := hkeep.1 h1
    rcases castlingOffered_right (by decide) (Or.inl rfl) ho with ⟨_, _, hh | hh⟩ | ⟨hh, _⟩
    · rw [h2] at hh
      exact absurd hh.2.1 (by decide)
    · exact absurd hh.1 (by decide)
    · exact absurd hh (by decide)
  have wq : g1.whiteCanCastleQueenside = false → ¬ castlingOffered g2 7 'K' 2 := by
    intro h1 ho
    have h2 : g2.whiteCanCastleQueenside = false := hkeep.2.1 h1
    rcases castlingOffered_right (by decide) (Or.inr rfl) ho with ⟨_, _, hh | hh⟩ | ⟨hh, _⟩
    · exact absurd hh.1 (by decide)
    · rw [h2] at hh
      exact absurd hh.2.1 (by decide)
    · exact absurd hh (by decide)
  have bk : g1.blackCanCastleKingside = false → ¬ castlingOffered g2 0 'k' 6 := by
    intro h1 ho
    have h2 : g2.blackCanCastleKingside = false := hkeep.2.2.1 h1
    rcases castlingOffered_right (by decide) (Or.inl rfl) ho with ⟨hh, _⟩ | ⟨_, _, hh | hh⟩
    · exact absurd hh (by decide)
    · rw [h2] at hh
      exact absurd hh.2.1 (by decide)
    · exact absurd hh.1 (by decide)
  have bq : g1.blackCanCastleQueenside = false → ¬ castlingOffered g2 0 'k' 2 := by
    intro h1 ho
    have h2 : g2.blackCanCastleQueenside = false := hkeep.2.2.2 h1
    rcases castlingOffered_right (by decide) (Or.inr rfl) ho with ⟨hh, _⟩ | ⟨_, _, hh | hh⟩
    · exact absurd hh (by decide)
    · exact absurd hh.1 (by decide)
    · rw [h2] at hh
      exact absurd hh.2.1 (by decide)
  exact ⟨fun hp => ⟨wk (hrev.1 hp).1, wq (hrev.1 hp).2⟩,
    fun hp => ⟨bk (hrev.2.1 hp).1, bq (hrev.2.1 hp).2⟩,
    fun hp h7 hc => wk (hrev.2.2.1 hp h7 hc),
    fun hp h7 hc => wq (hrev.2.2.2.1 hp h7 hc),
    fun hp h7 hc => bk (hrev.2.2.2.2.1 hp h7 hc),
    fun hp h7 hc => bq (hrev.2.2.2.2.2 hp h7 hc)⟩

/-- Witness for C15: after 1.g4 b6 2.a4 Bb7 3.Ra3 the rook of a1 has moved;
in the state reached by the rest of that game queenside castling is not
offered. -/
theorem castling_never_offered_after_king_or_rook_move_witness :
    makeMove (playOut initial (rookReturnsGame.take 4)) 7 0 5 0
      = some (true, (makeMoveOut (playOut initial (rookReturnsGame.take 4)) 7 0 5 0).2) ∧
    (playOut initial (rookReturnsGame.take 4)).board.cell 7 0 = 'R' ∧
    Follows (switchPlayer (makeMoveOut (playOut initial (rookReturnsGame.take 4)) 7 0 5 0).2)
      (playOut (switchPlayer (makeMoveOut (playOut initial (rookReturnsGame.take 4)) 7 0 5 0).2)
        (rookReturnsGame.drop 5)) ∧
    ¬ castlingOffered
      (playOut (switchPlayer (makeMoveOut (playOut initial (rookReturnsGame.take 4)) 7 0 5 0).2)
        (rookReturnsGame.drop 5)) 7 'K' 2 :=
  have h := makeMove_accepted_of_out (playOut initial (rookReturnsGame.take 4)) 7 0 5 0
    (by decide) (by decide)
  have hf := Follows.of_played (playMoves_eq_playOut
    (switchPlayer (makeMoveOut (playOut initial (rookReturnsGame.take 4)) 7 0 5 0).2)
    (rookReturnsGame.drop 5) (by decide))
  ⟨h, by decide, hf,
    (castling_never_offered_after_king_or_rook_move _ _ _ 7 0 5 0 h hf).2.2.2.1
      (by decide) rfl rfl⟩

/-! ## C16 -/

/-- C16 as stated fails: in the game 1.g4 b6 2.a4 Bb7 3.Ra3 Bxh1 4.h4 a6
5.Rh3 a5 6.Rxh1 h6 7.Nf3 h5 8.Bg2 g6 from the initial position the rook of h1
is captured on its corner (after ply 6 the corner holds the bishop and black's
captured list is `['R']`), the right is still held, and once the other rook
stands on h1 `getAllValidMoves("white")` returns the castling move e1-g1. -/
theorem castling_offered_after_rook_captured_on_corner :
    (playMoves initial (rookReturnsGame.take 6)).map (fun g =>
      (g.board.cell 7 7, g.capturedPieces "black", g.whiteCanCastleKingside))
      = some ('b', ['R'], true) ∧
    (playMoves initial rookReturnsGame).bind (fun g =>
      (getAllValidMoves g "white").map (fun r =>
        (g.currentPlayer, g.board.cell 7 4, g.board.cell 7 7, g.whiteCanCastleKingside,
          r.1.any (fun m => m.fromRow == 7 && m.fromCol == 4 && m.toRow == 7 && m.toCol == 6))))
      = some ("white", 'K', 'R', true, true) := by
  decide!

/-- C16 amended: in every state, `getKingMoves` and `getAllValidMoves` return
a side's castling move toward a corner only while that side's right for the
corner is held and the corner holds a rook of that side. A capture on the
corner revokes nothing: castling toward it is withheld exactly as long as no
rook of the side stands there. -/
theorem castling_offered_only_with_right_and_rook (g : Chess) :
    (castlingOffered g 7 'K' 6 → g.whiteCanCastleKingside = true ∧ g.board.cell 7 7 = 'R') ∧
    (castlingOffered g 7 'K' 2 → g.whiteCanCastleQueenside = true ∧ g.board.cell 7 0 = 'R') ∧
    (castlingOffered g 0 'k' 6 → g.blackCanCastleKingside = true ∧ g.board.cell 0 7 = 'r') ∧
    (castlingOffered g 0 'k' 2 → g.blackCanCastleQueenside = true ∧ g.board.cell 0 0 = 'r') := by
  refine ⟨?_, ?_, ?_, ?_⟩
  · intro ho
    rcases castlingOffered_right (by decide) (Or.inl rfl) ho with ⟨_, _, hh | hh⟩ | ⟨hh, _⟩
    · exact hh.2
    · exact absurd hh.1 (by decide)
    · exact absurd hh (by decide)
  · intro ho
    rcases castlingOffered_right (by decide) (Or.inr rfl) ho with ⟨_, _, hh | hh⟩ | ⟨hh, _⟩
    · exact absurd hh.1 (by decide)
    · exact hh.2
    · exact absurd hh (by decide)
  · intro ho
    rcases castlingOffered_right (by decide) (Or.inl rfl) ho with ⟨hh, _⟩ | ⟨_, _, hh | hh⟩
    · exact absurd hh (by decide)
    · exact hh.2
    · exact absurd hh.1 (by decide)
  · intro ho
    rcases castlingOffered_right (by decide) (Or.inr rfl) ho with ⟨hh, _⟩ | ⟨_, _, hh | hh⟩
    · exact absurd hh (by decide)
    · exact absurd hh.1 (by decide)
    · exact hh.2

/-- Witness for C16 amended: at the end of the game of the counterexample the
kingside castling of white is offered, the right is held and the rook that
came from a1 stands on h1. -/
theorem castling_offered_only_with_right_and_rook_witness :
    castlingOffered (playOut initial rookReturnsGame) 7 'K' 6 ∧
    (playOut initial rookReturnsGame).whiteCanCastleKingside = true ∧
    (playOut initial rookReturnsGame).board.cell 7 7 = 'R' :=
  have ho : castlingOffered (playOut initial rookReturnsGame) 7 'K' 6 :=
    Or.inl ⟨true, _, getKingMoves_eq _ 7 4 'K' true, by decide⟩
  ⟨ho, (castling_offered_only_with_right_and_rook (playOut initial rookReturnsGame)).1 ho⟩
/-! ## Lemmas: evaluation and scoring return their values -/

theorem pieceValue_of_letter {c : Char} (h : isPieceLetter c = true) :
    pieceValue c = some ((pieceValue c).getD 0) := by
  simp only [isPieceLetter, decide_eq_true_eq] at h
  rcases h with h | h | h | h | h | h | h | h | h | h | h | h <;> subst h <;> rfl

/-- A loop over a list whose body always returns. -/
theorem foldlM_some_foldl {α β : Type} (f : β → α → Option β) (h : β → α → β) (l : List α)
    (hf : ∀ acc a, a ∈ l → f acc a = some (h acc a)) (init : β) :
    l.foldlM f init = some (l.foldl h init) := by
  induction l generalizing init with
  | nil => rfl
  | cons a l ih =>
    rw [List.foldlM_cons, hf init a (List.mem_cons_self _ _)]
    simp only [Option.bind_eq_bind, Option.some_bind]
    rw [ih (fun acc x hx => hf acc x (List.mem_cons_of_mem _ hx))]
    rfl

theorem evaluateCell_eq (g : Chess) (hb : PieceBoard g.board) (score : Int) (sq : Int × Int)
    (hv : isValidPosition sq.1 sq.2 = true) :
    evaluateCell g score sq = some (cellOut g.board score sq) := by
  unfold evaluateCell cellOut
  simp only [get?_of_valid hv, Option.bind_eq_bind, Option.some_bind, Option.pure_def]
  by_cases h : (g.board.cell sq.1 sq.2 == ' ') = true
  · rw [if_pos h, if_pos h]
  · rw [if_neg h, if_neg h]
    have hl : isPieceLetter (g.board.cell sq.1 sq.2) = true := by
      rcases hb sq.1 sq.2 hv with hh | hh
      · exact absurd (by simpa using hh) h
      · exact hh
    rw [pieceValue_of_letter hl]
    rfl

/-- On a board of piece letters and blanks `evaluateBoard` returns. -/
theorem evaluateBoard_eq (g : Chess) (hb : PieceBoard g.board) :
    evaluateBoard g = some (evalOut g.board) :=
  foldlM_some_foldl (evaluateCell g) (cellOut g.board) allSquares
    (fun acc sq hsq => evaluateCell_eq g hb acc sq (mem_allSquares_iff.1 hsq)) 0

theorem scratchMove_eq (g : Chess) (move : Move)
    (hf : isValidPosition move.fromRow move.fromCol = true)
    (ht : isValidPosition move.toRow move.toCol = true) :
    scratchMove g move = some (g.board.cell move.toRow move.toCol, scratchOut g move) := by
  unfold scratchMove scratchOut
  simp only [get?_of_valid hf, get?_of_valid ht, set?_of_valid _ hf, set?_of_valid _ ht,
    Option.bind_eq_bind, Option.some_bind, Option.pure_def]
  by_cases hK : g.board.cell move.fromRow move.fromCol = 'K'
  · have hk : g.board.cell move.fromRow move.fromCol ≠ 'k' := by rw [hK]; decide
    rw [if_pos hK, if_pos hK, if_neg hk]
  · by_cases hk : g.board.cell move.fromRow move.fromCol = 'k'
    · rw [if_neg hK, if_pos hk, if_neg hK, if_pos hk]
    · rw [if_neg hK, if_neg hk, if_neg hK, if_neg hk]

theorem restoreScratch_scratchOut (g : Chess) (move : Move) :
    restoreScratch g (scratchOut g move) = g := by
  cases g
  rfl

theorem scratchOut_currentPlayer (g : Chess) (move : Move) :
    (scratchOut g move).currentPlayer = g.currentPlayer := rfl

/-- The scratch board holds piece letters and blanks when the board does. -/
theorem PieceBoard.scratch {g : Chess} (hb : PieceBoard g.board) (move : Move)
    (hf : isValidPosition move.fromRow move.fromCol = true)
    (ht : isValidPosition move.toRow move.toCol = true) :
    PieceBoard (scratchOut g move).board := by
  intro i j hij
  have e : (scratchOut g move).board.cell i j
      = ((g.board.put move.toRow move.toCol (g.board.cell move.fromRow move.fromCol)).put
        move.fromRow move.fromCol ' ').cell i j := rfl
  rw [e, cell_put _ hf hij]
  by_cases h1 : i = move.fromRow ∧ j = move.fromCol
  · rw [if_pos h1]
    exact Or.inl rfl
  · rw [if_neg h1, cell_put _ ht hij]
    by_cases h2 : i = move.toRow ∧ j = move.toCol
    · rw [if_pos h2]
      exact hb _ _ hf
    · rw [if_neg h2]
      exact hb _ _ hij

theorem scorePosition_eq (g : Chess) (hb : PieceBoard g.board) (captured : Char)
    (hc : captured = ' ' ∨ isPieceLetter captured = true) :
    scorePosition g captured = some (positionOut g captured) := by
  unfold scorePosition positionOut
  simp only [evaluateBoard_eq g hb, isInCheck_eq, Option.bind_eq_bind, Option.some_bind,
    Option.pure_def]
  by_cases h : (captured != ' ') = true
  · have hl : isPieceLetter captured = true := by
      rcases hc with hh | hh
      · rw [hh] at h
        exact absurd h (by decide)
      · exact hh
    rw [if_pos h, if_pos h, pieceValue_of_letter hl]
    rfl
  · rw [if_neg h, if_neg h]

theorem scoreMove_eq (g : Chess) (hb : PieceBoard g.board) (acc : List Move) (move : Move)
    (hf : isValidPosition move.fromRow move.fromCol = true)
    (ht : isValidPosition move.toRow move.toCol = true) :
    scoreMove (acc, g) move = some (acc ++ [{ move with score := scoreOut g move }], g) := by
  unfold scoreMove scoreOut
  simp only [scratchMove_eq g move hf ht, Option.bind_eq_bind, Option.some_bind, Option.pure_def,
    scorePosition_eq (scratchOut g move) (hb.scratch move hf ht) _
      ((hb _ _ ht).imp id id), restoreScratch_scratchOut]

theorem flatMap_singleton_map {α β : Type} (f : α → β) (l : List α) :
    l.flatMap (fun a => [f a]) = l.map f := by
  induction l with
  | nil => rfl
  | cons a l ih => rw [List.flatMap_cons, ih]; rfl

/-- On a board of piece letters and blanks the scoring loop of `getAIMove`
returns the scored legal moves and restores the state. -/
theorem scoring_loop_eq (g : Chess) (hb : PieceBoard g.board) :
    (legalMovesSpec g g.currentPlayer).foldlM scoreMove ([], g) = some (scoredMoves g, g) := by
  unfold scoredMoves
  rw [← flatMap_singleton_map]
  exact foldlM_state_nil scoreMove (fun m => [{ m with score := scoreOut g m }]) g _
    (fun acc m hm => scoreMove_eq g hb acc m (mem_legalMovesSpec hm).1
      (pieceOut_valid (mem_legalMovesSpec hm).2.2.2.1))

/-! ## Lemmas: the selection -/

theorem drawIndex_eq {range : Nat} (raw : Nat) (h : 0 < range) :
    drawIndex range raw = some (raw % range) ∧ raw % range < range := by
  unfold drawIndex
  rw [if_neg (by omega)]
  exact ⟨rfl, Nat.mod_lt _ h⟩

/-- The first element of a list sorted by descending score has the greatest
score. -/
theorem first_is_best {l : List Move} (hp : l.Pairwise (fun a b => b.score ≤ a.score))
    {first : Move} (h0 : l[0]? = some first) : ∀ m ∈ l, m.score ≤ first.score := by
  cases l with
  | nil => exact absurd h0 (by simp)
  | cons a rest =>
    have e : a = first := by
      rw [List.getElem?_cons_zero] at h0
      exact Option.some.inj h0
    subst e
    intro m hm
    rcases List.mem_cons.1 hm with hm | hm
    · rw [hm]
    · exact (List.pairwise_cons.1 hp).1 m hm

theorem mem_of_getElem? {l : List Move} {i : Nat} {m : Move} (h : l[i]? = some m) : m ∈ l := by
  obtain ⟨hi, e⟩ := List.getElem?_eq_some.1 h
  rw [← e]
  exact List.getElem_mem hi

theorem mem_scoredMoves {g : Chess} {m : Move} (h : m ∈ scoredMoves g) :
    ∃ m2 ∈ legalMovesSpec g g.currentPlayer, m.fromRow = m2.fromRow ∧ m.fromCol = m2.fromCol ∧
      m.toRow = m2.toRow ∧ m.toCol = m2.toCol := by
  unfold scoredMoves at h
  obtain ⟨m2, hm2, e⟩ := List.mem_map.1 h
  exact ⟨m2, hm2, by rw [← e], by rw [← e], by rw [← e], by rw [← e]⟩

theorem scoredMoves_length (g : Chess) :
    (scoredMoves g).length = (legalMovesSpec g g.currentPlayer).length := by
  unfold scoredMoves
  rw [List.length_map]

/-- The value of `getAIMove` on a board of piece letters and blanks. -/
theorem getAIMove_eq (sort : List Move → List Move) (g : Chess) (hb : PieceBoard g.board)
    (difficulty : Int) (u : ℚ) (raw : Nat) :
    getAIMove sort g difficulty u raw =
      if (legalMovesSpec g g.currentPlayer).isEmpty then some (none, g)
      else if difficulty = 1 then
        (drawIndex (legalMovesSpec g g.currentPlayer).length raw).bind (fun i =>
          ((legalMovesSpec g g.currentPlayer)[i]?).bind (fun move => some (some move, g)))
      else (selectMove difficulty (sort (scoredMoves g)) u raw).bind (fun selected =>
        some (some selected, g)) := by
  unfold getAIMove
  simp only [getAllValidMoves_eq, Option.bind_eq_bind, Option.some_bind, Option.pure_def,
    scoring_loop_eq g hb]

/-- The selection on a non-empty sorted list. -/
theorem selectMove_eq (difficulty : Int) (l : List Move) (u : ℚ) (raw : Nat) (hl : 0 < l.length) :
    ∃ first, l[0]? = some first ∧
    (difficulty = 2 → u < threshold06 → selectMove difficulty l u raw = some first) ∧
    (difficulty = 2 → ¬ u < threshold06 →
      raw % min 5 l.length < min 5 l.length ∧
      ∃ m, l[raw % min 5 l.length]? = some m ∧ selectMove difficulty l u raw = some m) ∧
    (difficulty ≠ 2 → u < threshold09 → selectMove difficulty l u raw = some first) ∧
    (difficulty ≠ 2 → ¬ u < threshold09 →
      raw % min 3 l.length < min 3 l.length ∧
      ∃ m, l[raw % min 3 l.length]? = some m ∧ selectMove difficulty l u raw = some m) := by
  have h5 : 0 < min 5 l.length := by omega
  have h3 : 0 < min 3 l.length := by omega
  obtain ⟨e5, lt5⟩ := drawIndex_eq raw h5
  obtain ⟨e3, lt3⟩ := drawIndex_eq raw h3
  have i5 : raw % min 5 l.length < l.length := by omega
  have i3 : raw % min 3 l.length < l.length := by omega
  refine ⟨l[0], List.getElem?_eq_getElem hl, ?_, ?_, ?_, ?_⟩
  · intro hd hu
    unfold selectMove
    rw [if_pos hd, if_pos hu]
    exact List.getElem?_eq_getElem hl
  · intro hd hu
    refine ⟨lt5, l[raw % min 5 l.length], List.getElem?_eq_getElem i5, ?_⟩
    unfold selectMove
    rw [if_pos hd, if_neg hu, e5]
    exact List.getElem?_eq_getElem i5
  · intro hd hu
    unfold selectMove
    rw [if_neg hd, if_pos hu]
    exact List.getElem?_eq_getElem hl
  · intro hd hu
    refine ⟨lt3, l[raw % min 3 l.length], List.getElem?_eq_getElem i3, ?_⟩
    unfold selectMove
    rw [if_neg hd, if_neg hu, e3]
    exact List.getElem?_eq_getElem i3

/-- Insertion sort by descending score meets the contract of `std::sort`. -/
theorem sortByScore_stdSort : StdSort sortByScore := by
  haveI : IsTotal Move (fun a b => b.score ≤ a.score) := ⟨fun a b => le_total b.score a.score⟩
  haveI : IsTrans Move (fun a b => b.score ≤ a.score) := ⟨fun a b c h1 h2 => le_trans h2 h1⟩
  exact ⟨fun l => List.perm_insertionSort _ l, fun l => List.sorted_insertionSort _ l⟩

/-- A check of all 64 cells gives `PieceBoard`. -/
theorem pieceBoard_of_all {b : Board}
    (h : allSquares.all (fun sq => b.cell sq.1 sq.2 == ' ' || isPieceLetter (b.cell sq.1 sq.2))
      = true) : PieceBoard b := by
  intro i j hij
  have := List.all_eq_true.1 h (i, j) (mem_allSquares_iff.2 hij)
  simpa using this

theorem pieceBoard_initial : PieceBoard initial.board :=
  pieceBoard_of_all (by decide)
/-! ## Lemmas: reachable boards hold piece letters and blanks -/

theorem PieceBoard.put {b : Board} (hb : PieceBoard b) (r c : Int) (v : Char)
    (hv : v = ' ' ∨ isPieceLetter v = true) : PieceBoard (b.put r c v) := by
  intro i j hij
  have e : (b.put r c v).cell i j
      = if toFin8 i = toFin8 r ∧ toFin8 j = toFin8 c then v else b.cell i j := rfl
  rw [e]
  by_cases h : toFin8 i = toFin8 r ∧ toFin8 j = toFin8 c
  · rw [if_pos h]
    exact hv
  · rw [if_neg h]
    exact hb i j hij

theorem PieceBoard.castleRook {b : Board} (hb : PieceBoard b) (home : Int) (rook : Char)
    (hr : isPieceLetter rook = true) (fc tc : Int) :
    PieceBoard (castleRookOut b home rook fc tc) := by
  unfold castleRookOut
  split
  · exact (hb.put _ _ _ (Or.inr hr)).put _ _ _ (Or.inl rfl)
  · split
    · exact (hb.put _ _ _ (Or.inr hr)).put _ _ _ (Or.inl rfl)
    · exact hb

theorem PieceBoard.capture {g : Chess} (hb : PieceBoard g.board) (p : Char) (tr tc : Int) :
    PieceBoard (captureBoard g p tr tc) := by
  unfold captureBoard
  split
  · exact hb.put _ _ _ (Or.inl rfl)
  · exact hb

/-- An accepted move leaves a board of piece letters and blanks. -/
theorem PieceBoard.after_move {g g2 : Chess} (hb : PieceBoard g.board) {fr fc tr tc : Int}
    (h : makeMove g fr fc tr tc = some (true, g2)) : PieceBoard g2.board := by
  obtain ⟨hv, _, _, _, _, _⟩ := makeMove_true_inv h
  have hp := hb fr fc hv
  have hmoved : PieceBoard
      (((captureBoard g (g.board.cell fr fc) tr tc).put tr tc (g.board.cell fr fc)).put
        fr fc ' ') := ((hb.capture _ tr tc).put _ _ _ hp).put _ _ _ (Or.inl rfl)
  have happ : PieceBoard (applyOut g (g.board.cell fr fc) fr fc tr tc).2.board := by
    rw [applyOut_board]
    split
    · exact hmoved.castleRook 7 'R' (by decide) fc tc
    · split
      · exact hmoved.castleRook 0 'r' (by decide) fc tc
      · exact hmoved
  rw [makeMove_true_board h, promoteOut_board]
  split
  · exact happ.put _ _ _ (Or.inr (by decide))
  · split
    · exact happ.put _ _ _ (Or.inr (by decide))
    · exact happ

/-- Every state reached from the initial position has a board of piece
letters and blanks. -/
theorem Reachable.pieceBoard {g : Chess} (h : Reachable g) : PieceBoard g.board := by
  induction h with
  | start => exact pieceBoard_initial
  | move fr fc tr tc _ hm ih =>
    have h2 := PieceBoard.after_move ih hm
    exact h2

/-! ## C19 -/

/-- C19: on every board that holds only piece letters and blanks (so in every
state reached from the initial position), for every difficulty, every
`std::sort` result and every outcome of the random draws, `getAIMove` returns,
leaves the state as it was, returns no move exactly when
`getAllValidMoves(currentPlayer)` is empty, and otherwise returns a move whose
origin and destination are those of an element of that list. -/
theorem getAIMove_returns_listed_move_or_none (sort : List Move → List Move)
    (hs : StdSort sort) (g : Chess) (hb : PieceBoard g.board)
    (difficulty : Int) (u : ℚ) (raw : Nat) :
    ∃ moves res, getAllValidMoves g g.currentPlayer = some (moves, g) ∧
      getAIMove sort g difficulty u raw = some (res, g) ∧
      (res = none ↔ moves = []) ∧
      ∀ m, res = some m → ∃ m2 ∈ moves, m.fromRow = m2.fromRow ∧ m.fromCol = m2.fromCol ∧
        m.toRow = m2.toRow ∧ m.toCol = m2.toCol := by
  refine ⟨legalMovesSpec g g.currentPlayer, ?_⟩
  rw [getAIMove_eq sort g hb]
  by_cases he : (legalMovesSpec g g.currentPlayer).isEmpty = true
  · rw [if_pos he]
    refine ⟨none, getAllValidMoves_eq g _, rfl, ?_, ?_⟩
    · exact ⟨fun _ => List.isEmpty_iff.1 he, fun _ => rfl⟩
    · intro m hm
      exact absurd hm (by simp)
  · rw [if_neg he]
    have hne : legalMovesSpec g g.currentPlayer ≠ [] := fun hh => he (List.isEmpty_iff.2 hh)
    have hlen : 0 < (legalMovesSpec g g.currentPlayer).length := List.length_pos.2 hne
    by_cases hd : difficulty = 1
    · rw [if_pos hd]
      obtain ⟨ei, lti⟩ := drawIndex_eq raw hlen
      obtain ⟨m0, hm0⟩ : ∃ m0, (legalMovesSpec g g.currentPlayer)[raw %
          (legalMovesSpec g g.currentPlayer).length]? = some m0 :=
        ⟨_, List.getElem?_eq_getElem lti⟩
      refine ⟨some m0, getAllValidMoves_eq g _, ?_, ?_, ?_⟩
      · rw [ei, Option.some_bind, hm0, Option.some_bind]
      · exact ⟨fun hh => absurd hh (by simp), fun hh => absurd hh hne⟩
      · intro m hm
        have e : m0 = m := Option.some.inj hm
        rw [← e]
        exact ⟨m0, mem_of_getElem? hm0, rfl, rfl, rfl, rfl⟩
    · rw [if_neg hd]
      have hslen : 0 < (sort (scoredMoves g)).length := by
        rw [(hs.perm _).length_eq, scoredMoves_length]
        exact hlen
      obtain ⟨first, h0, s1, s2, s3, s4⟩ := selectMove_eq difficulty _ u raw hslen
      have hsel : ∃ m, selectMove difficulty (sort (scoredMoves g)) u raw = some m ∧
          m ∈ sort (scoredMoves g) := by
        by_cases h2 : difficulty = 2
        · by_cases hu : u < threshold06
          · exact ⟨first, s1 h2 hu, mem_of_getElem? h0⟩
          · obtain ⟨_, m, hm, hsm⟩ := s2 h2 hu
            exact ⟨m, hsm, mem_of_getElem? hm⟩
        · by_cases hu : u < threshold09
          · exact ⟨first, s3 h2 hu, mem_of_getElem? h0⟩
          · obtain ⟨_, m, hm, hsm⟩ := s4 h2 hu
            exact ⟨m, hsm, mem_of_getElem? hm⟩
      obtain ⟨sel, hsel, hmem⟩ := hsel
      refine ⟨some sel, getAllValidMoves_eq g _, ?_, ?_, ?_⟩
      · rw [hsel, Option.some_bind]
      · exact ⟨fun hh => absurd hh (by simp), fun hh => absurd hh hne⟩
      · intro m hm
        have e : sel = m := Option.some.inj hm
        rw [← e]
        exact mem_scoredMoves ((hs.perm _).mem_iff.1 hmem)

/-- Witness for C19: the initial position at difficulty 2 with insertion sort
and the draws 0 and 0. -/
theorem getAIMove_returns_listed_move_or_none_witness :
    StdSort sortByScore ∧ PieceBoard initial.board ∧
    ∃ moves res, getAllValidMoves initial initial.currentPlayer = some (moves, initial) ∧
      getAIMove sortByScore initial 2 0 0 = some (res, initial) ∧
      (res = none ↔ moves = []) ∧
      ∀ m, res = some m → ∃ m2 ∈ moves, m.fromRow = m2.fromRow ∧ m.fromCol = m2.fromCol ∧
        m.toRow = m2.toRow ∧ m.toCol = m2.toCol :=
  ⟨sortByScore_stdSort, pieceBoard_initial,
    getAIMove_returns_listed_move_or_none sortByScore sortByScore_stdSort initial
      pieceBoard_initial 2 0 0⟩

/-! ## C20 -/

/-- C20: on a board of piece letters and blanks with a non-empty legal-move
list and a difficulty other than 1, the scoring loop returns one scored move
per legal move; with `sorted` the result of `std::sort` on them: at difficulty
2, a probability draw below 0.6 returns the first move of `sorted`, otherwise
the move at the drawn index, which is below `min(5, n)`; at any other
difficulty the same holds with 0.9 and `min(3, n)`; and the first move of
`sorted` has a score no smaller than that of every scored legal move. -/
theorem getAIMove_selection_rule (sort : List Move → List Move) (hs : StdSort sort)
    (g : Chess) (hb : PieceBoard g.board) (moves : List Move)
    (hm : getAllValidMoves g g.currentPlayer = some (moves, g)) (hn : moves ≠ [])
    (difficulty : Int) (hd : difficulty ≠ 1) (u : ℚ) (raw : Nat) :
    ∃ scored first, moves.foldlM scoreMove ([], g) = some (scored, g) ∧
      scored.length = moves.length ∧
      (sort scored)[0]? = some first ∧
      (∀ m ∈ scored, m.score ≤ first.score) ∧
      (difficulty = 2 → u < threshold06 →
        getAIMove sort g difficulty u raw = some (some first, g)) ∧
      (difficulty = 2 → ¬ u < threshold06 →
        raw % min 5 moves.length < min 5 moves.length ∧
        ∃ m, (sort scored)[raw % min 5 moves.length]? = some m ∧
          getAIMove sort g difficulty u raw = some (some m, g)) ∧
      (difficulty ≠ 2 → u < threshold09 →
        getAIMove sort g difficulty u raw = some (some first, g)) ∧
      (difficulty ≠ 2 → ¬ u < threshold09 →
        raw % min 3 moves.length < min 3 moves.length ∧
        ∃ m, (sort scored)[raw % min 3 moves.length]? = some m ∧
          getAIMove sort g difficulty u raw = some (some m, g)) := by
  have em : legalMovesSpec g g.currentPlayer = moves :=
    congrArg Prod.fst (Option.some.inj ((getAllValidMoves_eq g _).symm.trans hm))
  have hlen : 0 < moves.length := List.length_pos.2 hn
  have hsl : (sort (scoredMoves g)).length = moves.length := by
    rw [(hs.perm _).length_eq, scoredMoves_length, em]
  have he : ¬ (legalMovesSpec g g.currentPlayer).isEmpty = true := by
    rw [em]
    exact fun hh => hn (List.isEmpty_iff.1 hh)
  have hai : getAIMove sort g difficulty u raw
      = (selectMove difficulty (sort (scoredMoves g)) u raw).bind (fun selected =>
        some (some selected, g)) := by
    rw [getAIMove_eq sort g hb, if_neg he, if_neg hd]
  obtain ⟨first, h0, s1, s2, s3, s4⟩ :=
    selectMove_eq difficulty (sort (scoredMoves g)) u raw (by rw [hsl]; exact hlen)
  rw [hsl] at s2 s4
  refine ⟨scoredMoves g, first, ?_, ?_, h0, ?_, ?_, ?_, ?_, ?_⟩
  · rw [← em]
    exact scoring_loop_eq g hb
  · rw [scoredMoves_length, em]
  · intro m hmem
    exact first_is_best (hs.sorted _) h0 m ((hs.perm _).mem_iff.2 hmem)
  · intro h2 hu
    rw [hai, s1 h2 hu, Option.some_bind]
  · intro h2 hu
    obtain ⟨hlt, m, hmm, hsm⟩ := s2 h2 hu
    exact ⟨hlt, m, hmm, by rw [hai, hsm, Option.some_bind]⟩
  · intro h2 hu
    rw [hai, s3 h2 hu, Option.some_bind]
  · intro h2 hu
    obtain ⟨hlt, m, hmm, hsm⟩ := s4 h2 hu
    exact ⟨hlt, m, hmm, by rw [hai, hsm, Option.some_bind]⟩

theorem zero_lt_threshold09 : (0 : ℚ) < threshold09 := by decide!

theorem half_lt_threshold09 : (1 / 2 : ℚ) < threshold09 := by decide!

/-- Witness for C20: the initial position at difficulty 3 with insertion sort,
the probability draw 1/2 and the integer draw 0: the first move of the sorted
list is returned. -/
theorem getAIMove_selection_rule_witness :
    StdSort sortByScore ∧ PieceBoard initial.board ∧
    getAllValidMoves initial initial.currentPlayer
      = some (legalMovesSpec initial initial.currentPlayer, initial) ∧
    legalMovesSpec initial initial.currentPlayer ≠ [] ∧
    ∃ scored first,
      (legalMovesSpec initial initial.currentPlayer).foldlM scoreMove ([], initial)
        = some (scored, initial) ∧
      (sortByScore scored)[0]? = some first ∧
      (∀ m ∈ scored, m.score ≤ first.score) ∧
      getAIMove sortByScore initial 3 (1 / 2) 0 = some (some first, initial) := by
  have hm := getAllValidMoves_eq initial initial.currentPlayer
  have hn : legalMovesSpec initial initial.currentPlayer ≠ [] := by decide
  obtain ⟨scored, first, h1, _, h0, hbest, _, _, s3, _⟩ :=
    getAIMove_selection_rule sortByScore sortByScore_stdSort initial pieceBoard_initial _ hm hn
      3 (by decide) (1 / 2) 0
  exact ⟨sortByScore_stdSort, pieceBoard_initial, hm, hn, scored, first, h1, h0, hbest,
    s3 (by decide) half_lt_threshold09⟩
/-! ## Lemmas: the pawn moves as a set -/

theorem mem_pawnForwardOut_iff (b : Board) (row col d s : Int) (pos : Position) :
    pos ∈ pawnForwardOut b row col d s ↔
      (isValidPosition (row + d) col = true ∧ b.cell (row + d) col = ' ' ∧
        (pos = ⟨row + d, col⟩ ∨
          (row = s ∧ b.cell (row + 2 * d) col = ' ' ∧ pos = ⟨row + 2 * d, col⟩))) := by
  unfold pawnForwardOut
  by_cases h1 : (isValidPosition (row + d) col && b.cell (row + d) col == ' ') = true
  · rw [if_pos h1]
    simp only [Bool.and_eq_true, beq_iff_eq] at h1
    by_cases h2 : (decide (row = s) && b.cell (row + 2 * d) col == ' ') = true
    · rw [if_pos h2]
      simp only [Bool.and_eq_true, beq_iff_eq, decide_eq_true_eq] at h2
      simp only [List.mem_cons, List.mem_singleton, List.not_mem_nil, or_false]
      constructor
      · rintro (h | h)
        · exact ⟨h1.1, h1.2, Or.inl h⟩
        · exact ⟨h1.1, h1.2, Or.inr ⟨h2.1, h2.2, h⟩⟩
      · rintro ⟨_, _, h | ⟨_, _, h⟩⟩
        · exact Or.inl h
        · exact Or.inr h
    · rw [if_neg h2]
      simp only [Bool.and_eq_true, beq_iff_eq, decide_eq_true_eq] at h2
      simp only [List.mem_singleton]
      constructor
      · intro h
        exact ⟨h1.1, h1.2, Or.inl h⟩
      · rintro ⟨_, _, h | ⟨h3, h4, _⟩⟩
        · exact h
        · exact absurd ⟨h3, h4⟩ h2
  · rw [if_neg h1]
    simp only [Bool.and_eq_true, beq_iff_eq] at h1
    simp only [List.not_mem_nil, false_iff]
    rintro ⟨h3, h4, _⟩
    exact h1 ⟨h3, h4⟩

theorem mem_pawnCaptureOut_iff (b : Board) (ep : Position) (row col : Int) (piece : Char)
    (d dc : Int) (pos : Position) :
    pos ∈ pawnCaptureOut b ep row col piece d dc ↔
      (pos = ⟨row + d, col + dc⟩ ∧ isValidPosition (row + d) (col + dc) = true ∧
        ((b.cell (row + d) (col + dc) ≠ ' ' ∧
            getPieceColor (b.cell (row + d) (col + dc)) ≠ getPieceColor piece) ∨
          ep = ⟨row + d, col + dc⟩)) := by
  unfold pawnCaptureOut
  by_cases h1 : (isValidPosition (row + d) (col + dc) &&
      ((b.cell (row + d) (col + dc) != ' ' &&
          getPieceColor (b.cell (row + d) (col + dc)) != getPieceColor piece) ||
        decide (ep = ⟨row + d, col + dc⟩))) = true
  · rw [if_pos h1]
    simp only [Bool.and_eq_true, Bool.or_eq_true, bne_iff_ne, ne_eq, decide_eq_true_eq] at h1
    simp only [List.mem_singleton]
    exact ⟨fun h => ⟨h, h1.1, h1.2⟩, fun h => h.1⟩
  · rw [if_neg h1]
    simp only [Bool.and_eq_true, Bool.or_eq_true, bne_iff_ne, ne_eq, decide_eq_true_eq] at h1
    simp only [List.not_mem_nil, false_iff]
    rintro ⟨_, h3, h4⟩
    exact h1 ⟨h3, h4⟩

theorem position_eq_iff (p q : Position) : p = q ↔ p.row = q.row ∧ p.col = q.col := by
  cases p
  cases q
  simp

/-- The value of `getPawnMoves` holds exactly the specified destinations. -/
theorem mem_pawnOut_iff (g : Chess) (row col : Int) (piece : Char)
    (hv : isValidPosition row col = true) (pos : Position) :
    pos ∈ pawnOut g.board g.enPassantTarget row col piece ↔
      isPawnDestination g row col piece pos = true := by
  unfold pawnOut isPawnDestination
  dsimp only
  have hd : (if isWhitePiece piece = true then (-1 : Int) else 1) = -1 ∧
        (if isWhitePiece piece = true then (6 : Int) else 1) = 6 ∨
      (if isWhitePiece piece = true then (-1 : Int) else 1) = 1 ∧
        (if isWhitePiece piece = true then (6 : Int) else 1) = 1 := by
    by_cases hw : isWhitePiece piece = true
    · rw [if_pos hw, if_pos hw]
      exact Or.inl ⟨rfl, rfl⟩
    · rw [if_neg hw, if_neg hw]
      exact Or.inr ⟨rfl, rfl⟩
  generalize (if isWhitePiece piece = true then (-1 : Int) else 1) = d at hd ⊢
  generalize (if isWhitePiece piece = true then (6 : Int) else 1) = s at hd ⊢
  rw [isValidPosition_iff] at hv
  obtain ⟨pr, pc⟩ := pos
  simp only [List.mem_append, List.mem_flatMap, List.mem_cons, List.mem_singleton,
    List.not_mem_nil, or_false, mem_pawnForwardOut_iff, mem_pawnCaptureOut_iff,
    Bool.or_eq_true, Bool.and_eq_true, decide_eq_true_eq, beq_iff_eq, bne_iff_ne, ne_eq,
    position_eq_iff, isValidPosition_iff]
  constructor
  · rintro (⟨h1, h2, ⟨rfl, rfl⟩ | ⟨h3, h4, rfl, rfl⟩⟩ | ⟨dc, hdc, ⟨rfl, rfl⟩, h2, h3⟩)
    · exact Or.inl (Or.inl ⟨⟨⟨rfl, rfl⟩, h1⟩, h2⟩)
    · exact Or.inl (Or.inr ⟨⟨⟨⟨rfl, rfl⟩, h3⟩, h2⟩, h4⟩)
    · right
      refine ⟨⟨⟨rfl, ?_⟩, h2⟩, ?_⟩
      · rcases hdc with hdc | hdc <;> rw [hdc] <;> omega
      · exact h3
  · rintro ((⟨⟨⟨rfl, rfl⟩, h3⟩, h4⟩ | ⟨⟨⟨⟨rfl, rfl⟩, h3⟩, h4⟩, h5⟩) | ⟨⟨⟨rfl, h2⟩, h3⟩, h4⟩)
    · exact Or.inl ⟨h3, h4, Or.inl ⟨rfl, rfl⟩⟩
    · left
      refine ⟨?_, h4, Or.inr ⟨h3, h5, rfl, rfl⟩⟩
      rcases hd with ⟨hd1, hd2⟩ | ⟨hd1, hd2⟩ <;> omega
    · right
      rcases h2 with rfl | rfl
      · have e : col + -1 = col - 1 := by omega
        refine ⟨-1, Or.inl rfl, ⟨rfl, by omega⟩, ?_, ?_⟩
        · rw [e]
          exact h3
        · rw [e]
          exact h4
      · exact ⟨1, Or.inr rfl, ⟨rfl, rfl⟩, h3, h4⟩

theorem pawnOut_nodup (b : Board) (ep : Position) (row col : Int) (piece : Char) :
    (pawnOut b ep row col piece).Nodup := by
  unfold pawnOut
  dsimp only
  have hd : (if isWhitePiece piece = true then (-1 : Int) else 1) ≠ 0 := by
    split <;> decide
  generalize (if isWhitePiece piece = true then (-1 : Int) else 1) = d at hd ⊢
  generalize (if isWhitePiece piece = true then (6 : Int) else 1) = s
  rw [List.nodup_append]
  refine ⟨?_, ?_, ?_⟩
  · unfold pawnForwardOut
    split
    · split
      · simp only [List.nodup_cons, List.mem_singleton, List.not_mem_nil, not_false_eq_true,
          List.nodup_nil, and_true, Position.mk.injEq]
        omega
      · simp
    · simp
  · simp only [List.flatMap_cons, List.flatMap_nil, List.append_nil]
    rw [List.nodup_append]
    refine ⟨?_, ?_, ?_⟩
    · unfold pawnCaptureOut
      split <;> simp
    · unfold pawnCaptureOut
      split <;> simp
    · intro a h1 h2
      rw [mem_pawnCaptureOut_iff] at h1 h2
      have := h1.1.symm.trans h2.1
      simp only [Position.mk.injEq] at this
      omega
  · intro a h1 h2
    rw [mem_pawnForwardOut_iff] at h1
    simp only [List.flatMap_cons, List.flatMap_nil, List.append_nil, List.mem_append,
      mem_pawnCaptureOut_iff] at h2
    have hc : a.col = col := by
      rcases h1.2.2 with h | ⟨_, _, h⟩ <;> rw [h]
    rcases h2 with h | h
    · have := congrArg Position.col h.1
      dsimp only at this
      omega
    · have := congrArg Position.col h.1
      dsimp only at this
      omega

/-! ## C30 -/

/-- C30: for every pawn `piece` on an on-board square `(row, col)`,
`getPawnMoves` returns a list without repetition that holds exactly: the
square one row forward if it is on the board and empty; the square two rows
forward if the pawn is on its home row (6 for white, 1 for black) and that
square and the one before it are empty; and each forward-diagonal on-board
square that holds an enemy piece or is the en-passant target. This needs no
assumption on the en-passant target. -/
theorem getPawnMoves_returns_specified_squares (g : Chess) (row col : Int) (piece : Char)
    (hv : isValidPosition row col = true) :
    ∃ l, getPawnMoves g row col piece = some l ∧ l.Nodup ∧
      ∀ pos : Position, pos ∈ l ↔ isPawnDestination g row col piece pos = true :=
  ⟨pawnOut g.board g.enPassantTarget row col piece, getPawnMoves_eq g row col piece,
    pawnOut_nodup _ _ _ _ _, mem_pawnOut_iff g row col piece hv⟩

/-- Witness for C30: the white e-pawn of the initial position. -/
theorem getPawnMoves_returns_specified_squares_witness :
    ∃ l, getPawnMoves initial 6 4 'P' = some l ∧ l.Nodup ∧
      ∀ pos : Position, pos ∈ l ↔ isPawnDestination initial 6 4 'P' pos = true :=
  getPawnMoves_returns_specified_squares initial 6 4 'P' (by decide)
/-! ## Lemmas: the attack test in the specification's words -/

theorem mem_getPawnAttackSquares_iff (row col : Int) (piece : Char) (pos : Position) :
    pos ∈ getPawnAttackSquares row col piece ↔
      (isValidPosition pos.row pos.col = true ∧
        pos.row = row + (if isWhitePiece piece then -1 else 1) ∧
        (pos.col = col - 1 ∨ pos.col = col + 1)) := by
  unfold getPawnAttackSquares
  dsimp only
  generalize (if isWhitePiece piece = true then (-1 : Int) else 1) = d
  obtain ⟨pr, pc⟩ := pos
  simp only [List.foldl_cons, List.foldl_nil, List.nil_append]
  by_cases h1 : isValidPosition (row + d) (col + -1) = true
  · rw [if_pos h1]
    by_cases h2 : isValidPosition (row + d) (col + 1) = true
    · rw [if_pos h2]
      simp only [List.mem_append, List.mem_singleton, List.mem_cons, List.not_mem_nil, or_false,
        Position.mk.injEq]
      constructor
      · rintro (⟨rfl, rfl⟩ | ⟨rfl, rfl⟩)
        · exact ⟨h1, rfl, Or.inl (by omega)⟩
        · exact ⟨h2, rfl, Or.inr rfl⟩
      · rintro ⟨_, rfl, rfl | rfl⟩
        · exact Or.inl ⟨rfl, by omega⟩
        · exact Or.inr ⟨rfl, rfl⟩
    · rw [if_neg h2]
      simp only [List.mem_singleton, Position.mk.injEq]
      constructor
      · rintro ⟨rfl, rfl⟩
        exact ⟨h1, rfl, Or.inl (by omega)⟩
      · rintro ⟨hv, rfl, rfl | rfl⟩
        · exact ⟨rfl, by omega⟩
        · exact absurd hv h2
  · rw [if_neg h1]
    have e : col + -1 = col - 1 := by omega
    by_cases h2 : isValidPosition (row + d) (col + 1) = true
    · rw [if_pos h2]
      simp only [List.nil_append, List.mem_singleton, Position.mk.injEq]
      constructor
      · rintro ⟨rfl, rfl⟩
        exact ⟨h2, rfl, Or.inr rfl⟩
      · rintro ⟨hv, rfl, rfl | rfl⟩
        · rw [e] at h1
          exact absurd hv h1
        · exact ⟨rfl, rfl⟩
    · rw [if_neg h2]
      simp only [List.not_mem_nil, false_iff]
      rintro ⟨hv, rfl, rfl | rfl⟩
      · rw [e] at h1
        exact absurd hv h1
      · exact absurd hv h2

theorem mem_queenDirections_iff (d : Int × Int) :
    d ∈ queenDirections ↔ d.1.natAbs ≤ 1 ∧ d.2.natAbs ≤ 1 ∧ ¬ (d.1 = 0 ∧ d.2 = 0) := by
  obtain ⟨a, b⟩ := d
  constructor
  · intro h
    obtain ⟨h1, h2, h3⟩ := mem_queenDirections h
    dsimp only at h1 h2 h3 ⊢
    omega
  · rintro ⟨h1, h2, h3⟩
    dsimp only at h1 h2 h3
    have ha : a = -1 ∨ a = 0 ∨ a = 1 := by omega
    have hb : b = -1 ∨ b = 0 ∨ b = 1 := by omega
    rcases ha with rfl | rfl | rfl <;> rcases hb with rfl | rfl | rfl <;>
      first
        | (simp [queenDirections]; done)
        | exact absurd (And.intro rfl rfl) h3

theorem mem_jumpOut_iff (b : Board) (row col : Int) (piece : Char) (d : Int × Int)
    (pos : Position) :
    pos ∈ jumpOut b row col piece d ↔
      (pos = ⟨row + d.1, col + d.2⟩ ∧ isValidPosition pos.row pos.col = true ∧
        (b.cell pos.row pos.col = ' ' ∨
          getPieceColor (b.cell pos.row pos.col) ≠ getPieceColor piece)) := by
  constructor
  · exact jumpOut_mem
  · rintro ⟨rfl, hv, hc⟩
    unfold jumpOut
    dsimp only at hv hc
    have hcond : (isValidPosition (row + d.1) (col + d.2) &&
        (b.cell (row + d.1) (col + d.2) == ' ' ||
          getPieceColor (b.cell (row + d.1) (col + d.2)) != getPieceColor piece)) = true := by
      rw [hv]
      rcases hc with hc | hc
      · simp [hc]
      · simp [hc]
    rw [if_pos hcond]
    exact List.mem_singleton.2 rfl

/-- The colour of a piece is never the empty string. -/
theorem color_ne_empty {p : Char} (h : p ≠ ' ') : getPieceColor p ≠ "" :=
  fun hc => h ((getPieceColor_eq_empty_iff p).1 hc)

/-- The attack list of the piece on `(i, j)` holds `(r, c)` exactly when the
piece attacks `(r, c)` in the specification's words. -/
theorem mem_attackOut_iff (g : Chess) (r c : Int) (s : String) (i j : Int)
    (hv : isValidPosition r c = true) (hij : isValidPosition i j = true)
    (hne : g.board.cell i j ≠ ' ') (hcol : getPieceColor (g.board.cell i j) = s) :
    (⟨r, c⟩ : Position) ∈ attackOut g.board i j ↔ AttacksFrom g r c s i j := by
  unfold AttacksFrom attackOut
  dsimp only
  have hpm := getPieceMoves_eq g i j hij
  by_cases hP : (g.board.cell i j).toUpper = 'P'
  · have hP2 : ((g.board.cell i j).toUpper == 'P') = true := by simpa using hP
    rw [if_pos hP2, mem_getPawnAttackSquares_iff]
    dsimp only
    constructor
    · rintro ⟨_, h1, h2⟩
      exact ⟨hij, hne, hcol, Or.inl ⟨hP, h1, h2⟩⟩
    · rintro ⟨_, _, _, ⟨_, h1, h2⟩ | ⟨hK, _⟩ | ⟨hO, _⟩⟩
      · exact ⟨hv, h1, h2⟩
      · rw [hP] at hK
        exact absurd hK (by decide)
      · rw [hP] at hO
        exact absurd hO (by decide)
  · have hP2 : ¬ ((g.board.cell i j).toUpper == 'P') = true := by simpa using hP
    rw [if_neg hP2]
    by_cases hK : (g.board.cell i j).toUpper = 'K'
    · have hK2 : ((g.board.cell i j).toUpper == 'K') = true := by simpa using hK
      rw [if_pos hK2]
      simp only [List.mem_flatMap, mem_jumpOut_iff, mem_queenDirections_iff, Position.mk.injEq]
      constructor
      · rintro ⟨d, ⟨h1, h2, h3⟩, ⟨rfl, rfl⟩, _, hc⟩
        refine ⟨hij, hne, hcol, Or.inr (Or.inl ⟨hK, by omega, by omega, by omega, ?_⟩)⟩
        rcases hc with hc | hc
        · rw [hc, ← hcol]
          exact fun h => color_ne_empty hne h.symm
        · rw [← hcol]
          exact hc
      · rintro ⟨_, _, _, ⟨hP3, _⟩ | ⟨_, h1, h2, h3, hc⟩ | ⟨hO, _⟩⟩
        · exact absurd hP3 hP
        · refine ⟨(r - i, c - j), ⟨h1, h2, by omega⟩, ⟨by omega, by omega⟩, hv, Or.inr ?_⟩
          rw [hcol]
          exact hc
        · rw [hK] at hO
          exact absurd hO (by decide)
    · have hK2 : ¬ ((g.board.cell i j).toUpper == 'K') = true := by simpa using hK
      rw [if_neg hK2]
      have hpo : pieceOut g i j = officerOut g.board i j (g.board.cell i j) := by
        unfold pieceOut
        dsimp only
        rw [if_neg (by simpa using hne), if_neg hP2, if_neg hK2]
      constructor
      · intro hmem
        refine ⟨hij, hne, hcol, Or.inr (Or.inr ⟨?_, pieceOut g i j, hpm, by rw [hpo]; exact hmem⟩)⟩
        unfold officerOut at hmem
        by_cases hN : ((g.board.cell i j).toUpper == 'N') = true
        · exact Or.inl (by simpa using hN)
        · rw [if_neg hN] at hmem
          by_cases hB : ((g.board.cell i j).toUpper == 'B') = true
          · exact Or.inr (Or.inl (by simpa using hB))
          · rw [if_neg hB] at hmem
            by_cases hR : ((g.board.cell i j).toUpper == 'R') = true
            · exact Or.inr (Or.inr (Or.inl (by simpa using hR)))
            · rw [if_neg hR] at hmem
              by_cases hQ : ((g.board.cell i j).toUpper == 'Q') = true
              · exact Or.inr (Or.inr (Or.inr (by simpa using hQ)))
              · rw [if_neg hQ] at hmem
                exact absurd hmem (List.not_mem_nil _)
      · rintro ⟨_, _, _, ⟨hP3, _⟩ | ⟨hK3, _⟩ | ⟨_, l, hl, hmem⟩⟩
        · exact absurd hP3 hP
        · exact absurd hK3 hK
        · rw [hpm] at hl
          have e : pieceOut g i j = l := Option.some.inj hl
          rw [← e, hpo] at hmem
          exact hmem

/-! ## C26 -/

/-- C26: for every state, board square `(r, c)` and side `s`,
`isSquareAttacked(r, c, s)` returns, and it returns true exactly when some
on-board square holds a piece of `s` that is a pawn with `(r, c)` one of its
two forward-diagonal neighbours, or a king with `(r, c)` adjacent and not
occupied by a piece of `s`, or a knight, bishop, rook or queen with `(r, c)`
among its `getPieceMoves` destinations. -/
theorem isSquareAttacked_characterised (g : Chess) (r c : Int) (s : String)
    (hv : isValidPosition r c = true) :
    ∃ b, isSquareAttacked g r c s = some b ∧
      (b = true ↔ ∃ i j : Int, AttacksFrom g r c s i j) := by
  refine ⟨attackedOut g.board r c s, isSquareAttacked_eq g r c s, ?_⟩
  unfold attackedOut
  rw [List.any_eq_true]
  constructor
  · rintro ⟨⟨i, j⟩, hsq, hat⟩
    have hij := mem_allSquares_iff.1 hsq
    unfold attacksFrom at hat
    simp only [Bool.and_eq_true, bne_iff_ne, ne_eq, beq_iff_eq] at hat
    obtain ⟨⟨hne, hcol⟩, hany⟩ := hat
    rw [any_pos_iff] at hany
    exact ⟨i, j, (mem_attackOut_iff g r c s i j hv hij hne hcol).1 hany⟩
  · rintro ⟨i, j, hat⟩
    have hij := hat.1
    have hne := hat.2.1
    have hcol := hat.2.2.1
    refine ⟨(i, j), mem_allSquares_iff.2 hij, ?_⟩
    unfold attacksFrom
    simp only [Bool.and_eq_true, bne_iff_ne, ne_eq, beq_iff_eq]
    refine ⟨⟨hne, hcol⟩, ?_⟩
    rw [any_pos_iff]
    exact (mem_attackOut_iff g r c s i j hv hij hne hcol).2 hat

/-- Witness for C26: in the initial position the square e3 is attacked by
white, by the pawn of d2. -/
theorem isSquareAttacked_characterised_witness :
    isSquareAttacked initial 5 4 "white" = some true ∧
    ∃ i j : Int, AttacksFrom initial 5 4 "white" i j := by
  obtain ⟨b, hb, hiff⟩ := isSquareAttacked_characterised initial 5 4 "white" (by decide)
  have e : isSquareAttacked initial 5 4 "white" = some true := by decide
  have hbt : b = true := Option.some.inj (hb.symm.trans e)
  exact ⟨e, hiff.1 hbt⟩
/-! ## Lemmas: the evaluation as a sum -/

theorem foldl_add_eq_sum {α : Type} (f : α → Int) (step : Int → α → Int) (l : List α)
    (h : ∀ a ∈ l, ∀ s, step s a = s + f a) (init : Int) :
    l.foldl step init = init + (l.map f).sum := by
  induction l generalizing init with
  | nil => simp
  | cons a l ih =>
    rw [List.foldl_cons, h a (List.mem_cons_self _ _),
      ih (fun x hx => h x (List.mem_cons_of_mem _ hx)), List.map_cons, List.sum_cons]
    omega

/-- The map `PIECE_VALUES` holds the signed material values. -/
theorem pieceValue_eq_materialValue {c : Char} (h : isPieceLetter c = true) :
    pieceValue c = some (materialValue c) := by
  simp only [isPieceLetter, decide_eq_true_eq] at h
  rcases h with h | h | h | h | h | h | h | h | h | h | h | h <;> subst h <;> decide

theorem cellOut_eq_contribution {b : Board} (hb : PieceBoard b) (sq : Int × Int)
    (hv : isValidPosition sq.1 sq.2 = true) (score : Int) :
    cellOut b score sq = score + contribution b sq := by
  unfold cellOut contribution signedBonus
  rcases hb sq.1 sq.2 hv with h | h
  · have h2 : (b.cell sq.1 sq.2 == ' ') = true := by simpa using h
    rw [if_pos h2, if_pos h]
    omega
  · have hne : b.cell sq.1 sq.2 ≠ ' ' := by
      intro hc
      rw [hc] at h
      exact absurd h (by decide)
    have h2 : ¬ (b.cell sq.1 sq.2 == ' ') = true := by simpa using hne
    rw [if_neg h2, if_neg hne, pieceValue_eq_materialValue h]
    simp only [Option.getD_some]
    omega

theorem evalOut_eq_sum {b : Board} (hb : PieceBoard b) : evalOut b = evaluationSum b := by
  unfold evalOut evaluationSum
  rw [foldl_add_eq_sum (contribution b) (cellOut b) allSquares
    (fun sq hsq s => cellOut_eq_contribution hb sq (mem_allSquares_iff.1 hsq) s) 0]
  omega

/-- Rooks and queens have no positional bonus. -/
theorem positionBonus_rook_queen (piece : Char)
    (h : piece = 'R' ∨ piece = 'r' ∨ piece = 'Q' ∨ piece = 'q') (i j : Int) :
    positionBonus piece i j = 0 := by
  rcases h with h | h | h | h <;> subst h <;> rfl

/-! ## C24 -/

/-- C24: on every board whose cells hold only the 12 piece letters or a blank,
`evaluateBoard` returns the sum over the occupied cells of the piece's signed
material value (P 100, N 320, B 330, R 500, Q 900, K 20000, negated for black)
plus its signed positional bonus; the positional bonus of a rook or queen is 0
on every square, so the contribution of a rook or queen is the same on every
square. -/
theorem evaluateBoard_is_material_plus_bonus (g : Chess) (hb : PieceBoard g.board) :
    evaluateBoard g = some (evaluationSum g.board) ∧
    ['P', 'N', 'B', 'R', 'Q', 'K', 'p', 'n', 'b', 'r', 'q', 'k'].map materialValue
      = [100, 320, 330, 500, 900, 20000, -100, -320, -330, -500, -900, -20000] ∧
    ∀ piece : Char, piece = 'R' ∨ piece = 'r' ∨ piece = 'Q' ∨ piece = 'q' →
      ∀ i j : Int, positionBonus piece i j = 0 ∧ signedBonus piece i j = 0 ∧
        ∀ i2 j2 : Int, materialValue piece + signedBonus piece i j
          = materialValue piece + signedBonus piece i2 j2 := by
  refine ⟨?_, by decide, ?_⟩
  · rw [evaluateBoard_eq g hb, evalOut_eq_sum hb]
  · intro piece hp i j
    have hs : ∀ a b : Int, signedBonus piece a b = 0 := by
      intro a b
      unfold signedBonus
      rw [positionBonus_rook_queen piece hp a b]
      split <;> rfl
    exact ⟨positionBonus_rook_queen piece hp i j, hs i j, fun i2 j2 => by rw [hs i j, hs i2 j2]⟩

/-- Witness for C24: the initial position, whose evaluation is 0. -/
theorem evaluateBoard_is_material_plus_bonus_witness :
    PieceBoard initial.board ∧ evaluateBoard initial = some (evaluationSum initial.board) ∧
    evaluationSum initial.board = 0 :=
  ⟨pieceBoard_initial,
    (evaluateBoard_is_material_plus_bonus initial pieceBoard_initial).1, by decide⟩

/-! ## C25 -/

/-- C25, evaluated at the failing input: `evaluateBoard` mirrors the rank for
white, not for black. For every row `i` and column `j` a white pawn, knight,
bishop or king looks up `TABLE[7 - i][j]` and a black one `TABLE[i][j]`. In
the position after 1.e4 from the initial position `evaluateBoard` returns
`-25` (the pawn on e4 counts `PAWN_TABLE[3][4] = 25`, the black pawn on e7
`PAWN_TABLE[1][4] = 50`), where the lookup mirrored for black gives `40`
(`PAWN_TABLE[4][4] = 20` and `PAWN_TABLE[6][4] = -20`). -/
theorem evaluateBoard_mirrors_rank_for_white :
    (∀ i j : Int,
      positionBonus 'P' i j = tableAt PAWN_TABLE (7 - i) j ∧
      positionBonus 'N' i j = tableAt KNIGHT_TABLE (7 - i) j ∧
      positionBonus 'B' i j = tableAt BISHOP_TABLE (7 - i) j ∧
      positionBonus 'K' i j = tableAt KING_TABLE (7 - i) j ∧
      positionBonus 'p' i j = tableAt PAWN_TABLE i j ∧
      positionBonus 'n' i j = tableAt KNIGHT_TABLE i j ∧
      positionBonus 'b' i j = tableAt BISHOP_TABLE i j ∧
      positionBonus 'k' i j = tableAt KING_TABLE i j) ∧
    evaluateBoard (makeMoveOut initial 6 4 4 4).2 = some (-25) ∧
    mirroredForBlackSum (makeMoveOut initial 6 4 4 4).2.board = 40 ∧
    positionBonus 'P' 4 4 = 25 ∧ mirroredForBlackBonus 'P' 4 4 = 20 ∧
    positionBonus 'p' 1 4 = 50 ∧ mirroredForBlackBonus 'p' 1 4 = -20 := by
  refine ⟨fun i j => ⟨rfl, rfl, rfl, rfl, rfl, rfl, rfl, rfl⟩, ?_, ?_, ?_, ?_, ?_, ?_⟩ <;> decide
/-! ## C21 -/

/-- A pseudo-legal move of a piece of `color` after which the king of `color`
is not attacked is in the list of legal moves. -/
theorem mem_legalMovesSpec_of (g : Chess) (color : String) (fr fc tr tc : Int)
    (hv : isValidPosition fr fc = true) (hne : g.board.cell fr fc ≠ ' ')
    (hcol : getPieceColor (g.board.cell fr fc) = color)
    (hpos : (⟨tr, tc⟩ : Position) ∈ pieceOut g fr fc)
    (hs : inCheckOut (simulateMove g fr fc ⟨tr, tc⟩) color = false) :
    (⟨fr, fc, tr, tc, 0⟩ : Move) ∈ legalMovesSpec g color := by
  unfold legalMovesSpec
  refine List.mem_flatMap.2 ⟨(fr, fc), mem_allSquares_iff.2 hv, ?_⟩
  rw [legalFrom_eq g color (fr, fc) hv]
  dsimp only
  rw [if_pos (by simp [hne, hcol])]
  refine List.mem_flatMap.2 ⟨⟨tr, tc⟩, hpos, ?_⟩
  rw [hs]
  exact List.mem_singleton.2 rfl

/-- The same for the list that `getAllValidMoves` returns, read with the test
that `makeMove` uses. -/
theorem listed_of_safe (g : Chess) (color : String) (fr fc tr tc : Int)
    (hv : isValidPosition fr fc = true) (hne : g.board.cell fr fc ≠ ' ')
    (hcol : getPieceColor (g.board.cell fr fc) = color)
    (hpos : (pieceOut g fr fc).any (fun pos => pos.row == tr && pos.col == tc) = true)
    (hs : inCheckOut (simulateMove g fr fc ⟨tr, tc⟩) color = false) :
    (getAllValidMoves g color).map (fun r => r.1.any (fun m =>
      m.fromRow == fr && m.fromCol == fc && m.toRow == tr && m.toCol == tc)) = some true := by
  rw [getAllValidMoves_eq]
  show some _ = some true
  congr 1
  rw [List.any_eq_true]
  exact ⟨_, mem_legalMovesSpec_of g color fr fc tr tc hv hne hcol ((any_pos_iff _ _ _).1 hpos) hs,
    by simp⟩

/-- C21, evaluated at three failing inputs. The scoring loop of `getAIMove`
puts the piece on its destination and blanks the origin, nothing else. For the
legal promotion b7-b8 it scores the position with a pawn on b8 (-400) where
the position left by `makeMove` has a queen giving check (450); for the legal
en-passant capture e5xd6 after 1.e4 a6 2.e5 d5 it leaves the captured pawn on
d5 and counts no capture (15 against 150); for the legal castling e1-c1 it
leaves the rook on a1, so the check by the rook on d1 is not counted (510
against 560). -/
theorem getAIMove_scores_promotion_en_passant_castling_wrongly :
    ((getAllValidMoves pawnOnSeventh "white").map (fun r => r.1.any (fun m =>
        m.fromRow == 1 && m.fromCol == 1 && m.toRow == 0 && m.toCol == 1)) = some true ∧
      loopScore pawnOnSeventh ⟨1, 1, 0, 1, 0⟩ = some [-400] ∧
      scoreAfterMakeMove pawnOnSeventh ⟨1, 1, 0, 1, 0⟩ = some 450) ∧
    ((getAllValidMoves (playOut initial enPassantGame) "white").map (fun r => r.1.any (fun m =>
        m.fromRow == 3 && m.fromCol == 4 && m.toRow == 2 && m.toCol == 3)) = some true ∧
      loopScore (playOut initial enPassantGame) ⟨3, 4, 2, 3, 0⟩ = some [15] ∧
      scoreAfterMakeMove (playOut initial enPassantGame) ⟨3, 4, 2, 3, 0⟩ = some 150) ∧
    ((getAllValidMoves castleWithCheck "white").map (fun r => r.1.any (fun m =>
        m.fromRow == 7 && m.fromCol == 4 && m.toRow == 7 && m.toCol == 2)) = some true ∧
      loopScore castleWithCheck ⟨7, 4, 7, 2, 0⟩ = some [510] ∧
      scoreAfterMakeMove castleWithCheck ⟨7, 4, 7, 2, 0⟩ = some 560) := by
  refine ⟨⟨?_, ?_, ?_⟩, ⟨?_, ?_, ?_⟩, ⟨?_, ?_, ?_⟩⟩
  · exact listed_of_safe _ _ 1 1 0 1 (by decide!) (by decide!) (by decide!) (by decide!)
      (by decide!)
  · decide!
  · decide!
  · exact listed_of_safe _ _ 3 4 2 3 (by decide!) (by decide!) (by decide!) (by decide!)
      (by decide!)
  · decide!
  · decide!
  · exact listed_of_safe _ _ 7 4 7 2 (by decide!) (by decide!) (by decide!) (by decide!)
      (by decide!)
  · decide!
  · decide!

/-! ## Lemmas: sorting -/

/-- Insertion sort on the reversed list meets the contract of `std::sort`. -/
theorem sortTiesReversed_stdSort : StdSort sortTiesReversed := by
  haveI : IsTotal Move (fun a b => b.score ≤ a.score) := ⟨fun a b => le_total b.score a.score⟩
  haveI : IsTrans Move (fun a b => b.score ≤ a.score) := ⟨fun a b c h1 h2 => le_trans h2 h1⟩
  exact ⟨fun l => (List.perm_insertionSort _ l.reverse).trans (List.reverse_perm l),
    fun l => List.sorted_insertionSort _ l.reverse⟩

/-- Two lists of integers in descending order with the same elements are
equal. -/
theorem descending_unique {l1 l2 : List Int} (hp : l1.Perm l2)
    (h1 : l1.Pairwise (fun a b => b ≤ a)) (h2 : l2.Pairwise (fun a b => b ≤ a)) : l1 = l2 := by
  haveI : IsAntisymm Int (fun a b => b ≤ a) := ⟨fun a b hab hba => le_antisymm hba hab⟩
  exact List.eq_of_perm_of_sorted hp h1 h2

/-- The scores of a sorted list do not depend on the sorting function. -/
theorem sorted_scores_unique {sort1 sort2 : List Move → List Move} (h1 : StdSort sort1)
    (h2 : StdSort sort2) (l : List Move) :
    (sort1 l).map (fun m => m.score) = (sort2 l).map (fun m => m.score) := by
  apply descending_unique
  · exact ((h1.perm l).trans (h2.perm l).symm).map _
  · exact List.pairwise_map.2 (h1.sorted l)
  · exact List.pairwise_map.2 (h2.sorted l)

/-- The scoring loop at the initial position. -/
theorem scoredMoves_initial : scoredMoves initial =
    [⟨6, 0, 5, 0, -40⟩, ⟨6, 0, 4, 0, -45⟩, ⟨6, 1, 5, 1, -40⟩, ⟨6, 1, 4, 1, -45⟩,
      ⟨6, 2, 5, 2, -30⟩, ⟨6, 2, 4, 2, -40⟩, ⟨6, 3, 5, 3, -20⟩, ⟨6, 3, 4, 3, -25⟩,
      ⟨6, 4, 5, 4, -20⟩, ⟨6, 4, 4, 4, -25⟩, ⟨6, 5, 5, 5, -30⟩, ⟨6, 5, 4, 5, -40⟩,
      ⟨6, 6, 5, 6, -40⟩, ⟨6, 6, 4, 6, -45⟩, ⟨6, 7, 5, 7, -40⟩, ⟨6, 7, 4, 7, -45⟩,
      ⟨7, 1, 5, 0, 10⟩, ⟨7, 1, 5, 2, 50⟩, ⟨7, 6, 5, 5, 50⟩, ⟨7, 6, 5, 7, 10⟩] := by
  decide!

/-- `getAIMove` at the initial position, difficulty 3, with a probability draw
below 0.9: the first move of the sorted scored moves. -/
theorem getAIMove_initial_hard (sort : List Move → List Move) (raw : Nat) :
    getAIMove sort initial 3 0 raw
      = ((sort (scoredMoves initial))[0]?).bind (fun m => some (some m, initial)) := by
  have he : ¬ (legalMovesSpec initial initial.currentPlayer).isEmpty = true := by
    intro h
    have hl := scoredMoves_length initial
    rw [List.isEmpty_iff.1 h, scoredMoves_initial] at hl
    exact absurd hl (by decide)
  rw [getAIMove_eq sort initial pieceBoard_initial, if_neg he, if_neg (by decide)]
  unfold selectMove
  rw [if_neg (by decide), if_pos zero_lt_threshold09]

/-! ## C22 -/

/-- C22 as stated fails: `std::sort` promises descending order, not the
order of ties. Insertion sort on the reversed list meets its contract. At the
initial position the scoring loop gives the score 50 to Nb1-c3 and to Ng1-f3,
listed in this order and before every other move of that score; with the
stable sort `getAIMove` at difficulty 3 returns Nb1-c3, with the sort that
reverses ties it returns Ng1-f3. -/
theorem sort_contract_leaves_tie_order_open :
    StdSort sortByScore ∧ StdSort sortTiesReversed ∧
    (getAllValidMoves initial initial.currentPlayer).bind (fun r =>
        (r.1.foldlM scoreMove ([], r.2)).map (fun s => s.1.drop 16))
      = some [⟨7, 1, 5, 0, 10⟩, ⟨7, 1, 5, 2, 50⟩, ⟨7, 6, 5, 5, 50⟩, ⟨7, 6, 5, 7, 10⟩] ∧
    getAIMove sortByScore initial 3 0 0 = some (some ⟨7, 1, 5, 2, 50⟩, initial) ∧
    getAIMove sortTiesReversed initial 3 0 0 = some (some ⟨7, 6, 5, 5, 50⟩, initial) := by
  refine ⟨sortByScore_stdSort, sortTiesReversed_stdSort, ?_, ?_, ?_⟩
  · rw [getAllValidMoves_eq, Option.some_bind, scoring_loop_eq initial pieceBoard_initial,
      scoredMoves_initial]
    rfl
  · rw [getAIMove_initial_hard, scoredMoves_initial]
    have e : (sortByScore
        [⟨6, 0, 5, 0, -40⟩, ⟨6, 0, 4, 0, -45⟩, ⟨6, 1, 5, 1, -40⟩, ⟨6, 1, 4, 1, -45⟩,
          ⟨6, 2, 5, 2, -30⟩, ⟨6, 2, 4, 2, -40⟩, ⟨6, 3, 5, 3, -20⟩, ⟨6, 3, 4, 3, -25⟩,
          ⟨6, 4, 5, 4, -20⟩, ⟨6, 4, 4, 4, -25⟩, ⟨6, 5, 5, 5, -30⟩, ⟨6, 5, 4, 5, -40⟩,
          ⟨6, 6, 5, 6, -40⟩, ⟨6, 6, 4, 6, -45⟩, ⟨6, 7, 5, 7, -40⟩, ⟨6, 7, 4, 7, -45⟩,
          ⟨7, 1, 5, 0, 10⟩, ⟨7, 1, 5, 2, 50⟩, ⟨7, 6, 5, 5, 50⟩, ⟨7, 6, 5, 7, 10⟩])[0]?
        = some ⟨7, 1, 5, 2, 50⟩ := by decide
    rw [e]
    rfl
  · rw [getAIMove_initial_hard, scoredMoves_initial]
    have e : (sortTiesReversed
        [⟨6, 0, 5, 0, -40⟩, ⟨6, 0, 4, 0, -45⟩, ⟨6, 1, 5, 1, -40⟩, ⟨6, 1, 4, 1, -45⟩,
          ⟨6, 2, 5, 2, -30⟩, ⟨6, 2, 4, 2, -40⟩, ⟨6, 3, 5, 3, -20⟩, ⟨6, 3, 4, 3, -25⟩,
          ⟨6, 4, 5, 4, -20⟩, ⟨6, 4, 4, 4, -25⟩, ⟨6, 5, 5, 5, -30⟩, ⟨6, 5, 4, 5, -40⟩,
          ⟨6, 6, 5, 6, -40⟩, ⟨6, 6, 4, 6, -45⟩, ⟨6, 7, 5, 7, -40⟩, ⟨6, 7, 4, 7, -45⟩,
          ⟨7, 1, 5, 0, 10⟩, ⟨7, 1, 5, 2, 50⟩, ⟨7, 6, 5, 5, 50⟩, ⟨7, 6, 5, 7, 10⟩])[0]?
        = some ⟨7, 6, 5, 5, 50⟩ := by decide
    rw [e]
    rfl

/-- C22 amended: on a board of piece letters and blanks and for every result
of `std::sort` that meets its contract, the sorted list is a rearrangement of
the scored legal moves in which no move has a greater score than a move before
it, and its sequence of scores is the same for every such result (it is that
of the stable sort); which of several moves of equal score comes first is not
fixed. -/
theorem sorted_moves_descending_with_fixed_scores (sort : List Move → List Move)
    (hs : StdSort sort) (g : Chess) (hb : PieceBoard g.board) :
    ∃ moves scored, getAllValidMoves g g.currentPlayer = some (moves, g) ∧
      moves.foldlM scoreMove ([], g) = some (scored, g) ∧
      (sort scored).Perm scored ∧
      (sort scored).Pairwise (fun a b => b.score ≤ a.score) ∧
      (sort scored).map (fun m => m.score) = (sortByScore scored).map (fun m => m.score) :=
  ⟨legalMovesSpec g g.currentPlayer, scoredMoves g, getAllValidMoves_eq g _,
    scoring_loop_eq g hb, hs.perm _, hs.sorted _,
    sorted_scores_unique hs sortByScore_stdSort _⟩

/-- Witness for C22 amended: the initial position with the sort that reverses
ties. -/
theorem sorted_moves_descending_with_fixed_scores_witness :
    StdSort sortTiesReversed ∧ PieceBoard initial.board ∧
    ∃ moves scored, getAllValidMoves initial initial.currentPlayer = some (moves, initial) ∧
      moves.foldlM scoreMove ([], initial) = some (scored, initial) ∧
      (sortTiesReversed scored).Perm scored ∧
      (sortTiesReversed scored).Pairwise (fun a b => b.score ≤ a.score) ∧
      (sortTiesReversed scored).map (fun m => m.score)
        = (sortByScore scored).map (fun m => m.score) :=
  ⟨sortTiesReversed_stdSort, pieceBoard_initial,
    sorted_moves_descending_with_fixed_scores sortTiesReversed sortTiesReversed_stdSort initial
      pieceBoard_initial⟩

/-! ## Lemmas: `getAIMove` and the state -/

/-- A loop over a list that threads a state which every returning iteration
leaves unchanged. -/
theorem foldlM_state_kept {α β σ : Type} (f : List β × σ → α → Option (List β × σ)) (s : σ)
    (l : List α) (hf : ∀ acc a r, a ∈ l → f (acc, s) a = some r → r.2 = s)
    (init : List β) (r : List β × σ) (h : l.foldlM f (init, s) = some r) : r.2 = s := by
  induction l generalizing init with
  | nil =>
    have e : (init, s) = r := Option.some.inj h
    rw [← e]
  | cons a l ih =>
    rw [List.foldlM_cons] at h
    cases hfa : f (init, s) a with
    | none =>
      rw [hfa] at h
      exact absurd h (by simp)
    | some r1 =>
      rw [hfa] at h
      simp only [Option.bind_eq_bind, Option.some_bind] at h
      have e := hf init a r1 (List.mem_cons_self _ _) hfa
      obtain ⟨acc1, s1⟩ := r1
      dsimp only at e
      subst e
      exact ih (fun acc x r hx => hf acc x r (List.mem_cons_of_mem _ hx)) acc1 h

/-- An iteration of the scoring loop that returns leaves the state unchanged,
on every board. -/
theorem scoreMove_state (g : Chess) (acc : List Move) (move : Move) (r : List Move × Chess)
    (hf : isValidPosition move.fromRow move.fromCol = true)
    (ht : isValidPosition move.toRow move.toCol = true)
    (h : scoreMove (acc, g) move = some r) : r.2 = g := by
  unfold scoreMove at h
  simp only [scratchMove_eq g move hf ht, Option.bind_eq_bind, Option.some_bind,
    Option.pure_def, restoreScratch_scratchOut] at h
  cases hsp : scorePosition (scratchOut g move) (g.board.cell move.toRow move.toCol) with
  | none =>
    rw [hsp] at h
    exact absurd h (by simp)
  | some v =>
    rw [hsp] at h
    simp only [Option.some_bind] at h
    have e := Option.some.inj h
    rw [← e]

/-- Whenever `getAIMove` returns, the state is the one before the call. -/
theorem getAIMove_state (sort : List Move → List Move) (g : Chess) (difficulty : Int) (u : ℚ)
    (raw : Nat) (res : Option Move) (g2 : Chess)
    (h : getAIMove sort g difficulty u raw = some (res, g2)) : g2 = g := by
  unfold getAIMove at h
  simp only [getAllValidMoves_eq, Option.bind_eq_bind, Option.some_bind, Option.pure_def] at h
  by_cases he : (legalMovesSpec g g.currentPlayer).isEmpty = true
  · rw [if_pos he] at h
    exact (congrArg Prod.snd (Option.some.inj h)).symm
  · rw [if_neg he] at h
    by_cases hd : difficulty = 1
    · rw [if_pos hd] at h
      cases hi : drawIndex (legalMovesSpec g g.currentPlayer).length raw with
      | none =>
        rw [hi] at h
        exact absurd h (by simp)
      | some i =>
        rw [hi] at h
        simp only [Option.some_bind] at h
        cases hm : (legalMovesSpec g g.currentPlayer)[i]? with
        | none =>
          rw [hm] at h
          exact absurd h (by simp)
        | some m =>
          rw [hm] at h
          exact (congrArg Prod.snd (Option.some.inj h)).symm
    · rw [if_neg hd] at h
      cases hsc : (legalMovesSpec g g.currentPlayer).foldlM scoreMove ([], g) with
      | none =>
        rw [hsc] at h
        exact absurd h (by simp)
      | some scored =>
        rw [hsc] at h
        simp only [Option.some_bind] at h
        have hst : scored.2 = g :=
          foldlM_state_kept scoreMove g _
            (fun acc m r hm hr => scoreMove_state g acc m r (mem_legalMovesSpec hm).1
              (pieceOut_valid (mem_legalMovesSpec hm).2.2.2.1) hr) [] scored hsc
        cases hsel : selectMove difficulty (sort scored.1) u raw with
        | none =>
          rw [hsel] at h
          exact absurd h (by simp)
        | some m =>
          rw [hsel] at h
          simp only [Option.some_bind] at h
          rw [← hst]
          exact (congrArg Prod.snd (Option.some.inj h)).symm

/-- On a board of piece letters and blanks `getAIMove` returns: no move when
there is no legal move, else a move with the origin and destination of a legal
move. -/
theorem getAIMove_returns (sort : List Move → List Move) (hs : StdSort sort) (g : Chess)
    (hb : PieceBoard g.board) (difficulty : Int) (u : ℚ) (raw : Nat) :
    (legalMovesSpec g g.currentPlayer = [] ∧
      getAIMove sort g difficulty u raw = some (none, g)) ∨
    (legalMovesSpec g g.currentPlayer ≠ [] ∧
      ∃ m m2, getAIMove sort g difficulty u raw = some (some m, g) ∧
        m2 ∈ legalMovesSpec g g.currentPlayer ∧ m.fromRow = m2.fromRow ∧
        m.fromCol = m2.fromCol ∧ m.toRow = m2.toRow ∧ m.toCol = m2.toCol) := by
  rw [getAIMove_eq sort g hb]
  by_cases he : (legalMovesSpec g g.currentPlayer).isEmpty = true
  · rw [if_pos he]
    exact Or.inl ⟨List.isEmpty_iff.1 he, rfl⟩
  · rw [if_neg he]
    have hne : legalMovesSpec g g.currentPlayer ≠ [] := fun hh => he (List.isEmpty_iff.2 hh)
    have hlen : 0 < (legalMovesSpec g g.currentPlayer).length := List.length_pos.2 hne
    right
    refine ⟨hne, ?_⟩
    by_cases hd : difficulty = 1
    · rw [if_pos hd]
      obtain ⟨ei, lti⟩ := drawIndex_eq raw hlen
      obtain ⟨m0, hm0⟩ : ∃ m0, (legalMovesSpec g g.currentPlayer)[raw %
          (legalMovesSpec g g.currentPlayer).length]? = some m0 :=
        ⟨_, List.getElem?_eq_getElem lti⟩
      refine ⟨m0, m0, ?_, mem_of_getElem? hm0, rfl, rfl, rfl, rfl⟩
      rw [ei, Option.some_bind, hm0, Option.some_bind]
    · rw [if_neg hd]
      have hslen : 0 < (sort (scoredMoves g)).length := by
        rw [(hs.perm _).length_eq, scoredMoves_length]
        exact hlen
      obtain ⟨first, h0, s1, s2, s3, s4⟩ := selectMove_eq difficulty _ u raw hslen
      have hsel : ∃ m, selectMove difficulty (sort (scoredMoves g)) u raw = some m ∧
          m ∈ sort (scoredMoves g) := by
        by_cases h2 : difficulty = 2
        · by_cases hu : u < threshold06
          · exact ⟨first, s1 h2 hu, mem_of_getElem? h0⟩
          · obtain ⟨_, m, hm, hsm⟩ := s2 h2 hu
            exact ⟨m, hsm, mem_of_getElem? hm⟩
        · by_cases hu : u < threshold09
          · exact ⟨first, s3 h2 hu, mem_of_getElem? h0⟩
          · obtain ⟨_, m, hm, hsm⟩ := s4 h2 hu
            exact ⟨m, hsm, mem_of_getElem? hm⟩
      obtain ⟨sel, hsel, hmem⟩ := hsel
      obtain ⟨m2, hm2, e1, e2, e3, e4⟩ := mem_scoredMoves ((hs.perm _).mem_iff.1 hmem)
      refine ⟨sel, m2, ?_, hm2, e1, e2, e3, e4⟩
      rw [hsel, Option.some_bind]

/-! ## C23 -/

/-- C23: for every state, difficulty, `std::sort` result and outcome of the
random draws, whenever `getAIMove` returns, the whole state (board, cached
king positions, castling rights, en-passant target, side to move, history and
captured lists) is the one before the call; and on every board of piece
letters and blanks, so in every state reached from the initial position, it
does return. -/
theorem getAIMove_leaves_state_unchanged (sort : List Move → List Move) (g : Chess)
    (difficulty : Int) (u : ℚ) (raw : Nat) :
    (∀ res g2, getAIMove sort g difficulty u raw = some (res, g2) → g2 = g) ∧
    (StdSort sort → PieceBoard g.board →
      ∃ res, getAIMove sort g difficulty u raw = some (res, g)) := by
  refine ⟨fun res g2 h => getAIMove_state sort g difficulty u raw res g2 h, ?_⟩
  intro hs hb
  rcases getAIMove_returns sort hs g hb difficulty u raw with ⟨_, h⟩ | ⟨_, m, _, h, _⟩
  · exact ⟨none, h⟩
  · exact ⟨some m, h⟩

/-- Witness for C23: the initial position at difficulty 2 with insertion sort
and the draws 0 and 0. -/
theorem getAIMove_leaves_state_unchanged_witness :
    StdSort sortByScore ∧ PieceBoard initial.board ∧
    ∃ res, getAIMove sortByScore initial 2 0 0 = some (res, initial) :=
  ⟨sortByScore_stdSort, pieceBoard_initial,
    (getAIMove_leaves_state_unchanged sortByScore initial 2 0 0).2 sortByScore_stdSort
      pieceBoard_initial⟩
/-! ## Lemmas: the game loop returns -/

theorem isCheckmate_eq (g : Chess) (c : String) :
    isCheckmate g c = some (inCheckOut g c && (legalMovesSpec g c).isEmpty, g) := by
  unfold isCheckmate
  rw [isInCheck_eq, getAllValidMoves_eq]
  cases inCheckOut g c <;> rfl

theorem isStalemate_eq (g : Chess) (c : String) :
    isStalemate g c = some (!inCheckOut g c && (legalMovesSpec g c).isEmpty, g) := by
  unfold isStalemate
  rw [isInCheck_eq, getAllValidMoves_eq]
  cases inCheckOut g c <;> rfl

/-- `playAITurn` with the move that `getAIMove` returns. -/
theorem playAITurn_of_move {sort : List Move → List Move} {g : Chess} {difficulty : Int}
    {u : ℚ} {raw : Nat} {m : Move}
    (h : getAIMove sort g difficulty u raw = some (some m, g))
    (hv : isValidPosition m.fromRow m.fromCol = true) :
    playAITurn sort g difficulty u raw
      = some (makeMoveOut g m.fromRow m.fromCol m.toRow m.toCol) := by
  unfold playAITurn
  rw [h]
  simp only [Option.bind_eq_bind, Option.some_bind, get?_of_valid hv]
  exact makeMove_eq g m.fromRow m.fromCol m.toRow m.toCol hv

theorem playAITurn_of_none {sort : List Move → List Move} {g : Chess} {difficulty : Int}
    {u : ℚ} {raw : Nat} (h : getAIMove sort g difficulty u raw = some (none, g)) :
    playAITurn sort g difficulty u raw = some (false, g) := by
  unfold playAITurn
  rw [h]
  rfl

/-- On a board of piece letters and blanks `playAITurn` returns, and when it
returns true the new state is that of an accepted `makeMove`. -/
theorem playAITurn_returns (sort : List Move → List Move) (hs : StdSort sort) (g : Chess)
    (hb : PieceBoard g.board) (difficulty : Int) (u : ℚ) (raw : Nat) :
    ∃ b g2, playAITurn sort g difficulty u raw = some (b, g2) ∧
      (b = true → ∃ fr fc tr tc, makeMove g fr fc tr tc = some (true, g2)) := by
  rcases getAIMove_returns sort hs g hb difficulty u raw with
    ⟨_, h⟩ | ⟨_, m, m2, h, hm2, e1, e2, _, _⟩
  · exact ⟨false, g, playAITurn_of_none h, fun hh => absurd hh (by decide)⟩
  · have hv : isValidPosition m.fromRow m.fromCol = true := by
      rw [e1, e2]
      exact (mem_legalMovesSpec hm2).1
    refine ⟨(makeMoveOut g m.fromRow m.fromCol m.toRow m.toCol).1,
      (makeMoveOut g m.fromRow m.fromCol m.toRow m.toCol).2, playAITurn_of_move h hv, ?_⟩
    intro hb2
    exact ⟨m.fromRow, m.fromCol, m.toRow, m.toCol, makeMove_accepted_of_out g _ _ _ _ hv hb2⟩

/-- One iteration of the game loop below the cap, in terms of the values of
its calls. -/
theorem gameLoop_step (sort : List Move → List Move) (d1 d2 : Int) (draws : Nat → ℚ × Nat)
    (winner : String) (moveCount : Nat) (g : Chess) (hlt : moveCount < 200) :
    gameLoop sort d1 d2 draws winner moveCount g =
      if (inCheckOut g g.currentPlayer && (legalMovesSpec g g.currentPlayer).isEmpty) = true then
        some (Outcome.mk (if g.currentPlayer = "white" then "black" else "white") moveCount g)
      else if (!inCheckOut g g.currentPlayer && (legalMovesSpec g g.currentPlayer).isEmpty)
          = true then
        some (Outcome.mk "draw" moveCount g)
      else
        (playAITurn sort g (if g.currentPlayer = "white" then d1 else d2)
          (draws moveCount).1 (draws moveCount).2).bind (fun t =>
            if (!t.1) = true then some (Outcome.mk "draw" moveCount t.2)
            else gameLoop sort d1 d2 draws winner (moveCount + 1) (switchPlayer t.2)) := by
  rw [gameLoop, if_pos hlt]
  simp only [isCheckmate_eq, isStalemate_eq, Option.bind_eq_bind, Option.some_bind,
    Option.pure_def]

/-- The game loop at the cap. -/
theorem gameLoop_cap (sort : List Move → List Move) (d1 d2 : Int) (draws : Nat → ℚ × Nat)
    (winner : String) (moveCount : Nat) (g : Chess) (hge : ¬ moveCount < 200) :
    gameLoop sort d1 d2 draws winner moveCount g = some (Outcome.mk winner moveCount g) := by
  rw [gameLoop, if_neg hge]
  rfl

/-- From every state reached from the initial position the game loop returns,
with at most 200 plies counted and a winner set whenever it ends below the
cap. -/
theorem gameLoop_returns (sort : List Move → List Move) (hs : StdSort sort) (d1 d2 : Int)
    (draws : Nat → ℚ × Nat) (winner : String) :
    ∀ (n moveCount : Nat) (g : Chess), 200 - moveCount = n → moveCount ≤ 200 → Reachable g →
      ∃ r, gameLoop sort d1 d2 draws winner moveCount g = some r ∧
        moveCount ≤ r.moveCount ∧ r.moveCount ≤ 200 ∧
        (r.moveCount < 200 → r.winner = "white" ∨ r.winner = "black" ∨ r.winner = "draw") := by
  intro n
  induction n with
  | zero =>
    intro moveCount g hn hle hr
    have hge : ¬ moveCount < 200 := by omega
    exact ⟨_, gameLoop_cap sort d1 d2 draws winner moveCount g hge, le_refl _, hle,
      fun h => absurd h hge⟩
  | succ n ih =>
    intro moveCount g hn hle hr
    have hlt : moveCount < 200 := by omega
    rw [gameLoop_step sort d1 d2 draws winner moveCount g hlt]
    by_cases hc : (inCheckOut g g.currentPlayer && (legalMovesSpec g g.currentPlayer).isEmpty)
        = true
    · rw [if_pos hc]
      refine ⟨_, rfl, le_refl _, hle, fun _ => ?_⟩
      show (if g.currentPlayer = "white" then "black" else "white") = "white" ∨ _
      split
      · exact Or.inr (Or.inl rfl)
      · exact Or.inl rfl
    · rw [if_neg hc]
      by_cases hst : (!inCheckOut g g.currentPlayer &&
          (legalMovesSpec g g.currentPlayer).isEmpty) = true
      · rw [if_pos hst]
        exact ⟨_, rfl, le_refl _, hle, fun _ => Or.inr (Or.inr rfl)⟩
      · rw [if_neg hst]
        obtain ⟨b, g2, ht, hacc⟩ := playAITurn_returns sort hs g hr.pieceBoard
          (if g.currentPlayer = "white" then d1 else d2) (draws moveCount).1 (draws moveCount).2
        rw [ht, Option.some_bind]
        cases b with
        | false => exact ⟨_, rfl, le_refl _, hle, fun _ => Or.inr (Or.inr rfl)⟩
        | true =>
          obtain ⟨fr, fc, tr, tc, hm⟩ := hacc rfl
          have hr2 : Reachable (switchPlayer g2) := Reachable.move fr fc tr tc hr hm
          obtain ⟨r, hr3, h1, h2, h3⟩ := ih (moveCount + 1) (switchPlayer g2) (by omega)
            (by omega) hr2
          exact ⟨r, hr3, by omega, h2, h3⟩

/-! ## C28 -/

/-- C28: for every pair of difficulties, every `std::sort` result that meets
its contract and every outcome of the random draws, `playAIvsAI` returns: its
loop ends with at most 200 plies applied, and the result is a win for white, a
win for black, or a draw. -/
theorem playAIvsAI_terminates_within_cap (sort : List Move → List Move) (hs : StdSort sort)
    (difficultyAI1 difficultyAI2 : Int) (draws : Nat → ℚ × Nat) :
    ∃ r, playAIvsAI sort difficultyAI1 difficultyAI2 draws = some r ∧ r.moveCount ≤ 200 ∧
      (r.winner = "white" ∨ r.winner = "black" ∨ r.winner = "draw") := by
  obtain ⟨r, hr, _, h2, h3⟩ := gameLoop_returns sort hs difficultyAI1 difficultyAI2 draws ""
    200 0 initial rfl (by omega) Reachable.start
  unfold playAIvsAI
  rw [hr]
  simp only [Option.bind_eq_bind, Option.some_bind, Option.pure_def]
  by_cases hcap : r.moveCount ≥ 200
  · rw [if_pos hcap]
    exact ⟨_, rfl, h2, Or.inr (Or.inr rfl)⟩
  · rw [if_neg hcap]
    exact ⟨_, rfl, h2, h3 (by omega)⟩

/-- Witness for C28: both sides at difficulty 1, insertion sort, all draws 0. -/
theorem playAIvsAI_terminates_within_cap_witness :
    StdSort sortByScore ∧
    ∃ r, playAIvsAI sortByScore 1 1 (fun _ => (0, 0)) = some r ∧ r.moveCount ≤ 200 ∧
      (r.winner = "white" ∨ r.winner = "black" ∨ r.winner = "draw") :=
  ⟨sortByScore_stdSort,
    playAIvsAI_terminates_within_cap sortByScore sortByScore_stdSort 1 1 (fun _ => (0, 0))⟩
/-! ## Lemmas: the move record does not influence the game -/

theorem handleCapturesOut_withHistory (g : Chess) (h : List String) (p : Char) (tr tc : Int) :
    handleCapturesOut (withHistory g h) p tr tc
      = ((handleCapturesOut g p tr tc).1, withHistory (handleCapturesOut g p tr tc).2 h) := by
  unfold handleCapturesOut withHistory pushCaptured
  dsimp only
  split_ifs <;> rfl

theorem updateKingOut_withHistory (g : Chess) (h : List String) (p : Char) (fc tr tc : Int) :
    updateKingOut (withHistory g h) p fc tr tc = withHistory (updateKingOut g p fc tr tc) h := by
  unfold updateKingOut withHistory
  split_ifs <;> rfl

theorem updateCastlingRights_withHistory (g : Chess) (h : List String) (p : Char) (fr fc : Int) :
    updateCastlingRights (withHistory g h) p fr fc
      = withHistory (updateCastlingRights g p fr fc) h := by
  unfold updateCastlingRights withHistory
  split_ifs <;> rfl

theorem setEnPassant_withHistory (g : Chess) (h : List String) (p : Char) (fr fc tr : Int) :
    setEnPassant (withHistory g h) p fr fc tr = withHistory (setEnPassant g p fr fc tr) h := by
  unfold setEnPassant withHistory
  split_ifs <;> rfl

theorem applyOut_withHistory (g : Chess) (h : List String) (p : Char) (fr fc tr tc : Int) :
    applyOut (withHistory g h) p fr fc tr tc
      = ((applyOut g p fr fc tr tc).1, withHistory (applyOut g p fr fc tr tc).2 h) := by
  unfold applyOut
  dsimp only
  rw [handleCapturesOut_withHistory]
  dsimp only
  have e : movePieceOut (withHistory (handleCapturesOut g p tr tc).2 h) p fr fc tr tc
      = withHistory (movePieceOut (handleCapturesOut g p tr tc).2 p fr fc tr tc) h := rfl
  rw [e, updateKingOut_withHistory, updateCastlingRights_withHistory, setEnPassant_withHistory]

theorem promoteOut_withHistory (g : Chess) (h : List String) (p : Char) (tr tc : Int) :
    promoteOut (withHistory g h) p tr tc = withHistory (promoteOut g p tr tc) h := by
  unfold promoteOut withHistory
  split_ifs <;> rfl

theorem inCheckOut_withHistory (g : Chess) (h : List String) (c : String) :
    inCheckOut (withHistory g h) c = inCheckOut g c := rfl

theorem pieceOut_withHistory (g : Chess) (h : List String) (i j : Int) :
    pieceOut (withHistory g h) i j = pieceOut g i j := rfl

theorem legalMovesSpec_withHistory (g : Chess) (h : List String) (c : String) :
    legalMovesSpec (withHistory g h) c = legalMovesSpec g c := rfl

/-- The value of an accepted `makeMove`, from the four tests it passes. -/
theorem makeMoveOut_of_tests (g : Chess) (fr fc tr tc : Int)
    (c1 : (g.board.cell fr fc == ' ') = false)
    (c2 : (getPieceColor (g.board.cell fr fc) != g.currentPlayer) = false)
    (c3 : (!((pieceOut g fr fc).any (fun pos => pos.row == tr && pos.col == tc))) = false)
    (c4 : inCheckOut (applyOut g (g.board.cell fr fc) fr fc tr tc).2
      (applyOut g (g.board.cell fr fc) fr fc tr tc).2.currentPlayer = false) :
    makeMoveOut g fr fc tr tc
      = (true, recordMove (promoteOut (applyOut g (g.board.cell fr fc) fr fc tr tc).2
          (g.board.cell fr fc) tr tc) (g.board.cell fr fc) fr fc tr tc) := by
  unfold makeMoveOut
  dsimp only
  rw [c1, c2, c3, c4]
  rfl

/-- The four tests passed by an accepted `makeMove`. -/
theorem tests_of_makeMoveOut {g : Chess} {fr fc tr tc : Int}
    (hacc : (makeMoveOut g fr fc tr tc).1 = true) :
    (g.board.cell fr fc == ' ') = false ∧
    (getPieceColor (g.board.cell fr fc) != g.currentPlayer) = false ∧
    (!((pieceOut g fr fc).any (fun pos => pos.row == tr && pos.col == tc))) = false ∧
    inCheckOut (applyOut g (g.board.cell fr fc) fr fc tr tc).2
      (applyOut g (g.board.cell fr fc) fr fc tr tc).2.currentPlayer = false := by
  unfold makeMoveOut at hacc
  dsimp only at hacc
  by_cases h1 : (g.board.cell fr fc == ' ') = true
  · rw [if_pos h1] at hacc
    exact absurd hacc (by simp)
  · rw [if_neg h1] at hacc
    by_cases h3 : (getPieceColor (g.board.cell fr fc) != g.currentPlayer) = true
    · rw [if_pos h3] at hacc
      exact absurd hacc (by simp)
    · rw [if_neg h3] at hacc
      by_cases h4 : (!((pieceOut g fr fc).any (fun pos => pos.row == tr && pos.col == tc))) = true
      · rw [if_pos h4] at hacc
        exact absurd hacc (by simp)
      · rw [if_neg h4] at hacc
        by_cases h5 : inCheckOut (applyOut g (g.board.cell fr fc) fr fc tr tc).2
            (applyOut g (g.board.cell fr fc) fr fc tr tc).2.currentPlayer = true
        · rw [if_pos h5] at hacc
          exact absurd hacc (by simp)
        · exact ⟨by simpa using h1, by simpa using h3, by simpa using h4, by simpa using h5⟩

/-- After an accepted `makeMove` and the switch of side the state is
`afterPly`. -/
theorem switchPlayer_makeMoveOut {g : Chess} {fr fc tr tc : Int}
    (hacc : (makeMoveOut g fr fc tr tc).1 = true) :
    switchPlayer (makeMoveOut g fr fc tr tc).2 = afterPly g fr fc tr tc := by
  obtain ⟨c1, c2, c3, c4⟩ := tests_of_makeMoveOut hacc
  rw [makeMoveOut_of_tests g fr fc tr tc c1 c2 c3 c4]
  rfl

/-- A move accepted in a state is accepted in the same state with another
move record, and leads to the same state up to the record. -/
theorem makeMoveOut_withHistory (g : Chess) (h : List String) (fr fc tr tc : Int)
    (hacc : (makeMoveOut g fr fc tr tc).1 = true) :
    (makeMoveOut (withHistory g h) fr fc tr tc).1 = true ∧
    ∃ h2, switchPlayer (makeMoveOut (withHistory g h) fr fc tr tc).2
      = withHistory (afterPly g fr fc tr tc) h2 := by
  obtain ⟨c1, c2, c3, c4⟩ := tests_of_makeMoveOut hacc
  have e := makeMoveOut_of_tests (withHistory g h) fr fc tr tc c1 c2 c3
    (by
      rw [applyOut_withHistory]
      exact c4)
  rw [e]
  refine ⟨rfl, ?_⟩
  have hcell : (withHistory g h).board.cell fr fc = g.board.cell fr fc := rfl
  rw [hcell, applyOut_withHistory]
  dsimp only
  rw [promoteOut_withHistory]
  exact ⟨_, rfl⟩

/-! ## Lemmas: one ply of the game loop at difficulty 1 -/

/-- `getAIMove` at difficulty 1 returns the legal move at the drawn index. -/
theorem getAIMove_easy (sort : List Move → List Move) (g : Chess) (u : ℚ) (raw : Nat) (m : Move)
    (hm : (legalMovesSpec g g.currentPlayer)[raw]? = some m) :
    getAIMove sort g 1 u raw = some (some m, g) := by
  obtain ⟨hlt, _⟩ := List.getElem?_eq_some.1 hm
  have he : ¬ (legalMovesSpec g g.currentPlayer).isEmpty = true := by
    intro hh
    rw [List.isEmpty_iff.1 hh] at hlt
    exact absurd hlt (by simp)
  unfold getAIMove
  simp only [getAllValidMoves_eq, Option.bind_eq_bind, Option.some_bind, Option.pure_def]
  rw [if_neg he, if_pos trivial, (drawIndex_eq raw (by omega)).1, Option.some_bind,
    Nat.mod_eq_of_lt hlt, hm, Option.some_bind]

/-- One ply of the game loop between two easy AIs: in a state that is `P` up
to the move record, with the side to move not in check, the drawn index
pointing at the legal move `m`, and `m` accepted by `makeMove`, the loop goes
on with the next `moveCount` in a state that is `afterPly P m` up to the move
record. -/
theorem gameLoop_ply (sort : List Move → List Move) (draws : Nat → ℚ × Nat) (winner : String)
    (k : Nat) (P : Chess) (h : List String) (m : Move) (hlt : k < 200)
    (hnc : inCheckOut P P.currentPlayer = false)
    (hm : (legalMovesSpec P P.currentPlayer)[(draws k).2]? = some m)
    (hacc : (makeMoveOut P m.fromRow m.fromCol m.toRow m.toCol).1 = true) :
    ∃ h2, gameLoop sort 1 1 draws winner k (withHistory P h)
      = gameLoop sort 1 1 draws winner (k + 1)
          (withHistory (afterPly P m.fromRow m.fromCol m.toRow m.toCol) h2) := by
  obtain ⟨hacc2, h2, hnext⟩ :=
    makeMoveOut_withHistory P h m.fromRow m.fromCol m.toRow m.toCol hacc
  refine ⟨h2, ?_⟩
  have hcp : (withHistory P h).currentPlayer = P.currentPlayer := rfl
  have hne : (legalMovesSpec P P.currentPlayer).isEmpty = false := by
    obtain ⟨hl, _⟩ := List.getElem?_eq_some.1 hm
    cases hl2 : legalMovesSpec P P.currentPlayer with
    | nil =>
      rw [hl2] at hl
      exact absurd hl (by simp)
    | cons a l => rfl
  have hv : isValidPosition m.fromRow m.fromCol = true :=
    (mem_legalMovesSpec (mem_of_getElem? hm)).1
  have hai : getAIMove sort (withHistory P h) 1 (draws k).1 (draws k).2
      = some (some m, withHistory P h) :=
    getAIMove_easy sort (withHistory P h) _ _ m hm
  rw [gameLoop_step sort 1 1 draws winner k (withHistory P h) hlt, hcp,
    inCheckOut_withHistory, legalMovesSpec_withHistory, hnc, hne]
  simp only [Bool.false_and, Bool.and_false, Bool.false_eq_true, if_false, ite_self]
  rw [playAITurn_of_move hai hv, Option.some_bind, hacc2]
  simp only [Bool.not_true, Bool.false_eq_true, if_false]
  rw [hnext]
/-! ## Lemmas: the positions of the game that ends with mate at the cap -/

theorem chess_ext {a b : Chess} (h1 : a.board = b.board) (h2 : a.currentPlayer = b.currentPlayer)
    (h3 : a.moveHistory = b.moveHistory) (h4 : a.capturedPieces = b.capturedPieces)
    (h5 : a.whiteKingPos = b.whiteKingPos) (h6 : a.blackKingPos = b.blackKingPos)
    (h7 : a.whiteCanCastleKingside = b.whiteCanCastleKingside)
    (h8 : a.whiteCanCastleQueenside = b.whiteCanCastleQueenside)
    (h9 : a.blackCanCastleKingside = b.blackCanCastleKingside)
    (h10 : a.blackCanCastleQueenside = b.blackCanCastleQueenside)
    (h11 : a.enPassantTarget = b.enPassantTarget) : a = b := by
  cases a
  cases b
  simp only [Chess.mk.injEq]
  exact ⟨h1, h2, h3, h4, h5, h6, h7, h8, h9, h10, h11⟩

/-- The knight shuffle leads back to the initial position, up to the move
record. -/
theorem shuffle_closes :
    afterPly shuffle3 2 5 0 6
      = withHistory initial (afterPly shuffle3 2 5 0 6).moveHistory := by
  have hb : ∀ i j : Fin 8, (afterPly shuffle3 2 5 0 6).board i j = initial.board i j := by
    decide!
  exact chess_ext (funext fun i => funext fun j => hb i j) rfl rfl rfl rfl rfl rfl rfl rfl rfl rfl

theorem initial_not_in_check : inCheckOut initial initial.currentPlayer = false := by decide!

/-- The draw `drawFor` picks its move from the list of legal moves when the
move is pseudo-legal for a piece of the side to move and leaves the own king
unattacked. -/
theorem drawFor_picks (g : Chess) (fr fc tr tc : Int)
    (hv : isValidPosition fr fc = true) (hne : g.board.cell fr fc ≠ ' ')
    (hcol : getPieceColor (g.board.cell fr fc) = g.currentPlayer)
    (hpos : (pieceOut g fr fc).any (fun pos => pos.row == tr && pos.col == tc) = true)
    (hs : inCheckOut (simulateMove g fr fc ⟨tr, tc⟩) g.currentPlayer = false) :
    (legalMovesSpec g g.currentPlayer)[drawFor g fr fc tr tc]? = some ⟨fr, fc, tr, tc, 0⟩ :=
  List.getElem?_indexOf
    (mem_legalMovesSpec_of g g.currentPlayer fr fc tr tc hv hne hcol
      ((any_pos_iff _ _ _).1 hpos) hs)

theorem initial_picks_Nf3 :
    (legalMovesSpec initial initial.currentPlayer)[drawFor initial 7 6 5 5]?
      = some ⟨7, 6, 5, 5, 0⟩ :=
  drawFor_picks initial 7 6 5 5 (by decide!) (by decide!) (by decide!) (by decide!) (by decide!)

theorem initial_picks_f3 :
    (legalMovesSpec initial initial.currentPlayer)[drawFor initial 6 5 5 5]?
      = some ⟨6, 5, 5, 5, 0⟩ :=
  drawFor_picks initial 6 5 5 5 (by decide!) (by decide!) (by decide!) (by decide!) (by decide!)

theorem initial_accepts_Nf3 : (makeMoveOut initial 7 6 5 5).1 = true := by decide!

theorem initial_accepts_f3 : (makeMoveOut initial 6 5 5 5).1 = true := by decide!

theorem shuffle1_facts :
    inCheckOut shuffle1 shuffle1.currentPlayer = false ∧
    (legalMovesSpec shuffle1 shuffle1.currentPlayer)[drawFor shuffle1 0 6 2 5]?
      = some ⟨0, 6, 2, 5, 0⟩ ∧
    (makeMoveOut shuffle1 0 6 2 5).1 = true :=
  ⟨by decide!,
    drawFor_picks shuffle1 0 6 2 5 (by decide!) (by decide!) (by decide!) (by decide!)
      (by decide!),
    by decide!⟩

theorem shuffle2_facts :
    inCheckOut shuffle2 shuffle2.currentPlayer = false ∧
    (legalMovesSpec shuffle2 shuffle2.currentPlayer)[drawFor shuffle2 5 5 7 6]?
      = some ⟨5, 5, 7, 6, 0⟩ ∧
    (makeMoveOut shuffle2 5 5 7 6).1 = true :=
  ⟨by decide!,
    drawFor_picks shuffle2 5 5 7 6 (by decide!) (by decide!) (by decide!) (by decide!)
      (by decide!),
    by decide!⟩

theorem shuffle3_facts :
    inCheckOut shuffle3 shuffle3.currentPlayer = false ∧
    (legalMovesSpec shuffle3 shuffle3.currentPlayer)[drawFor shuffle3 2 5 0 6]?
      = some ⟨2, 5, 0, 6, 0⟩ ∧
    (makeMoveOut shuffle3 2 5 0 6).1 = true :=
  ⟨by decide!,
    drawFor_picks shuffle3 2 5 0 6 (by decide!) (by decide!) (by decide!) (by decide!)
      (by decide!),
    by decide!⟩

theorem mate1_facts :
    inCheckOut mate1 mate1.currentPlayer = false ∧
    (legalMovesSpec mate1 mate1.currentPlayer)[drawFor mate1 1 4 3 4]?
      = some ⟨1, 4, 3, 4, 0⟩ ∧
    (makeMoveOut mate1 1 4 3 4).1 = true :=
  ⟨by decide!,
    drawFor_picks mate1 1 4 3 4 (by decide!) (by decide!) (by decide!) (by decide!)
      (by decide!),
    by decide!⟩

theorem mate2_facts :
    inCheckOut mate2 mate2.currentPlayer = false ∧
    (legalMovesSpec mate2 mate2.currentPlayer)[drawFor mate2 6 6 4 6]?
      = some ⟨6, 6, 4, 6, 0⟩ ∧
    (makeMoveOut mate2 6 6 4 6).1 = true :=
  ⟨by decide!,
    drawFor_picks mate2 6 6 4 6 (by decide!) (by decide!) (by decide!) (by decide!)
      (by decide!),
    by decide!⟩

theorem mate3_facts :
    inCheckOut mate3 mate3.currentPlayer = false ∧
    (legalMovesSpec mate3 mate3.currentPlayer)[drawFor mate3 0 3 4 7]?
      = some ⟨0, 3, 4, 7, 0⟩ ∧
    (makeMoveOut mate3 0 3 4 7).1 = true :=
  ⟨by decide!,
    drawFor_picks mate3 0 3 4 7 (by decide!) (by decide!) (by decide!) (by decide!)
      (by decide!),
    by decide!⟩

/-- After 1.f3 e5 2.g4 Qh4 white, to move, is in check and has no legal
move. -/
theorem mate4_facts :
    mate4.currentPlayer = "white" ∧ inCheckOut mate4 "white" = true ∧
    legalMovesSpec mate4 "white" = [] := by
  refine ⟨?_, ?_, ?_⟩ <;> decide!
/-! ## Lemmas: 49 knight shuffles, then mate on ply 200 -/

theorem capMateDraws_shuffle (k i : Nat) (hk : k < 196) (hi : k % 4 = i) :
    (capMateDraws k).2
      = [drawFor initial 7 6 5 5, drawFor shuffle1 0 6 2 5, drawFor shuffle2 5 5 7 6,
          drawFor shuffle3 2 5 0 6].getD i 0 := by
  subst hi
  simp [capMateDraws, hk]

theorem capMateDraws_mate (k i : Nat) (hk : ¬ k < 196) (hi : k - 196 = i) :
    (capMateDraws k).2
      = [drawFor initial 6 5 5 5, drawFor mate1 1 4 3 4, drawFor mate2 6 6 4 6,
          drawFor mate3 0 3 4 7].getD i 0 := by
  subst hi
  simp [capMateDraws, hk]

theorem getD_four (a b c d : Nat) :
    [a, b, c, d].getD 0 0 = a ∧ [a, b, c, d].getD 1 0 = b ∧ [a, b, c, d].getD 2 0 = c ∧
      [a, b, c, d].getD 3 0 = d :=
  ⟨rfl, rfl, rfl, rfl⟩

/-- One round of the shuffle Ng1-f3, Ng8-f6, Nf3-g1, Nf6-g8 takes the game
loop from the initial position at ply `4 * c` to the initial position at ply
`4 * (c + 1)`. -/
theorem shuffle_cycle (sort : List Move → List Move) (winner : String) (c : Nat) (hc : c < 49)
    (h : List String) :
    ∃ h2, gameLoop sort 1 1 capMateDraws winner (4 * c) (withHistory initial h)
      = gameLoop sort 1 1 capMateDraws winner (4 * (c + 1)) (withHistory initial h2) := by
  have d0 : (capMateDraws (4 * c)).2 = drawFor initial 7 6 5 5 :=
    (capMateDraws_shuffle (4 * c) 0 (by omega) (by omega)).trans (getD_four _ _ _ _).1
  have d1 : (capMateDraws (4 * c + 1)).2 = drawFor shuffle1 0 6 2 5 :=
    (capMateDraws_shuffle (4 * c + 1) 1 (by omega) (by omega)).trans (getD_four _ _ _ _).2.1
  have d2 : (capMateDraws (4 * c + 1 + 1)).2 = drawFor shuffle2 5 5 7 6 :=
    (capMateDraws_shuffle (4 * c + 1 + 1) 2 (by omega) (by omega)).trans (getD_four _ _ _ _).2.2.1
  have d3 : (capMateDraws (4 * c + 1 + 1 + 1)).2 = drawFor shuffle3 2 5 0 6 :=
    (capMateDraws_shuffle (4 * c + 1 + 1 + 1) 3 (by omega) (by omega)).trans (getD_four _ _ _ _).2.2.2
  obtain ⟨h1, e1⟩ := gameLoop_ply sort capMateDraws winner (4 * c) initial h ⟨7, 6, 5, 5, 0⟩
    (by omega) initial_not_in_check (by rw [d0]; exact initial_picks_Nf3) initial_accepts_Nf3
  obtain ⟨h2, e2⟩ := gameLoop_ply sort capMateDraws winner (4 * c + 1) shuffle1 h1
    ⟨0, 6, 2, 5, 0⟩ (by omega) shuffle1_facts.1 (by rw [d1]; exact shuffle1_facts.2.1)
    shuffle1_facts.2.2
  obtain ⟨h3, e3⟩ := gameLoop_ply sort capMateDraws winner (4 * c + 1 + 1) shuffle2 h2
    ⟨5, 5, 7, 6, 0⟩ (by omega) shuffle2_facts.1 (by rw [d2]; exact shuffle2_facts.2.1)
    shuffle2_facts.2.2
  obtain ⟨h4, e4⟩ := gameLoop_ply sort capMateDraws winner (4 * c + 1 + 1 + 1) shuffle3 h3
    ⟨2, 5, 0, 6, 0⟩ (by omega) shuffle3_facts.1 (by rw [d3]; exact shuffle3_facts.2.1)
    shuffle3_facts.2.2
  have e4b : gameLoop sort 1 1 capMateDraws winner (4 * c + 1 + 1 + 1) (withHistory shuffle3 h3)
      = gameLoop sort 1 1 capMateDraws winner (4 * c + 1 + 1 + 1 + 1)
          (withHistory (afterPly shuffle3 2 5 0 6) h4) := e4
  rw [shuffle_closes] at e4b
  have e5 : 4 * (c + 1) = 4 * c + 1 + 1 + 1 + 1 := by omega
  rw [e5]
  exact ⟨h4, e1.trans (e2.trans (e3.trans e4b))⟩

theorem shuffle_all (sort : List Move → List Move) (winner : String) (c : Nat) (hc : c ≤ 49) :
    ∃ h, gameLoop sort 1 1 capMateDraws winner 0 initial
      = gameLoop sort 1 1 capMateDraws winner (4 * c) (withHistory initial h) := by
  induction c with
  | zero => exact ⟨[], rfl⟩
  | succ n ih =>
    obtain ⟨h, e⟩ := ih (by omega)
    obtain ⟨h2, e2⟩ := shuffle_cycle sort winner n (by omega) h
    exact ⟨h2, e.trans e2⟩

/-- From the initial position at ply 196 the draws play 1.f3 e5 2.g4 Qh4, and
the loop is entered for the last time at ply 200 in the mated position. -/
theorem mate_plies (sort : List Move → List Move) (winner : String) (h : List String) :
    ∃ h2, gameLoop sort 1 1 capMateDraws winner 196 (withHistory initial h)
      = gameLoop sort 1 1 capMateDraws winner 200 (withHistory mate4 h2) := by
  have d0 : (capMateDraws 196).2 = drawFor initial 6 5 5 5 :=
    (capMateDraws_mate 196 0 (by omega) (by omega)).trans (getD_four _ _ _ _).1
  have d1 : (capMateDraws 197).2 = drawFor mate1 1 4 3 4 :=
    (capMateDraws_mate 197 1 (by omega) (by omega)).trans (getD_four _ _ _ _).2.1
  have d2 : (capMateDraws 198).2 = drawFor mate2 6 6 4 6 :=
    (capMateDraws_mate 198 2 (by omega) (by omega)).trans (getD_four _ _ _ _).2.2.1
  have d3 : (capMateDraws 199).2 = drawFor mate3 0 3 4 7 :=
    (capMateDraws_mate 199 3 (by omega) (by omega)).trans (getD_four _ _ _ _).2.2.2
  obtain ⟨h1, e1⟩ := gameLoop_ply sort capMateDraws winner 196 initial h ⟨6, 5, 5, 5, 0⟩
    (by omega) initial_not_in_check (by rw [d0]; exact initial_picks_f3) initial_accepts_f3
  obtain ⟨h2, e2⟩ := gameLoop_ply sort capMateDraws winner 197 mate1 h1
    ⟨1, 4, 3, 4, 0⟩ (by omega) mate1_facts.1 (by rw [d1]; exact mate1_facts.2.1)
    mate1_facts.2.2
  obtain ⟨h3, e3⟩ := gameLoop_ply sort capMateDraws winner 198 mate2 h2
    ⟨6, 6, 4, 6, 0⟩ (by omega) mate2_facts.1 (by rw [d2]; exact mate2_facts.2.1)
    mate2_facts.2.2
  obtain ⟨h4, e4⟩ := gameLoop_ply sort capMateDraws winner 199 mate3 h3
    ⟨0, 3, 4, 7, 0⟩ (by omega) mate3_facts.1 (by rw [d3]; exact mate3_facts.2.1)
    mate3_facts.2.2
  exact ⟨h4, e1.trans (e2.trans (e3.trans e4))⟩

/-- The whole game: the loop started at ply 0 stops at the cap with the mated
position and the winner still unset. -/
theorem cap_game_loop (sort : List Move → List Move) :
    ∃ h, gameLoop sort 1 1 capMateDraws "" 0 initial
      = some (Outcome.mk "" 200 (withHistory mate4 h)) := by
  obtain ⟨h1, e1⟩ := shuffle_all sort "" 49 (by omega)
  obtain ⟨h2, e2⟩ := mate_plies sort "" h1
  refine ⟨h2, ?_⟩
  rw [e1, e2, gameLoop_cap sort 1 1 capMateDraws "" 200 _ (by omega)]

/-- C29 (code behaviour): in V1 `playAIvsAI` records a draw for a game whose
200th ply delivers checkmate. With difficulty 1 on both sides and the draws
`capMateDraws` the engines shuffle their king knights 49 times and then play
1.f3 e5 2.g4 Qh4 as plies 197 to 200; the loop stops at the cap before testing
for checkmate, and the function returns winner "draw" with 200 plies played,
in a position where white, to move, is checkmated (and not stalemated). -/
theorem checkmate_on_last_ply_recorded_as_draw (sort : List Move → List Move) :
    ∃ r, playAIvsAI sort 1 1 capMateDraws = some r ∧
      r.winner = "draw" ∧ r.moveCount = 200 ∧
      r.final.currentPlayer = "white" ∧
      r.final.board.cell 4 7 = 'q' ∧ r.final.board.cell 7 4 = 'K' ∧
      isInCheck r.final "white" = some true ∧
      getAllValidMoves r.final "white" = some ([], r.final) ∧
      isCheckmate r.final "white" = some (true, r.final) ∧
      isStalemate r.final "white" = some (false, r.final) := by
  obtain ⟨h, e⟩ := cap_game_loop sort
  have hc : inCheckOut (withHistory mate4 h) "white" = true := mate4_facts.2.1
  have hl : legalMovesSpec (withHistory mate4 h) "white" = [] := mate4_facts.2.2
  refine ⟨Outcome.mk "draw" 200 (withHistory mate4 h), ?_, rfl, rfl, mate4_facts.1, ?_, ?_, ?_,
    ?_, ?_, ?_⟩
  · unfold playAIvsAI
    rw [e]
    rfl
  · show mate4.board.cell 4 7 = 'q'
    decide
  · show mate4.board.cell 7 4 = 'K'
    decide
  · rw [isInCheck_eq, hc]
  · rw [getAllValidMoves_eq, hl]
  · rw [isCheckmate_eq, hc, hl]
    rfl
  · rw [isStalemate_eq, hc, hl]
    rfl

/-! ## C33: the move generator stays on the board -/

/-- C33: for every state (any board, any en-passant target, any rights) and
every on-board origin square `getPieceMoves` returns, which in this model
means that every cell it reads lies inside the 8x8 grid, and every destination
it returns has row and column in 0..7. -/
theorem getPieceMoves_stays_on_board (g : Chess) (row col : Int)
    (hv : isValidPosition row col = true) :
    ∃ l, getPieceMoves g row col = some l ∧
      ∀ pos ∈ l, 0 ≤ pos.row ∧ pos.row < 8 ∧ 0 ≤ pos.col ∧ pos.col < 8 := by
  refine ⟨_, getPieceMoves_eq g row col hv, fun pos h => ?_⟩
  have hp := pieceOut_valid h
  rw [isValidPosition_iff] at hp
  exact hp

/-- Witness for C33: the white pawn of e2 in the initial position. -/
theorem getPieceMoves_stays_on_board_witness :
    isValidPosition 6 4 = true ∧
    ∃ l, getPieceMoves initial 6 4 = some l ∧
      ∀ pos ∈ l, 0 ≤ pos.row ∧ pos.row < 8 ∧ 0 ≤ pos.col ∧ pos.col < 8 :=
  ⟨by decide, getPieceMoves_stays_on_board initial 6 4 (by decide)⟩

/-! ## C36: the king caches in reachable states -/

/-- C36: in every state reached from the initial position by successful
`makeMove` calls, each followed by the switch of the side to move,
`whiteKingPos` is an on-board square that holds 'K' and `blackKingPos` one
that holds 'k', and no other square holds these letters. -/
theorem reachable_king_cache_matches_board {g : Chess} (h : Reachable g) :
    (isValidPosition g.whiteKingPos.row g.whiteKingPos.col = true ∧
      g.board.get? g.whiteKingPos.row g.whiteKingPos.col = some 'K' ∧
      ∀ i j : Int, isValidPosition i j = true → g.board.cell i j = 'K' →
        g.whiteKingPos = ⟨i, j⟩) ∧
    (isValidPosition g.blackKingPos.row g.blackKingPos.col = true ∧
      g.board.get? g.blackKingPos.row g.blackKingPos.col = some 'k' ∧
      ∀ i j : Int, isValidPosition i j = true → g.board.cell i j = 'k' →
        g.blackKingPos = ⟨i, j⟩) := by
  have hi := Reachable.inv h
  refine ⟨⟨hi.white_king.1, ?_, fun i j hv hc => ?_⟩, ⟨hi.black_king.1, ?_, fun i j hv hc => ?_⟩⟩
  · rw [get?_of_valid hi.white_king.1, hi.white_king.here]
  · obtain ⟨e1, e2⟩ := (hi.white_king.2 i j hv).1 hc
    rw [position_eq_iff]
    exact ⟨e1.symm, e2.symm⟩
  · rw [get?_of_valid hi.black_king.1, hi.black_king.here]
  · obtain ⟨e1, e2⟩ := (hi.black_king.2 i j hv).1 hc
    rw [position_eq_iff]
    exact ⟨e1.symm, e2.symm⟩

/-! ## C37 and C38: the board after a successful move -/

/-- The board after a successful castling move of the king of `home`. -/
theorem castled_board {g g2 : Chess} {home toCol : Int} {king rook : Char}
    (hs : (king = 'K' ∧ rook = 'R' ∧ home = 7) ∨ (king = 'k' ∧ rook = 'r' ∧ home = 0))
    (hk : g.board.cell home 4 = king)
    (h : makeMove g home 4 home toCol = some (true, g2)) :
    g2.board = castleRookOut ((g.board.put home toCol king).put home 4 ' ') home rook 4 toCol := by
  rw [makeMove_true_board h]
  rcases hs with ⟨rfl, rfl, rfl⟩ | ⟨rfl, rfl, rfl⟩
  · exact promoted_board_of_white_king g hk
  · exact promoted_board_of_black_king g hk

/-- C37: after a successful `makeMove` of a king from column 4 to column 6 of
its home row (row 7 for 'K' with rook 'R', row 0 for 'k' with rook 'r') that
row has the king on column 6, the side's rook on column 5 and columns 4 and 7
empty; after a successful move from column 4 to column 2 the king is on column
2, the rook on column 3 and columns 0 and 4 are empty. In both cases the other
cells of the home row and all cells of the other rows are unchanged, and both
castling rights of the side are false. -/
theorem castling_move_effect {g g2 : Chess} {home : Int} {king rook : Char}
    (hs : (king = 'K' ∧ rook = 'R' ∧ home = 7) ∨ (king = 'k' ∧ rook = 'r' ∧ home = 0))
    (hk : g.board.cell home 4 = king) :
    (makeMove g home 4 home 6 = some (true, g2) →
      g2.board.cell home 6 = king ∧ g2.board.cell home 5 = rook ∧
      g2.board.cell home 4 = ' ' ∧ g2.board.cell home 7 = ' ' ∧
      (∀ i j : Int, isValidPosition i j = true → i ≠ home ∨ j < 4 →
        g2.board.cell i j = g.board.cell i j) ∧
      (king = 'K' → g2.whiteCanCastleKingside = false ∧ g2.whiteCanCastleQueenside = false) ∧
      (king = 'k' → g2.blackCanCastleKingside = false ∧ g2.blackCanCastleQueenside = false)) ∧
    (makeMove g home 4 home 2 = some (true, g2) →
      g2.board.cell home 2 = king ∧ g2.board.cell home 3 = rook ∧
      g2.board.cell home 4 = ' ' ∧ g2.board.cell home 0 = ' ' ∧
      (∀ i j : Int, isValidPosition i j = true → i ≠ home ∨ j = 1 ∨ 4 < j →
        g2.board.cell i j = g.board.cell i j) ∧
      (king = 'K' → g2.whiteCanCastleKingside = false ∧ g2.whiteCanCastleQueenside = false) ∧
      (king = 'k' → g2.blackCanCastleKingside = false ∧ g2.blackCanCastleQueenside = false)) := by
  have hh : isValidPosition home 0 = true ∧ isValidPosition home 2 = true ∧
      isValidPosition home 3 = true ∧ isValidPosition home 4 = true ∧
      isValidPosition home 5 = true ∧ isValidPosition home 6 = true ∧
      isValidPosition home 7 = true := by
    rcases hs with ⟨_, _, rfl⟩ | ⟨_, _, rfl⟩ <;> decide
  obtain ⟨v0, v2, v3, v4, v5, v6, v7⟩ := hh
  constructor
  · intro h
    have hb := castled_board hs hk h
    have hr := makeMove_true_revokes h
    rw [hk] at hr
    unfold castleRookOut at hb
    rw [if_pos ⟨rfl, rfl⟩] at hb
    rw [hb]
    refine ⟨?_, ?_, ?_, ?_, fun i j hv hij => ?_, hr.1, hr.2.1⟩
    · rw [cell_put _ v7 v6, if_neg (by omega), cell_put _ v5 v6, if_neg (by omega),
        cell_put _ v4 v6, if_neg (by omega), cell_put _ v6 v6, if_pos ⟨rfl, rfl⟩]
    · rw [cell_put _ v7 v5, if_neg (by omega), cell_put _ v5 v5, if_pos ⟨rfl, rfl⟩]
    · rw [cell_put _ v7 v4, if_neg (by omega), cell_put _ v5 v4, if_neg (by omega),
        cell_put _ v4 v4, if_pos ⟨rfl, rfl⟩]
    · rw [cell_put _ v7 v7, if_pos ⟨rfl, rfl⟩]
    · have hvi := (isValidPosition_iff i j).1 hv
      rw [cell_put _ v7 hv, if_neg (by omega), cell_put _ v5 hv, if_neg (by omega),
        cell_put _ v4 hv, if_neg (by omega), cell_put _ v6 hv, if_neg (by omega)]
  · intro h
    have hb := castled_board hs hk h
    have hr := makeMove_true_revokes h
    rw [hk] at hr
    unfold castleRookOut at hb
    rw [if_neg (by omega), if_pos ⟨rfl, rfl⟩] at hb
    rw [hb]
    refine ⟨?_, ?_, ?_, ?_, fun i j hv hij => ?_, hr.1, hr.2.1⟩
    · rw [cell_put _ v0 v2, if_neg (by omega), cell_put _ v3 v2, if_neg (by omega),
        cell_put _ v4 v2, if_neg (by omega), cell_put _ v2 v2, if_pos ⟨rfl, rfl⟩]
    · rw [cell_put _ v0 v3, if_neg (by omega), cell_put _ v3 v3, if_pos ⟨rfl, rfl⟩]
    · rw [cell_put _ v0 v4, if_neg (by omega), cell_put _ v3 v4, if_neg (by omega),
        cell_put _ v4 v4, if_pos ⟨rfl, rfl⟩]
    · rw [cell_put _ v0 v0, if_pos ⟨rfl, rfl⟩]
    · have hvi := (isValidPosition_iff i j).1 hv
      rw [cell_put _ v0 hv, if_neg (by omega), cell_put _ v3 hv, if_neg (by omega),
        cell_put _ v4 hv, if_neg (by omega), cell_put _ v2 hv, if_neg (by omega)]

/-- C38: after a successful `makeMove` that is neither a castling move (a king
moving two columns) nor an en-passant capture (a pawn moving onto the empty
en-passant target), the origin cell is empty, the destination cell holds the
moved piece, or the side's queen when a pawn reaches the last row, every other
cell of the board is unchanged, and `currentPlayer` is unchanged. -/
theorem ordinary_move_frame {g g2 : Chess} {fr fc tr tc : Int}
    (h : makeMove g fr fc tr tc = some (true, g2))
    (hcastle : ¬ ((g.board.cell fr fc).toUpper = 'K' ∧ (tc - fc).natAbs = 2))
    (hep : isEnPassantCapture g fr fc ⟨tr, tc⟩ = false) :
    g2.board.cell fr fc = ' ' ∧
    g2.board.cell tr tc
      = (if g.board.cell fr fc = 'P' ∧ tr = 0 then 'Q'
          else if g.board.cell fr fc = 'p' ∧ tr = 7 then 'q' else g.board.cell fr fc) ∧
    (∀ i j : Int, isValidPosition i j = true → ¬ (i = fr ∧ j = fc) → ¬ (i = tr ∧ j = tc) →
      g2.board.cell i j = g.board.cell i j) ∧
    g2.currentPlayer = g.currentPlayer := by
  obtain ⟨hv, hne, _, hpos, _, hg2⟩ := makeMove_true_inv h
  have hvp := pieceOut_valid hpos
  dsimp only at hvp
  have hself : ¬ (tr = fr ∧ tc = fc) := pieceOut_ne_self hpos
  have hself2 : ¬ (fr = tr ∧ fc = tc) := fun e => hself ⟨e.1.symm, e.2.symm⟩
  have hcur : g2.currentPlayer = g.currentPlayer := by
    rw [hg2]
    show (promoteOut _ _ _ _).currentPlayer = _
    rw [promoteOut_currentPlayer, applyOut_currentPlayer]
  have hcap : captureBoard g (g.board.cell fr fc) tr tc = g.board := by
    unfold captureBoard
    unfold isEnPassantCapture at hep
    dsimp only at hep
    rw [hep]
    rfl
  have hnc : ¬ (fc = 4 ∧ (tc = 6 ∨ tc = 2)) ∨ (g.board.cell fr fc).toUpper ≠ 'K' := by
    by_cases hK : (g.board.cell fr fc).toUpper = 'K'
    · left
      intro hc
      apply hcastle
      refine ⟨hK, ?_⟩
      omega
    · exact Or.inr hK
  have key : g2.board
      = if g.board.cell fr fc = 'P' ∧ tr = 0 then
          ((g.board.put tr tc (g.board.cell fr fc)).put fr fc ' ').put tr tc 'Q'
        else if g.board.cell fr fc = 'p' ∧ tr = 7 then
          ((g.board.put tr tc (g.board.cell fr fc)).put fr fc ' ').put tr tc 'q'
        else (g.board.put tr tc (g.board.cell fr fc)).put fr fc ' ' := by
    rw [makeMove_true_board h]
    by_cases hK : g.board.cell fr fc = 'K'
    · have hc : ¬ (fc = 4 ∧ (tc = 6 ∨ tc = 2)) := by
        rcases hnc with hc | hc
        · exact hc
        · exact absurd (by rw [hK]; decide) hc
      rw [promoted_board_of_white_king g hK, castleRookOut_none _ _ _ _ _ hc,
        if_neg (by rw [hK]; exact fun e => absurd e.1 (by decide)),
        if_neg (by rw [hK]; exact fun e => absurd e.1 (by decide)), hK]
    · by_cases hk : g.board.cell fr fc = 'k'
      · have hc : ¬ (fc = 4 ∧ (tc = 6 ∨ tc = 2)) := by
          rcases hnc with hc | hc
          · exact hc
          · exact absurd (by rw [hk]; decide) hc
        rw [promoted_board_of_black_king g hk, castleRookOut_none _ _ _ _ _ hc,
          if_neg (by rw [hk]; exact fun e => absurd e.1 (by decide)),
          if_neg (by rw [hk]; exact fun e => absurd e.1 (by decide)), hk]
      · rw [promoted_board_of_not_king g hK hk, hcap]
  refine ⟨?_, ?_, fun i j hij n1 n2 => ?_, hcur⟩
  · rw [key]
    split_ifs
    · rw [cell_put _ hvp hv, if_neg hself2, cell_put _ hv hv, if_pos ⟨rfl, rfl⟩]
    · rw [cell_put _ hvp hv, if_neg hself2, cell_put _ hv hv, if_pos ⟨rfl, rfl⟩]
    · rw [cell_put _ hv hv, if_pos ⟨rfl, rfl⟩]
  · rw [key]
    split_ifs
    · rw [cell_put _ hvp hvp, if_pos ⟨rfl, rfl⟩]
    · rw [cell_put _ hvp hvp, if_pos ⟨rfl, rfl⟩]
    · rw [cell_put _ hv hvp, if_neg hself, cell_put _ hvp hvp, if_pos ⟨rfl, rfl⟩]
  · rw [key]
    split_ifs
    · rw [cell_put _ hvp hij, if_neg n2, cell_put _ hv hij, if_neg n1, cell_put _ hvp hij,
        if_neg n2]
    · rw [cell_put _ hvp hij, if_neg n2, cell_put _ hv hij, if_neg n1, cell_put _ hvp hij,
        if_neg n2]
    · rw [cell_put _ hv hij, if_neg n1, cell_put _ hvp hij, if_neg n2]

/-- Witness for C36: after 1.e4 e5 2.Ke2 the white king cache is e2. -/
theorem reachable_king_cache_matches_board_witness :
    Reachable (playOut initial kingStepGame) ∧
    (playOut initial kingStepGame).whiteKingPos = ⟨6, 4⟩ ∧
    (playOut initial kingStepGame).board.get?
      (playOut initial kingStepGame).whiteKingPos.row
      (playOut initial kingStepGame).whiteKingPos.col = some 'K' :=
  have hr : Reachable (playOut initial kingStepGame) :=
    Reachable.of_playMoves Reachable.start
      (playMoves_eq_playOut initial kingStepGame (by decide))
  ⟨hr, by decide, (reachable_king_cache_matches_board hr).1.2.1⟩

/-- Witness for C37: both castling moves of the white king with the rooks on
their corners and nothing between. -/
theorem castling_move_effect_witness :
    makeMove castleReady 7 4 7 6 = some (true, (makeMoveOut castleReady 7 4 7 6).2) ∧
    makeMove castleReady 7 4 7 2 = some (true, (makeMoveOut castleReady 7 4 7 2).2) ∧
    (makeMoveOut castleReady 7 4 7 6).2.board.cell 7 5 = 'R' ∧
    (makeMoveOut castleReady 7 4 7 6).2.board.cell 7 7 = ' ' ∧
    (makeMoveOut castleReady 7 4 7 2).2.board.cell 7 3 = 'R' ∧
    (makeMoveOut castleReady 7 4 7 2).2.board.cell 7 0 = ' ' :=
  have hk : castleReady.board.cell 7 4 = 'K' := by decide
  have h6 := makeMove_accepted_of_out castleReady 7 4 7 6 (by decide) (by decide)
  have h2 := makeMove_accepted_of_out castleReady 7 4 7 2 (by decide) (by decide)
  have e6 := (castling_move_effect (Or.inl ⟨rfl, rfl, rfl⟩) hk).1 h6
  have e2 := (castling_move_effect (Or.inl ⟨rfl, rfl, rfl⟩) hk).2 h2
  ⟨h6, h2, e6.2.1, e6.2.2.2.1, e2.2.1, e2.2.2.2.1⟩

/-- Witness for C38: 1.e4 from the initial position. -/
theorem ordinary_move_frame_witness :
    makeMove initial 6 4 4 4 = some (true, (makeMoveOut initial 6 4 4 4).2) ∧
    (makeMoveOut initial 6 4 4 4).2.board.cell 6 4 = ' ' ∧
    (makeMoveOut initial 6 4 4 4).2.board.cell 4 4 = 'P' ∧
    (makeMoveOut initial 6 4 4 4).2.currentPlayer = "white" :=
  have h := makeMove_accepted_of_out initial 6 4 4 4 (by decide) (by decide)
  have e := ordinary_move_frame h (by decide) (by decide)
  ⟨h, e.1, e.2.1, e.2.2.2⟩

/-! ## C31: the destinations of bishops, rooks and queens -/

theorem mem_slideOut_iff (b : Board) (piece : Char) (dr dc : Int) :
    ∀ (fuel : Nat) (r c : Int) (pos : Position),
      pos ∈ slideOut b piece dr dc fuel r c ↔
        ∃ k : Nat, k < fuel ∧ pos = ⟨r + k * dr, c + k * dc⟩ ∧
          (∀ m : Nat, m ≤ k → isValidPosition (r + m * dr) (c + m * dc) = true) ∧
          (∀ m : Nat, m < k → b.cell (r + m * dr) (c + m * dc) = ' ') ∧
          (b.cell pos.row pos.col = ' ' ∨
            (b.cell pos.row pos.col ≠ ' ' ∧
              getPieceColor (b.cell pos.row pos.col) ≠ getPieceColor piece)) := by
  intro fuel
  induction fuel with
  | zero =>
    intro r c pos
    simp [slideOut]
  | succ n ih =>
    intro r c pos
    have shift : ∀ m : Nat, r + ((m + 1 : Nat) : Int) * dr = r + dr + (m : Int) * dr ∧
        c + ((m + 1 : Nat) : Int) * dc = c + dc + (m : Int) * dc := by
      intro m
      have e1 : ((m + 1 : Nat) : Int) = (m : Int) + 1 := rfl
      rw [e1, Int.add_mul, Int.add_mul, Int.one_mul, Int.one_mul]
      constructor <;> omega
    have zero : r + ((0 : Nat) : Int) * dr = r ∧ c + ((0 : Nat) : Int) * dc = c := by
      have e0 : ((0 : Nat) : Int) = 0 := rfl
      rw [e0, Int.zero_mul, Int.zero_mul, Int.add_zero, Int.add_zero]
      exact ⟨rfl, rfl⟩
    unfold slideOut
    constructor
    · intro h
      split at h
      · rename_i hv
        split at h
        · rename_i he
          have he2 : b.cell r c = ' ' := by simpa using he
          rcases List.mem_cons.1 h with h1 | h1
          · subst h1
            refine ⟨0, Nat.succ_pos _, ?_, ?_, ?_, Or.inl he2⟩
            · rw [zero.1, zero.2]
            · intro m hm
              have : m = 0 := by omega
              subst this
              rw [zero.1, zero.2]
              exact hv
            · intro m hm
              omega
          · obtain ⟨k, hk, hp, hval, hemp, ht⟩ := (ih _ _ _).1 h1
            refine ⟨k + 1, by omega, ?_, ?_, ?_, ht⟩
            · rw [(shift k).1, (shift k).2]
              exact hp
            · intro m hm
              cases m with
              | zero => rw [zero.1, zero.2]; exact hv
              | succ m2 =>
                rw [(shift m2).1, (shift m2).2]
                exact hval m2 (by omega)
            · intro m hm
              cases m with
              | zero => rw [zero.1, zero.2]; exact he2
              | succ m2 =>
                rw [(shift m2).1, (shift m2).2]
                exact hemp m2 (by omega)
        · rename_i he
          have he2 : b.cell r c ≠ ' ' := by simpa using he
          split at h
          · rename_i hc
            simp only [List.mem_singleton] at h
            subst h
            refine ⟨0, Nat.succ_pos _, ?_, ?_, ?_, Or.inr ⟨he2, by simpa using hc⟩⟩
            · rw [zero.1, zero.2]
            · intro m hm
              have : m = 0 := by omega
              subst this
              rw [zero.1, zero.2]
              exact hv
            · intro m hm
              omega
          · simp at h
      · simp at h
    · rintro ⟨k, hk, hp, hval, hemp, ht⟩
      have hv : isValidPosition r c = true := by
        have := hval 0 (Nat.zero_le _)
        rwa [zero.1, zero.2] at this
      rw [if_pos hv]
      cases k with
      | zero =>
        rw [zero.1, zero.2] at hp
        subst hp
        dsimp only at ht
        rcases ht with ht | ⟨ht1, ht2⟩
        · rw [if_pos (by simpa using ht)]
          exact List.mem_cons_self _ _
        · rw [if_neg (by simpa using ht1), if_pos (by simpa using ht2)]
          exact List.mem_singleton.2 rfl
      | succ k2 =>
        have he : b.cell r c = ' ' := by
          have := hemp 0 (Nat.succ_pos _)
          rwa [zero.1, zero.2] at this
        rw [if_pos (by simpa using he)]
        refine List.mem_cons_of_mem _ ((ih _ _ _).2 ⟨k2, by omega, ?_, ?_, ?_, ht⟩)
        · rw [(shift k2).1, (shift k2).2] at hp
          exact hp
        · intro m hm
          have := hval (m + 1) (by omega)
          rwa [(shift m).1, (shift m).2] at this
        · intro m hm
          have := hemp (m + 1) (by omega)
          rwa [(shift m).1, (shift m).2] at this

theorem isRayDestination_iff (b : Board) (row col : Int) (piece : Char)
    (directions : List (Int × Int)) (pos : Position) :
    isRayDestination b row col piece directions pos = true ↔
      ∃ d ∈ directions, ∃ k : Nat, k < 8 ∧ 1 ≤ k ∧ pos = ⟨row + k * d.1, col + k * d.2⟩ ∧
        isValidPosition pos.row pos.col = true ∧
        (∀ m : Nat, m < k → m = 0 ∨ b.cell (row + m * d.1) (col + m * d.2) = ' ') ∧
        (b.cell pos.row pos.col = ' ' ∨
          (b.cell pos.row pos.col ≠ ' ' ∧
            getPieceColor (b.cell pos.row pos.col) ≠ getPieceColor piece)) := by
  simp only [isRayDestination, List.any_eq_true, List.all_eq_true, List.mem_range,
    Bool.and_eq_true, Bool.or_eq_true, decide_eq_true_eq, beq_iff_eq, bne_iff_ne, ne_eq]
  constructor
  · rintro ⟨d, hd, k, hk, ⟨⟨⟨h1, h2⟩, h3⟩, h4⟩, h5⟩
    exact ⟨d, hd, k, hk, h1, h2, h3, h4, h5⟩
  · rintro ⟨d, hd, k, hk, h1, h2, h3, h4, h5⟩
    exact ⟨d, hd, k, hk, ⟨⟨⟨h1, h2⟩, h3⟩, h4⟩, h5⟩

theorem mem_slidingOut_iff (b : Board) (row col : Int) (piece : Char)
    (directions : List (Int × Int)) (hd : ∀ d ∈ directions, d ∈ queenDirections)
    (hv : isValidPosition row col = true) (pos : Position) :
    pos ∈ slidingOut b row col piece directions ↔
      isRayDestination b row col piece directions pos = true := by
  rw [isRayDestination_iff]
  unfold slidingOut
  rw [List.mem_flatMap]
  have hv2 := (isValidPosition_iff row col).1 hv
  constructor
  · rintro ⟨d, hdm, hmem⟩
    obtain ⟨k, hk, hp, hval, hemp, ht⟩ := (mem_slideOut_iff b piece d.1 d.2 8 _ _ pos).1 hmem
    obtain ⟨q1, q2, q3⟩ := mem_queenDirections (hd d hdm)
    have hvp := hval k (Nat.le_refl _)
    have e1 : row + d.1 + (k : Int) * d.1 = row + ((k + 1 : Nat) : Int) * d.1 := by
      push_cast; ring
    have e2 : col + d.2 + (k : Int) * d.2 = col + ((k + 1 : Nat) : Int) * d.2 := by
      push_cast; ring
    have hk8 : k + 1 < 8 := by
      have hvp2 := (isValidPosition_iff _ _).1 hvp
      rcases q1 with q1 | q1 | q1 <;> rcases q2 with q2 | q2 | q2 <;> rw [q1, q2] at hvp2 <;>
        omega
    refine ⟨d, hdm, k + 1, hk8, by omega, ?_, ?_, ?_, ht⟩
    · rw [hp, e1, e2]
    · rw [hp]
      exact hvp
    · intro m hm
      cases m with
      | zero => exact Or.inl rfl
      | succ m2 =>
        right
        have := hemp m2 (by omega)
        have f1 : row + d.1 + (m2 : Int) * d.1 = row + ((m2 + 1 : Nat) : Int) * d.1 := by
          push_cast; ring
        have f2 : col + d.2 + (m2 : Int) * d.2 = col + ((m2 + 1 : Nat) : Int) * d.2 := by
          push_cast; ring
        rwa [f1, f2] at this
  · rintro ⟨d, hdm, k, hk, hk1, hp, hvp, hemp, ht⟩
    refine ⟨d, hdm, (mem_slideOut_iff b piece d.1 d.2 8 _ _ pos).2 ?_⟩
    obtain ⟨q1, q2, q3⟩ := mem_queenDirections (hd d hdm)
    obtain ⟨k2, rfl⟩ : ∃ k2, k = k2 + 1 := ⟨k - 1, by omega⟩
    have e : ∀ m : Nat, row + d.1 + (m : Int) * d.1 = row + ((m + 1 : Nat) : Int) * d.1 ∧
        col + d.2 + (m : Int) * d.2 = col + ((m + 1 : Nat) : Int) * d.2 := by
      intro m
      have e1 : ((m + 1 : Nat) : Int) = (m : Int) + 1 := rfl
      rw [e1, Int.add_mul, Int.add_mul, Int.one_mul, Int.one_mul]
      constructor <;> omega
    refine ⟨k2, by omega, ?_, ?_, ?_, ht⟩
    · rw [hp, (e k2).1, (e k2).2]
    · intro m hm
      rw [hp] at hvp
      have hvp2 := (isValidPosition_iff _ _).1 hvp
      dsimp only at hvp2
      rw [isValidPosition_iff]
      push_cast at hvp2 ⊢
      rcases q1 with q1 | q1 | q1 <;> rcases q2 with q2 | q2 | q2 <;> rw [q1, q2] at hvp2 ⊢ <;>
        omega
    · intro m hm
      rcases hemp (m + 1) (by omega) with h0 | h0
      · omega
      · rw [(e m).1, (e m).2]
        exact h0

/-- C31: for every board, every on-board square `(row, col)` and every piece
letter `piece`, `getBishopMoves`, `getRookMoves` and `getQueenMoves` return,
and a square is in the returned list exactly when it lies on one of the
piece's rays (4 diagonal, 4 orthogonal, all 8), is on the board, every square
strictly between the piece and it is empty, and it is itself empty or holds a
piece of the other colour. So no returned square lies beyond the first
occupied square of a ray. -/
theorem getSlidingMoves_returns_open_ray_squares (g : Chess) (row col : Int) (piece : Char)
    (hv : isValidPosition row col = true) :
    (∃ l, getBishopMoves g row col piece = some l ∧ ∀ pos : Position,
      pos ∈ l ↔ isRayDestination g.board row col piece bishopDirections pos = true) ∧
    (∃ l, getRookMoves g row col piece = some l ∧ ∀ pos : Position,
      pos ∈ l ↔ isRayDestination g.board row col piece rookDirections pos = true) ∧
    (∃ l, getQueenMoves g row col piece = some l ∧ ∀ pos : Position,
      pos ∈ l ↔ isRayDestination g.board row col piece queenDirections pos = true) :=
  ⟨⟨_, getSlidingMoves_eq g row col piece bishopDirections (fun _ h => bishop_sub_queen h) hv,
      mem_slidingOut_iff g.board row col piece bishopDirections (fun _ h => bishop_sub_queen h) hv⟩,
    ⟨_, getSlidingMoves_eq g row col piece rookDirections (fun _ h => rook_sub_queen h) hv,
      mem_slidingOut_iff g.board row col piece rookDirections (fun _ h => rook_sub_queen h) hv⟩,
    ⟨_, getSlidingMoves_eq g row col piece queenDirections (fun _ h => h) hv,
      mem_slidingOut_iff g.board row col piece queenDirections (fun _ h => h) hv⟩⟩

/-- Witness for C31: the rook of a1 with the king on e1 and nothing else on
the first rank: d1 is a destination, e1 (own king) and f1 (beyond it) are not,
a8 at the end of the open file is. -/
theorem getSlidingMoves_returns_open_ray_squares_witness :
    isValidPosition 7 0 = true ∧
    (∃ l, getRookMoves castleReady 7 0 'R' = some l ∧ ∀ pos : Position,
      pos ∈ l ↔ isRayDestination castleReady.board 7 0 'R' rookDirections pos = true) ∧
    [(⟨7, 3⟩ : Position), ⟨7, 4⟩, ⟨7, 5⟩, ⟨0, 0⟩].map
      (isRayDestination castleReady.board 7 0 'R' rookDirections) = [true, false, false, true] :=
  ⟨by decide, (getSlidingMoves_returns_open_ray_squares castleReady 7 0 'R' (by decide)).2.1,
    by decide⟩

/-! ## C32: the castling destinations of `getKingMoves` -/

theorem mem_castlingOut_iff (b : Board) (home : Int) (rook : Char) (ks qs : Bool)
    (pos : Position) :
    pos ∈ castlingOut b home rook ks qs ↔
      (pos = ⟨home, 6⟩ ∧ ks = true ∧ b.cell home 5 = ' ' ∧ b.cell home 6 = ' ' ∧
          b.cell home 7 = rook) ∨
      (pos = ⟨home, 2⟩ ∧ qs = true ∧ b.cell home 1 = ' ' ∧ b.cell home 2 = ' ' ∧
          b.cell home 3 = ' ' ∧ b.cell home 0 = rook) := by
  constructor
  · exact castlingOut_mem
  · intro h
    unfold castlingOut
    rw [List.mem_append]
    rcases h with ⟨rfl, h1, h2, h3, h4⟩ | ⟨rfl, h1, h2, h3, h4, h5⟩
    · left
      rw [if_pos (by simp [h1, h2, h3, h4])]
      exact List.mem_singleton.2 rfl
    · right
      rw [if_pos (by simp [h1, h2, h3, h4, h5])]
      exact List.mem_singleton.2 rfl

/-- A destination two columns from the king is none of the king's steps. -/
theorem not_mem_king_steps (b : Board) (row col : Int) (piece : Char) (pos : Position)
    (h : (pos.col - col).natAbs = 2) :
    pos ∉ queenDirections.flatMap (jumpOut b row col piece) := by
  intro hm
  obtain ⟨d, hd, hp⟩ := List.mem_flatMap.1 hm
  obtain ⟨rfl, _, _⟩ := jumpOut_mem hp
  obtain ⟨_, q2, _⟩ := mem_queenDirections hd
  dsimp only at h
  omega

/-- The castling destinations in the list of the king of `home`. -/
theorem castling_mem_kingOut (g : Chess) (home : Int) (king rook : Char) (ks qs : Bool)
    (hc : kingCastleOut g home 4 king = castlingOut g.board home rook ks qs) :
    ((⟨home, 6⟩ : Position) ∈ kingOut g home 4 king true ↔
      ks = true ∧ g.board.cell home 5 = ' ' ∧ g.board.cell home 6 = ' ' ∧
        g.board.cell home 7 = rook) ∧
    ((⟨home, 2⟩ : Position) ∈ kingOut g home 4 king true ↔
      qs = true ∧ g.board.cell home 1 = ' ' ∧ g.board.cell home 2 = ' ' ∧
        g.board.cell home 3 = ' ' ∧ g.board.cell home 0 = rook) ∧
    ∀ pos ∈ kingOut g home 4 king true,
      ((pos.row - home).natAbs ≤ 1 ∧ (pos.col - 4).natAbs ≤ 1) ∨
        pos = ⟨home, 6⟩ ∨ pos = ⟨home, 2⟩ := by
  unfold kingOut
  rw [if_pos rfl, hc]
  refine ⟨?_, ?_, ?_⟩
  · rw [List.mem_append, mem_castlingOut_iff]
    constructor
    · rintro (h | ⟨_, h⟩ | ⟨h, _⟩)
      · exact absurd h (not_mem_king_steps _ _ _ _ _ (by dsimp only; decide))
      · exact h
      · rw [position_eq_iff] at h
        exact absurd h.2 (by dsimp only; decide)
    · intro h
      exact Or.inr (Or.inl ⟨rfl, h⟩)
  · rw [List.mem_append, mem_castlingOut_iff]
    constructor
    · rintro (h | ⟨h, _⟩ | ⟨_, h⟩)
      · exact absurd h (not_mem_king_steps _ _ _ _ _ (by dsimp only; decide))
      · rw [position_eq_iff] at h
        exact absurd h.2 (by dsimp only; decide)
      · exact h
    · intro h
      exact Or.inr (Or.inr ⟨rfl, h⟩)
  · intro pos hp
    rcases List.mem_append.1 hp with h | h
    · left
      obtain ⟨d, hd, hj⟩ := List.mem_flatMap.1 h
      obtain ⟨rfl, _, _⟩ := jumpOut_mem hj
      obtain ⟨q1, q2, _⟩ := mem_queenDirections hd
      dsimp only
      omega
    · right
      rcases castlingOut_mem h with ⟨e, _⟩ | ⟨e, _⟩
      · exact Or.inl e
      · exact Or.inr e

/-- C32 amended: with castling enabled, `getKingMoves` for a white king on
(7,4) returns (7,6) exactly when `whiteCanCastleKingside` holds, (7,5) and
(7,6) are empty and (7,7) holds 'R', and (7,2) exactly when
`whiteCanCastleQueenside` holds, (7,1), (7,2), (7,3) are empty and (7,0) holds
'R'; the same for a black king on (0,4) with row 0 and 'r'. Every other
returned square is a king step. For a king on any other square only king steps
are returned. -/
theorem getKingMoves_castling_needs_corner_rook (g : Chess) :
    (∃ l, getKingMoves g 7 4 'K' true = some l ∧
      ((⟨7, 6⟩ : Position) ∈ l ↔ g.whiteCanCastleKingside = true ∧
        g.board.cell 7 5 = ' ' ∧ g.board.cell 7 6 = ' ' ∧ g.board.cell 7 7 = 'R') ∧
      ((⟨7, 2⟩ : Position) ∈ l ↔ g.whiteCanCastleQueenside = true ∧
        g.board.cell 7 1 = ' ' ∧ g.board.cell 7 2 = ' ' ∧ g.board.cell 7 3 = ' ' ∧
        g.board.cell 7 0 = 'R') ∧
      ∀ pos ∈ l, ((pos.row - 7).natAbs ≤ 1 ∧ (pos.col - 4).natAbs ≤ 1) ∨
        pos = ⟨7, 6⟩ ∨ pos = ⟨7, 2⟩) ∧
    (∃ l, getKingMoves g 0 4 'k' true = some l ∧
      ((⟨0, 6⟩ : Position) ∈ l ↔ g.blackCanCastleKingside = true ∧
        g.board.cell 0 5 = ' ' ∧ g.board.cell 0 6 = ' ' ∧ g.board.cell 0 7 = 'r') ∧
      ((⟨0, 2⟩ : Position) ∈ l ↔ g.blackCanCastleQueenside = true ∧
        g.board.cell 0 1 = ' ' ∧ g.board.cell 0 2 = ' ' ∧ g.board.cell 0 3 = ' ' ∧
        g.board.cell 0 0 = 'r') ∧
      ∀ pos ∈ l, ((pos.row - 0).natAbs ≤ 1 ∧ (pos.col - 4).natAbs ≤ 1) ∨
        pos = ⟨0, 6⟩ ∨ pos = ⟨0, 2⟩) ∧
    (∀ (row col : Int) (piece : Char),
      ¬ (piece = 'K' ∧ row = 7 ∧ col = 4) → ¬ (piece = 'k' ∧ row = 0 ∧ col = 4) →
      ∃ l, getKingMoves g row col piece true = some l ∧
        ∀ pos ∈ l, (pos.row - row).natAbs ≤ 1 ∧ (pos.col - col).natAbs ≤ 1) := by
  refine ⟨⟨_, getKingMoves_eq g 7 4 'K' true, ?_⟩, ⟨_, getKingMoves_eq g 0 4 'k' true, ?_⟩,
    fun row col piece h1 h2 => ⟨_, getKingMoves_eq g row col piece true, fun pos hp => ?_⟩⟩
  · exact castling_mem_kingOut g 7 'K' 'R' _ _ (by unfold kingCastleOut; rw [if_pos ⟨rfl, rfl, rfl⟩])
  · exact castling_mem_kingOut g 0 'k' 'r' _ _ (by
      unfold kingCastleOut
      rw [if_neg (by decide), if_pos ⟨rfl, rfl, rfl⟩])
  · rcases kingOut_cases hp with ⟨d, hd, rfl⟩ | h
    · obtain ⟨q1, q2, _⟩ := mem_queenDirections hd
      dsimp only
      omega
    · rcases kingCastleOut_mem h with ⟨a, b, c, _⟩ | ⟨a, b, c, _⟩
      · exact absurd ⟨a, b, c⟩ h1
      · exact absurd ⟨a, b, c⟩ h2

/-- Witness for C32 amended: a white king on e2 gets king steps only. -/
theorem getKingMoves_castling_needs_corner_rook_witness :
    ¬ (('K' : Char) = 'K' ∧ (6 : Int) = 7 ∧ (4 : Int) = 4) ∧
    ¬ (('K' : Char) = 'k' ∧ (6 : Int) = 0 ∧ (4 : Int) = 4) ∧
    ∃ l, getKingMoves (playOut initial kingStepGame) 6 4 'K' true = some l ∧
      ∀ pos ∈ l, (pos.row - 6).natAbs ≤ 1 ∧ (pos.col - 4).natAbs ≤ 1 :=
  ⟨by decide, by decide,
    (getKingMoves_castling_needs_corner_rook (playOut initial kingStepGame)).2.2 6 4 'K'
      (by decide) (by decide)⟩

/-- C32 as stated fails: after 1.g4 b6 2.Nh3 Bb7 3.a3 Bxh1 4.Bg2 a6 white
still has the kingside right and f1, g1 are empty, but h1 holds a black bishop,
and `getKingMoves` for the king on e1 does not return g1. -/
theorem castling_withheld_without_corner_rook :
    (playMoves initial cornerRookTakenGame).map (fun g =>
      ((g.board.cell 7 4, g.whiteCanCastleKingside, g.board.cell 7 5, g.board.cell 7 6,
          g.board.cell 7 7),
        (getKingMoves g 7 4 'K' true).map (fun l => l.contains ⟨7, 6⟩)))
      = some (('K', true, ' ', ' ', 'b'), some false) := by
  decide!

/-! ## C35: every listed move is accepted by `makeMove` -/

/-- A jump that reaches `(r, c)` on `b2` reaches it on every board with the
same content of `(r, c)`. -/
theorem jump_reaches_of_same_target {b b2 : Board} {r c : Int} (i j : Int) (p : Char)
    (l : List (Int × Int)) (ht : b.cell r c = b2.cell r c)
    (h : (⟨r, c⟩ : Position) ∈ l.flatMap (jumpOut b2 i j p)) :
    (⟨r, c⟩ : Position) ∈ l.flatMap (jumpOut b i j p) := by
  obtain ⟨d, hd, hj⟩ := List.mem_flatMap.1 h
  refine List.mem_flatMap.2 ⟨d, hd, ?_⟩
  rw [mem_jumpOut_iff] at hj ⊢
  dsimp only at hj ⊢
  rw [ht]
  exact hj

/-- A ray that reaches `(r, c)` on `b2` reaches it on `b` when `(r, c)` has
the same content and every square empty on `b2` is empty on `b`, except
possibly the corner `(r, e)` of the target's row. -/
theorem ray_reaches_of_fewer_blockers {b b2 : Board} {r c : Int} (e : Int)
    (he : e = 0 ∨ e = 7) (i j : Int) (p : Char) (l : List (Int × Int))
    (hl : ∀ d ∈ l, d ∈ queenDirections) (hv : isValidPosition i j = true)
    (ht : b.cell r c = b2.cell r c)
    (hblank : ∀ x y : Int, isValidPosition x y = true → b2.cell x y = ' ' →
      b.cell x y = ' ' ∨ (x = r ∧ y = e))
    (h : (⟨r, c⟩ : Position) ∈ slidingOut b2 i j p l) :
    (⟨r, c⟩ : Position) ∈ slidingOut b i j p l := by
  rw [mem_slidingOut_iff _ _ _ _ _ hl hv, isRayDestination_iff] at h ⊢
  obtain ⟨d, hd, k, hk8, hk1, hp, hvp, hemp, htar⟩ := h
  refine ⟨d, hd, k, hk8, hk1, hp, hvp, fun m hm => ?_, ?_⟩
  · by_cases hm0 : m = 0
    · exact Or.inl hm0
    rcases hemp m hm with h0 | h0
    · exact Or.inl h0
    · right
      obtain ⟨q1, q2, q3⟩ := mem_queenDirections (hl d hd)
      obtain ⟨d1, d2⟩ := d
      rw [position_eq_iff] at hp
      dsimp only at hp hvp h0 q1 q2 q3 ⊢
      have hv1 := (isValidPosition_iff i j).1 hv
      have hv2 := (isValidPosition_iff r c).1 hvp
      have hvm : isValidPosition (i + (m : Int) * d1) (j + (m : Int) * d2) = true := by
        rw [isValidPosition_iff]
        rcases q1 with rfl | rfl | rfl <;> rcases q2 with rfl | rfl | rfl <;> omega
      rcases hblank _ _ hvm h0 with h1 | ⟨h1, h2⟩
      · exact h1
      · exfalso
        rcases q1 with rfl | rfl | rfl <;> rcases q2 with rfl | rfl | rfl <;> omega
  · dsimp only at htar ⊢
    rw [ht]
    exact htar

/-- The squares attacked on `b2` are attacked on `b` when the attackers of
`b2` stand on `b` as well, the target has the same content, and `b` has no
blockers that `b2` lacks, except possibly on the corner `(r, e)`. -/
theorem attackedOut_of_fewer_blockers {b b2 : Board} {r c : Int} {s : String} (e : Int)
    (he : e = 0 ∨ e = 7)
    (hatt : ∀ x y : Int, isValidPosition x y = true → b2.cell x y ≠ ' ' →
      getPieceColor (b2.cell x y) = s → b.cell x y = b2.cell x y)
    (ht : b.cell r c = b2.cell r c)
    (hblank : ∀ x y : Int, isValidPosition x y = true → b2.cell x y = ' ' →
      b.cell x y = ' ' ∨ (x = r ∧ y = e))
    (h : attackedOut b2 r c s = true) : attackedOut b r c s = true := by
  unfold attackedOut at h ⊢
  rw [List.any_eq_true] at h ⊢
  obtain ⟨sq, hsq, ha⟩ := h
  refine ⟨sq, hsq, ?_⟩
  obtain ⟨i, j⟩ := sq
  have hv : isValidPosition i j = true := by
    exact mem_allSquares_iff.1 hsq
  unfold attacksFrom at ha ⊢
  simp only [Bool.and_eq_true, bne_iff_ne, ne_eq, beq_iff_eq, any_pos_iff] at ha ⊢
  obtain ⟨⟨h1, h2⟩, h3⟩ := ha
  have hp := hatt i j hv h1 h2
  rw [hp]
  refine ⟨⟨h1, h2⟩, ?_⟩
  unfold attackOut at h3 ⊢
  rw [hp]
  dsimp only at h3 ⊢
  split
  · rename_i c1
    rw [if_pos c1] at h3
    exact h3
  · rename_i c1
    rw [if_neg c1] at h3
    split
    · rename_i c2
      rw [if_pos c2] at h3
      exact jump_reaches_of_same_target i j _ _ ht h3
    · rename_i c2
      rw [if_neg c2] at h3
      unfold officerOut at h3 ⊢
      split
      · rename_i c3
        rw [if_pos c3] at h3
        exact jump_reaches_of_same_target i j _ _ ht h3
      · rename_i c3
        rw [if_neg c3] at h3
        split
        · rename_i c4
          rw [if_pos c4] at h3
          exact ray_reaches_of_fewer_blockers e he i j _ _ (fun _ hd => bishop_sub_queen hd) hv
            ht hblank h3
        · rename_i c4
          rw [if_neg c4] at h3
          split
          · rename_i c5
            rw [if_pos c5] at h3
            exact ray_reaches_of_fewer_blockers e he i j _ _ (fun _ hd => rook_sub_queen hd) hv
              ht hblank h3
          · rename_i c5
            rw [if_neg c5] at h3
            split
            · rename_i c6
              rw [if_pos c6] at h3
              exact ray_reaches_of_fewer_blockers e he i j _ _ (fun _ hd => hd) hv ht hblank h3
            · rename_i c6
              rw [if_neg c6] at h3
              exact h3

theorem inCheckOut_congr {g g2 : Chess} (hb : g.board = g2.board)
    (hw : g.whiteKingPos = g2.whiteKingPos) (hk : g.blackKingPos = g2.blackKingPos)
    (c : String) : inCheckOut g c = inCheckOut g2 c := by
  unfold inCheckOut
  rw [hb, hw, hk]

theorem simulateMove_board (g : Chess) (i j : Int) (pos : Position) :
    (simulateMove g i j pos).board
      = ((captureBoard g (g.board.cell i j) pos.row pos.col).put pos.row pos.col
          (g.board.cell i j)).put i j ' ' := by
  obtain ⟨pr, pc⟩ := pos
  rfl

/-- The king on its castling destination is attacked after the rook
relocation only if it is attacked without it. -/
theorem attackedOut_castled (b : Board) (home : Int) (rook : Char) (s : String) (tc : Int)
    (hh : home = 7 ∨ home = 0) (hc : tc = 6 ∨ tc = 2) (hr : rook ≠ ' ')
    (hs : getPieceColor rook ≠ s)
    (h : attackedOut (castleRookOut b home rook 4 tc) home tc s = true) :
    attackedOut b home tc s = true := by
  have hval : ∀ y : Int, 0 ≤ y → y < 8 → isValidPosition home y = true := by
    intro y h0 h8
    rw [isValidPosition_iff]
    omega
  unfold castleRookOut at h
  rcases hc with rfl | rfl
  · rw [if_pos ⟨rfl, rfl⟩] at h
    have v5 := hval 5 (by omega) (by omega)
    have v7 := hval 7 (by omega) (by omega)
    have cell2 : ∀ x y : Int, isValidPosition x y = true →
        ((b.put home 5 rook).put home 7 ' ').cell x y
          = if x = home ∧ y = 7 then ' ' else if x = home ∧ y = 5 then rook else b.cell x y := by
      intro x y hxy
      rw [cell_put _ v7 hxy, cell_put _ v5 hxy]
    refine attackedOut_of_fewer_blockers 7 (Or.inr rfl) ?_ ?_ ?_ h
    · intro x y hxy h1 h2
      rw [cell2 x y hxy] at h1 h2 ⊢
      split_ifs at h1 h2 ⊢
      · exact absurd rfl h1
      · exact absurd h2 hs
      · rfl
    · rw [cell2 home 6 (hval 6 (by omega) (by omega)), if_neg (by omega), if_neg (by omega)]
    · intro x y hxy h1
      rw [cell2 x y hxy] at h1
      split_ifs at h1 with c1 c2
      · exact Or.inr c1
      · exact absurd h1 hr
      · exact Or.inl h1
  · rw [if_neg (by omega), if_pos ⟨rfl, rfl⟩] at h
    have v3 := hval 3 (by omega) (by omega)
    have v0 := hval 0 (by omega) (by omega)
    have cell2 : ∀ x y : Int, isValidPosition x y = true →
        ((b.put home 3 rook).put home 0 ' ').cell x y
          = if x = home ∧ y = 0 then ' ' else if x = home ∧ y = 3 then rook else b.cell x y := by
      intro x y hxy
      rw [cell_put _ v0 hxy, cell_put _ v3 hxy]
    refine attackedOut_of_fewer_blockers 0 (Or.inl rfl) ?_ ?_ ?_ h
    · intro x y hxy h1 h2
      rw [cell2 x y hxy] at h1 h2 ⊢
      split_ifs at h1 h2 ⊢
      · exact absurd rfl h1
      · exact absurd h2 hs
      · rfl
    · rw [cell2 home 2 (hval 2 (by omega) (by omega)), if_neg (by omega), if_neg (by omega)]
    · intro x y hxy h1
      rw [cell2 x y hxy] at h1
      split_ifs at h1 with c1 c2
      · exact Or.inr c1
      · exact absurd h1 hr
      · exact Or.inl h1

/-- A king move from column 4 to column 6 or 2 in the move list is a castling
move on the home row. -/
theorem two_column_king_move {g : Chess} {fr tr tc : Int} {p : Char}
    (hpos : (⟨tr, tc⟩ : Position) ∈ kingOut g fr 4 p true) (hc : tc = 6 ∨ tc = 2) :
    (p = 'K' ∧ fr = 7 ∧ tr = 7) ∨ (p = 'k' ∧ fr = 0 ∧ tr = 0) := by
  rcases kingOut_cases hpos with ⟨d, hd, e⟩ | h
  · obtain ⟨_, q2, _⟩ := mem_queenDirections hd
    rw [position_eq_iff] at e
    dsimp only at e
    omega
  · rcases kingCastleOut_mem h with ⟨a, b, _, h2⟩ | ⟨a, b, _, h2⟩
    · left
      refine ⟨a, b, ?_⟩
      rcases castlingOut_mem h2 with ⟨e, _⟩ | ⟨e, _⟩ <;>
        (rw [position_eq_iff] at e; exact e.1)
    · right
      refine ⟨a, b, ?_⟩
      rcases castlingOut_mem h2 with ⟨e, _⟩ | ⟨e, _⟩ <;>
        (rw [position_eq_iff] at e; exact e.1)

/-- The check test of `makeMove` passes whenever the one of
`getAllValidMoves` does. -/
theorem safe_applied_of_safe_simulated (g : Chess) (fr fc tr tc : Int)
    (hcol : getPieceColor (g.board.cell fr fc) = g.currentPlayer)
    (hpos : (⟨tr, tc⟩ : Position) ∈ pieceOut g fr fc)
    (hs : inCheckOut (simulateMove g fr fc ⟨tr, tc⟩) g.currentPlayer = false) :
    inCheckOut (applyOut g (g.board.cell fr fc) fr fc tr tc).2 g.currentPlayer = false := by
  have hsb := simulateMove_board g fr fc ⟨tr, tc⟩
  dsimp only at hsb
  have hsw : (simulateMove g fr fc ⟨tr, tc⟩).whiteKingPos
      = if g.board.cell fr fc = 'K' then ⟨tr, tc⟩ else g.whiteKingPos := rfl
  have hsk : (simulateMove g fr fc ⟨tr, tc⟩).blackKingPos
      = if g.board.cell fr fc = 'k' then ⟨tr, tc⟩ else g.blackKingPos := rfl
  have same : (applyOut g (g.board.cell fr fc) fr fc tr tc).2.board
      = (simulateMove g fr fc ⟨tr, tc⟩).board →
      inCheckOut (applyOut g (g.board.cell fr fc) fr fc tr tc).2 g.currentPlayer = false := by
    intro hb
    rw [inCheckOut_congr hb (by rw [applyOut_whiteKingPos, hsw])
      (by rw [applyOut_blackKingPos, hsk])]
    exact hs
  by_cases hK : g.board.cell fr fc = 'K'
  · by_cases hc : fc = 4 ∧ (tc = 6 ∨ tc = 2)
    · obtain ⟨rfl, hc2⟩ := hc
      have hko := pieceOut_king hpos (by rw [hK]; decide)
      rcases two_column_king_move hko hc2 with ⟨_, rfl, rfl⟩ | ⟨a, _, _⟩
      · have hcur : g.currentPlayer = "white" := by rw [← hcol, hK]; decide
        rw [hcur] at hs ⊢
        unfold inCheckOut at hs ⊢
        rw [if_pos rfl, if_pos rfl] at hs ⊢
        rw [applyOut_whiteKingPos, if_pos hK, applyOut_board, if_pos hK]
        rw [hsw, if_pos hK, hsb] at hs
        dsimp only at hs ⊢
        cases hatt : attackedOut (castleRookOut
            (((captureBoard g (g.board.cell 7 4) 7 tc).put 7 tc (g.board.cell 7 4)).put 7 4 ' ')
            7 'R' 4 tc) 7 tc "black"
        · rfl
        · rw [attackedOut_castled _ 7 'R' "black" tc (Or.inl rfl) hc2 (by decide) (by decide)
            hatt] at hs
          exact absurd hs (by decide)
      · rw [hK] at a
        exact absurd a (by decide)
    · apply same
      rw [applyOut_board, if_pos hK, castleRookOut_none _ _ _ _ _ hc, hsb]
  · by_cases hk : g.board.cell fr fc = 'k'
    · by_cases hc : fc = 4 ∧ (tc = 6 ∨ tc = 2)
      · obtain ⟨rfl, hc2⟩ := hc
        have hko := pieceOut_king hpos (by rw [hk]; decide)
        rcases two_column_king_move hko hc2 with ⟨a, _, _⟩ | ⟨_, rfl, rfl⟩
        · rw [hk] at a
          exact absurd a (by decide)
        · have hcur : g.currentPlayer = "black" := by rw [← hcol, hk]; decide
          rw [hcur] at hs ⊢
          unfold inCheckOut at hs ⊢
          rw [if_neg (by decide), if_neg (by decide)] at hs ⊢
          rw [applyOut_blackKingPos, if_pos hk, applyOut_board, if_neg hK, if_pos hk]
          rw [hsk, if_pos hk, hsb] at hs
          dsimp only at hs ⊢
          cases hatt : attackedOut (castleRookOut
              (((captureBoard g (g.board.cell 0 4) 0 tc).put 0 tc (g.board.cell 0 4)).put 0 4 ' ')
              0 'r' 4 tc) 0 tc "white"
          · rfl
          · rw [attackedOut_castled _ 0 'r' "white" tc (Or.inr rfl) hc2 (by decide) (by decide)
              hatt] at hs
            exact absurd hs (by decide)
      · apply same
        rw [applyOut_board, if_neg hK, if_pos hk, castleRookOut_none _ _ _ _ _ hc, hsb]
    · apply same
      rw [applyOut_board, if_neg hK, if_neg hk, hsb]

/-- Every move of `legalMovesSpec` for the side to move passes all tests of
`makeMove`. -/
theorem listed_move_passes (g : Chess) (m : Move) (hm : m ∈ legalMovesSpec g g.currentPlayer) :
    (makeMoveOut g m.fromRow m.fromCol m.toRow m.toCol).1 = true := by
  obtain ⟨_, hne, hcol, hpos, hs, _⟩ := mem_legalMovesSpec hm
  have hsafe := safe_applied_of_safe_simulated g _ _ _ _ hcol hpos hs
  rw [makeMoveOut_of_tests g _ _ _ _ (by simpa using hne) (by simpa using hcol)
    (by
      rw [Bool.not_eq_false', any_pos_iff]
      exact hpos)
    (by rw [applyOut_currentPlayer]; exact hsafe)]

/-- C35: in every state, reachable or not, `getAllValidMoves(currentPlayer)`
returns, leaving the state as it was, and `makeMove` returns true for every
move of the returned list: castling moves (where `makeMove` relocates the rook
before its check test), en-passant captures and all others. -/
theorem listed_moves_are_accepted (g : Chess) :
    ∃ moves, getAllValidMoves g g.currentPlayer = some (moves, g) ∧
      ∀ m ∈ moves, ∃ g2, makeMove g m.fromRow m.fromCol m.toRow m.toCol = some (true, g2) := by
  refine ⟨_, getAllValidMoves_eq g g.currentPlayer, fun m hm => ?_⟩
  exact ⟨_, makeMove_accepted_of_out g _ _ _ _ (mem_legalMovesSpec hm).1
    (listed_move_passes g m hm)⟩

/-! ## C40: the evaluation under colour reversal -/

theorem toFin8_val {x : Int} (h0 : 0 ≤ x) (h8 : x < 8) : ((toFin8 x).val : Int) = x := by
  unfold toFin8
  dsimp only
  omega

theorem colourReversed_cell (b : Board) (i j : Int) (hv : isValidPosition i j = true) :
    (colourReversed b).cell i j = swapColour (b.cell (7 - i) j) := by
  obtain ⟨h1, h2, h3, h4⟩ := (isValidPosition_iff i j).1 hv
  unfold colourReversed
  show swapColour (b.cell (7 - ((toFin8 i).val : Int)) ((toFin8 j).val : Int)) = _
  rw [toFin8_val h1 h2, toFin8_val h3 h4]

theorem swapColour_letter {p : Char} (hp : p = ' ' ∨ isPieceLetter p = true) :
    swapColour p = ' ' ∨ isPieceLetter (swapColour p) = true := by
  simp only [isPieceLetter, decide_eq_true_eq] at hp
  rcases hp with h | h | h | h | h | h | h | h | h | h | h | h | h <;> subst h <;> decide

/-- The contribution of a cell content with its colour swapped on row `i` is
minus its contribution on row `7 - i`. -/
theorem contribution_swap {p : Char} (hp : p = ' ' ∨ isPieceLetter p = true) (i j : Int) :
    (if swapColour p = ' ' then 0
      else materialValue (swapColour p) + signedBonus (swapColour p) i j)
      = -(if p = ' ' then 0 else materialValue p + signedBonus p (7 - i) j) := by
  have e : (7 : Int) - (7 - i) = i := by omega
  simp only [isPieceLetter, decide_eq_true_eq] at hp
  rcases hp with h | h | h | h | h | h | h | h | h | h | h | h | h <;> subst h
  · rfl
  · show -100 + -(tableAt PAWN_TABLE i j) = -(100 + tableAt PAWN_TABLE (7 - (7 - i)) j)
    rw [e]; omega
  · show -320 + -(tableAt KNIGHT_TABLE i j) = -(320 + tableAt KNIGHT_TABLE (7 - (7 - i)) j)
    rw [e]; omega
  · show -330 + -(tableAt BISHOP_TABLE i j) = -(330 + tableAt BISHOP_TABLE (7 - (7 - i)) j)
    rw [e]; omega
  · show -500 + -(0 : Int) = -(500 + 0)
    omega
  · show -900 + -(0 : Int) = -(900 + 0)
    omega
  · show -20000 + -(tableAt KING_TABLE i j) = -(20000 + tableAt KING_TABLE (7 - (7 - i)) j)
    rw [e]; omega
  · show 100 + tableAt PAWN_TABLE (7 - i) j = -(-100 + -(tableAt PAWN_TABLE (7 - i) j))
    omega
  · show 320 + tableAt KNIGHT_TABLE (7 - i) j = -(-320 + -(tableAt KNIGHT_TABLE (7 - i) j))
    omega
  · show 330 + tableAt BISHOP_TABLE (7 - i) j = -(-330 + -(tableAt BISHOP_TABLE (7 - i) j))
    omega
  · show 500 + (0 : Int) = -(-500 + -0)
    omega
  · show 900 + (0 : Int) = -(-900 + -0)
    omega
  · show 20000 + tableAt KING_TABLE (7 - i) j = -(-20000 + -(tableAt KING_TABLE (7 - i) j))
    omega

theorem allSquares_flipped :
    (allSquares.map (fun sq => ((7 : Int) - sq.1, sq.2))).Perm allSquares := by
  decide

theorem pieceBoard_colourReversed {b : Board} (hb : PieceBoard b) :
    PieceBoard (colourReversed b) := by
  intro i j hv
  rw [colourReversed_cell b i j hv]
  have hv2 : isValidPosition (7 - i) j = true := by
    rw [isValidPosition_iff] at hv ⊢
    omega
  exact swapColour_letter (hb (7 - i) j hv2)

theorem evaluationSum_colourReversed {b : Board} (hb : PieceBoard b) :
    evaluationSum (colourReversed b) = -evaluationSum b := by
  unfold evaluationSum
  have h1 : allSquares.map (contribution (colourReversed b))
      = allSquares.map (fun sq => -contribution b ((7 : Int) - sq.1, sq.2)) := by
    apply List.map_congr_left
    intro sq hsq
    have hv := mem_allSquares_iff.1 hsq
    have hv2 : isValidPosition (7 - sq.1) sq.2 = true := by
      rw [isValidPosition_iff] at hv ⊢
      omega
    unfold contribution
    rw [colourReversed_cell b sq.1 sq.2 hv]
    exact contribution_swap (hb (7 - sq.1) sq.2 hv2) sq.1 sq.2
  have h2 : allSquares.map (fun sq => -contribution b ((7 : Int) - sq.1, sq.2))
      = (allSquares.map (fun sq => ((7 : Int) - sq.1, sq.2))).map (fun sq => -contribution b sq) := by
    rw [List.map_map]
    rfl
  rw [h1, h2, (allSquares_flipped.map (fun sq => -contribution b sq)).sum_eq]
  induction allSquares with
  | nil => rfl
  | cons a l ih =>
    rw [List.map_cons, List.map_cons, List.sum_cons, List.sum_cons, ih]
    omega

/-- C40: on every board of piece letters and blanks `evaluateBoard` returns,
and on the colour-reversed board (the content of each cell `(i, j)` moved to
`(7 - i, j)` with its colour swapped) it returns the negated value. The
initial position is its own colour reversal and evaluates to 0. -/
theorem evaluateBoard_antisymmetric (g g2 : Chess) (hb : PieceBoard g.board)
    (h2 : g2.board = colourReversed g.board) :
    (∃ v, evaluateBoard g = some v ∧ evaluateBoard g2 = some (-v)) ∧
    colourReversed initial.board = initial.board ∧ evaluateBoard initial = some 0 := by
  refine ⟨⟨_, evaluateBoard_eq g hb, ?_⟩, ?_, ?_⟩
  · have hb2 : PieceBoard g2.board := by
      rw [h2]
      exact pieceBoard_colourReversed hb
    rw [evaluateBoard_eq g2 hb2, evalOut_eq_sum hb2, evalOut_eq_sum hb, h2,
      evaluationSum_colourReversed hb]
  · have h : ∀ i j : Fin 8, colourReversed initial.board i j = initial.board i j := by decide
    exact funext fun i => funext fun j => h i j
  · have h : evalOut initial.board = 0 := by decide
    rw [evaluateBoard_eq initial pieceBoard_initial, h]

/-- Witness for C40: the position after 1.e4 evaluates to -25 and its colour
reversal (black has played e7-e5, seen from the other side) to 25. -/
theorem evaluateBoard_antisymmetric_witness :
    PieceBoard (playOut initial [(6, 4, 4, 4)]).board ∧
    evaluateBoard (playOut initial [(6, 4, 4, 4)]) = some (-25) ∧
    evaluateBoard { initial with board := colourReversed (playOut initial [(6, 4, 4, 4)]).board }
      = some 25 :=
  have hr : Reachable (playOut initial [(6, 4, 4, 4)]) :=
    Reachable.of_playMoves Reachable.start
      (playMoves_eq_playOut initial [(6, 4, 4, 4)] (by decide))
  have hb := Reachable.pieceBoard hr
  have h := (evaluateBoard_antisymmetric (playOut initial [(6, 4, 4, 4)])
    { initial with board := colourReversed (playOut initial [(6, 4, 4, 4)]).board } hb rfl).1
  have e : evaluateBoard (playOut initial [(6, 4, 4, 4)]) = some (-25) := by decide
  ⟨hb, e, by
    obtain ⟨v, h1, h2⟩ := h
    rw [e] at h1
    cases h1
    exact h2⟩

end Chess
end V1

/-! ## C8 -/

namespace V2
namespace Chess

/-- C8, evaluated at the failing input: `get_all_valid_moves` of the side to
move lists the en-passant capture d5xe6, whose simulation leaves the passed
pawn on e5 as a shield, and `make_move`, which removes that pawn and finds the
king attacked by the rook on h5, rejects the same move. -/
theorem listed_en_passant_rejected_by_make_move :
    (get_all_valid_moves pinnedEnPassant pinnedEnPassant.current_player).map
      (fun r => r.1.any (fun m =>
        m.from_row == 3 && m.from_col == 3 && m.to_row == 2 && m.to_col == 4)) = some true ∧
    (make_move pinnedEnPassant 3 3 2 4).map Prod.fst = some false := by
  decide

end Chess
end V2

/-! ## C17 -/

namespace V2
namespace Chess

/-- C17, evaluated at the failing input: after 1.g4 b6 2.Nh3 Bb7 3.a3 Bxh1
4.Bg2 a6 from the initial position, white has the one rook of a1 and the black
bishop stands on h1; `make_move(7, 4, 7, 6)`, a king move, is accepted, writes
a rook on f1 and blanks h1: white then has two rooks, and black one bishop
instead of two. -/
theorem castling_adds_rook_after_capture_on_corner :
    (play_moves initial bishopTakesRookGame).bind (fun g =>
      (make_move g 7 4 7 6).map (fun r =>
        ((g.board.cell 7 4, g.board.cell 7 7, count_piece g.board 'R', count_piece g.board 'b'),
          (r.1, r.2.board.cell 7 5, r.2.board.cell 7 7, count_piece r.2.board 'R',
            count_piece r.2.board 'b'))))
      = some (('K', 'b', 1, 2), (true, 'R', ' ', 2, 1)) := by
  decide!

end Chess
end V2

/-! ## C27 -/

namespace V2
namespace Chess

/-- C27, evaluated at the failing input: with a white pawn on e4 as the only
white piece, `is_square_attacked` reports the empty square e5 straight ahead
of the pawn as attacked by white, and does not report the forward-diagonal
neighbours d5 and f5. -/
theorem square_ahead_of_pawn_reported_attacked :
    lonePawn.board.cell 4 4 = 'P' ∧ lonePawn.board.cell 3 4 = ' ' ∧
    is_square_attacked lonePawn 3 4 "white" = some true ∧
    is_square_attacked lonePawn 3 3 "white" = some false ∧
    is_square_attacked lonePawn 3 5 "white" = some false := by
  decide

end Chess
end V2

/-! ## The generators of chess-ai-ai-v2.cpp return their values -/

namespace V2

theorem is_white_piece_eq (piece : Char) : is_white_piece piece = isWhitePiece piece := by
  unfold is_white_piece isWhitePiece
  by_cases h : piece = ' '
  · subst h
    rfl
  · have : (piece != ' ') = true := by simpa using h
    rw [this, Bool.true_and]

theorem get_piece_color_eq (piece : Char) : get_piece_color piece = getPieceColor piece := by
  unfold get_piece_color getPieceColor
  rw [is_white_piece_eq]

namespace Chess

theorem jump_step_eq (g : Chess) (row col : Int) (piece : Char) (moves : List Position)
    (d : Int × Int) :
    jump_step g row col piece moves d
      = some (moves ++ (V1.Chess.jumpOut g.board row col piece d).map ofSquare) := by
  unfold jump_step V1.Chess.jumpOut
  simp only [get_piece_color_eq]
  by_cases hv : isValidPosition (row + d.1) (col + d.2) = true
  · simp only [hv, get?_of_valid hv, if_true, Bool.true_and]
    split <;> simp_all [ofSquare]
  · simp [hv]

theorem slide_ray_eq (g : Chess) (piece : Char) (dr dc : Int) (fuel : Nat) :
    ∀ (r c : Int) (moves : List Position),
      (∃ k : Nat, k < fuel ∧ isValidPosition (r + k * dr) (c + k * dc) = false) →
      slide_ray g piece dr dc fuel r c moves
        = some (moves ++ (V1.Chess.slideOut g.board piece dr dc fuel r c).map ofSquare) := by
  induction fuel with
  | zero => intro r c moves h; obtain ⟨k, hk, _⟩ := h; omega
  | succ n ih =>
    intro r c moves h
    obtain ⟨k, hk, hinv⟩ := h
    unfold slide_ray V1.Chess.slideOut
    simp only [get_piece_color_eq]
    by_cases hv : isValidPosition r c = true
    · simp only [hv, get?_of_valid hv, if_true]
      simp only [Option.bind_eq_bind, Option.some_bind]
      by_cases he : (g.board.cell r c == ' ') = true
      · simp only [he, if_true]
        have hk0 : k ≠ 0 := by
          intro h0
          subst h0
          have e0 : ((0 : Nat) : Int) = 0 := rfl
          rw [e0, Int.zero_mul, Int.zero_mul, Int.add_zero, Int.add_zero, hv] at hinv
          exact Bool.noConfusion hinv
        rw [ih (r + dr) (c + dc) _ ⟨k - 1, by omega, by
          have e1 : r + dr + ((k - 1 : Nat) : Int) * dr = r + (k : Int) * dr := by
            have : ((k - 1 : Nat) : Int) = (k : Int) - 1 := by omega
            rw [this, Int.sub_mul, Int.one_mul]; omega
          have e2 : c + dc + ((k - 1 : Nat) : Int) * dc = c + (k : Int) * dc := by
            have : ((k - 1 : Nat) : Int) = (k : Int) - 1 := by omega
            rw [this, Int.sub_mul, Int.one_mul]; omega
          rw [e1, e2]; exact hinv⟩]
        simp [ofSquare]
      · have he2 : (g.board.cell r c == ' ') = false := by simpa using he
        simp only [he2, Bool.false_eq_true, if_false]
        split <;> simp [ofSquare]
    · simp [hv]

theorem foldlM_append_map {α β γ : Type} (f : List γ → α → Option (List γ)) (h : α → List β)
    (m : β → γ) (l : List α) (hf : ∀ acc a, a ∈ l → f acc a = some (acc ++ (h a).map m))
    (init : List γ) :
    l.foldlM f init = some (init ++ (l.flatMap h).map m) := by
  rw [foldlM_append_some f (fun a => (h a).map m) l hf init]
  congr 2
  induction l with
  | nil => rfl
  | cons a l ih =>
    rw [List.flatMap_cons, List.flatMap_cons, List.map_append,
      ih (fun acc x hx => hf acc x (List.mem_cons_of_mem _ hx))]

theorem get_sliding_moves_eq (g : Chess) (row col : Int) (piece : Char)
    (directions : List (Int × Int)) (hd : ∀ d ∈ directions, d ∈ queenDirections)
    (hv : isValidPosition row col = true) :
    get_sliding_moves g row col piece directions
      = some ((V1.Chess.slidingOut g.board row col piece directions).map ofSquare) := by
  unfold get_sliding_moves V1.Chess.slidingOut
  rw [foldlM_append_map _
    (fun d => V1.Chess.slideOut g.board piece d.1 d.2 8 (row + d.1) (col + d.2)) ofSquare]
  · simp
  · intro acc d hmem
    apply slide_ray_eq
    refine ⟨7, by decide, ?_⟩
    have hq := V1.Chess.mem_queenDirections (hd d hmem)
    rw [isValidPosition_iff] at hv
    rw [Bool.eq_false_iff]
    intro hcontra
    rw [isValidPosition_iff] at hcontra
    push_cast at hcontra
    omega

theorem get_knight_moves_eq (g : Chess) (row col : Int) (piece : Char) :
    get_knight_moves g row col piece
      = some ((knightDeltas.flatMap (V1.Chess.jumpOut g.board row col piece)).map ofSquare) := by
  unfold get_knight_moves
  rw [foldlM_append_map _ (V1.Chess.jumpOut g.board row col piece) ofSquare _
    (fun acc a _ => jump_step_eq g row col piece acc a)]
  simp

theorem pawn_forward_eq (g : Chess) (row col : Int) (piece : Char) :
    pawn_forward g row col (if is_white_piece piece then -1 else 1)
        (if is_white_piece piece then 6 else 1)
      = some ((V1.Chess.pawnForwardOut g.board row col (if is_white_piece piece then -1 else 1)
          (if is_white_piece piece then 6 else 1)).map ofSquare) := by
  unfold pawn_forward V1.Chess.pawnForwardOut
  by_cases hw : is_white_piece piece = true
  · simp only [hw, if_true]
    by_cases hv : isValidPosition (row + -1) col = true
    · simp only [hv, get?_of_valid hv, if_true, Bool.true_and, Option.bind_eq_bind,
        Option.some_bind]
      by_cases he : (g.board.cell (row + -1) col == ' ') = true
      · simp only [he, if_true]
        by_cases hs : row = 6
        · have hv2 : isValidPosition (row + 2 * -1) col = true := by
            rw [isValidPosition_iff] at hv ⊢
            omega
          simp only [hs, if_true, decide_True, Bool.true_and] at hv2 ⊢
          rw [get?_of_valid hv2]
          simp only [Option.bind_eq_bind, Option.some_bind]
          split <;> rfl
        · rw [if_neg hs, decide_eq_false hs]
          rfl
      · simp [he]
    · simp [hv]
  · simp only [hw, Bool.false_eq_true, if_false]
    by_cases hv : isValidPosition (row + 1) col = true
    · simp only [hv, get?_of_valid hv, if_true, Bool.true_and, Option.bind_eq_bind,
        Option.some_bind]
      by_cases he : (g.board.cell (row + 1) col == ' ') = true
      · simp only [he, if_true]
        by_cases hs : row = 1
        · have hv2 : isValidPosition (row + 2 * 1) col = true := by
            rw [isValidPosition_iff] at hv ⊢
            omega
          simp only [hs, if_true, decide_True, Bool.true_and] at hv2 ⊢
          rw [get?_of_valid hv2]
          simp only [Option.bind_eq_bind, Option.some_bind]
          split <;> rfl
        · rw [if_neg hs, decide_eq_false hs]
          rfl
      · simp [he]
    · simp [hv]

theorem pawn_capture_step_eq (g : Chess) (row col : Int) (piece : Char) (direction : Int)
    (moves : List Position) (dc : Int) :
    pawn_capture_step g row col piece direction moves dc
      = some (moves ++ pawn_capture_out g row col piece direction dc) := by
  unfold pawn_capture_step pawn_capture_out
  by_cases hv : isValidPosition (row + direction) (col + dc) = true
  · simp only [hv, get?_of_valid hv, if_true, Bool.true_and, Option.bind_eq_bind,
      Option.some_bind]
    by_cases h1 : (g.board.cell (row + direction) (col + dc) != ' ' &&
        get_piece_color (g.board.cell (row + direction) (col + dc))
          != get_piece_color piece) = true
    · simp [h1]
    · have h1f : (g.board.cell (row + direction) (col + dc) != ' ' &&
          get_piece_color (g.board.cell (row + direction) (col + dc))
            != get_piece_color piece) = false := by
        simpa using h1
      simp only [h1f, Bool.false_eq_true, if_false, Bool.false_or]
      split <;> simp
  · simp [hv]

theorem get_pawn_moves_eq (g : Chess) (row col : Int) (piece : Char) :
    get_pawn_moves g row col piece = some (pawn_out g row col piece) := by
  unfold get_pawn_moves pawn_out
  simp only [pawn_forward_eq, Option.bind_eq_bind, Option.some_bind]
  rw [foldlM_append_some _ (pawn_capture_out g row col piece
    (if is_white_piece piece then -1 else 1)) _
    (fun acc a _ => pawn_capture_step_eq g row col piece _ acc a)]

theorem castling_moves_eq (g : Chess) (home : Int) (ks qs : Bool) (hh : home = 7 ∨ home = 0) :
    castling_moves g home ks qs = some (castling_out g.board home ks qs) := by
  have hv : ∀ c : Int, 0 ≤ c ∧ c < 8 → isValidPosition home c = true := by
    intro c hc
    rw [isValidPosition_iff]
    omega
  unfold castling_moves castling_out
  simp only [get?_of_valid (hv 1 (by omega)),
    get?_of_valid (hv 2 (by omega)), get?_of_valid (hv 3 (by omega)),
    get?_of_valid (hv 5 (by omega)), get?_of_valid (hv 6 (by omega)),
    Option.bind_eq_bind, Option.some_bind, Option.pure_def]

theorem get_king_moves_eq (g : Chess) (row col : Int) (piece : Char) :
    get_king_moves g row col piece = some (king_out g row col piece) := by
  unfold get_king_moves king_out
  rw [foldlM_append_map _ (V1.Chess.jumpOut g.board row col piece) ofSquare _
    (fun acc a _ => jump_step_eq g row col piece acc a)]
  simp only [List.nil_append, Option.bind_eq_bind, Option.some_bind]
  by_cases h1 : piece = 'K' ∧ row = 7 ∧ col = 4
  · simp only [h1, and_self, if_true, castling_moves_eq g 7 _ _ (Or.inl rfl),
      Option.bind_eq_bind, Option.some_bind, Option.pure_def]
  · simp only [h1, if_false]
    by_cases h2 : piece = 'k' ∧ row = 0 ∧ col = 4
    · simp only [h2, and_self, if_true, castling_moves_eq g 0 _ _ (Or.inr rfl),
        Option.bind_eq_bind, Option.some_bind, Option.pure_def]
    · simp [h2]

theorem get_piece_moves_eq (g : Chess) (row col : Int) (hv : isValidPosition row col = true) :
    get_piece_moves g row col = some (piece_out g row col) := by
  unfold get_piece_moves piece_out V1.Chess.officerOut
  simp only [get?_of_valid hv, Option.bind_eq_bind, Option.some_bind, get_pawn_moves_eq,
    get_knight_moves_eq, get_king_moves_eq, get_bishop_moves, get_rook_moves, get_queen_moves,
    get_sliding_moves_eq g row col _ _ (fun d hd => V1.Chess.bishop_sub_queen hd) hv,
    get_sliding_moves_eq g row col _ _ (fun d hd => V1.Chess.rook_sub_queen hd) hv,
    get_sliding_moves_eq g row col _ _ (fun d hd => hd) hv, Option.pure_def]
  split
  · rfl
  · split
    · rfl
    · split
      · have hk : (g.board.cell row col).toUpper ≠ 'K' := by
          intro hk
          simp_all
        simp [hk]
      · split
        · have hk : (g.board.cell row col).toUpper ≠ 'K' := by
            intro hk
            simp_all
          simp [hk]
        · split
          · have hk : (g.board.cell row col).toUpper ≠ 'K' := by
              intro hk
              simp_all
            simp [hk]
          · split
            · have hk : (g.board.cell row col).toUpper ≠ 'K' := by
                intro hk
                simp_all
              simp [hk]
            · split <;> simp_all

theorem attack_scan_eq (g : Chess) (row col : Int) (by_color : String) (l : List (Int × Int))
    (hl : ∀ sq ∈ l, isValidPosition sq.1 sq.2 = true) :
    attack_scan g row col by_color l = some (l.any (attacks_from g row col by_color)) := by
  induction l with
  | nil => simp [attack_scan]
  | cons sq rest ih =>
    obtain ⟨i, j⟩ := sq
    have hv : isValidPosition i j = true := hl (i, j) (List.mem_cons_self _ _)
    have ih2 := ih (fun sq hsq => hl sq (List.mem_cons_of_mem _ hsq))
    unfold attack_scan
    simp only [get?_of_valid hv, Option.bind_eq_bind, Option.some_bind, List.any_cons,
      attacks_from, ih2]
    by_cases hc : (g.board.cell i j != ' ' && get_piece_color (g.board.cell i j) == by_color)
        = true
    · simp only [hc, if_true, get_piece_moves_eq g i j hv, Option.some_bind, Bool.true_and]
      split
      · rename_i h
        simp [h]
      · rename_i h
        have h2 : ((piece_out g i j).any fun pos => pos.row == row && pos.col == col)
            = false := by
          simpa using h
        rw [h2]
        simp only [Bool.false_or]
    · have hc2 : (g.board.cell i j != ' ' && get_piece_color (g.board.cell i j) == by_color)
          = false := by
        simpa using hc
      simp only [hc2, Bool.false_eq_true, if_false, Bool.false_and, Bool.false_or]

theorem is_square_attacked_eq (g : Chess) (row col : Int) (by_color : String) :
    is_square_attacked g row col by_color
      = some (allSquares.any (attacks_from g row col by_color)) :=
  attack_scan_eq g row col by_color allSquares (fun _ h => V1.Chess.mem_allSquares_iff.1 h)


end Chess
end V2

namespace V2
namespace Chess

/-! ## C39: `isInCheck` of the first variant and `is_in_check` of the second -/

/-- Membership of a square in a list of `Position` values of the second
variant, by coordinates. -/
theorem any_square_iff (l : List Position) (r c : Int) :
    l.any (fun pos => pos.row == r && pos.col == c) = true ↔
      ∃ pos ∈ l, pos.row = r ∧ pos.col = c := by
  simp only [List.any_eq_true, Bool.and_eq_true, beq_iff_eq]

theorem any_square_map (l : List V1.Position) (r c : Int) :
    (l.map ofSquare).any (fun pos => pos.row == r && pos.col == c)
      = l.any (fun pos => pos.row == r && pos.col == c) := by
  induction l with
  | nil => rfl
  | cons a l ih =>
    rw [List.map_cons, List.any_cons, List.any_cons, ih]
    rfl

/-- On an occupied square of the other colour the full pawn move list of the
second variant and the attack squares of the first agree. -/
theorem pawn_out_hits_iff (g : Chess) (i j r c : Int) (p : Char)
    (hv : isValidPosition r c = true) (ht : g.board.cell r c ≠ ' ')
    (hc : getPieceColor (g.board.cell r c) ≠ getPieceColor p) :
    (pawn_out g i j p).any (fun pos => pos.row == r && pos.col == c)
      = (V1.Chess.getPawnAttackSquares i j p).any (fun pos => pos.row == r && pos.col == c) := by
  rw [Bool.eq_iff_iff, any_square_iff, V1.Chess.any_pos_iff, V1.Chess.mem_getPawnAttackSquares_iff]
  dsimp only
  unfold pawn_out
  rw [is_white_piece_eq]
  generalize (if isWhitePiece p = true then (-1 : Int) else 1) = d
  constructor
  · rintro ⟨pos, hpos, rfl, rfl⟩
    rcases List.mem_append.1 hpos with h | h
    · obtain ⟨q, hq, rfl⟩ := List.mem_map.1 h
      exfalso
      obtain ⟨_, h1, h2 | ⟨h2, _, h3⟩⟩ := V1.Chess.pawnForwardOut_mem hq
      · subst h2
        exact ht h1
      · subst h2
        exact ht h3
    · obtain ⟨dc, hdc, hm⟩ := List.mem_flatMap.1 h
      unfold pawn_capture_out at hm
      split at hm
      · simp only [List.mem_singleton] at hm
        subst hm
        dsimp only at hv ⊢
        refine ⟨hv, rfl, ?_⟩
        simp only [List.mem_cons, List.mem_singleton, List.not_mem_nil, or_false] at hdc
        rcases hdc with rfl | rfl
        · left; omega
        · right; rfl
      · simp at hm
  · rintro ⟨_, hr, hcol⟩
    have hdc : ∃ dc : Int, dc ∈ [(-1 : Int), 1] ∧ c = j + dc := by
      rcases hcol with h | h
      · exact ⟨-1, by simp, by omega⟩
      · exact ⟨1, by simp, by omega⟩
    obtain ⟨dc, hdc, rfl⟩ := hdc
    subst hr
    refine ⟨⟨_, _, true⟩, List.mem_append_right _ (List.mem_flatMap.2 ⟨dc, hdc, ?_⟩), rfl, rfl⟩
    unfold pawn_capture_out
    rw [if_pos]
    · exact List.mem_singleton.2 rfl
    · rw [get_piece_color_eq, get_piece_color_eq]
      simp only [Bool.and_eq_true, Bool.or_eq_true, bne_iff_ne, ne_eq]
      exact ⟨hv, Or.inl ⟨ht, hc⟩⟩

/-- A castling destination is empty, so it is no occupied square. -/
theorem castling_out_misses (b : Board) (home : Int) (ks qs : Bool) (r c : Int)
    (ht : b.cell r c ≠ ' ') :
    ¬ ∃ pos ∈ castling_out b home ks qs, pos.row = r ∧ pos.col = c := by
  rintro ⟨pos, hpos, rfl, rfl⟩
  unfold castling_out at hpos
  rcases List.mem_append.1 hpos with h | h
  · split at h
    · rename_i hc
      simp only [List.mem_singleton] at h
      subst h
      simp only [Bool.and_eq_true, beq_iff_eq] at hc
      exact ht hc.2
    · simp at h
  · split at h
    · rename_i hc
      simp only [List.mem_singleton] at h
      subst h
      simp only [Bool.and_eq_true, beq_iff_eq] at hc
      exact ht hc.1.2
    · simp at h

theorem king_out_hits_iff (g : Chess) (i j r c : Int) (p : Char)
    (ht : g.board.cell r c ≠ ' ') :
    (king_out g i j p).any (fun pos => pos.row == r && pos.col == c)
      = (queenDirections.flatMap (V1.Chess.jumpOut g.board i j p)).any
          (fun pos => pos.row == r && pos.col == c) := by
  unfold king_out
  rw [List.any_append, any_square_map]
  have hno : ∀ l : List Position, (¬ ∃ pos ∈ l, pos.row = r ∧ pos.col = c) →
      l.any (fun pos => pos.row == r && pos.col == c) = false := by
    intro l hl
    rw [Bool.eq_false_iff]
    intro h
    exact hl ((any_square_iff l r c).1 h)
  rw [hno]
  · rw [Bool.or_false]
  · split
    · exact castling_out_misses _ _ _ _ r c ht
    · split
      · exact castling_out_misses _ _ _ _ r c ht
      · simp

/-- On an occupied square of the other colour the test of `is_square_attacked`
for the piece of one square agrees with that of `isSquareAttacked`. -/
theorem attacks_from_eq (g : Chess) (r c : Int) (s : String) (sq : Int × Int)
    (hv : isValidPosition r c = true) (ht : g.board.cell r c ≠ ' ')
    (hc : getPieceColor (g.board.cell r c) ≠ s) :
    attacks_from g r c s sq = V1.Chess.attacksFrom g.board r c s sq := by
  unfold attacks_from V1.Chess.attacksFrom
  rw [get_piece_color_eq]
  by_cases hs : (g.board.cell sq.1 sq.2 != ' ' && getPieceColor (g.board.cell sq.1 sq.2) == s)
      = true
  · rw [hs, Bool.true_and, Bool.true_and]
    simp only [Bool.and_eq_true, bne_iff_ne, ne_eq, beq_iff_eq] at hs
    unfold piece_out V1.Chess.attackOut
    dsimp only
    rw [if_neg (by simpa using hs.1)]
    split
    · exact pawn_out_hits_iff g sq.1 sq.2 r c _ hv ht (by rw [hs.2]; exact hc)
    · split
      · exact king_out_hits_iff g sq.1 sq.2 r c _ ht
      · exact any_square_map _ r c
  · have hs2 : (g.board.cell sq.1 sq.2 != ' ' && getPieceColor (g.board.cell sq.1 sq.2) == s)
        = false := by simpa using hs
    rw [hs2, Bool.false_and, Bool.false_and]

/-- C39: for every state `g1` of chess-ai-ai.cpp and `g2` of
chess-ai-ai-v2.cpp with the same board and the same cached king square of
colour `c`, whatever their castling rights and en-passant targets are: if that
square is on the board and holds a piece of colour `c`, then `isInCheck(c)`
and `is_in_check(c)` both return, and return the same value. -/
theorem is_in_check_agrees_with_isInCheck (g1 : V1.Chess) (g2 : Chess) (c : String)
    (r k : Int) (hb : g2.board = g1.board)
    (h1 : (if c = "white" then g1.whiteKingPos else g1.blackKingPos) = ⟨r, k⟩)
    (h2 : (if c = "white" then g2.white_king_pos else g2.black_king_pos).row = r ∧
      (if c = "white" then g2.white_king_pos else g2.black_king_pos).col = k)
    (hv : isValidPosition r k = true) (ht : g1.board.cell r k ≠ ' ')
    (hc : getPieceColor (g1.board.cell r k) = c) :
    ∃ v, V1.Chess.isInCheck g1 c = some v ∧ is_in_check g2 c = some v := by
  refine ⟨_, V1.Chess.isInCheck_eq g1 c, ?_⟩
  unfold is_in_check V1.Chess.inCheckOut V1.Chess.attackedOut
  dsimp only
  rw [h2.1, h2.2, h1, is_square_attacked_eq]
  dsimp only
  congr 1
  apply V1.Chess.any_congr_mem
  intro sq _
  rw [← hb] at ht hc ⊢
  apply attacks_from_eq g2 r k _ sq hv ht
  rw [hc]
  by_cases hw : c = "white"
  · rw [if_pos hw, hw]
    decide
  · rw [if_neg hw]
    exact hw

/-- Witness for C39: the position after 1.f3 e5 2.g4 Qh4 on the boards of both
variants, white king on e1 in check by the queen on h4. -/
theorem is_in_check_agrees_with_isInCheck_witness :
    V1.Chess.isInCheck V1.Chess.mate4 "white" = some true ∧
    ∃ v, V1.Chess.isInCheck V1.Chess.mate4 "white" = some v ∧
      is_in_check { initial with board := V1.Chess.mate4.board } "white" = some v :=
  ⟨by decide,
    is_in_check_agrees_with_isInCheck V1.Chess.mate4
      { initial with board := V1.Chess.mate4.board } "white" 7 4 rfl (by decide)
      ⟨by decide, by decide⟩ (by decide) (by decide) (by decide)⟩

end Chess
end V2

/-! ## C34 -/

namespace V3
namespace Chess

/-- C34, evaluated at the failing input: after 1.d4 d5 2.Nf3 Nf6 the white
knights of b1 and f3 both have d2 in their move lists; `make_move(7, 1, 6, 3)`
succeeds and the text appended to `pgn_moves` is "Nd2", without the origin
file "b" that tells the two knights apart. -/
theorem knight_move_recorded_without_disambiguation :
    (play_moves initial twoKnightsGame).bind (fun g =>
      (get_piece_moves g 7 1).bind (fun m1 =>
        (get_piece_moves g 5 5).bind (fun m2 =>
          (make_move g 7 1 6 3).map (fun r =>
            ((g.board.cell 7 1, g.board.cell 5 5,
                m1.any (fun pos => pos.row == 6 && pos.col == 3),
                m2.any (fun pos => pos.row == 6 && pos.col == 3)),
              (r.1, r.2.pgn_moves))))))
      = some (('N', 'N', true, true), (true, ["d4", "d5", "Nf3", "Nf6", "Nd2"])) := by
  decide!

end Chess
end V3
